import Mathlib

/-!
# kvms: translation-table engine and guest memory governor

A shallow embedding of `core/armtrans.c` and `core/guest.c`.

* Machine integers are natural numbers, reduced modulo `2 ^ 64` (or the
  width of the C type) wherever the C arithmetic can wrap.
* Physical memory is a map from the byte address of a 64-bit word to the
  word stored there.  The table arena `tables[NUM_TABLES]` lives in that
  memory at the address `Platform.tables`; a `struct ptable *` is the byte
  address of the table, and `tp->entries[i]` is the word at `tp + 8 * i`.
* C functions that change global state take the machine state and return
  the new one together with their return value.  A function that can abort
  (`HYP_ABORT`), dereference a null pointer or loop returns an `Option`;
  `none` means that the call does not return.
* Barriers, cache maintenance and TLB invalidation have no effect on the
  state that is modelled here and are left out.
-/

namespace Kvms

/-! ## Constants of `armtrans.c` -/

def NUM_TABLES : Nat := 8192
def PT_SIZE_WORDS : Nat := 512

def L1_POFFT_MASK_4KGRANULE : Nat := 0x000000003FFFFFFF
def L2_POFFT_MASK_4KGRANULE : Nat := 0x00000000001FFFFF
def L1_BLK_OADDR_MASK_4KGRANULE : Nat := 0x0000FFFFC0000000
def L2_BLK_OADDR_MASK_4KGRANULE : Nat := 0x0000FFFFFFE00000
def TABLE_OADDR_MASK_4KGRANULE : Nat := 0x0000FFFFFFFFF000
def DESCR_ATTR_MASK : Nat := 0xFFFF00000001FFFF
def TTBR_BADDR_MASK : Nat := 0x0000FFFFFFFFFFFE

def MAX_VADDR : Nat := 0xFFFFFFFFFFFF
def TABLE_0_MASK : Nat := 0xFF8000000000
def TABLE_1_MASK : Nat := 0x007FC0000000
def TABLE_2_MASK : Nat := 0x00003FE00000
def TABLE_3_MASK : Nat := 0x0000001FF000
def PADDR_MASK : Nat := 0x00FFFFFFF000
def PAGE_OFF_MASK : Nat := 0x000000000FFF

def L0_SHIFT : Nat := 0xC + 0x9 + 0x9 + 0x9
def L1_SHIFT : Nat := 0xC + 0x9 + 0x9
def L2_SHIFT : Nat := 0xC + 0x9
def L3_SHIFT : Nat := 0xC

/-! ## Constants and macros of the headers -/

/-- Modelled from the spec: `bits.h`/`armtrans.h` are not part of the sources at
hand; the valid bit of a descriptor (and of an arena property word) is bit 0,
the architecturally fixed position. -/
def VALID_TABLE_BIT : Nat := 0

/-- Modelled from the spec: the table/block bit of a descriptor is bit 1, the
architecturally fixed position (`armtrans.h` is missing). -/
def TABLE_TYPE_BIT : Nat := 1

/-- Modelled from the spec: the access flag of a descriptor is bit 10, the
architecturally fixed position (`armtrans.h` is missing). -/
def AF_BIT : Nat := 10

/-- Modelled from the spec: the dirty-bit-modifier flag of a descriptor is bit
51, the architecturally fixed position (`armtrans.h` is missing). -/
def DBM_BIT : Nat := 51

/-- Modelled from the spec: only the 4 KiB granule is supported, so the page
size of `commondefines.h` (missing) is 4096. -/
def PAGE_SIZE : Nat := 4096

/-- Modelled from the spec: `VADDR_MASK` of `armtrans.h` (missing), the mask of
the 48 address bits that the four table index masks and the page offset mask
cover together; it equals `MAX_VADDR`. -/
def VADDR_MASK : Nat := 0xFFFFFFFFFFFF

def MAX_PADDR : Nat := VADDR_MASK

/-- Modelled from the spec: `HOST_VMID` denotes the host itself; `free_guest`
tests `guest->vmid` against zero for it (`guest.h` is missing). -/
def HOST_VMID : Nat := 0

/-- The value `~0UL`. -/
def NOADDR : Nat := 2 ^ 64 - 1

/-- Error numbers of `errno.h`. -/
def ENOENT : Int := 2
def ENOMEM : Int := 12
def EFAULT : Int := 14
def EINVAL : Int := 22
def ENOSPC : Int := 28

/-- Modelled from the spec: the macro `bit_raised(c, flag)` of `bits.h`
(missing), the value `c & (1UL << flag)`; it is nonzero exactly when the bit
is set. -/
def bit_raised (c flag : Nat) : Nat := c &&& (1 <<< flag)

/-- Modelled from the spec: the macro `bit_set(c, flag)` of `bits.h` (missing),
the new value `c | (1UL << flag)` of `c`. -/
def bit_set (c flag : Nat) : Nat := c ||| (1 <<< flag)

/-- Modelled from the spec: the macro `ROUND_UP(n, x)` of `commondefines.h`
(missing) on 64-bit operands, `round_up` to the next multiple of `x`. -/
def ROUND_UP (n x : Nat) : Nat := ((n + x - 1) % 2 ^ 64) / x * x

/-- Constants of the platform and of the link that the sources at hand do not
fix: the address of the arena and the values of macros of the missing headers
`armtrans.h`, `guest.h` and `host_platform.h`. -/
structure Platform where
  /-- The address `&tables[0]` of the table arena. -/
  tables : Nat
  INVALID_MEMORY : Nat
  TABLE_LEVELS : Nat
  STAGE1 : Nat
  STAGE2 : Nat
  PROT_MASK_STAGE1 : Nat
  PROT_MASK_STAGE2 : Nat
  TYPE_MASK_STAGE1 : Nat
  TYPE_MASK_STAGE2 : Nat
  KERNEL_MATTR : Nat
  MAX_PAGING_BLOCKS : Nat
  /-- The offset `KVM_ARCH + KVM_ARCH_VMID + KVM_ARCH_VMID_OFFT` of the guest id
  in the control block of the host kernel. -/
  KVM_VMID_OFFT : Nat

/-! ## Granule configuration -/

structure tdinfo_t where
  l1_blk_oa_mask : Nat
  l2_blk_oa_mask : Nat
  l1_blk_offt_mask : Nat
  l2_blk_offt_mask : Nat
  l1_blk_size : Nat
  l2_blk_size : Nat
  table_oa_mask : Nat

/-- The value of the static `tdinfo` after `tdinfo_init`, which accepts the
4 KiB granule only and aborts otherwise. -/
def tdinfo : tdinfo_t where
  l1_blk_oa_mask := L1_BLK_OADDR_MASK_4KGRANULE
  l2_blk_oa_mask := L2_BLK_OADDR_MASK_4KGRANULE
  l1_blk_offt_mask := L1_POFFT_MASK_4KGRANULE
  l2_blk_offt_mask := L2_POFFT_MASK_4KGRANULE
  l1_blk_size := L1_POFFT_MASK_4KGRANULE + 1
  l2_blk_size := L2_POFFT_MASK_4KGRANULE + 1
  table_oa_mask := TABLE_OADDR_MASK_4KGRANULE

/-! ## Guests and machine state -/

/-- A record of the page-measurement table (`kvm_page_data`). -/
structure kvm_page_data where
  phys_addr : Nat
  vmid : Nat
  len : Nat
  sha256 : List Nat
deriving DecidableEq, Repr

/-- A memory slot of the host kernel (`kvm_memslot`), with the fields that
`update_memslot` reads. -/
structure kvm_memslot where
  base_gfn : Nat
  npages : Nat
deriving DecidableEq, Repr

/-- An element of the array `slots` of a guest descriptor: the copy of a
`kvm_userspace_memory_region`, as the list of its words, and the copy of the
memory slot. -/
structure kvm_memslots where
  region : List Nat
  slot : kvm_memslot
deriving DecidableEq, Repr

/-- A guest descriptor (`kvm_guest_t`), with the fields that the functions
embedded here read or write.  `hyp_page_data` holds the first `pd_index`
records of the measurement array; `slots` holds the elements of the array of
memory slots up to the last one that was written, and `sn` is the slot
count. -/
structure kvm_guest_t where
  kvm : Nat
  vmid : Nat
  s1_pgd : Nat
  s2_pgd : Nat
  table_levels : Nat
  hyp_page_data : List kvm_page_data
  slots : List kvm_memslots := []
  sn : Nat := 0
deriving DecidableEq, Repr

/-- The global state of the hypervisor core. -/
structure Machine where
  /-- Physical memory: the 64-bit word at a byte address. -/
  mem : Nat → Nat
  /-- The array `table_props[NUM_TABLES]` of 16-bit property words. -/
  table_props : Nat → Nat
  /-- The static flag `invalidate`. -/
  invalidate : Nat
  /-- The array `guests[MAX_GUESTS]`. -/
  guests : List kvm_guest_t
  /-- The registers `TTBR0_EL2` and `VTTBR_EL2`. -/
  ttbr0_el2 : Nat
  vttbr_el2 : Nat
  /-- The answer of `machine_init_ready()`. -/
  init_ready : Bool

/-- The store `*(uint64_t *)a = v`. -/
def Machine.write (s : Machine) (a v : Nat) : Machine :=
  { s with mem := fun x => if x = a then v else s.mem x }

/-- The address of `tp->entries[noff]`. -/
def entry_addr (tp noff : Nat) : Nat := tp + 8 * noff

/-- The address `&tables[i]`. -/
def table_addr (P : Platform) (i : Nat) : Nat := P.tables + 4096 * i

/-- The effect of `memset(&tables[i], 0, sizeof(struct ptable))` followed by
`table_props[i] = 0x0`. -/
def Machine.release (s : Machine) (P : Platform) (i : Nat) : Machine :=
  { s with
    mem := fun x => if table_addr P i ≤ x ∧ x < table_addr P i + 4096 then 0 else s.mem x
    table_props := fun j => if j = i then 0 else s.table_props j }

/-! ## Table arena -/

def table_oaddr (tbl_entry : Nat) : Nat :=
  if bit_raised tbl_entry TABLE_TYPE_BIT ≠ 0 then tbl_entry &&& tdinfo.table_oa_mask else 0

/-- The scan of `alloc_table` from slot `i` over `n` slots: the first slot
whose valid bit is clear. -/
def alloc_scan (props : Nat → Nat) : Nat → Nat → Option Nat
  | _, 0 => none
  | i, n + 1 =>
    if bit_raised (props i) VALID_TABLE_BIT = 0 then some i else alloc_scan props (i + 1) n

/-- The function `alloc_table`: the returned pointer (0 is `NULL`) and the state
afterwards.  `vm` is a `uint32_t`, the property word a `uint16_t`. -/
def alloc_table (P : Platform) (s : Machine) (vm : Nat) : Nat × Machine :=
  match alloc_scan s.table_props 0 NUM_TABLES with
  | none => (0, s)
  | some i =>
    let w := bit_set (((vm % 2 ^ 32) <<< 8) % 2 ^ 32 % 2 ^ 16) VALID_TABLE_BIT % 2 ^ 16
    (table_addr P i, { s with table_props := fun j => if j = i then w else s.table_props j })

/-- The loop of `free_table` from slot `i` over `n` slots. -/
def free_table_loop (P : Platform) (table : Nat) : Nat → Nat → Int × Machine → Int × Machine
  | _, 0, r => r
  | i, n + 1, (res, s) =>
    if table = table_addr P i then
      free_table_loop P table (i + 1) n (0, s.release P i)
    else free_table_loop P table (i + 1) n (res, s)

def free_table (P : Platform) (s : Machine) (table : Nat) : Int × Machine :=
  free_table_loop P table 0 NUM_TABLES (-ENOENT, s)

/-- The loop of `free_guest_tables` from slot `i` over `n` slots. -/
def free_guest_tables_loop (P : Platform) (vmid : Nat) : Nat → Nat → Int × Machine → Int × Machine
  | _, 0, r => r
  | i, n + 1, (res, s) =>
    if vmid = s.table_props i >>> 8 then
      free_guest_tables_loop P vmid (i + 1) n (res + 1, s.release P i)
    else free_guest_tables_loop P vmid (i + 1) n (res, s)

def free_guest_tables (P : Platform) (s : Machine) (vmid : Nat) : Int × Machine :=
  free_guest_tables_loop P vmid 0 NUM_TABLES (0, s)

/-! ## Walker -/

/-- What a successful `__pt_walk` hands back: the return value, the pointer
stored to `*ptep` and the level stored to `*levels`. -/
structure walk_t where
  ret : Nat
  ptep : Nat
  level : Nat
deriving DecidableEq, Repr

/-- The code at the label `block_type` of `__pt_walk`. -/
def block_type (s : Machine) (vaddr nl noff addr lvl : Nat) : walk_t :=
  let e := s.mem (entry_addr nl noff)
  let ab : Nat × Nat :=
    if lvl = 1 then (e &&& tdinfo.l1_blk_oa_mask, vaddr &&& tdinfo.l1_blk_offt_mask)
    else if lvl = 2 then (e &&& tdinfo.l2_blk_oa_mask, vaddr &&& tdinfo.l2_blk_offt_mask)
    else (addr &&& (2 ^ 64 - 1 - PAGE_OFF_MASK), vaddr &&& PAGE_OFF_MASK)
  { ret := ab.1 ||| ab.2, ptep := entry_addr nl noff, level := lvl }

/-- Level 3 of `__pt_walk`. -/
def pt_walk_l3 (s : Machine) (nl vaddr : Nat) : Option walk_t :=
  let noff := (vaddr &&& TABLE_3_MASK) >>> L3_SHIFT
  if bit_raised (s.mem (entry_addr nl noff)) TABLE_TYPE_BIT = 0 then none
  else some (block_type s vaddr nl noff (s.mem (entry_addr nl noff) &&& PADDR_MASK) 4)

/-- Level 2 of `__pt_walk` and what follows it. -/
def pt_walk_l2 (s : Machine) (nl vaddr : Nat) : Option walk_t :=
  let noff := (vaddr &&& TABLE_2_MASK) >>> L2_SHIFT
  if bit_raised (s.mem (entry_addr nl noff)) VALID_TABLE_BIT = 0 then none
  else if bit_raised (s.mem (entry_addr nl noff)) TABLE_TYPE_BIT = 0 then
    some (block_type s vaddr nl noff 0 2)
  else if table_oaddr (s.mem (entry_addr nl noff)) = 0 then none
  else pt_walk_l3 s (table_oaddr (s.mem (entry_addr nl noff))) vaddr

/-- Level 1 of `__pt_walk` (skipped when `*levels < 3`) and what follows it. -/
def pt_walk_l1 (s : Machine) (nl vaddr levels : Nat) : Option walk_t :=
  if levels ≥ 3 then
    let noff := (vaddr &&& TABLE_1_MASK) >>> L1_SHIFT
    if bit_raised (s.mem (entry_addr nl noff)) VALID_TABLE_BIT = 0 then none
    else if bit_raised (s.mem (entry_addr nl noff)) TABLE_TYPE_BIT = 0 then
      some (block_type s vaddr nl noff 0 1)
    else if table_oaddr (s.mem (entry_addr nl noff)) = 0 then none
    else pt_walk_l2 s (table_oaddr (s.mem (entry_addr nl noff))) vaddr
  else pt_walk_l2 s nl vaddr

/-- The function `__pt_walk`; `none` is the return value `~0UL`, which leaves
`*ptep` and `*levels` as they were. -/
def __pt_walk (s : Machine) (tbl vaddr levels : Nat) : Option walk_t :=
  if levels ≥ 4 then
    let noff := (vaddr &&& TABLE_0_MASK) >>> L0_SHIFT
    if bit_raised (s.mem (entry_addr tbl noff)) VALID_TABLE_BIT = 0 then none
    else if table_oaddr (s.mem (entry_addr tbl noff)) = 0 then none
    else pt_walk_l1 s (table_oaddr (s.mem (entry_addr tbl noff))) vaddr levels
  else pt_walk_l1 s tbl vaddr levels

/-- The return value of `__pt_walk`. -/
def walk_ret : Option walk_t → Nat
  | none => NOADDR
  | some w => w.ret

def pt_walk (s : Machine) (tbl vaddr levels : Nat) : Nat :=
  walk_ret (__pt_walk s tbl vaddr levels)

/-! ## Mapper -/

/-- The code of `mmap_addr` from the label `out_finalize` on. -/
def mmap_finalize (P : Platform) (s : Machine) (tp noff prot type : Nat) : Int × Machine :=
  let a := entry_addr tp noff
  if s.mem a = 0 ∨ type = P.INVALID_MEMORY then (0, s.write a 0)
  else
    (0, s.write a
      (bit_set (bit_set (s.mem a ||| prot ||| (type <<< 2) % 2 ^ 64) VALID_TABLE_BIT) AF_BIT))

/-- Level 3 of `mmap_addr`: the page descriptor. -/
def mmap_level3 (P : Platform) (s : Machine) (tp vaddr paddr prot type : Nat) : Int × Machine :=
  let noff := (vaddr &&& TABLE_3_MASK) >>> L3_SHIFT
  let a := entry_addr tp noff
  let v := paddr &&& tdinfo.table_oa_mask
  let s1 := s.write a (if v ≠ 0 then bit_set v TABLE_TYPE_BIT else v)
  mmap_finalize P s1 tp noff prot type

/-- The steps of `mmap_addr` that make the entry `tp->entries[noff]` refer to
a next-level table, allocating one when `nl` is null; `masked` tells whether
the entry is reduced to its output address first (levels 1 and 2).  The
result is the next-level table, or `none` when the arena is exhausted. -/
def mmap_next (P : Platform) (s : Machine) (tp noff nl vmid : Nat) (masked : Bool) :
    Option Nat × Machine :=
  let a := entry_addr tp noff
  if nl = 0 then
    let r := alloc_table P s vmid
    if r.1 = 0 then (none, r.2)
    else
      (some r.1, r.2.write a (bit_set (bit_set
        (if masked then r.1 &&& tdinfo.table_oa_mask else r.1) VALID_TABLE_BIT) TABLE_TYPE_BIT))
  else if masked then
    (some nl, s.write a (bit_set (bit_set (s.mem a &&& tdinfo.table_oa_mask) VALID_TABLE_BIT)
      TABLE_TYPE_BIT))
  else (some nl, s)

/-- The installation of a block descriptor at level 1 or 2 of `mmap_addr`, up
to the jump to `out_finalize`. -/
def mmap_block (P : Platform) (s : Machine) (tp noff paddr oa_mask prot type : Nat) :
    Int × Machine :=
  let a := entry_addr tp noff
  let s1 := if bit_raised (s.mem a) TABLE_TYPE_BIT ≠ 0 then
      (free_table P s (table_oaddr (s.mem a))).2 else s
  mmap_finalize P (s1.write a (paddr &&& oa_mask)) tp noff prot type

/-- Level 2 of `mmap_addr` (skipped when `levels < 2`) and what follows it. -/
def mmap_level2 (P : Platform) (s : Machine)
    (tp vaddr paddr range_size prot type levels vmid : Nat) : Int × Machine :=
  if levels ≥ 2 then
    let noff := (vaddr &&& TABLE_2_MASK) >>> L2_SHIFT
    if range_size = 1 <<< L2_SHIFT then
      mmap_block P s tp noff paddr tdinfo.l2_blk_oa_mask prot type
    else
      match mmap_next P s tp noff (table_oaddr (s.mem (entry_addr tp noff))) vmid true with
      | (none, s1) => (-ENOSPC, s1)
      | (some nl, s1) => mmap_level3 P s1 nl vaddr paddr prot type
  else mmap_level3 P s tp vaddr paddr prot type

/-- Level 1 of `mmap_addr` (skipped when `levels < 3`) and what follows it. -/
def mmap_level1 (P : Platform) (s : Machine)
    (tp vaddr paddr range_size prot type levels vmid : Nat) : Int × Machine :=
  if levels ≥ 3 then
    let noff := (vaddr &&& TABLE_1_MASK) >>> L1_SHIFT
    if range_size = 1 <<< L1_SHIFT then
      mmap_block P s tp noff paddr tdinfo.l1_blk_oa_mask prot type
    else
      match mmap_next P s tp noff (table_oaddr (s.mem (entry_addr tp noff))) vmid true with
      | (none, s1) => (-ENOSPC, s1)
      | (some nl, s1) => mmap_level2 P s1 nl vaddr paddr range_size prot type levels vmid
  else mmap_level2 P s tp vaddr paddr range_size prot type levels vmid

/-- The function `mmap_addr`: its return value and the state afterwards. -/
def mmap_addr (P : Platform) (s : Machine)
    (pgd vaddr paddr range_size prot type levels vmid : Nat) : Int × Machine :=
  if pgd = 0 ∨ vaddr > MAX_VADDR ∨ paddr > MAX_PADDR then (-EINVAL, s)
  else if levels ≥ 4 then
    let noff := (vaddr &&& TABLE_0_MASK) >>> L0_SHIFT
    match mmap_next P s pgd noff (table_oaddr (s.mem (entry_addr pgd noff))) vmid false with
    | (none, s1) => (-ENOSPC, s1)
    | (some nl, s1) => mmap_level1 P s1 nl vaddr paddr range_size prot type levels vmid
  else mmap_level1 P s pgd vaddr paddr range_size prot type levels vmid

/-! ## Range mapper -/

def get_block_size (vaddr length : Nat) : Nat :=
  if vaddr &&& tdinfo.l1_blk_offt_mask = 0 ∧ length ≥ tdinfo.l1_blk_size then tdinfo.l1_blk_size
  else if vaddr &&& tdinfo.l2_blk_offt_mask = 0 ∧ length ≥ tdinfo.l2_blk_size then
    tdinfo.l2_blk_size
  else PAGE_SIZE

def MAPPING_ACTIVE : Nat := 1
def MAPPING_INACTIVE : Nat := 2

def get_mapping_type (s : Machine) (pgd : Nat) : Nat :=
  if pgd = s.ttbr0_el2 then MAPPING_ACTIVE
  else if pgd = s.vttbr_el2 then MAPPING_ACTIVE
  else MAPPING_INACTIVE

/-- The `while (tlength > 0)` loop of `__mmap_range` and the `return 0` after
it.  Every turn takes at least a page off `tlength`; `none` means that the
turns allowed by the first argument did not suffice. -/
def mmap_range_loop (P : Platform) (ctype pgd prot type levels vmid : Nat) :
    Nat → Machine → Nat → Nat → Nat → Option (Int × Machine)
  | fuel, s, vaddr, paddr, tlength =>
    if tlength = 0 then some (0, s)
    else
      match fuel with
      | 0 => none
      | fuel + 1 =>
        let blk_sz := get_block_size vaddr tlength
        let r1 : Int × Machine :=
          if s.invalidate ≠ 0 ∧ paddr ≠ 0 ∧ ctype = MAPPING_ACTIVE then
            mmap_addr P s pgd vaddr 0 blk_sz prot P.INVALID_MEMORY levels vmid
          else (0, s)
        if r1.1 ≠ 0 then some r1
        else
          let r2 := mmap_addr P r1.2 pgd vaddr paddr blk_sz prot type levels vmid
          if r2.1 ≠ 0 then some r2
          else
            mmap_range_loop P ctype pgd prot type levels vmid fuel r2.2
              ((vaddr + blk_sz) % 2 ^ 64)
              (if paddr ≠ 0 then (paddr + blk_sz) % 2 ^ 64 else paddr)
              ((tlength + 2 ^ 64 - blk_sz) % 2 ^ 64)

/-- The function `__mmap_range`. -/
def __mmap_range (P : Platform) (s : Machine)
    (pgd vaddr paddr length prot type levels vmid : Nat) : Option (Int × Machine) :=
  if length = 0 then some (0, s)
  else if type > P.INVALID_MEMORY then some (-EINVAL, s)
  else
    mmap_range_loop P (get_mapping_type s pgd) pgd prot type levels vmid
      (ROUND_UP length 0x1000 / 0x1000) s (vaddr &&& VADDR_MASK) paddr (ROUND_UP length 0x1000)

/-! ## Break-before-make remapper -/

/-- The structure `mblockinfo_t`; `guest` is an index into `guests`, `none` the
null pointer. -/
structure mblockinfo_t where
  guest : Option Nat
  pgd : Nat
  ptep : Nat
  vaddr : Nat
  paddr : Nat
  size : Nat
  prot : Nat
  type : Nat
  level : Nat
  stage : Nat
deriving DecidableEq, Repr

/-- The function `get_block_info`: whether a block was found, and `*block`
afterwards; `none` when it aborts. -/
def get_block_info (P : Platform) (s : Machine) (addr : Nat) (block : mblockinfo_t) :
    Option (Bool × mblockinfo_t) :=
  match block.guest.bind (fun g => s.guests.get? g) with
  | none => none
  | some guest =>
    if guest.s2_pgd ≠ block.pgd ∧ guest.s1_pgd ≠ block.pgd then none
    else
      match __pt_walk s block.pgd addr guest.table_levels with
      | none => some (false, { block with level := guest.table_levels })
      | some w =>
        let d := s.mem w.ptep
        let b0 := { block with level := w.level, ptep := w.ptep }
        if bit_raised d TABLE_TYPE_BIT ≠ 0 then some (false, b0)
        else
          let b1 := if w.level = 1 then
              { b0 with paddr := d &&& tdinfo.l1_blk_oa_mask, size := tdinfo.l1_blk_size }
            else { b0 with paddr := d &&& tdinfo.l2_blk_oa_mask, size := tdinfo.l2_blk_size }
          let b2 := if block.stage = P.STAGE1 then
              { b1 with prot := d &&& P.PROT_MASK_STAGE1,
                        type := (d &&& P.TYPE_MASK_STAGE1) >>> 2 }
            else { b1 with prot := d &&& P.PROT_MASK_STAGE2,
                           type := (d &&& P.TYPE_MASK_STAGE2) >>> 2 }
          let offt := (w.ret + 2 ^ 64 - b2.paddr) % 2 ^ 64
          some (true, { b2 with vaddr := (addr + 2 ^ 64 - offt) % 2 ^ 64 })

/-- One turn of the loop of `__block_remap` with a partial block hit: the
block is split into a fresh table.  The result is the state and the new
values of `tvaddr`, `tpaddr` and `rlen`; `none` is `HYP_ABORT`. -/
def block_split (P : Platform) (s : Machine) (block : mblockinfo_t)
    (tvaddr tpaddr rlen prot type vmid : Nat) : Option (Machine × Nat × Nat × Nat) :=
  let r := alloc_table P { s with invalidate := 0 } vmid
  let tbl := r.1
  if tbl = 0 then none
  else
    let levels := if block.level = 1 then 2 else 1
    let tlen := (tvaddr + 2 ^ 64 - block.vaddr) % 2 ^ 64
    match __mmap_range P r.2 tbl block.vaddr block.paddr tlen block.prot block.type levels vmid with
    | none => none
    | some (res1, s1) =>
      if res1 ≠ 0 then none
      else
        let bvaddr := (block.vaddr + tlen) % 2 ^ 64
        let bpaddr := (block.paddr + tlen) % 2 ^ 64
        let tlen1 := (block.size + 2 ^ 64 - tlen) % 2 ^ 64
        let mlen := if rlen < tlen1 then rlen else tlen1
        let tlen2 := if rlen < tlen1 then (tlen1 + 2 ^ 64 - rlen) % 2 ^ 64 else 0
        let rlen1 := if rlen < tlen1 then 0 else (rlen + 2 ^ 64 - tlen1) % 2 ^ 64
        match __mmap_range P s1 tbl tvaddr tpaddr mlen prot type levels vmid with
        | none => none
        | some (res2, s2) =>
          if res2 ≠ 0 then none
          else
            match __mmap_range P s2 tbl ((bvaddr + mlen) % 2 ^ 64) ((bpaddr + mlen) % 2 ^ 64)
                tlen2 block.prot block.type levels vmid with
            | none => none
            | some (res3, s3) =>
              if res3 ≠ 0 then none
              else
                let s4 := s3.write block.ptep (bit_set (bit_set tbl VALID_TABLE_BIT) TABLE_TYPE_BIT)
                some ({ s4 with invalidate := 1 }, (tvaddr + mlen) % 2 ^ 64,
                  (tpaddr + mlen) % 2 ^ 64, rlen1)

/-- The `while (rlen > 0)` loop of `__block_remap`.  Every turn takes at least
one byte off `rlen`; `none` is `HYP_ABORT`, or a loop that does not end within
the turns allowed by the first argument. -/
def block_remap_loop (P : Platform) (prot type pgd_levels vmid : Nat) :
    Nat → Machine → mblockinfo_t → Nat → Nat → Nat → Option (Int × Machine)
  | fuel, s, block, tvaddr, tpaddr, rlen =>
    if rlen = 0 then some (0, s)
    else
      match fuel with
      | 0 => none
      | fuel + 1 =>
        match get_block_info P s tvaddr block with
        | none => none
        | some (hit, b) =>
          if hit = true ∧ ¬ (tvaddr &&& ((b.size + 2 ^ 64 - 1) % 2 ^ 64) = 0 ∧ rlen ≥ b.size) then
            match block_split P s b tvaddr tpaddr rlen prot type vmid with
            | none => none
            | some (s1, tvaddr1, tpaddr1, rlen1) =>
              block_remap_loop P prot type pgd_levels vmid fuel s1 b tvaddr1 tpaddr1 rlen1
          else
            let mlen0 := if hit = true then b.size else tvaddr &&& tdinfo.l2_blk_offt_mask
            let bsize := if hit = true then b.size else tdinfo.l2_blk_size
            let mlen1 := if mlen0 = 0 then bsize else mlen0
            let mlen := if mlen1 > rlen then rlen else mlen1
            match __mmap_range P s b.pgd tvaddr tpaddr mlen prot type pgd_levels vmid with
            | none => none
            | some (res, s1) =>
              if res ≠ 0 then none
              else
                block_remap_loop P prot type pgd_levels vmid fuel s1 b
                  ((tvaddr + mlen) % 2 ^ 64) ((tpaddr + mlen) % 2 ^ 64)
                  ((rlen + 2 ^ 64 - mlen) % 2 ^ 64)

/-- The function `__block_remap`; `none` when it does not return (a null
`block->guest`, `HYP_ABORT`). -/
def __block_remap (P : Platform) (s : Machine) (vaddr len : Nat) (block : mblockinfo_t)
    (paddr prot type pgd_levels : Nat) : Option (Int × Machine) :=
  match block.guest.bind (fun g => s.guests.get? g) with
  | none => none
  | some guest =>
    let vmid := guest.vmid % 2 ^ 32
    if len = 0 then some (0, s)
    else if s.init_ready = false then
      __mmap_range P s block.pgd vaddr paddr len prot type pgd_levels vmid
    else block_remap_loop P prot type pgd_levels vmid len s block vaddr paddr len

/-! ## Guest registry -/

def get_free_guest (s : Machine) : Option Nat :=
  s.guests.findIdx? (fun g => g.s2_pgd = 0)

/-- The function `get_guest`: the guest found (`none` is `NULL`) and the state
afterwards; the outer `none` is the null dereference when the host has no
slot and none is free. -/
def get_guest (P : Platform) (s : Machine) (vmid : Nat) : Option (Option Nat × Machine) :=
  if vmid ≠ HOST_VMID then
    match s.guests.findIdx?
        (fun g => g.kvm ≠ 0 ∧ vmid = s.mem (g.kvm + P.KVM_VMID_OFFT) % 2 ^ 32) with
    | none => some (none, s)
    | some i =>
      some (some i, { s with guests := s.guests.modify (fun g => { g with vmid := vmid }) i })
  else
    match s.guests.findIdx? (fun g => g.vmid = HOST_VMID) with
    | some i => some (some i, s)
    | none =>
      match get_free_guest s with
      | none => none
      | some i =>
        some (some i,
          { s with guests := s.guests.modify (fun g => { g with vmid := HOST_VMID }) i })

def get_guest_by_s1pgd (s : Machine) (pgd : Nat) : Option Nat :=
  s.guests.findIdx? (fun g => g.s1_pgd = pgd)

def get_guest_by_s2pgd (s : Machine) (pgd : Nat) : Option Nat :=
  s.guests.findIdx? (fun g => g.s2_pgd = pgd)

/-- The function `host_pgd`. -/
def host_pgd (P : Platform) (s : Machine) (stage : Nat) : Option (Nat × Machine) :=
  match get_guest P s HOST_VMID with
  | none => none
  | some (none, _) => none
  | some (some g, s1) =>
    match s1.guests.get? g with
    | none => none
    | some guest =>
      if stage = P.STAGE2 then some (guest.s2_pgd, s1)
      else if stage = P.STAGE1 then some (guest.s1_pgd, s1)
      else some (0, s1)

/-! ## Public entries of the remapper -/

/-- The block information after `memset(&block, 0, sizeof(block))`. -/
def block_zero : mblockinfo_t :=
  { guest := none, pgd := 0, ptep := 0, vaddr := 0, paddr := 0, size := 0, prot := 0,
    type := 0, level := 0, stage := 0 }

/-- The function `mmap_range`. -/
def mmap_range (P : Platform) (s : Machine) (pgd stage vaddr paddr length prot type : Nat) :
    Option (Int × Machine) :=
  if pgd = 0 then
    match get_guest P s HOST_VMID with
    | none => none
    | some (g, s1) =>
      if stage = P.STAGE2 then
        if vaddr ≠ paddr ∧ paddr ≠ 0 then some (-EINVAL, s1)
        else
          match g.bind (fun i => s1.guests.get? i) with
          | none => none
          | some guest =>
            __block_remap P s1 vaddr length
              { block_zero with guest := g, pgd := guest.s2_pgd, stage := stage }
              paddr (prot &&& P.PROT_MASK_STAGE2) type P.TABLE_LEVELS
      else if stage = P.STAGE1 then
        match g.bind (fun i => s1.guests.get? i) with
        | none => none
        | some guest =>
          __block_remap P s1 vaddr length
            { block_zero with guest := g, pgd := guest.s1_pgd, stage := stage }
            paddr (prot &&& P.PROT_MASK_STAGE1) type P.TABLE_LEVELS
      else some (-EINVAL, s1)
  else if stage = P.STAGE2 then
    __block_remap P s vaddr length
      { block_zero with guest := get_guest_by_s2pgd s pgd, pgd := pgd, stage := stage }
      paddr (prot &&& P.PROT_MASK_STAGE2) type P.TABLE_LEVELS
  else if stage = P.STAGE1 then
    __block_remap P s vaddr length
      { block_zero with guest := get_guest_by_s1pgd s pgd, pgd := pgd, stage := stage }
      paddr (prot &&& P.PROT_MASK_STAGE1) type P.TABLE_LEVELS
  else some (-EINVAL, s)

/-- The `switch (stage)` of `unmap_range` for a root that is not null.  Its
cases have no `break`: `case STAGE2` falls through to `case STAGE1`, which
falls through to `default`, where the function returns `-EINVAL`.  The
result is the block information at that `return`. -/
def unmap_range_switch (P : Platform) (s : Machine) (pgd stage : Nat) (block : mblockinfo_t) :
    mblockinfo_t :=
  let b1 := if stage = P.STAGE2 then
      { block with guest := get_guest_by_s2pgd s pgd, pgd := pgd } else block
  if stage = P.STAGE2 ∨ stage = P.STAGE1 then
    { b1 with guest := get_guest_by_s1pgd s pgd, pgd := pgd }
  else b1

/-- The function `unmap_range`.  The fields of the local `block` that the
function does not set are taken to be zero. -/
def unmap_range (P : Platform) (s : Machine) (pgd stage vaddr length : Nat) :
    Option (Int × Machine) :=
  if pgd = 0 then
    match get_guest P s HOST_VMID with
    | none => none
    | some (g, s1) =>
      match host_pgd P s1 stage with
      | none => none
      | some (hpgd, s2) =>
        if hpgd = 0 ∨ g = none ∨ length < PAGE_SIZE then some (-EINVAL, s2)
        else
          __block_remap P s2 vaddr length
            { block_zero with guest := g, pgd := hpgd, stage := stage }
            0 0 P.INVALID_MEMORY P.TABLE_LEVELS
  else
    let _block := unmap_range_switch P s pgd stage block_zero
    some (-EINVAL, s)

/-! ## Page measurement -/

/-- The external collaborators of the memory governor: the digest function
and the range checks and host-side mapping changes of `mm.h`. -/
structure Ext where
  /-- The function `calc_hash(digest, addr, len)`: its return value and the 32
  bytes of the digest, computed over the memory contents. -/
  calc_hash : (Nat → Nat) → Nat → Nat → Int × List Nat
  /-- The function `is_range_valid(addr, len, slots)`. -/
  is_range_valid : Nat → Nat → kvm_guest_t → Int
  /-- The function `remove_host_range(paddr, len)`. -/
  remove_host_range : Machine → Nat → Nat → Option (Int × Machine)

/-- The conversion of a `uint64_t` to `int`: the low 32 bits, read as a signed
number. -/
def to_int (x : Nat) : Int :=
  if x % 2 ^ 32 < 2 ^ 31 then (x % 2 ^ 32 : Nat) else (x % 2 ^ 32 : Nat) - 2 ^ 32

/-- The function `compfunc`: the difference of two `uint64_t`, returned as an
`int`. -/
def compfunc (val1 val2 : kvm_page_data) : Int :=
  to_int ((val1.phys_addr + 2 ^ 64 - val2.phys_addr) % 2 ^ 64)

/-- Modelled from the spec: the lookup of a key by `bsearch` of the C library,
a binary search between the indices `l` and `u` that returns the index of a
record that compares equal to the key. -/
def bsearch (key : kvm_page_data) (base : List kvm_page_data) : Nat → Nat → Nat → Option Nat
  | 0, _, _ => none
  | fuel + 1, l, u =>
    if l < u then
      let idx := (l + u) / 2
      match base.get? idx with
      | none => none
      | some p =>
        if compfunc key p < 0 then bsearch key base fuel l idx
        else if compfunc key p > 0 then bsearch key base fuel (idx + 1) u
        else some idx
    else none

/-- Modelled from the spec: `qsort` of the C library with `compfunc`, which
leaves the records in an order that the comparison function accepts. -/
def qsort (base : List kvm_page_data) : List kvm_page_data :=
  base.insertionSort (fun a b => compfunc a b ≤ 0)

/-- The function `get_range_info`: the index of the record found. -/
def get_range_info (guest : Option kvm_guest_t) (ipa : Nat) : Option Nat :=
  match guest with
  | none => none
  | some g =>
    bsearch { phys_addr := ipa, vmid := 0, len := 0, sha256 := [] } g.hyp_page_data
      (g.hyp_page_data.length + 1) 0 g.hyp_page_data.length

/-- The function `add_range_info` on a guest descriptor: its return value and
the descriptor afterwards. -/
def add_range_info (X : Ext) (P : Platform) (mem : Nat → Nat) (guest : Option kvm_guest_t)
    (ipa addr len : Nat) : Int × Option kvm_guest_t :=
  match guest with
  | none => (-EINVAL, none)
  | some g =>
    if ipa = 0 ∨ addr = 0 ∨ len = 0 ∨ len % PAGE_SIZE ≠ 0 then (-EINVAL, guest)
    else
      let h := X.calc_hash mem addr len
      let fill (r : kvm_page_data) : kvm_page_data :=
        if h.1 ≠ 0 then { r with vmid := 0, len := len, sha256 := List.replicate 32 0 }
        else { r with vmid := g.vmid, len := len, sha256 := h.2 }
      match get_range_info guest ipa with
      | some i => (h.1, some { g with hyp_page_data := g.hyp_page_data.modify fill i })
      | none =>
        if g.hyp_page_data.length + 1 = P.MAX_PAGING_BLOCKS then (-ENOSPC, guest)
        else
          let res := fill { phys_addr := addr, vmid := 0, len := 0, sha256 := [] }
          (h.1, some { g with hyp_page_data := qsort (g.hyp_page_data ++ [res]) })

/-- The function `verify_range`. -/
def verify_range (X : Ext) (mem : Nat → Nat) (guest : Option kvm_guest_t)
    (ipa addr len : Nat) : Int :=
  match guest, get_range_info guest ipa with
  | some g, some i =>
    match g.hyp_page_data.get? i with
    | none => -ENOENT
    | some res =>
      if res.vmid ≠ g.vmid then -EFAULT
      else if (X.calc_hash mem addr len).1 ≠ 0 then -EFAULT
      else if (X.calc_hash mem addr len).2 ≠ res.sha256 then -EINVAL
      else 0
  | _, _ => -ENOENT

/-! ## Memory governor -/

/-- The per-page loop of `guest_map_range`, which changes no state.  The
result is `Except.error res` when the loop leaves to `out_error` and
`Except.ok mc`, the count of pages that are mapped as requested already, when
it ends; `none` when it does not end within the turns allowed by the first
argument. -/
def guest_map_loop (X : Ext) (P : Platform) (s : Machine) (guest : kvm_guest_t)
    (vaddr len prot : Nat) : Nat → Nat → Nat → Nat → Option (Except Int Nat)
  | 0, _, _, _ => none
  | fuel + 1, page_vaddr, page_paddr, mc =>
    if page_vaddr < (vaddr + len) % 2 ^ 64 then
      let w := __pt_walk s guest.s2_pgd page_vaddr P.TABLE_LEVELS
      let same : Bool :=
        match w with
        | none => false
        | some r =>
          r.ptep ≠ 0 ∧ r.ret = page_paddr ∧
          s.mem r.ptep &&& P.TYPE_MASK_STAGE2 = prot &&& P.TYPE_MASK_STAGE2 ∧
          s.mem r.ptep &&& P.PROT_MASK_STAGE2 = prot
      if same then
        -- `mc++; continue;` with `page_vaddr` and `page_paddr` as they are
        guest_map_loop X P s guest vaddr len prot fuel page_vaddr page_paddr ((mc + 1) % 2 ^ 64)
      else if verify_range X s.mem (some guest) page_vaddr page_paddr PAGE_SIZE = -EINVAL then
        some (Except.error (-EINVAL))
      else
        guest_map_loop X P s guest vaddr len prot fuel
          ((page_vaddr + PAGE_SIZE) % 2 ^ 64) ((page_paddr + PAGE_SIZE) % 2 ^ 64) mc
    else some (Except.ok mc)

/-- The function `guest_map_range` for the guest in slot `g` (`none` is the
null pointer), run with at most `fuel` turns of its loop; `none` when it does
not return. -/
def guest_map_range (X : Ext) (P : Platform) (fuel : Nat) (s : Machine) (g : Option Nat)
    (vaddr paddr len prot : Nat) : Option (Int × Machine) :=
  match g.bind (fun i => s.guests.get? i) with
  | none => some (-EINVAL, s)
  | some guest =>
    if vaddr = 0 ∨ paddr = 0 ∨ len % PAGE_SIZE ≠ 0 then some (-EINVAL, s)
    else if X.is_range_valid vaddr len guest = 0 then some (-EINVAL, s)
    else
      match guest_map_loop X P s guest vaddr len prot fuel vaddr paddr 0 with
      | none => none
      | some (Except.error res) => some (res, s)
      | some (Except.ok mc) =>
        if len = (mc * PAGE_SIZE) % 2 ^ 64 then some (0, s)
        else
          match mmap_range P s guest.s2_pgd P.STAGE2 vaddr paddr len (bit_set prot DBM_BIT)
              P.KERNEL_MATTR with
          | none => none
          | some (res, s1) => if res = 0 then X.remove_host_range s1 paddr len else some (res, s1)

/-! ## Guest life cycle -/

/-- The collaborators of the guest registry that the sources at hand do not
contain: the macros and constants of the missing headers and the host-side
functions of `mm.h`. -/
structure Host where
  /-- The macro `kern_hyp_va(p)`, the view of a host kernel pointer in the
  address space of the hypervisor. -/
  kern_hyp_va : Nat → Nat
  /-- The address `&guests[i]`. -/
  guests_addr : Nat → Nat
  /-- The offset `KVM_ARCH + KVM_ARCH_PGD` of the stage-2 root pointer in the
  control block of the host kernel. -/
  KVM_PGD_OFFT : Nat
  KVM_MEM_SLOTS_NUM : Nat
  /-- The macro `fn_to_addr(gfn)`. -/
  fn_to_addr : Nat → Nat
  /-- The function `restore_host_range(paddr, len)`; `none` when it does not
  return. -/
  restore_host_range : Machine → Nat → Nat → Option (Int × Machine)
  /-- The function `restore_host_mappings(guest)` for the guest in a slot;
  `none` when it does not return. -/
  restore_host_mappings : Machine → Nat → Option (Int × Machine)

/-- A guest descriptor after `memset(guest, 0, sizeof(*guest))`. -/
def guest_zero : kvm_guest_t :=
  { kvm := 0, vmid := 0, s1_pgd := 0, s2_pgd := 0, table_levels := 0, hyp_page_data := [],
    slots := [], sn := 0 }

/-- The function `free_guest`; `none` when it does not return. -/
def free_guest (H : Host) (P : Platform) (s : Machine) (kvm : Nat) : Option (Int × Machine) :=
  if kvm = 0 then some (-EINVAL, s)
  else
    match s.guests.findIdx? (fun g => g.kvm = H.kern_hyp_va kvm) with
    | none => some (0, s)
    | some i =>
      match s.guests.get? i with
      | none => none
      | some guest =>
        if guest.vmid ≠ 0 then
          match H.restore_host_mappings s i with
          | none => none
          | some (res, s1) =>
            if res ≠ 0 then some (res, s1)
            else
              match s1.guests.get? i with
              | none => none
              | some guest1 =>
                let s2 := (free_guest_tables P s1 guest1.vmid).2
                let s3 := (free_table P s2 guest1.s2_pgd).2
                some (0, { s3 with guests := s3.guests.set i guest_zero })
        else some (0, { s with guests := s.guests.set i guest_zero })

/-- The end of `init_guest` for the guest in slot `i`: the stage-2 root is
stored into the control block at the canonical handle `kvm`, and the handle,
the number of levels and the stage-1 root read from `TTBR0_EL1` are
recorded. -/
def init_guest_finish (H : Host) (P : Platform) (s : Machine) (kvm ttbr0_el1 i : Nat) :
    Option (Int × Machine) :=
  match s.guests.get? i with
  | none => none
  | some guest =>
    let s1 := s.write ((kvm + H.KVM_PGD_OFFT) % 2 ^ 64) guest.s2_pgd
    let f (g : kvm_guest_t) : kvm_guest_t :=
      { g with kvm := kvm, table_levels := P.TABLE_LEVELS, s1_pgd := ttbr0_el1 }
    some (0, { s1 with guests := s1.guests.modify f i })

/-- The function `init_guest`; `ttbr0_el1` is the value of the register
`TTBR0_EL1` at the call, `none` when the function does not return. -/
def init_guest (H : Host) (P : Platform) (s : Machine) (kvm ttbr0_el1 : Nat) :
    Option (Int × Machine) :=
  if kvm = 0 then some (-EINVAL, s)
  else
    match s.guests.findIdx? (fun g => g.kvm = H.kern_hyp_va kvm) with
    | some i => init_guest_finish H P s (H.kern_hyp_va kvm) ttbr0_el1 i
    | none =>
      match get_free_guest s with
      | none => some (-ENOSPC, s)
      | some i =>
        let r := alloc_table P s HOST_VMID
        let s1 := { r.2 with guests := r.2.guests.modify (fun g => { g with s2_pgd := r.1 }) i }
        if r.1 = 0 then
          match free_guest H P s1 (H.guests_addr i) with
          | none => none
          | some (_, s2) => some (-ENOMEM, s2)
        else init_guest_finish H P s1 (H.kern_hyp_va kvm) ttbr0_el1 i

/-- The function `get_guest_by_kvm`: the slot found (`none` is `NULL`) and the
state afterwards; the outer `none` when it does not return. -/
def get_guest_by_kvm (H : Host) (P : Platform) (s : Machine) (kvm ttbr0_el1 : Nat) :
    Option (Option Nat × Machine) :=
  match s.guests.findIdx? (fun g => g.kvm = kvm) with
  | some i => some (some i, s)
  | none =>
    match init_guest H P s kvm ttbr0_el1 with
    | none => none
    | some (r1, s1) =>
      if r1 ≠ 0 then some (none, s1)
      else
        -- `rc` is 1: the scan is tried once more
        match s1.guests.findIdx? (fun g => g.kvm = kvm) with
        | some i => some (some i, s1)
        | none =>
          match init_guest H P s1 kvm ttbr0_el1 with
          | none => none
          | some (_, s2) => some (none, s2)

/-- The store of `v` into the element `i` of an array whose elements up to the
last one written are `xs`; the elements in between are zero. -/
def slot_store (xs : List kvm_memslots) (i : Nat) (v : kvm_memslots) : List kvm_memslots :=
  if i < xs.length then xs.set i v
  else xs ++ List.replicate (i - xs.length) { region := [], slot := { base_gfn := 0, npages := 0 } }
    ++ [v]

/-- The function `update_memslot`.  `slot` and `reg` are the contents of the
structures that the pointers refer to (`none` for a null pointer);
`ttbr0_el1` is the value of the register `TTBR0_EL1` at the call. -/
def update_memslot (H : Host) (X : Ext) (P : Platform) (s : Machine) (kvm : Nat)
    (slot : Option kvm_memslot) (reg : Option (List Nat)) (ttbr0_el1 : Nat) :
    Option (Int × Machine) :=
  match slot, reg with
  | some sl, some rg =>
    if kvm = 0 then some (-EINVAL, s)
    else if sl.npages > 0x100000 then some (-EINVAL, s)
    else
      match get_guest_by_kvm H P s (H.kern_hyp_va kvm) ttbr0_el1 with
      | none => none
      | some (none, s1) => some (0, s1)
      | some (some i, s1) =>
        match s1.guests.get? i with
        | none => none
        | some guest =>
          if guest.sn > H.KVM_MEM_SLOTS_NUM then some (-EINVAL, s1)
          else if X.is_range_valid (H.fn_to_addr sl.base_gfn) ((sl.npages * PAGE_SIZE) % 2 ^ 64)
              guest ≠ 0 then some (0, s1)
          else
            let f (g : kvm_guest_t) : kvm_guest_t :=
              { g with slots := slot_store g.slots g.sn { region := rg, slot := sl },
                       sn := g.sn + 1 }
            some (0, { s1 with guests := s1.guests.modify f i })
  | _, _ => some (-EINVAL, s)

/-- The function `table_init` on a state: the arena and the property words
are zeroed and the two roots of the host are allocated; `none` when there is
no guest slot for the host. -/
def table_init (P : Platform) (s : Machine) : Option Machine :=
  let s0 : Machine :=
    { s with
      mem := fun x => if P.tables ≤ x ∧ x < P.tables + 4096 * NUM_TABLES then 0 else s.mem x
      table_props := fun _ => 0 }
  match get_guest P s0 HOST_VMID with
  | none => none
  | some (none, _) => none
  | some (some i, s1) =>
    let r1 := alloc_table P s1 HOST_VMID
    let s2 := { r1.2 with guests := r1.2.guests.modify (fun g => { g with s1_pgd := r1.1 }) i }
    let r2 := alloc_table P s2 HOST_VMID
    some { r2.2 with guests := r2.2.guests.modify (fun g => { g with s2_pgd := r2.1 }) i }

/-! ## Memory governor: unmap -/

/-- The effect of `memset((void *)a, 0, n)` on memory. -/
def Machine.zero (s : Machine) (a n : Nat) : Machine :=
  { s with mem := fun x => if a ≤ x ∧ x < a + n then 0 else s.mem x }

/-- The 32 bits of an `int`. -/
def int_bits (r : Int) : Nat := (r % 2 ^ 32).toNat

/-- The measurement of a page in `guest_unmap_range`: when `measure` is set,
`add_range_info(guest, vaddr, paddr, PAGE_SIZE)` updates the descriptor in
slot `i`; its return value is overwritten before it is read. -/
def unmap_measure (X : Ext) (P : Platform) (s : Machine) (i : Nat) (guest : kvm_guest_t)
    (vaddr paddr : Nat) (measure : Bool) : Machine :=
  if measure then
    match (add_range_info X P s.mem (some guest) vaddr paddr PAGE_SIZE).2 with
    | some g1 => { s with guests := s.guests.set i g1 }
    | none => s
  else s

/-- The loop of `guest_unmap_range` for the guest in slot `i`, from the page
address `map_addr` with the values `res` and `pc`; `pc` counts the pages as a
natural number.  The result is the values of `res` and `pc` at the end of the
loop and the state; `none` is `HYP_ABORT`, or a loop that does not end within
the turns allowed by the first argument. -/
def guest_unmap_loop (H : Host) (X : Ext) (P : Platform) (i vaddr len : Nat) (measure : Bool) :
    Nat → Machine → Nat → Int → Nat → Option (Int × Nat × Machine)
  | 0, _, _, _, _ => none
  | fuel + 1, s, map_addr, res, pc =>
    if map_addr < (vaddr + len) % 2 ^ 64 then
      match s.guests.get? i with
      | none => none
      | some guest =>
        let paddr := pt_walk s guest.s2_pgd map_addr P.TABLE_LEVELS
        if paddr = NOADDR then
          guest_unmap_loop H X P i vaddr len measure fuel s ((map_addr + PAGE_SIZE) % 2 ^ 64)
            res pc
        else
          let s1 := unmap_measure X P s i guest vaddr paddr measure
          let s2 := s1.zero paddr PAGE_SIZE
          match unmap_range P s2 guest.s2_pgd P.STAGE2 vaddr PAGE_SIZE with
          | none => none
          | some (_, s3) =>
            match H.restore_host_range s3 paddr PAGE_SIZE with
            | none => none
            | some (r, s4) =>
              if r ≠ 0 then none
              else
                guest_unmap_loop H X P i vaddr len measure fuel s4
                  ((map_addr + PAGE_SIZE) % 2 ^ 64) r (pc + 1)
    else some (res, pc, s)

/-- The function `guest_unmap_range` for the guest in slot `g` (`none` is the
null pointer), run with at most `fuel` turns of its loop; `none` when it does
not return. -/
def guest_unmap_range (H : Host) (X : Ext) (P : Platform) (fuel : Nat) (s : Machine)
    (g : Option Nat) (vaddr len : Nat) (measure : Bool) : Option (Int × Machine) :=
  match g with
  | none => some (0xF0F0, s)
  | some i =>
    if s.guests.get? i = none ∨ vaddr = 0 ∨ len % PAGE_SIZE ≠ 0 then some (0xF0F0, s)
    else
      match guest_unmap_loop H X P i vaddr len measure fuel s vaddr (-EINVAL) 0 with
      | none => none
      | some (res, pc, s1) =>
        if res ≠ 0 then some (to_int (int_bits res ||| (pc <<< 16) % 2 ^ 32), s1)
        else some (res, s1)

/-! ## Bootstrap allocator (`heap.c`) -/

/-- The static variables of `heap.c` and the memory that the allocator
accesses: `heap` is `__heap`, `heap_sz` is `__heap_sz`, `buf_index` the static
cursor of `get_static_buffer`, `freep` the entry point of the free list (0 is
`NULL`), and `mem a` the 64-bit word at the byte address `a`. -/
structure Heap where
  heap : Nat
  heap_sz : Nat
  buf_index : Nat
  freep : Nat
  mem : Nat → Nat

/-- The function `set_heap`. -/
def set_heap (s : Heap) (h sz : Nat) : Int × Heap :=
  if sz < PAGE_SIZE then (-EINVAL, s)
  else if sz % 8 ≠ 0 then (-EINVAL, s)
  else (0, { s with heap := h, heap_sz := sz })

/-- The function `get_static_buffer`: the returned pointer (0 is `NULL`) and
the state afterwards.  `sizeof(double)` is 8; the sums are those of `size_t`
and of a 64-bit pointer; the store `*bufp = 0` clears the byte at `bufp`, the
low byte of the word there. -/
def get_static_buffer (s : Heap) (size : Nat) : Nat × Heap :=
  let size := ROUND_UP size 8
  if size > s.heap_sz then (0, s)
  else if (s.buf_index + size) % 2 ^ 64 ≥ s.heap_sz then (0, s)
  else
    let bufp := (s.heap + s.buf_index) % 2 ^ 64
    (bufp, { s with buf_index := (s.buf_index + size) % 2 ^ 64
                    mem := fun x => if x = bufp then s.mem bufp / 256 * 256 else s.mem x })

/-- The field `s.ptr` of the header at the address `a`. -/
def hdr_ptr (s : Heap) (a : Nat) : Nat := s.mem a

/-- The field `s.size` of the header at the address `a`, an `unsigned` at
offset 8. -/
def hdr_size (s : Heap) (a : Nat) : Nat := s.mem (a + 8) % 2 ^ 32

/-- The store `a->s.ptr = v`. -/
def Heap.set_ptr (s : Heap) (a v : Nat) : Heap :=
  { s with mem := fun x => if x = a then v else s.mem x }

/-- The store `a->s.size = v` of an `unsigned`; the padding after the field
takes the value zero. -/
def Heap.set_size (s : Heap) (a v : Nat) : Heap :=
  { s with mem := fun x => if x = a + 8 then v % 2 ^ 32 else s.mem x }

/-- The `for` loop of `free` from the header `p`: the header at which it
stops, `none` when it does not stop within the turns allowed by the first
argument. -/
def free_scan (s : Heap) (bp : Nat) : Nat → Nat → Option Nat
  | 0, _ => none
  | fuel + 1, p =>
    if bp > p ∧ bp < hdr_ptr s p then some p
    else if p ≥ hdr_ptr s p ∧ (bp > p ∨ bp < hdr_ptr s p) then some p
    else free_scan s bp fuel (hdr_ptr s p)

/-- The function `free`, with at most `fuel` turns of its loop; `sizeof
(header)` is 16.  The result is `none` when the function does not return: the
loop dereferences `freep` when it is `NULL`, or does not stop. -/
def free (fuel : Nat) (s : Heap) (ap : Nat) : Option Heap :=
  let bp := (ap + 2 ^ 64 - 16) % 2 ^ 64
  if s.freep = 0 then none
  else
    match free_scan s bp fuel s.freep with
    | none => none
    | some p =>
      let s1 :=
        if (bp + 16 * hdr_size s bp) % 2 ^ 64 = hdr_ptr s p then
          let s0 := s.set_size bp (hdr_size s bp + hdr_size s (hdr_ptr s p))
          s0.set_ptr bp (hdr_ptr s0 (hdr_ptr s0 p))
        else s.set_ptr bp (hdr_ptr s p)
      let s2 :=
        if (p + 16 * hdr_size s1 p) % 2 ^ 64 = bp then
          let s0 := s1.set_size p (hdr_size s1 p + hdr_size s1 bp)
          s0.set_ptr p (hdr_ptr s0 bp)
        else s1.set_ptr p bp
      some { s2 with freep := p }

/-- The number of units that `malloc` asks for: the value of the `unsigned`
variable `nunits` after `nunits = (nbytes + sizeof (header) - 1) / sizeof
(header) + 1`, computed on `size_t` and cut to 32 bits by the assignment. -/
def nunits (nbytes : Nat) : Nat :=
  ((nbytes + 16 - 1) % 2 ^ 64 / 16 + 1) % 2 ^ 32

/-- The function `morespace`: the returned pointer (0 is `NULL`) and the state
afterwards; `none` when the call of `free` does not return within `fuel`
turns of its loop. -/
def morespace (fuel : Nat) (s : Heap) (nu : Nat) : Option (Nat × Heap) :=
  let nu := if nu < 1024 then 1024 else nu
  let r := get_static_buffer s ((nu * 16) % 2 ^ 64)
  if r.1 = 0 then some (0, r.2)
  else
    match free fuel (r.2.set_size r.1 nu) ((r.1 + 16) % 2 ^ 64) with
    | none => none
    | some s1 => some (s1.freep, s1)

/-- The `for` loop of `malloc` from the headers `prevp` and `p`, with at most
`fuel` turns (each call of `free` from `morespace` gets the same number of
turns): the returned pointer (0 is `NULL`) and the state afterwards. -/
def malloc_loop (nunits : Nat) : Nat → Heap → Nat → Nat → Option (Nat × Heap)
  | 0, _, _, _ => none
  | fuel + 1, s, prevp, p =>
    if hdr_size s p ≥ nunits then
      if hdr_size s p = nunits then
        let s1 := s.set_ptr prevp (hdr_ptr s p)
        some ((p + 16) % 2 ^ 64, { s1 with freep := prevp })
      else
        let s1 := s.set_size p (hdr_size s p - nunits)
        let p1 := (p + 16 * hdr_size s1 p) % 2 ^ 64
        let s2 := s1.set_size p1 nunits
        some ((p1 + 16) % 2 ^ 64, { s2 with freep := prevp })
    else if p = s.freep then
      match morespace (fuel + 1) s nunits with
      | none => none
      | some (q, s1) =>
        if q = 0 then some (0, s1)
        else malloc_loop nunits fuel s1 q (hdr_ptr s1 q)
    else malloc_loop nunits fuel s p (hdr_ptr s p)

/-- The function `malloc`; `base` is the address of the static header `base`.
The result is the returned pointer (0 is `NULL`) and the state afterwards, or
`none` when the function does not return within `fuel` turns of its loop. -/
def malloc (base fuel : Nat) (s : Heap) (nbytes : Nat) : Option (Nat × Heap) :=
  let s0 := if s.freep = 0 then
      { (s.set_ptr base base) with freep := base }.set_size base 0
    else s
  malloc_loop (nunits nbytes) fuel s0 s0.freep (hdr_ptr s0 s0.freep)

/-! ## One turn of the remapper -/

/-- The length `mlen` that a turn of the loop of `__block_remap` maps when it
does not split a block: the size of the block found when the turn remaps a
whole block, and otherwise `tvaddr & tdinfo.l2_blk_offt_mask`, replaced by
the level-2 block size when it is 0; in both cases at most `rlen`. -/
def remap_step (hit : Bool) (b : mblockinfo_t) (tvaddr rlen : Nat) : Nat :=
  let mlen0 := if hit = true then b.size else tvaddr &&& tdinfo.l2_blk_offt_mask
  let bsize := if hit = true then b.size else tdinfo.l2_blk_size
  let mlen1 := if mlen0 = 0 then bsize else mlen0
  if mlen1 > rlen then rlen else mlen1

/-- The body of the `while (rlen > 0)` loop of `__block_remap`: the state and
the block information after one turn and the new values of `tvaddr`, `tpaddr`
and `rlen`; `none` is `HYP_ABORT`. -/
def block_remap_turn (P : Platform) (prot type pgd_levels vmid : Nat) (s : Machine)
    (block : mblockinfo_t) (tvaddr tpaddr rlen : Nat) :
    Option (Machine × mblockinfo_t × Nat × Nat × Nat) :=
  match get_block_info P s tvaddr block with
  | none => none
  | some (hit, b) =>
    if hit = true ∧ ¬ (tvaddr &&& ((b.size + 2 ^ 64 - 1) % 2 ^ 64) = 0 ∧ rlen ≥ b.size) then
      match block_split P s b tvaddr tpaddr rlen prot type vmid with
      | none => none
      | some (s1, tvaddr1, tpaddr1, rlen1) => some (s1, b, tvaddr1, tpaddr1, rlen1)
    else
      match __mmap_range P s b.pgd tvaddr tpaddr (remap_step hit b tvaddr rlen) prot type
          pgd_levels vmid with
      | none => none
      | some (res, s1) =>
        if res ≠ 0 then none
        else
          some (s1, b, (tvaddr + remap_step hit b tvaddr rlen) % 2 ^ 64,
            (tpaddr + remap_step hit b tvaddr rlen) % 2 ^ 64,
            (rlen + 2 ^ 64 - remap_step hit b tvaddr rlen) % 2 ^ 64)

/-- The `while (rlen > 0)` loop of `__block_remap` as the iteration of its body
`block_remap_turn`, with the ways in which it ends told apart: the result is
`some (some (0, s))` when the loop ends with `rlen = 0` in the state `s`,
`some none` when a turn ends in `HYP_ABORT`, and `none` when the loop has not
ended within the turns allowed by the first argument. -/
def block_remap_run (P : Platform) (prot type pgd_levels vmid : Nat) :
    Nat → Machine → mblockinfo_t → Nat → Nat → Nat → Option (Option (Int × Machine))
  | fuel, s, block, tvaddr, tpaddr, rlen =>
    if rlen = 0 then some (some (0, s))
    else
      match fuel with
      | 0 => none
      | fuel + 1 =>
        match block_remap_turn P prot type pgd_levels vmid s block tvaddr tpaddr rlen with
        | none => some none
        | some (s1, b, tvaddr1, tpaddr1, rlen1) =>
          block_remap_run P prot type pgd_levels vmid fuel s1 b tvaddr1 tpaddr1 rlen1

/-! ## Notions used to state properties -/

/-- The state after `n` calls of `alloc_table(vm)` in a row. -/
def alloc_tables (P : Platform) (vm : Nat) : Nat → Machine → Machine
  | 0, s => s
  | n + 1, s => (alloc_table P (alloc_tables P vm n s) vm).2

/-- Slot `i` of the arena is in use and its owner field is `vmid`. -/
def owned_in_use (s : Machine) (vmid i : Nat) : Bool :=
  decide (bit_raised (s.table_props i) VALID_TABLE_BIT ≠ 0 ∧ s.table_props i >>> 8 = vmid)

/-- A slot whose valid bit is clear has a zero property word, as `table_init`
leaves the arena and `alloc_table`, `free_table` and `free_guest_tables` keep
it. -/
def props_clean (s : Machine) : Prop :=
  ∀ j, j < NUM_TABLES → bit_raised (s.table_props j) VALID_TABLE_BIT = 0 → s.table_props j = 0

/-- The descriptors that `__pt_walk` reads at level 3 and below, each with the
level at which it is read. -/
def walk_reads_l3 (s : Machine) (nl vaddr : Nat) : List (Nat × Nat) :=
  [(3, s.mem (entry_addr nl ((vaddr &&& TABLE_3_MASK) >>> L3_SHIFT)))]

/-- The descriptors that `__pt_walk` reads from level 2 on. -/
def walk_reads_l2 (s : Machine) (nl vaddr : Nat) : List (Nat × Nat) :=
  let d := s.mem (entry_addr nl ((vaddr &&& TABLE_2_MASK) >>> L2_SHIFT))
  if bit_raised d VALID_TABLE_BIT = 0 ∨ bit_raised d TABLE_TYPE_BIT = 0 ∨ table_oaddr d = 0 then
    [(2, d)]
  else (2, d) :: walk_reads_l3 s (table_oaddr d) vaddr

/-- The descriptors that `__pt_walk` reads from level 1 on. -/
def walk_reads_l1 (s : Machine) (nl vaddr levels : Nat) : List (Nat × Nat) :=
  if levels ≥ 3 then
    let d := s.mem (entry_addr nl ((vaddr &&& TABLE_1_MASK) >>> L1_SHIFT))
    if bit_raised d VALID_TABLE_BIT = 0 ∨ bit_raised d TABLE_TYPE_BIT = 0 ∨ table_oaddr d = 0 then
      [(1, d)]
    else (1, d) :: walk_reads_l2 s (table_oaddr d) vaddr
  else walk_reads_l2 s nl vaddr

/-- The descriptors that `__pt_walk` reads on the path for `vaddr`, each with
the level at which it is read. -/
def walk_reads (s : Machine) (tbl vaddr levels : Nat) : List (Nat × Nat) :=
  if levels ≥ 4 then
    let d := s.mem (entry_addr tbl ((vaddr &&& TABLE_0_MASK) >>> L0_SHIFT))
    if bit_raised d VALID_TABLE_BIT = 0 ∨ table_oaddr d = 0 then [(0, d)]
    else (0, d) :: walk_reads_l1 s (table_oaddr d) vaddr levels
  else walk_reads_l1 s tbl vaddr levels

/-! ### The walker and the mapper by height

A table has height 3, 2, 1 or 0 when it is a level-0, level-1, level-2 or
level-3 table.  `walk_h` and `map_h` restate `__pt_walk` and `mmap_addr` as
one recursion over the height of the table at which they start; the
theorems `pt_walk_eq_walk_h` and `mmap_addr_eq_map_h` relate them to the
embedded functions. -/

/-- The index of `vaddr` in a table of height `h`. -/
def tidx (h vaddr : Nat) : Nat :=
  if h = 0 then (vaddr &&& TABLE_3_MASK) >>> L3_SHIFT
  else if h = 1 then (vaddr &&& TABLE_2_MASK) >>> L2_SHIFT
  else if h = 2 then (vaddr &&& TABLE_1_MASK) >>> L1_SHIFT
  else (vaddr &&& TABLE_0_MASK) >>> L0_SHIFT

/-- The walk from a table `nl` of height `h`. -/
def walk_h : Nat → Machine → Nat → Nat → Option walk_t
  | 0, s, nl, vaddr => pt_walk_l3 s nl vaddr
  | h + 1, s, nl, vaddr =>
    if bit_raised (s.mem (entry_addr nl (tidx (h + 1) vaddr))) VALID_TABLE_BIT = 0 then none
    else if h + 1 ≤ 2 ∧ bit_raised (s.mem (entry_addr nl (tidx (h + 1) vaddr))) TABLE_TYPE_BIT = 0
    then some (block_type s vaddr nl (tidx (h + 1) vaddr) 0 (2 - h))
    else if table_oaddr (s.mem (entry_addr nl (tidx (h + 1) vaddr))) = 0 then none
    else walk_h h s (table_oaddr (s.mem (entry_addr nl (tidx (h + 1) vaddr)))) vaddr

/-- The mapper from a table `tp` of height `h`. -/
def map_h (P : Platform) : Nat → Machine → Nat → Nat → Nat → Nat → Nat → Nat → Nat →
    Int × Machine
  | 0, s, tp, vaddr, paddr, _, prot, type, _ => mmap_level3 P s tp vaddr paddr prot type
  | h + 1, s, tp, vaddr, paddr, range_size, prot, type, vmid =>
    if h + 1 = 2 ∧ range_size = 1 <<< L1_SHIFT then
      mmap_block P s tp (tidx 2 vaddr) paddr tdinfo.l1_blk_oa_mask prot type
    else if h + 1 = 1 ∧ range_size = 1 <<< L2_SHIFT then
      mmap_block P s tp (tidx 1 vaddr) paddr tdinfo.l2_blk_oa_mask prot type
    else
      match mmap_next P s tp (tidx (h + 1) vaddr)
          (table_oaddr (s.mem (entry_addr tp (tidx (h + 1) vaddr)))) vmid (decide (h + 1 ≤ 2)) with
      | (none, s1) => (-ENOSPC, s1)
      | (some nl, s1) => map_h P h s1 nl vaddr paddr range_size prot type vmid

/-- The height of the root for a value of `levels` in `mmap_addr`. -/
def map_height (levels : Nat) : Nat :=
  if levels ≥ 4 then 3 else if levels ≥ 3 then 2 else if levels ≥ 2 then 1 else 0

/-- The height of the root for a value of `levels` in `__pt_walk`. -/
def walk_height (levels : Nat) : Nat :=
  if levels ≥ 4 then 3 else if levels ≥ 3 then 2 else 1

/-- The arena lies in the low 48 address bits, page-aligned and away from
address 0. -/
def arena_ok (P : Platform) : Prop :=
  P.tables ≠ 0 ∧ P.tables % 4096 = 0 ∧ P.tables + 4096 * NUM_TABLES ≤ 2 ^ 48

/-- The tables of the free slots of the arena are zero, as `table_init` leaves
them and the mapper and the release functions keep them. -/
def free_zero (P : Platform) (s : Machine) : Prop :=
  ∀ i, i < NUM_TABLES → bit_raised (s.table_props i) VALID_TABLE_BIT = 0 →
    ∀ x, table_addr P i ≤ x → x < table_addr P i + 4096 → s.mem x = 0

/-- The address `t` is a free slot of the arena. -/
def is_free (P : Platform) (s : Machine) (t : Nat) : Prop :=
  ∃ i, i < NUM_TABLES ∧ t = table_addr P i ∧ bit_raised (s.table_props i) VALID_TABLE_BIT = 0

/-- The tables below `root` form a tree.  `ht` gives the height of each table
of the tree and `par` the one entry that refers to it: the tables are
page-aligned and not free slots of the arena, and an entry of a table of
height `h + 1` that carries a table address is valid and refers to a table of
height `h` that has this entry as its parent. -/
structure Tree (P : Platform) (s : Machine) (ht : Nat → Option Nat) (par : Nat → Nat × Nat)
    (root hr : Nat) : Prop where
  root_ht : ht root = some hr
  bound : ∀ t h, ht t = some h → h ≤ hr
  aligned : ∀ t h, ht t = some h → t % 4096 = 0 ∧ t ≠ 0
  in_use : ∀ t h, ht t = some h → ¬ is_free P s t
  child : ∀ t h j, ht t = some (h + 1) → j < 512 →
    table_oaddr (s.mem (entry_addr t j)) ≠ 0 →
      bit_raised (s.mem (entry_addr t j)) VALID_TABLE_BIT ≠ 0 ∧
      ht (table_oaddr (s.mem (entry_addr t j))) = some h ∧
      par (table_oaddr (s.mem (entry_addr t j))) = (t, j)

/-- The protection bits and the memory type stay clear of the valid and
table bits and of the output address of a descriptor. -/
def attr_ok (prot type : Nat) : Prop :=
  prot < 2 ^ 64 ∧ prot &&& 0x0000FFFFFFFFF003 = 0 ∧ type < 1024

/-- The page descriptor that `mmap_addr` stores at level 3. -/
def page_desc (paddr prot type : Nat) : Nat :=
  bit_set (bit_set (bit_set (paddr &&& tdinfo.table_oa_mask) TABLE_TYPE_BIT ||| prot |||
    (type <<< 2) % 2 ^ 64) VALID_TABLE_BIT) AF_BIT

/-- The block descriptor that `mmap_addr` stores at level 1 or 2. -/
def block_desc (paddr oa_mask prot type : Nat) : Nat :=
  bit_set (bit_set (paddr &&& oa_mask ||| prot ||| (type <<< 2) % 2 ^ 64) VALID_TABLE_BIT) AF_BIT

/-- The number of bytes that one entry of a table of height `t` covers. -/
def span (t : Nat) : Nat := 2 ^ (12 + 9 * t)

/-- The height at which `map_h` from height `h` installs the leaf descriptor
for a range size. -/
def target_h (h range_size : Nat) : Nat :=
  if h ≥ 2 ∧ range_size = 1 <<< L1_SHIFT then 2
  else if h ≥ 1 ∧ range_size = 1 <<< L2_SHIFT then 1
  else 0

/-- The output-address mask of a leaf descriptor at height `t`. -/
def leaf_mask (t : Nat) : Nat :=
  if t = 0 then tdinfo.table_oa_mask
  else if t = 1 then tdinfo.l2_blk_oa_mask
  else tdinfo.l1_blk_oa_mask

/-- The leaf descriptor that the mapper stores at height `t`. -/
def leaf_desc (t paddr prot type : Nat) : Nat :=
  if t = 0 then page_desc paddr prot type else block_desc paddr (leaf_mask t) prot type

/-- The physical address that the walker returns for `vaddr` from a leaf
descriptor at height `t` that was stored for `paddr`. -/
def leaf_ret (t paddr vaddr : Nat) : Nat :=
  if t = 0 then 4096 * (paddr % 2 ^ 40 / 4096) + vaddr % 4096
  else span t * (paddr % 2 ^ 48 / span t) + vaddr % span t

/-- The level that the walker reports for a leaf descriptor at height `t`. -/
def leaf_level (t : Nat) : Nat := if t = 0 then 4 else 3 - t

/-- The addresses `v` and `vaddr` select the same entries in the tables of
the heights `t` to `h`. -/
def same_path (h t v vaddr : Nat) : Prop := ∀ k, t ≤ k → k ≤ h → tidx k v = tidx k vaddr

/-- The result of a walk from a table of height `h` together with the
descriptor at which it resolves. -/
def walk_d (h : Nat) (s : Machine) (nl vaddr : Nat) : Option (walk_t × Nat) :=
  (walk_h h s nl vaddr).map (fun w => (w, s.mem w.ptep))

/-- A descriptor as invariant I2 wants it in a table of height `k`: when it is
valid, it is a page descriptor (`k = 0`), or a table descriptor with a table
address that is not null, or a block descriptor whose output address is
aligned to the size that an entry of the table covers. -/
def desc_ok (k e : Nat) : Prop :=
  bit_raised e VALID_TABLE_BIT ≠ 0 → k = 0 ∨
    (bit_raised e TABLE_TYPE_BIT ≠ 0 ∧ table_oaddr e ≠ 0) ∨
    (bit_raised e TABLE_TYPE_BIT = 0 ∧ (e &&& tdinfo.table_oa_mask) % span k = 0)

/-- What a call of the mapper from the table `tp` of height `h` of a tree
achieves; `r` is its result on the state `s`.  The tree is kept (with tables
of lower height added or released, the heights of the other tables as they
were, and every word of memory that differs zero or a descriptor as `desc_ok`
wants it in an entry of a table of the tree), the free tables stay zeroed, the change
of memory is confined to the entry of `tp` for `va`, to tables of lower
height and to free tables, the walks from the other tables of the height of
`tp` are as before, and after success the walks of the addresses on the path
of `va` find the new leaf (or nothing, when the leaf was cleared), while the
walks of the other addresses from `tp` are as before if `va` was not mapped;
after a failure the walks of all addresses from `tp` are as before if `va` was
not mapped. -/
structure MapOK (P : Platform) (s : Machine) (ht : Nat → Option Nat) (root hr tp h : Nat)
    (va pa size prot type : Nat) (r : Int × Machine) : Prop where
  tree : ∃ ht' par', Tree P r.2 ht' par' root hr ∧
    (∀ t, ht' t ≠ none → ht t ≠ none ∨ is_free P s t) ∧
    (∀ t k, ht t = some k → h ≤ k → ht' t = some k) ∧
    (∀ t k, ht' t = some k → ht t = some k ∨ is_free P s t) ∧
    (∀ x, r.2.mem x ≠ s.mem x → r.2.mem x = 0 ∨
      ∃ t k j, ht' t = some k ∧ j < 512 ∧ x = entry_addr t j ∧ desc_ok k (r.2.mem x))
  fz : free_zero P r.2
  free_sub : ∀ t, is_free P r.2 t → ht t ≠ none ∨ is_free P s t
  mem : ∀ x, r.2.mem x ≠ s.mem x → x = entry_addr tp (tidx h va) ∨
    ∃ t, t ≤ x ∧ x < t + 4096 ∧ (is_free P s t ∨ ∃ k, k < h ∧ ht t = some k)
  props : ∀ i, r.2.table_props i ≠ s.table_props i →
    is_free P s (table_addr P i) ∨ ∃ k, k < h ∧ ht (table_addr P i) = some k
  guests : r.2.guests = s.guests
  invalidate : r.2.invalidate = s.invalidate
  ttbr0 : r.2.ttbr0_el2 = s.ttbr0_el2
  vttbr : r.2.vttbr_el2 = s.vttbr_el2
  init_ready : r.2.init_ready = s.init_ready
  res : r.1 = 0 ∨ r.1 = -ENOSPC
  other : ∀ x v, ht x = some h → x ≠ tp → walk_d h r.2 x v = walk_d h s x v
  mapped : r.1 = 0 → ∃ a, ∀ v, same_path h (target_h h size) v va →
    walk_d h r.2 tp v =
      if pa &&& leaf_mask (target_h h size) = 0 ∨ type = P.INVALID_MEMORY then none
      else some ({ ret := leaf_ret (target_h h size) pa v, ptep := a,
                   level := leaf_level (target_h h size) },
                 leaf_desc (target_h h size) pa prot type)
  rest : r.1 = 0 → walk_h h s tp va = none →
    ∀ v, ¬ same_path h (target_h h size) v va → walk_d h r.2 tp v = walk_d h s tp v
  fail : r.1 ≠ 0 → walk_h h s tp va = none → ∀ v, walk_d h r.2 tp v = walk_d h s tp v

/-- What a run of the mapper on the tree below `root` keeps, from the state
`s` with the heights `ht` to the state `s'`: the tree (with tables taken from
the free slots), the zeroed free tables, the memory and the property words
outside the tables of the tree and the free slots, the other parts of the
state, and the walks of the addresses of the window `win` of the root that
lie outside `[lo, hi)`. -/
structure FrameOK (P : Platform) (s : Machine) (ht : Nat → Option Nat) (root hr : Nat)
    (win lo hi : Nat) (s' : Machine) : Prop where
  tree : ∃ ht' par', Tree P s' ht' par' root hr ∧
    (∀ t, ht' t ≠ none → ht t ≠ none ∨ is_free P s t)
  fz : free_zero P s'
  free_sub : ∀ t, is_free P s' t → ht t ≠ none ∨ is_free P s t
  mem : ∀ x, s'.mem x ≠ s.mem x →
    ∃ t, t ≤ x ∧ x < t + 4096 ∧ (ht t ≠ none ∨ is_free P s t)
  props : ∀ i, s'.table_props i ≠ s.table_props i →
    ht (table_addr P i) ≠ none ∨ is_free P s (table_addr P i)
  guests : s'.guests = s.guests
  invalidate : s'.invalidate = s.invalidate
  ttbr0 : s'.ttbr0_el2 = s.ttbr0_el2
  vttbr : s'.vttbr_el2 = s.vttbr_el2
  init_ready : s'.init_ready = s.init_ready
  outside : ∀ v, v / span (hr + 1) = win → v < lo ∨ hi ≤ v →
    walk_d hr s' root v = walk_d hr s root v

/-- The table of height `k` that the walk of `v` from the table `x` of height
`h` comes to, by valid table descriptors; `none` when the walk ends
before. -/
def descend : Nat → Nat → Machine → Nat → Nat → Option Nat
  | 0, _, _, x, _ => some x
  | h + 1, k, s, x, v =>
    if h + 1 ≤ k then some x
    else if bit_raised (s.mem (entry_addr x (tidx (h + 1) v))) VALID_TABLE_BIT = 0 then none
    else if h + 1 ≤ 2 ∧ bit_raised (s.mem (entry_addr x (tidx (h + 1) v))) TABLE_TYPE_BIT = 0
    then none
    else if table_oaddr (s.mem (entry_addr x (tidx (h + 1) v))) = 0 then none
    else descend h k s (table_oaddr (s.mem (entry_addr x (tidx (h + 1) v)))) v

/-- The protection mask that `get_block_info` applies for a stage. -/
def block_prot_mask (P : Platform) (stage : Nat) : Nat :=
  if stage = P.STAGE1 then P.PROT_MASK_STAGE1 else P.PROT_MASK_STAGE2

/-- The memory-type mask that `get_block_info` applies for a stage. -/
def block_type_mask (P : Platform) (stage : Nat) : Nat :=
  if stage = P.STAGE1 then P.TYPE_MASK_STAGE1 else P.TYPE_MASK_STAGE2

/-- The protection mask and the type mask are 64-bit masks that keep clear of
the valid and table bits, of the access flag and of the output address, and
of each other. -/
def masks_ok (pm tm : Nat) : Prop :=
  pm < 2 ^ 64 ∧ tm < 2 ^ 64 ∧ pm &&& 0x0000FFFFFFFFF403 = 0 ∧ tm &&& 0x0000FFFFFFFFF403 = 0 ∧
  pm &&& tm = 0

/-- The registry part of invariant I1: two distinct guest descriptors with a
stage-2 root that is not null have different roots, and each such root is a
table of the arena that is in use. -/
def roots_ok (P : Platform) (s : Machine) : Prop :=
  (∀ i j gi gj, s.guests.get? i = some gi → s.guests.get? j = some gj → i ≠ j →
    gi.s2_pgd ≠ 0 → gj.s2_pgd ≠ 0 → gi.s2_pgd ≠ gj.s2_pgd) ∧
  (∀ i g, s.guests.get? i = some g → g.s2_pgd ≠ 0 →
    ∃ k, k < NUM_TABLES ∧ g.s2_pgd = table_addr P k ∧
      bit_raised (s.table_props k) VALID_TABLE_BIT ≠ 0)

/-- The roots of the registry are distinct tables of the arena whose property
word is that of a table in use for the host id, as `alloc_table(HOST_VMID)`
writes it. -/
def roots_host_owned (P : Platform) (s : Machine) : Prop :=
  (∀ i j gi gj, s.guests.get? i = some gi → s.guests.get? j = some gj → i ≠ j →
    gi.s2_pgd ≠ 0 → gj.s2_pgd ≠ 0 → gi.s2_pgd ≠ gj.s2_pgd) ∧
  (∀ i g, s.guests.get? i = some g → g.s2_pgd ≠ 0 →
    ∃ k, k < NUM_TABLES ∧ g.s2_pgd = table_addr P k ∧ s.table_props k = 1)

/-- The assumption on `restore_host_mappings` under which the registry is
followed: the function changes neither the guest descriptors nor the property
word of a table that is in use. -/
def restore_keeps_roots (H : Host) : Prop :=
  ∀ s i r s', H.restore_host_mappings s i = some (r, s') →
    s'.guests = s.guests ∧
    ∀ k, bit_raised (s.table_props k) VALID_TABLE_BIT ≠ 0 → s'.table_props k = s.table_props k

/-- The states that the registry and the arena reach from `table_init`, run on
zeroed guest descriptors, by calls of `init_guest`, `free_guest`,
`alloc_table` and `get_guest` that return, and by calls of the mapper
`__mmap_range` that return and that work, with protection bits clear of the
valid and type bits and of the output address, on the root of a tree of
tables in use (the free slots zeroed) that holds no stage-2 root of another
guest descriptor. -/
inductive Reach (H : Host) (P : Platform) : Machine → Prop
  | boot (s0 s : Machine) : (∀ g, g ∈ s0.guests → g = guest_zero) →
      table_init P s0 = some s → Reach H P s
  | init_guest (s s1 : Machine) (kvm ttbr0_el1 : Nat) (r : Int) : Reach H P s →
      init_guest H P s kvm ttbr0_el1 = some (r, s1) → Reach H P s1
  | free_guest (s s1 : Machine) (kvm : Nat) (r : Int) : Reach H P s →
      free_guest H P s kvm = some (r, s1) → Reach H P s1
  | alloc_table (s : Machine) (vm : Nat) : Reach H P s → Reach H P (alloc_table P s vm).2
  | get_guest (s s1 : Machine) (vmid : Nat) (g : Option Nat) : Reach H P s →
      get_guest P s vmid = some (g, s1) → Reach H P s1
  | mapper (s s1 : Machine) (ht : Nat → Option Nat) (par : Nat → Nat × Nat)
      (root vaddr paddr length prot type levels vmid : Nat) (r : Int) : Reach H P s →
      Tree P s ht par root (map_height levels) → free_zero P s →
      (∀ i g, s.guests.get? i = some g → g.s2_pgd ≠ root → ht g.s2_pgd = none) →
      (prot < 2 ^ 64 ∧ prot &&& 0x0000FFFFFFFFF003 = 0) →
      __mmap_range P s root vaddr paddr length prot type levels vmid = some (r, s1) →
      Reach H P s1

/-- The root table on which `mmap_range` works for the arguments `pgd` and
`stage`: `pgd` itself, or for a null `pgd` the root of the host for the
stage. -/
def range_root (P : Platform) (s : Machine) (pgd stage : Nat) : Option Nat :=
  if pgd ≠ 0 then some pgd
  else
    match get_guest P s HOST_VMID with
    | some (some i, s1) =>
      (s1.guests.get? i).map (fun g => if stage = P.STAGE2 then g.s2_pgd else g.s1_pgd)
    | _ => none

/-- What a run of the mapper on the tree below `root` keeps of the arena and
of the registry, whatever its arguments and its result, from the state `s`
with the heights `ht` to the state `s'`: the tree (with tables taken from the
free slots), the zeroed free tables, the guest descriptors, the property word
of the root, and the property words of the slots that are neither tables of
the tree nor free. -/
structure ArenaOK (P : Platform) (s : Machine) (ht : Nat → Option Nat) (root hr : Nat)
    (s' : Machine) : Prop where
  tree : ∃ ht' par', Tree P s' ht' par' root hr ∧
    (∀ t, ht' t ≠ none → ht t ≠ none ∨ is_free P s t)
  fz : free_zero P s'
  free_sub : ∀ t, is_free P s' t → ht t ≠ none ∨ is_free P s t
  props : ∀ i, s'.table_props i ≠ s.table_props i →
    table_addr P i ≠ root ∧ (ht (table_addr P i) ≠ none ∨ is_free P s (table_addr P i))
  guests : s'.guests = s.guests

/-- The buffers that a run of calls of `get_static_buffer` returns: for each
request size of the list in turn, the pointer and the size when the call
succeeds. -/
def static_buffers : Heap → List Nat → List (Nat × Nat)
  | _, [] => []
  | s, n :: ns =>
    if (get_static_buffer s n).1 ≠ 0 then
      ((get_static_buffer s n).1, n) :: static_buffers (get_static_buffer s n).2 ns
    else static_buffers (get_static_buffer s n).2 ns

/-- The page `page_vaddr` is mapped in the guest's stage-2 tables to
`page_paddr` with the requested memory type and protection already, which is
what the per-page loop of `guest_map_range` tests before it counts the page
and goes on. -/
def mapped_as_requested (P : Platform) (s : Machine) (guest : kvm_guest_t)
    (prot page_vaddr page_paddr : Nat) : Prop :=
  ∃ w, __pt_walk s guest.s2_pgd page_vaddr P.TABLE_LEVELS = some w ∧ w.ptep ≠ 0 ∧
    w.ret = page_paddr ∧
    s.mem w.ptep &&& P.TYPE_MASK_STAGE2 = prot &&& P.TYPE_MASK_STAGE2 ∧
    s.mem w.ptep &&& P.PROT_MASK_STAGE2 = prot

/-- Invariant I2 for the tables that valid table descriptors reach from the
table `t` of height `h`: a valid block descriptor has an output address
aligned to the size that an entry of its table covers, a valid table
descriptor has a page-aligned table address that is a table of the arena in
use, and a valid page descriptor has a page-aligned output address. -/
def I2 (P : Platform) (s : Machine) : Nat → Nat → Prop
  | 0, t => ∀ j, j < 512 → bit_raised (s.mem (entry_addr t j)) VALID_TABLE_BIT ≠ 0 →
      (s.mem (entry_addr t j) &&& tdinfo.table_oa_mask) % 4096 = 0
  | h + 1, t => ∀ j, j < 512 → bit_raised (s.mem (entry_addr t j)) VALID_TABLE_BIT ≠ 0 →
      if bit_raised (s.mem (entry_addr t j)) TABLE_TYPE_BIT = 0 then
        (s.mem (entry_addr t j) &&& tdinfo.table_oa_mask) % span (h + 1) = 0
      else
        table_oaddr (s.mem (entry_addr t j)) % 4096 = 0 ∧
        (∃ k, k < NUM_TABLES ∧ table_oaddr (s.mem (entry_addr t j)) = table_addr P k ∧
          bit_raised (s.table_props k) VALID_TABLE_BIT ≠ 0) ∧
        I2 P s h (table_oaddr (s.mem (entry_addr t j)))

/-- Invariant I2 on the tables of a tree with the heights `ht`: the tables
other than the root are tables of the arena, and every entry of a table of
the tree holds a descriptor as `desc_ok` wants it. -/
def tree_I2 (P : Platform) (s : Machine) (ht : Nat → Option Nat) (root : Nat) : Prop :=
  (∀ t k, ht t = some k → t ≠ root → ∃ i, i < NUM_TABLES ∧ t = table_addr P i) ∧
  (∀ t k j, ht t = some k → j < 512 → desc_ok k (s.mem (entry_addr t j)))

/-- The address of the first block of a list, or `d` for the empty list. -/
def hd (l : List (Nat × Nat)) (d : Nat) : Nat :=
  match l with
  | [] => d
  | x :: _ => x.1

/-- The headers of the blocks of the list, each given by its address and its
size in units, are linked in the order of the list, the last one to `nxt`,
and hold the sizes of the list. -/
def seg (s : Heap) : List (Nat × Nat) → Nat → Prop
  | [], _ => True
  | x :: t, nxt => hdr_ptr s x.1 = hd t nxt ∧ hdr_size s x.1 = x.2 ∧ seg s t nxt

/-- The block `y` lies above the block `x` and is not adjacent to it: the
units of `x` end below `y`, and so does the header of `x`. -/
def gap (x y : Nat × Nat) : Prop := x.1 + 16 * x.2 < y.1 ∧ x.1 + 16 ≤ y.1

/-- A well-formed free list: the blocks of `L`, each given by its address and
its size in units, are ordered by address with no two of them adjacent, and
their headers are linked in this order and back from the last to the first;
`freep` points to one of them.  The static header `base` is one of the
blocks, with the size 0, and lies outside the registered region; the other
blocks are not empty and lie inside the region, which is in the address space
and holds less than `2^32` units. -/
structure free_list (base : Nat) (s : Heap) (L : List (Nat × Nat)) : Prop where
  cyc : seg s L (hd L 0)
  sorted : L.Pairwise gap
  freep : ∃ n, (s.freep, n) ∈ L
  base_in : (base, 0) ∈ L
  base_out : base + 16 ≤ s.heap ∨ s.heap + s.heap_sz ≤ base
  base_ok : base ≠ 0 ∧ base + 16 ≤ 2 ^ 64
  region : ∀ x ∈ L, x.1 ≠ base →
    x.2 ≠ 0 ∧ s.heap ≤ x.1 ∧ x.1 + 16 * x.2 < s.heap + s.heap_sz
  heap_ok : s.heap ≠ 0 ∧ s.heap + s.heap_sz ≤ 2 ^ 64 ∧ s.heap_sz ≤ 2 ^ 36

/-- The free list after the block at `bp` of `nb` units was put between the
blocks of `lo`, which lie below it, and those of `hi`, which lie above it:
the block is joined with the first block of `hi` when that one starts where
it ends, and with the last block of `lo` when that one ends where it
starts. -/
def merged (lo hi : List (Nat × Nat)) (bp nb : Nat) : List (Nat × Nat) :=
  let up : (Nat × Nat) × List (Nat × Nat) :=
    match hi with
    | [] => ((bp, nb), [])
    | y :: t => if bp + 16 * nb = y.1 then ((bp, nb + y.2), t) else ((bp, nb), hi)
  match lo.getLast? with
  | none => up.1 :: up.2
  | some x =>
    if x.1 + 16 * x.2 = bp then lo.dropLast ++ (x.1, x.2 + up.1.2) :: up.2
    else lo ++ up.1 :: up.2

/-- A platform with the arena at 1 MiB, four translation levels and the
attribute layout of the architecture: stage-2 memory attributes in bits 2-5,
access permissions in bits 6-7, shareability in bits 8-9, execute-never in
bits 53-54 (the layout of `hyp-drv.h`). -/
def virtPlatform : Platform :=
  { tables := 0x100000
    INVALID_MEMORY := 64
    TABLE_LEVELS := 4
    STAGE1 := 1
    STAGE2 := 2
    PROT_MASK_STAGE1 := 0x600000000003E0
    PROT_MASK_STAGE2 := 0x600000000003C0
    TYPE_MASK_STAGE1 := 0x1C
    TYPE_MASK_STAGE2 := 0x3C
    KERNEL_MATTR := 0xF
    MAX_PAGING_BLOCKS := 16
    KVM_VMID_OFFT := 0 }

/-- The host descriptor after `table_init`: the first two arena tables are its
roots. -/
def hostGuest : kvm_guest_t :=
  { kvm := 0, vmid := 0, s1_pgd := 0x100000, s2_pgd := 0x101000, table_levels := 4,
    hyp_page_data := [] }

/-- The state right after `table_init` and `enable_mmu`: zeroed memory, the
two host roots allocated. -/
def bootMachine : Machine :=
  { mem := fun _ => 0
    table_props := fun i => if i < 2 then 1 else 0
    invalidate := 1
    guests := [hostGuest]
    ttbr0_el2 := 0x100000
    vttbr_el2 := 0x101000
    init_ready := true }

/-- A state with zeroed memory and an empty arena. -/
def emptyMachine : Machine :=
  { mem := fun _ => 0
    table_props := fun _ => 0
    invalidate := 0
    guests := []
    ttbr0_el2 := 0
    vttbr_el2 := 0
    init_ready := false }

/-- A state in which the path for the address 0 from the root `0x101000` ends
in a page descriptor with the table/page bit set and the valid bit clear. -/
def staleLeafMachine : Machine :=
  { emptyMachine with
    mem := fun x =>
      if x = 0x101000 then 0x102003
      else if x = 0x102000 then 0x103003
      else if x = 0x103000 then 0x104003
      else if x = 0x104000 then 0x5002
      else 0 }

/-- The state after boot with one page mapped into the host stage-2 root
`0x101000` by `mmap_range`: `0x40000000` to `0x40000000`. -/
def onePageMachine : Machine :=
  match mmap_range virtPlatform bootMachine 0x101000 2 0x40000000 0x40000000 4096 0x40 4 with
  | some r => r.2
  | none => bootMachine

/-- A stand-in for the external collaborators: the digest of a range is 32
copies of the low byte of its first word, every range is valid, and the host
side accepts every change. -/
def sampleExt : Ext :=
  { calc_hash := fun mem addr _ => (0, List.replicate 32 (mem addr % 256))
    is_range_valid := fun _ _ _ => 1
    remove_host_range := fun s _ _ => some (0, s) }

/-- A guest with the id 1 and an empty measurement table. -/
def sampleGuest : kvm_guest_t :=
  { kvm := 0x8000, vmid := 1, s1_pgd := 0, s2_pgd := 0x102000, table_levels := 4,
    hyp_page_data := [] }

/-- The state after boot with the page `0x40000000` mapped 1:1 into the host
stage-2 root as device memory (type 0) with the protection `0x40`. -/
def devicePageMachine : Machine :=
  match mmap_range virtPlatform bootMachine 0x101000 2 0x40000000 0x40000000 4096 0x40 0 with
  | some r => r.2
  | none => bootMachine

/-- The guest `sampleGuest` with one measured page: the record of the host
address `0x2000`, whose digest is that of a memory filled with the word 7. -/
def measuredGuest : kvm_guest_t :=
  { sampleGuest with hyp_page_data :=
      [{ phys_addr := 0x2000, vmid := 1, len := 0x1000, sha256 := List.replicate 32 7 }] }

/-- The state after boot with a 2 MiB block and a page mapped into the host
stage-2 root `0x101000` by `__mmap_range`: `0x40000000..0x40200FFF` to
`0x80000000..0x80200FFF`. -/
def blockPageMachine : Machine :=
  match __mmap_range virtPlatform bootMachine 0x101000 0x40000000 0x80000000 0x201000 0x40 4 4
      0 with
  | some r => r.2
  | none => bootMachine

/-- The heights of the tables of the state after boot seen from the host
stage-2 root: the root alone, at height 3. -/
def bootHeights : Nat → Option Nat := fun t => if t = 0x101000 then some 3 else none

/-- The state `blockPageMachine` after the page `0x40001000` of its 2 MiB
block was remapped to `0x90000000` by `mmap_range`. -/
def splitPageMachine : Machine :=
  match mmap_range virtPlatform blockPageMachine 0x101000 2 0x40001000 0x90000000 0x1000 0x40
      4 with
  | some r => r.2
  | none => bootMachine

/-- A state after machine initialisation with a 1 GiB block in the host
stage-2 root `0x101000`, `0x40000000..0x7FFFFFFF` mapped 1:1, installed by
`mmap_range` before the initialisation was over. -/
def gigBlockMachine : Machine :=
  match mmap_range virtPlatform { bootMachine with init_ready := false } 0x101000 2
      0x40000000 0x40000000 0x40000000 0x40 4 with
  | some r => { r.2 with init_ready := true }
  | none => bootMachine

/-- A stand-in for the collaborators of the guest registry: handles are
canonical already, the descriptors lie at `0xF00000`, a guest has room for 32
memory slots, and the host side accepts every change and leaves the state
alone. -/
def sampleHost : Host :=
  { kern_hyp_va := fun p => p
    guests_addr := fun i => 0xF00000 + 0x1000 * i
    KVM_PGD_OFFT := 0
    KVM_MEM_SLOTS_NUM := 32
    fn_to_addr := fun gfn => (gfn * 4096) % 2 ^ 64
    restore_host_range := fun s _ _ => some (0, s)
    restore_host_mappings := fun s _ => some (0, s) }

/-- A stand-in for the external collaborators like `sampleExt` whose
`is_range_valid` accepts no range. -/
def strictExt : Ext :=
  { sampleExt with is_range_valid := fun _ _ _ => 0 }

/-- The state after boot with a second descriptor: a guest with the handle
`0x8000`, the id 1, the stage-2 root `0x102000` and 32 memory slots. -/
def fullSlotsMachine : Machine :=
  { bootMachine with
    table_props := fun i => if i < 3 then 1 else 0
    guests := [hostGuest,
      { sampleGuest with
        slots := List.replicate 32 { region := [], slot := { base_gfn := 0, npages := 1 } }
        sn := 32 }] }

/-- The state after boot with a second descriptor, a guest with the handle
`0x8000`, the id 256 and the stage-2 root `0x102000`, before a table is
allocated for this guest. -/
def wideGuestBase : Machine :=
  { bootMachine with
    table_props := fun i => if i < 3 then 1 else 0
    guests := [hostGuest, { sampleGuest with vmid := 256 }] }

/-- The state `wideGuestBase` after `alloc_table(256)`, which takes the slot 3
of the arena for the guest 256. -/
def wideGuestMachine : Machine := (alloc_table virtPlatform wideGuestBase 256).2

/-- A state before `table_init`: two zeroed guest descriptors, an arena that
is not in use, and three tables in the memory of the host kernel at
`0x4000000`, `0x4001000` and `0x4002000`, chained by table descriptors, the
last of which refers to the slot 2 of the arena. -/
def hostTablesMachine : Machine :=
  { emptyMachine with
    mem := fun x =>
      if x = 0x4000000 then 0x4001003
      else if x = 0x4001000 then 0x4002003
      else if x = 0x4002000 then 0x102003
      else 0
    guests := [guest_zero, guest_zero] }

/-- The state `hostTablesMachine` after `table_init`. -/
def tableInitMachine : Machine :=
  match table_init virtPlatform hostTablesMachine with
  | some s => s
  | none => emptyMachine

/-- The state `tableInitMachine` after `init_guest` for the handle `0x8000`,
called while `TTBR0_EL1` holds `0x4000000`. -/
def oneGuestMachine : Machine :=
  match init_guest sampleHost virtPlatform tableInitMachine 0x8000 0x4000000 with
  | some r => r.2
  | none => emptyMachine

/-- The state `oneGuestMachine` after `mmap_range` has mapped 2 MiB at the
address 0 into the stage-1 root `0x4000000` of the guest. -/
def rootFreedMachine : Machine :=
  match mmap_range virtPlatform oneGuestMachine 0x4000000 1 0 0x80000000 0x200000 0 4 with
  | some r => r.2
  | none => emptyMachine

/-- The state `oneGuestMachine` after the mapper has mapped the page
`0x40000000` to `0x80000000` in the stage-2 root `0x102000` of the guest. -/
def guestMappedMachine : Machine :=
  match __mmap_range virtPlatform oneGuestMachine 0x102000 0x40000000 0x80000000 0x1000 0x40 4
      4 0 with
  | some r => r.2
  | none => emptyMachine

/-- A state before the end of machine initialisation in which the page
`0x401FF000` is mapped to `0x80000000` in the host stage-2 root `0x101000` and
every slot of the arena is in use. -/
def fullArenaMachine : Machine :=
  match __mmap_range virtPlatform { bootMachine with init_ready := false } 0x101000 0x401FF000
      0x80000000 0x1000 0x40 4 4 0 with
  | some r => { r.2 with table_props := fun _ => 1 }
  | none => bootMachine

/-- A heap state before `set_heap`: all static variables and the memory are
zero. -/
def emptyHeap : Heap :=
  { heap := 0, heap_sz := 0, buf_index := 0, freep := 0, mem := fun _ => 0 }

/-- The state after `set_heap((void *)0x200000, 0x2000)`. -/
def bootHeap : Heap := (set_heap emptyHeap 0x200000 0x2000).2

/-- The state after boot with a level-1 table in slot 2 below entry 0 of the
host stage-2 root `0x101000`; entry 1 of that table holds a descriptor that is
not valid, with the table bit and the address `0xDEAD000` left in it. -/
def staleEntryMachine : Machine :=
  { bootMachine with
    mem := fun x => if x = 0x101000 then 0x102003 else if x = 0x102008 then 0xDEAD002 else 0
    table_props := fun i => if i < 3 then 1 else 0 }

/-- A heap state with the region `0x200000 .. 0x202000` registered and the
static header `base` at `0x1000`: the free list holds `base`, a block of 4
units at `0x200000` and a block of 3 units at `0x200060`; the 2 units at
`0x200040` between the two blocks are allocated. -/
def freeListHeap : Heap :=
  { heap := 0x200000, heap_sz := 0x2000, buf_index := 0x90, freep := 0x1000,
    mem := fun x =>
      if x = 0x1000 then 0x200000
      else if x = 0x200000 then 0x200060
      else if x = 0x200008 then 4
      else if x = 0x200048 then 2
      else if x = 0x200060 then 0x1000
      else if x = 0x200068 then 3
      else 0 }

/-- A heap state whose free list is the single block of 3 units at `0x200060`,
linked to itself, without the static header `base`; the 2 units at `0x200040`
below it are allocated. -/
def loneBlockHeap : Heap :=
  { heap := 0x200000, heap_sz := 0x2000, buf_index := 0x90, freep := 0x200060,
    mem := fun x =>
      if x = 0x200048 then 2
      else if x = 0x200060 then 0x200060
      else if x = 0x200068 then 3
      else 0 }

/-- The state after `set_heap((void *)0x200000, 0x10000)`. -/
def wideBootHeap : Heap := (set_heap emptyHeap 0x200000 0x10000).2

/-- A record of the measurement table for the page at `0x40000000`. -/
def nearRecord : kvm_page_data :=
  { phys_addr := 0x40000000, vmid := 1, len := 0x1000, sha256 := [] }

/-- A record for the page at `0x140000000`, `2^32` bytes above `nearRecord`. -/
def farRecord : kvm_page_data :=
  { phys_addr := 0x140000000, vmid := 1, len := 0x1000, sha256 := [] }

/-- A record for the page at `0xC0000000`, `2^31` bytes above `nearRecord`. -/
def halfRecord : kvm_page_data :=
  { phys_addr := 0xC0000000, vmid := 1, len := 0x1000, sha256 := [] }

/-- The guest `sampleGuest` with the records of three measured pages in its
measurement table, in the order of their addresses `0x30000000`, `0x40000000`
and `0xC0000000`; the digests are those of a memory filled with the word 7. -/
def threePageGuest : kvm_guest_t :=
  { sampleGuest with hyp_page_data :=
      [{ phys_addr := 0x30000000, vmid := 1, len := 0x1000, sha256 := List.replicate 32 7 },
       { phys_addr := 0x40000000, vmid := 1, len := 0x1000, sha256 := List.replicate 32 7 },
       { phys_addr := 0xC0000000, vmid := 1, len := 0x1000, sha256 := List.replicate 32 7 }] }

theorem bit_raised_valid (c : Nat) : bit_raised c VALID_TABLE_BIT = c % 2 := by
  simp [bit_raised, VALID_TABLE_BIT, Nat.and_one_is_mod]

theorem or_one_of_even (x : Nat) (h : x % 2 = 0) : x ||| 1 = x + 1 := by
  obtain ⟨k, rfl⟩ : ∃ k, x = 2 ^ 1 * k := ⟨x / 2, by omega⟩
  exact (Nat.mul_add_lt_is_or (by norm_num) k).symm

theorem or_one_of_odd (x : Nat) (h : x % 2 = 1) : x ||| 1 = x := by
  apply Nat.eq_of_testBit_eq
  intro i
  rw [Nat.testBit_lor]
  cases i with
  | zero => simp [Nat.testBit_zero, h]
  | succ i => simp [Nat.testBit_succ]

theorem bit_set_valid_mod (c : Nat) : bit_set c VALID_TABLE_BIT % 2 = 1 := by
  simp only [bit_set, VALID_TABLE_BIT, Nat.shiftLeft_zero]
  rcases Nat.mod_two_eq_zero_or_one c with h | h
  · rw [or_one_of_even c h]; omega
  · rw [or_one_of_odd c h]; exact h

/-- The property word that `alloc_table` stores: valid, owner `vm % 256`. -/
theorem alloc_word (vm : Nat) :
    bit_set (((vm % 2 ^ 32) <<< 8) % 2 ^ 32 % 2 ^ 16) VALID_TABLE_BIT % 2 ^ 16
      = (vm % 256) * 256 + 1 := by
  have h : ((vm % 2 ^ 32) <<< 8) % 2 ^ 32 % 2 ^ 16 = (vm % 256) * 256 := by
    rw [Nat.shiftLeft_eq]; omega
  rw [h]
  simp only [bit_set, VALID_TABLE_BIT, Nat.shiftLeft_zero]
  rw [or_one_of_even _ (by omega)]
  omega

/-! ## Table arena: allocation -/

theorem alloc_scan_none (props : Nat → Nat) (n i : Nat) :
    alloc_scan props i n = none ↔
      ∀ j, i ≤ j → j < i + n → bit_raised (props j) VALID_TABLE_BIT ≠ 0 := by
  induction n generalizing i with
  | zero => simp [alloc_scan]; intro j h1 h2; omega
  | succ n ih =>
    unfold alloc_scan
    by_cases h : bit_raised (props i) VALID_TABLE_BIT = 0
    · simp only [h, if_true]
      constructor
      · intro h'; cases h'
      · intro h'; exact absurd h (h' i (le_refl i) (by omega))
    · simp only [h, if_false, ih]
      constructor
      · intro h' j h1 h2
        rcases Nat.eq_or_lt_of_le h1 with e | l
        · subst e; exact h
        · exact h' j l (by omega)
      · intro h' j h1 h2; exact h' j (by omega) (by omega)

theorem alloc_scan_some (props : Nat → Nat) (n i k : Nat) :
    alloc_scan props i n = some k ↔
      (i ≤ k ∧ k < i + n ∧ bit_raised (props k) VALID_TABLE_BIT = 0 ∧
        ∀ j, i ≤ j → j < k → bit_raised (props j) VALID_TABLE_BIT ≠ 0) := by
  induction n generalizing i with
  | zero => simp [alloc_scan]; intro h1 h2; omega
  | succ n ih =>
    unfold alloc_scan
    by_cases h : bit_raised (props i) VALID_TABLE_BIT = 0
    · simp only [h, if_true, Option.some.injEq]
      constructor
      · intro e; subst e
        exact ⟨le_refl _, by omega, h, fun j h1 h2 => by omega⟩
      · rintro ⟨h1, _, _, h4⟩
        rcases Nat.eq_or_lt_of_le h1 with e | l
        · exact e
        · exact absurd h (h4 i (le_refl i) l)
    · simp only [h, if_false, ih]
      constructor
      · rintro ⟨h1, h2, h3, h4⟩
        refine ⟨by omega, by omega, h3, fun j hj1 hj2 => ?_⟩
        rcases Nat.eq_or_lt_of_le hj1 with e | l
        · subst e; exact h
        · exact h4 j l hj2
      · rintro ⟨h1, h2, h3, h4⟩
        have hne : i ≠ k := fun e => h (e ▸ h3)
        exact ⟨by omega, by omega, h3, fun j hj1 hj2 => h4 j (by omega) hj2⟩

theorem table_addr_inj (P : Platform) (i j : Nat) (h : table_addr P i = table_addr P j) :
    i = j := by
  unfold table_addr at h; omega

/-- C9 (as amended): `alloc_table` is a first-fit scan.  It returns null exactly
when every slot is in use, and then changes nothing; otherwise it returns the
lowest-indexed slot whose valid bit is clear, sets the valid bit of that
slot, stores the low eight bits of `vm` as its owner, and leaves every other
property word and all memory as they were.  A slot that it returns never had
its valid bit set. -/
theorem alloc_table_first_fit (P : Platform) (s : Machine) (vm : Nat) (hP : P.tables ≠ 0) :
    ((alloc_table P s vm).1 = 0 ↔
        ∀ i, i < NUM_TABLES → bit_raised (s.table_props i) VALID_TABLE_BIT ≠ 0) ∧
    ((alloc_table P s vm).1 = 0 → (alloc_table P s vm).2 = s) ∧
    (∀ i, i < NUM_TABLES → bit_raised (s.table_props i) VALID_TABLE_BIT = 0 →
        (∀ j, j < i → bit_raised (s.table_props j) VALID_TABLE_BIT ≠ 0) →
        (alloc_table P s vm).1 = table_addr P i ∧
        bit_raised ((alloc_table P s vm).2.table_props i) VALID_TABLE_BIT ≠ 0 ∧
        (alloc_table P s vm).2.table_props i >>> 8 = vm % 256 ∧
        (∀ j, j ≠ i → (alloc_table P s vm).2.table_props j = s.table_props j) ∧
        (alloc_table P s vm).2.mem = s.mem) ∧
    (∀ i, (alloc_table P s vm).1 = table_addr P i →
        i < NUM_TABLES ∧ bit_raised (s.table_props i) VALID_TABLE_BIT = 0) := by
  have hne : ∀ k, table_addr P k ≠ 0 := fun k => by unfold table_addr; omega
  cases hs : alloc_scan s.table_props 0 NUM_TABLES with
  | none =>
    have hall := (alloc_scan_none _ _ _).1 hs
    have e : alloc_table P s vm = (0, s) := by simp [alloc_table, hs]
    rw [e]
    refine ⟨⟨fun _ i hi => hall i (Nat.zero_le i) (by omega), fun _ => rfl⟩, fun _ => rfl, ?_, ?_⟩
    · intro i hi hf; exact absurd hf (hall i (Nat.zero_le i) (by omega))
    · intro i hi; exact absurd hi.symm (hne i)
  | some k =>
    obtain ⟨_, hk, hfree, hlow⟩ := (alloc_scan_some _ _ _ _).1 hs
    have e : alloc_table P s vm = (table_addr P k, { s with table_props := fun j =>
        if j = k then (vm % 256) * 256 + 1 else s.table_props j }) := by
      unfold alloc_table; rw [hs]; simp only [alloc_word]
    rw [e]
    refine ⟨⟨fun h => absurd h (hne k), fun h => absurd hfree (h k (by omega))⟩,
      fun h => absurd h (hne k), ?_, ?_⟩
    · intro i hi hf hl
      have hik : i = k := by
        rcases Nat.lt_trichotomy i k with l | e | g
        · exact absurd hf (hlow i (Nat.zero_le i) l)
        · exact e
        · exact absurd hfree (hl k g)
      subst hik
      refine ⟨rfl, ?_, ?_, ?_, rfl⟩
      · simp only [if_true, bit_raised_valid]; omega
      · simp only [if_true, Nat.shiftRight_eq_div_pow]; omega
      · intro j hj; simp [hj]
    · intro i hi
      have := table_addr_inj P _ _ hi
      subst this
      exact ⟨by omega, hfree⟩

/-- C9, counterexample: the owner field of the property word is eight bits
wide, so for the owner id 256 the slot that `alloc_table` returns carries the
owner 0, not 256. -/
theorem alloc_table_owner_counterexample :
    (alloc_table virtPlatform emptyMachine 256).1 = table_addr virtPlatform 0 ∧
    (alloc_table virtPlatform emptyMachine 256).2.table_props 0 >>> 8 ≠ 256 := by
  decide

/-- C9, witness: on the state after boot the third slot is the first free one
and is handed out with owner 7. -/
theorem alloc_table_first_fit_witness :
    virtPlatform.tables ≠ 0 ∧
    (alloc_table virtPlatform bootMachine 7).1 = table_addr virtPlatform 2 ∧
    (alloc_table virtPlatform bootMachine 7).2.table_props 2 >>> 8 = 7 % 256 :=
  have h := (alloc_table_first_fit virtPlatform bootMachine 7 (by decide)).2.2.1 2
    (by decide) (by decide) (by decide)
  ⟨by decide, h.1, h.2.2.1⟩

/-! ## Table arena: release by owner -/

/-- What the loop of `free_guest_tables` computes over the slots `i .. i+n-1`:
it counts the slots whose owner field equals `vmid`, zeroes their property
words and their tables, and touches nothing else. -/
theorem free_guest_tables_loop_spec (P : Platform) (vmid : Nat) (n : Nat) :
    ∀ (i : Nat) (res : Int) (s : Machine),
      (free_guest_tables_loop P vmid i n (res, s)).1
          = res + ((List.range' i n).countP (fun j => vmid = s.table_props j >>> 8) : Nat) ∧
      (∀ j, (free_guest_tables_loop P vmid i n (res, s)).2.table_props j
          = if i ≤ j ∧ j < i + n ∧ vmid = s.table_props j >>> 8 then 0 else s.table_props j) ∧
      (∀ x, (∃ j, i ≤ j ∧ j < i + n ∧ vmid = s.table_props j >>> 8 ∧
                table_addr P j ≤ x ∧ x < table_addr P j + 4096) →
          (free_guest_tables_loop P vmid i n (res, s)).2.mem x = 0) ∧
      (∀ x, (¬ ∃ j, i ≤ j ∧ j < i + n ∧ vmid = s.table_props j >>> 8 ∧
                table_addr P j ≤ x ∧ x < table_addr P j + 4096) →
          (free_guest_tables_loop P vmid i n (res, s)).2.mem x = s.mem x) := by
  induction n with
  | zero =>
    intro i res s
    refine ⟨by simp [free_guest_tables_loop], fun j => ?_, fun x hx => ?_, fun x _ => ?_⟩
    · simp only [free_guest_tables_loop]; rw [if_neg]; omega
    · obtain ⟨j, h1, h2, _⟩ := hx; omega
    · simp only [free_guest_tables_loop]
  | succ n ih =>
    intro i res s
    by_cases h : vmid = s.table_props i >>> 8
    · have e : free_guest_tables_loop P vmid i (n + 1) (res, s)
          = free_guest_tables_loop P vmid (i + 1) n (res + 1, s.release P i) := by
        rw [free_guest_tables_loop, if_pos h]
      have hp : ∀ j, j ≠ i → (s.release P i).table_props j = s.table_props j := by
        intro j hj; simp [Machine.release, hj]
      obtain ⟨h1, h2, h3, h4⟩ := ih (i + 1) (res + 1) (s.release P i)
      rw [e]
      refine ⟨?_, fun j => ?_, fun x hx => ?_, fun x hx => ?_⟩
      · rw [h1, List.range'_succ, List.countP_cons]
        have hc : (List.range' (i + 1) n).countP
              (fun j => decide (vmid = (s.release P i).table_props j >>> 8))
            = (List.range' (i + 1) n).countP (fun j => decide (vmid = s.table_props j >>> 8)) := by
          apply List.countP_congr
          intro j hj
          have : i + 1 ≤ j := (List.mem_range'_1.1 hj).1
          rw [hp j (by omega)]
        rw [hc, decide_eq_true h]
        simp only [if_true]
        push_cast; ring
      · rw [h2]
        by_cases hji : j = i
        · subst hji
          rw [if_neg (by omega), if_pos ⟨le_refl _, by omega, h⟩]; simp [Machine.release]
        · rw [hp j hji]
          by_cases hc : i + 1 ≤ j ∧ j < i + 1 + n ∧ vmid = s.table_props j >>> 8
          · rw [if_pos hc, if_pos ⟨by omega, by omega, hc.2.2⟩]
          · rw [if_neg hc, if_neg]
            rintro ⟨a, b, c⟩
            exact hc ⟨by omega, by omega, c⟩
      · by_cases hin : ∃ j, i + 1 ≤ j ∧ j < i + 1 + n ∧
            vmid = (s.release P i).table_props j >>> 8 ∧
            table_addr P j ≤ x ∧ x < table_addr P j + 4096
        · exact h3 x hin
        · rw [h4 x hin]
          obtain ⟨j, a, b, c, d, e'⟩ := hx
          by_cases hji : j = i
          · subst hji; simp [Machine.release, d, e']
          · exact absurd ⟨j, by omega, by omega, by rw [hp j hji]; exact c, d, e'⟩ hin
      · have hin : ¬ ∃ j, i + 1 ≤ j ∧ j < i + 1 + n ∧
            vmid = (s.release P i).table_props j >>> 8 ∧
            table_addr P j ≤ x ∧ x < table_addr P j + 4096 := by
          rintro ⟨j, a, b, c, d, e'⟩
          rw [hp j (by omega)] at c
          exact hx ⟨j, by omega, by omega, c, d, e'⟩
        rw [h4 x hin]
        have : ¬ (table_addr P i ≤ x ∧ x < table_addr P i + 4096) := fun hx' =>
          hx ⟨i, le_refl _, by omega, h, hx'.1, hx'.2⟩
        simp [Machine.release, this]
    · have e : free_guest_tables_loop P vmid i (n + 1) (res, s)
          = free_guest_tables_loop P vmid (i + 1) n (res, s) := by
        rw [free_guest_tables_loop, if_neg h]
      obtain ⟨h1, h2, h3, h4⟩ := ih (i + 1) res s
      rw [e]
      refine ⟨?_, fun j => ?_, fun x hx => ?_, fun x hx => ?_⟩
      · rw [h1, List.range'_succ, List.countP_cons, decide_eq_false h]; simp
      · rw [h2]
        by_cases hc : i + 1 ≤ j ∧ j < i + 1 + n ∧ vmid = s.table_props j >>> 8
        · rw [if_pos hc, if_pos ⟨by omega, by omega, hc.2.2⟩]
        · rw [if_neg hc, if_neg]
          rintro ⟨a, b, c⟩
          have hji : j ≠ i := fun e => h (e ▸ c)
          exact hc ⟨by omega, by omega, c⟩
      · apply h3
        obtain ⟨j, a, b, c, d, e'⟩ := hx
        have hji : j ≠ i := fun e => h (e ▸ c)
        exact ⟨j, by omega, by omega, c, d, e'⟩
      · apply h4
        rintro ⟨j, a, b, c, d, e'⟩
        exact hx ⟨j, by omega, by omega, c, d, e'⟩

theorem countP_range_flip (p q : Nat → Bool) (k : Nat) (hp : p k = false) (hq : q k = true)
    (hpq : ∀ j, j ≠ k → q j = p j) (n : Nat) :
    ∀ i, i ≤ k → k < i + n →
      (List.range' i n).countP q = (List.range' i n).countP p + 1 := by
  induction n with
  | zero => intro i h1 h2; omega
  | succ n ih =>
    intro i h1 h2
    rw [List.range'_succ, List.countP_cons, List.countP_cons]
    rcases Nat.eq_or_lt_of_le h1 with e | l
    · subst e
      have : (List.range' (i + 1) n).countP q = (List.range' (i + 1) n).countP p := by
        apply List.countP_congr
        intro j hj
        have : i + 1 ≤ j := (List.mem_range'_1.1 hj).1
        rw [hpq j (by omega)]
      rw [this, hp, hq]; simp
    · rw [ih (i + 1) (by omega) (by omega), hpq i (by omega)]
      omega

theorem alloc_table_clean (P : Platform) (s : Machine) (vm : Nat) (hs : props_clean s) :
    props_clean (alloc_table P s vm).2 := by
  unfold alloc_table
  cases hsc : alloc_scan s.table_props 0 NUM_TABLES with
  | none => exact hs
  | some k =>
    intro j hj hb
    simp only [alloc_word] at hb ⊢
    by_cases hjk : j = k
    · simp only [hjk, if_true, bit_raised_valid] at hb; omega
    · simp only [hjk, if_false] at hb ⊢; exact hs j hj hb

theorem alloc_tables_clean (P : Platform) (vm : Nat) (s : Machine) (hs : props_clean s) (n : Nat) :
    props_clean (alloc_tables P vm n s) := by
  induction n with
  | zero => exact hs
  | succ n ih => exact alloc_table_clean P _ vm ih

/-- A successful `alloc_table(v)` with `v < 256` raises the number of slots in
use and owned by `v` by one. -/
theorem alloc_table_count (P : Platform) (s : Machine) (v : Nat) (hP : P.tables ≠ 0)
    (hv : v < 256) (hok : (alloc_table P s v).1 ≠ 0) :
    (List.range NUM_TABLES).countP (owned_in_use (alloc_table P s v).2 v)
      = (List.range NUM_TABLES).countP (owned_in_use s v) + 1 := by
  have hne : ∀ k, table_addr P k ≠ 0 := fun k => by unfold table_addr; omega
  cases hsc : alloc_scan s.table_props 0 NUM_TABLES with
  | none => exact absurd (by simp [alloc_table, hsc]) hok
  | some k =>
    obtain ⟨_, hk, hfree, _⟩ := (alloc_scan_some _ _ _ _).1 hsc
    have e : (alloc_table P s v).2.table_props
        = fun j => if j = k then (v % 256) * 256 + 1 else s.table_props j := by
      unfold alloc_table; rw [hsc]; simp only [alloc_word]
    rw [List.range_eq_range']
    apply countP_range_flip _ _ k
    · simp [owned_in_use, hfree]
    · simp only [owned_in_use, e, if_true, bit_raised_valid, Nat.shiftRight_eq_div_pow]
      rw [decide_eq_true_iff]; omega
    · intro j hj; simp [owned_in_use, e, hj]
    · omega
    · omega

theorem alloc_tables_count (P : Platform) (s : Machine) (v : Nat) (hP : P.tables ≠ 0)
    (hv : v < 256) (n : Nat)
    (hok : ∀ k, k < n → (alloc_table P (alloc_tables P v k s) v).1 ≠ 0) :
    (List.range NUM_TABLES).countP (owned_in_use (alloc_tables P v n s) v)
      = n + (List.range NUM_TABLES).countP (owned_in_use s v) := by
  induction n with
  | zero => simp [alloc_tables]
  | succ n ih =>
    have h1 := ih (fun k hk => hok k (by omega))
    have h2 := alloc_table_count P (alloc_tables P v n s) v hP hv (hok n (by omega))
    simp only [alloc_tables]
    rw [h2, h1]; omega

theorem owner_match_iff (s : Machine) (hs : props_clean s) (v : Nat) (hv : 0 < v) (j : Nat)
    (hj : j < NUM_TABLES) :
    v = s.table_props j >>> 8 ↔ owned_in_use s v j = true := by
  simp only [owned_in_use, decide_eq_true_iff]
  constructor
  · intro h
    refine ⟨fun hb => ?_, h.symm⟩
    rw [hs j hj hb] at h
    simp at h; omega
  · intro h; exact h.2.symm

/-- C10 (as amended): let the arena be one in which free slots have a zero
property word, let `v` be a nonzero guest id, and let `n` tables be allocated
with `alloc_table(v)`.  Then `free_guest_tables(v)` returns the number of
slots in use with owner field `v`, which is `n` more than before the
allocations when `v < 256`; it zeroes exactly those slots (property word and
table) and leaves every other property word and all other memory as they
were. -/
theorem free_guest_tables_reclaims (P : Platform) (s0 : Machine) (v n : Nat)
    (hP : P.tables ≠ 0) (h0 : props_clean s0) (hv : 0 < v)
    (hok : ∀ k, k < n → (alloc_table P (alloc_tables P v k s0) v).1 ≠ 0) :
    (free_guest_tables P (alloc_tables P v n s0) v).1
        = ((List.range NUM_TABLES).countP (owned_in_use (alloc_tables P v n s0) v) : Nat) ∧
    (v < 256 → (List.range NUM_TABLES).countP (owned_in_use (alloc_tables P v n s0) v)
        = n + (List.range NUM_TABLES).countP (owned_in_use s0 v)) ∧
    (∀ j, j < NUM_TABLES → owned_in_use (alloc_tables P v n s0) v j = true →
        (free_guest_tables P (alloc_tables P v n s0) v).2.table_props j = 0 ∧
        ∀ x, table_addr P j ≤ x → x < table_addr P j + 4096 →
          (free_guest_tables P (alloc_tables P v n s0) v).2.mem x = 0) ∧
    (∀ j, ¬ (j < NUM_TABLES ∧ owned_in_use (alloc_tables P v n s0) v j = true) →
        (free_guest_tables P (alloc_tables P v n s0) v).2.table_props j
          = (alloc_tables P v n s0).table_props j) ∧
    (∀ x, (∀ j, j < NUM_TABLES → owned_in_use (alloc_tables P v n s0) v j = true →
            ¬ (table_addr P j ≤ x ∧ x < table_addr P j + 4096)) →
        (free_guest_tables P (alloc_tables P v n s0) v).2.mem x
          = (alloc_tables P v n s0).mem x) := by
  have hc := alloc_tables_clean P v s0 h0 n
  have hcount := fun h256 => alloc_tables_count P s0 v hP h256 n hok
  generalize alloc_tables P v n s0 = s at hc hcount ⊢
  obtain ⟨h1, h2, h3, h4⟩ := free_guest_tables_loop_spec P v NUM_TABLES 0 0 s
  have hiff := owner_match_iff s hc v hv
  refine ⟨?_, ?_, ?_, ?_, ?_⟩
  · unfold free_guest_tables
    rw [h1, List.range_eq_range', zero_add]
    congr 1
    apply List.countP_congr
    intro j hj
    have hj' : j < NUM_TABLES := by have := (List.mem_range'_1.1 hj).2; omega
    have := hiff j hj'
    simp only [decide_eq_true_iff]
    exact this
  · exact hcount
  · intro j hj ho
    have hm := (hiff j hj).2 ho
    refine ⟨?_, fun x hx1 hx2 => ?_⟩
    · unfold free_guest_tables; rw [h2, if_pos ⟨Nat.zero_le _, by omega, hm⟩]
    · exact h3 x ⟨j, Nat.zero_le _, by omega, hm, hx1, hx2⟩
  · intro j hj
    unfold free_guest_tables
    rw [h2, if_neg]
    rintro ⟨_, b, c⟩
    exact hj ⟨by omega, (hiff j (by omega)).1 c⟩
  · intro x hx
    apply h4
    rintro ⟨j, _, b, c, d, e⟩
    exact hx j (by omega) ((hiff j (by omega)).1 c) ⟨d, e⟩

/-- C10, witness: one table allocated for guest 7 on the state after boot is
the one table that `free_guest_tables(7)` counts. -/
theorem free_guest_tables_reclaims_witness :
    virtPlatform.tables ≠ 0 ∧ props_clean bootMachine ∧ 0 < 7 ∧
    (free_guest_tables virtPlatform (alloc_tables virtPlatform 7 1 bootMachine) 7).1
      = ((List.range NUM_TABLES).countP
          (owned_in_use (alloc_tables virtPlatform 7 1 bootMachine) 7) : Nat) ∧
    (List.range NUM_TABLES).countP (owned_in_use (alloc_tables virtPlatform 7 1 bootMachine) 7)
      = 1 + (List.range NUM_TABLES).countP (owned_in_use bootMachine 7) :=
  have hclean : props_clean bootMachine := by
    intro j _ hb
    simp only [bootMachine] at hb ⊢
    by_cases h : j < 2
    · simp [h, bit_raised_valid] at hb
    · simp [h]
  have hok : ∀ k, k < 1 →
      (alloc_table virtPlatform (alloc_tables virtPlatform 7 k bootMachine) 7).1 ≠ 0 := by
    intro k hk
    have : k = 0 := by omega
    subst this
    decide
  have h := free_guest_tables_reclaims virtPlatform bootMachine 7 1 (by decide) hclean
    (by decide) hok
  ⟨by decide, hclean, by decide, h.1, h.2.1 (by decide)⟩

/-- C10, counterexample: with one table allocated for the guest id 0 on an
empty arena, `free_guest_tables(0)` counts all 8192 slots, because the free
slots carry the owner field 0 as well; and with one table allocated for the
guest id 256, `free_guest_tables(256)` counts none, because the owner field
holds eight bits. -/
theorem free_guest_tables_counterexample :
    (free_guest_tables virtPlatform (alloc_tables virtPlatform 0 1 emptyMachine) 0).1 = 8192 ∧
    (free_guest_tables virtPlatform (alloc_tables virtPlatform 256 1 emptyMachine) 256).1 = 0 := by
  have hw : ∀ vm, vm % 256 = 0 → ∀ j,
      (alloc_tables virtPlatform vm 1 emptyMachine).table_props j >>> 8 = 0 := by
    intro vm hvm j
    have e : (alloc_tables virtPlatform vm 1 emptyMachine).table_props
        = fun j => if j = 0 then (vm % 256) * 256 + 1 else 0 := by
      have hs : alloc_scan emptyMachine.table_props 0 NUM_TABLES = some 0 := by decide
      simp only [alloc_tables]
      unfold alloc_table; rw [hs]; simp only [alloc_word]; rfl
    rw [e, hvm]
    by_cases hj : j = 0 <;> simp [hj]
  constructor
  · unfold free_guest_tables
    rw [(free_guest_tables_loop_spec virtPlatform 0 NUM_TABLES 0 0 _).1]
    have : (List.range' 0 NUM_TABLES).countP (fun j => decide
        (0 = (alloc_tables virtPlatform 0 1 emptyMachine).table_props j >>> 8))
        = (List.range' 0 NUM_TABLES).length := by
      rw [List.countP_eq_length]
      intro j _
      simp [hw 0 (by decide) j]
    rw [this]; simp [NUM_TABLES]
  · unfold free_guest_tables
    rw [(free_guest_tables_loop_spec virtPlatform 256 NUM_TABLES 0 0 _).1]
    have : (List.range' 0 NUM_TABLES).countP (fun j => decide
        (256 = (alloc_tables virtPlatform 256 1 emptyMachine).table_props j >>> 8)) = 0 := by
      rw [List.countP_eq_zero]
      intro j _
      simp [hw 256 (by decide) j]
    rw [this]; simp

/-! ## Walker: valid chain -/

theorem block_type_ret_lt (s : Machine) (vaddr nl noff addr lvl : Nat) (ha : addr < 2 ^ 48) :
    (block_type s vaddr nl noff addr lvl).ret < 2 ^ 48 := by
  unfold block_type
  by_cases h1 : lvl = 1
  · simp only [h1, if_true]
    apply Nat.or_lt_two_pow
    · exact lt_of_le_of_lt Nat.and_le_right (by decide)
    · exact lt_of_le_of_lt Nat.and_le_right (by decide)
  · by_cases h2 : lvl = 2
    · simp only [h2, if_true]
      apply Nat.or_lt_two_pow
      · exact lt_of_le_of_lt Nat.and_le_right (by decide)
      · exact lt_of_le_of_lt Nat.and_le_right (by decide)
    · simp only [h1, h2, if_false]
      apply Nat.or_lt_two_pow
      · exact lt_of_le_of_lt Nat.and_le_left ha
      · exact lt_of_le_of_lt Nat.and_le_right (by decide)

/-- The three facts about a walk and the descriptors it reads that make up
the valid-chain property. -/
theorem walk_chain_l3 (s : Machine) (nl vaddr : Nat) :
    (∀ l d, (l, d) ∈ walk_reads_l3 s nl vaddr → l ≤ 2 → bit_raised d VALID_TABLE_BIT = 0 →
        pt_walk_l3 s nl vaddr = none) ∧
    (∀ d, (3, d) ∈ walk_reads_l3 s nl vaddr → bit_raised d TABLE_TYPE_BIT = 0 →
        pt_walk_l3 s nl vaddr = none) ∧
    ((∀ l d, (l, d) ∈ walk_reads_l3 s nl vaddr → bit_raised d VALID_TABLE_BIT ≠ 0 ∧
          ((l = 0 ∨ l = 3) → bit_raised d TABLE_TYPE_BIT ≠ 0) ∧
          (bit_raised d TABLE_TYPE_BIT ≠ 0 → l ≤ 2 → table_oaddr d ≠ 0)) →
        ∃ w, pt_walk_l3 s nl vaddr = some w ∧ w.ret < 2 ^ 48) := by
  refine ⟨?_, ?_, ?_⟩
  · intro l d hm hl _
    simp only [walk_reads_l3, List.mem_singleton, Prod.mk.injEq] at hm
    omega
  · intro d hm hd
    simp only [walk_reads_l3, List.mem_singleton, Prod.mk.injEq, true_and] at hm
    subst hm
    simp only [pt_walk_l3, hd, if_true]
  · intro h
    have ht := (h 3 (s.mem (entry_addr nl ((vaddr &&& TABLE_3_MASK) >>> L3_SHIFT)))
      (by simp [walk_reads_l3])).2.1 (Or.inr rfl)
    refine ⟨block_type s vaddr nl ((vaddr &&& TABLE_3_MASK) >>> L3_SHIFT)
        (s.mem (entry_addr nl ((vaddr &&& TABLE_3_MASK) >>> L3_SHIFT)) &&& PADDR_MASK) 4,
      by simp only [pt_walk_l3, ht, if_false], block_type_ret_lt _ _ _ _ _ _ ?_⟩
    exact lt_of_le_of_lt Nat.and_le_right (by decide)

theorem walk_chain_l2 (s : Machine) (nl vaddr : Nat) :
    (∀ l d, (l, d) ∈ walk_reads_l2 s nl vaddr → l ≤ 2 → bit_raised d VALID_TABLE_BIT = 0 →
        pt_walk_l2 s nl vaddr = none) ∧
    (∀ d, (3, d) ∈ walk_reads_l2 s nl vaddr → bit_raised d TABLE_TYPE_BIT = 0 →
        pt_walk_l2 s nl vaddr = none) ∧
    ((∀ l d, (l, d) ∈ walk_reads_l2 s nl vaddr → bit_raised d VALID_TABLE_BIT ≠ 0 ∧
          ((l = 0 ∨ l = 3) → bit_raised d TABLE_TYPE_BIT ≠ 0) ∧
          (bit_raised d TABLE_TYPE_BIT ≠ 0 → l ≤ 2 → table_oaddr d ≠ 0)) →
        ∃ w, pt_walk_l2 s nl vaddr = some w ∧ w.ret < 2 ^ 48) := by
  unfold walk_reads_l2 pt_walk_l2
  simp only []
  generalize s.mem (entry_addr nl ((vaddr &&& TABLE_2_MASK) >>> L2_SHIFT)) = d
  obtain ⟨h1, h2, h3⟩ := walk_chain_l3 s (table_oaddr d) vaddr
  by_cases hv : bit_raised d VALID_TABLE_BIT = 0
  · simp only [hv, true_or, if_true, List.mem_singleton, Prod.mk.injEq]
    refine ⟨fun _ _ _ _ _ => trivial, fun _ _ _ => trivial, fun h => ?_⟩
    exact absurd hv (h 2 d ⟨rfl, rfl⟩).1
  · by_cases ht : bit_raised d TABLE_TYPE_BIT = 0
    · simp only [hv, ht, true_or, or_true, if_true, if_false, List.mem_singleton, Prod.mk.injEq]
      refine ⟨fun l d' hm _ hd => ?_, fun d' hm _ => ?_, fun _ => ?_⟩
      · rw [hm.2] at hd; exact absurd hd hv
      · omega
      · exact ⟨_, rfl, block_type_ret_lt _ _ _ _ _ _ (by decide)⟩
    · by_cases ho : table_oaddr d = 0
      · simp only [hv, ht, ho, or_true, if_true, if_false, List.mem_singleton, Prod.mk.injEq]
        refine ⟨fun _ _ _ _ _ => trivial, fun _ _ _ => trivial, fun h => ?_⟩
        exact absurd ho ((h 2 d ⟨rfl, rfl⟩).2.2 ht (le_refl 2))
      · simp only [hv, ht, ho, or_self, if_false, List.mem_cons, Prod.mk.injEq]
        refine ⟨fun l d' hm hl hd => ?_, fun d' hm hd => ?_, fun h => ?_⟩
        · rcases hm with ⟨_, e⟩ | hm
          · rw [e] at hd; exact absurd hd hv
          · exact h1 l d' hm hl hd
        · rcases hm with ⟨e, _⟩ | hm
          · omega
          · exact h2 d' hm hd
        · exact h3 (fun l d' hm => h l d' (Or.inr hm))

theorem walk_chain_l1 (s : Machine) (nl vaddr levels : Nat) :
    (∀ l d, (l, d) ∈ walk_reads_l1 s nl vaddr levels → l ≤ 2 →
        bit_raised d VALID_TABLE_BIT = 0 → pt_walk_l1 s nl vaddr levels = none) ∧
    (∀ d, (3, d) ∈ walk_reads_l1 s nl vaddr levels → bit_raised d TABLE_TYPE_BIT = 0 →
        pt_walk_l1 s nl vaddr levels = none) ∧
    ((∀ l d, (l, d) ∈ walk_reads_l1 s nl vaddr levels → bit_raised d VALID_TABLE_BIT ≠ 0 ∧
          ((l = 0 ∨ l = 3) → bit_raised d TABLE_TYPE_BIT ≠ 0) ∧
          (bit_raised d TABLE_TYPE_BIT ≠ 0 → l ≤ 2 → table_oaddr d ≠ 0)) →
        ∃ w, pt_walk_l1 s nl vaddr levels = some w ∧ w.ret < 2 ^ 48) := by
  unfold walk_reads_l1 pt_walk_l1
  by_cases hl : levels ≥ 3
  · simp only [hl, if_true]
    generalize s.mem (entry_addr nl ((vaddr &&& TABLE_1_MASK) >>> L1_SHIFT)) = d
    obtain ⟨h1, h2, h3⟩ := walk_chain_l2 s (table_oaddr d) vaddr
    by_cases hv : bit_raised d VALID_TABLE_BIT = 0
    · simp only [hv, true_or, if_true, List.mem_singleton, Prod.mk.injEq]
      refine ⟨fun _ _ _ _ _ => trivial, fun _ _ _ => trivial, fun h => ?_⟩
      exact absurd hv (h 1 d ⟨rfl, rfl⟩).1
    · by_cases ht : bit_raised d TABLE_TYPE_BIT = 0
      · simp only [hv, ht, true_or, or_true, if_true, if_false, List.mem_singleton,
          Prod.mk.injEq]
        refine ⟨fun l d' hm _ hd => ?_, fun d' hm _ => ?_, fun _ => ?_⟩
        · rw [hm.2] at hd; exact absurd hd hv
        · omega
        · exact ⟨_, rfl, block_type_ret_lt _ _ _ _ _ _ (by decide)⟩
      · by_cases ho : table_oaddr d = 0
        · simp only [hv, ht, ho, or_true, if_true, if_false, List.mem_singleton, Prod.mk.injEq]
          refine ⟨fun _ _ _ _ _ => trivial, fun _ _ _ => trivial, fun h => ?_⟩
          exact absurd ho ((h 1 d ⟨rfl, rfl⟩).2.2 ht (by omega))
        · simp only [hv, ht, ho, or_self, if_false, List.mem_cons, Prod.mk.injEq]
          refine ⟨fun l d' hm hl hd => ?_, fun d' hm hd => ?_, fun h => ?_⟩
          · rcases hm with ⟨_, e⟩ | hm
            · rw [e] at hd; exact absurd hd hv
            · exact h1 l d' hm hl hd
          · rcases hm with ⟨e, _⟩ | hm
            · omega
            · exact h2 d' hm hd
          · exact h3 (fun l d' hm => h l d' (Or.inr hm))
  · simp only [hl, if_false]
    exact walk_chain_l2 s nl vaddr

/-- The walk and the bits of the descriptors on its path: the walk returns
none (`~0UL`) whenever a descriptor that it reads at level 0, 1 or 2 has the
valid bit clear, and whenever the page-level descriptor has the table/page bit
clear; it returns a physical address, which is never `~0UL`, whenever every
descriptor that it reads is valid, the level-0 and page-level descriptors have
the table/page bit set, and every table descriptor that it follows has a
non-null output address. -/
theorem pt_walk_valid_chain (s : Machine) (tbl vaddr levels : Nat) :
    (∀ l d, (l, d) ∈ walk_reads s tbl vaddr levels → l ≤ 2 →
        bit_raised d VALID_TABLE_BIT = 0 → pt_walk s tbl vaddr levels = NOADDR) ∧
    (∀ d, (3, d) ∈ walk_reads s tbl vaddr levels → bit_raised d TABLE_TYPE_BIT = 0 →
        pt_walk s tbl vaddr levels = NOADDR) ∧
    ((∀ l d, (l, d) ∈ walk_reads s tbl vaddr levels → bit_raised d VALID_TABLE_BIT ≠ 0 ∧
          ((l = 0 ∨ l = 3) → bit_raised d TABLE_TYPE_BIT ≠ 0) ∧
          (bit_raised d TABLE_TYPE_BIT ≠ 0 → l ≤ 2 → table_oaddr d ≠ 0)) →
        pt_walk s tbl vaddr levels ≠ NOADDR) := by
  have key : (∀ l d, (l, d) ∈ walk_reads s tbl vaddr levels → l ≤ 2 →
        bit_raised d VALID_TABLE_BIT = 0 → __pt_walk s tbl vaddr levels = none) ∧
    (∀ d, (3, d) ∈ walk_reads s tbl vaddr levels → bit_raised d TABLE_TYPE_BIT = 0 →
        __pt_walk s tbl vaddr levels = none) ∧
    ((∀ l d, (l, d) ∈ walk_reads s tbl vaddr levels → bit_raised d VALID_TABLE_BIT ≠ 0 ∧
          ((l = 0 ∨ l = 3) → bit_raised d TABLE_TYPE_BIT ≠ 0) ∧
          (bit_raised d TABLE_TYPE_BIT ≠ 0 → l ≤ 2 → table_oaddr d ≠ 0)) →
        ∃ w, __pt_walk s tbl vaddr levels = some w ∧ w.ret < 2 ^ 48) := by
    unfold walk_reads __pt_walk
    by_cases hl : levels ≥ 4
    · simp only [hl, if_true]
      generalize s.mem (entry_addr tbl ((vaddr &&& TABLE_0_MASK) >>> L0_SHIFT)) = d
      obtain ⟨h1, h2, h3⟩ := walk_chain_l1 s (table_oaddr d) vaddr levels
      by_cases hv : bit_raised d VALID_TABLE_BIT = 0
      · simp only [hv, true_or, if_true, List.mem_singleton, Prod.mk.injEq]
        refine ⟨fun _ _ _ _ _ => trivial, fun _ _ _ => trivial, fun h => ?_⟩
        exact absurd hv (h 0 d ⟨rfl, rfl⟩).1
      · by_cases ho : table_oaddr d = 0
        · simp only [hv, ho, or_true, if_true, if_false, List.mem_singleton, Prod.mk.injEq]
          refine ⟨fun _ _ _ _ _ => trivial, fun _ _ _ => trivial, fun h => ?_⟩
          have ht := (h 0 d ⟨rfl, rfl⟩).2.1 (Or.inl rfl)
          exact absurd ho ((h 0 d ⟨rfl, rfl⟩).2.2 ht (by omega))
        · simp only [hv, ho, or_self, if_false, List.mem_cons, Prod.mk.injEq]
          refine ⟨fun l d' hm hl hd => ?_, fun d' hm hd => ?_, fun h => ?_⟩
          · rcases hm with ⟨_, e⟩ | hm
            · rw [e] at hd; exact absurd hd hv
            · exact h1 l d' hm hl hd
          · rcases hm with ⟨e, _⟩ | hm
            · omega
            · exact h2 d' hm hd
          · exact h3 (fun l d' hm => h l d' (Or.inr hm))
    · simp only [hl, if_false]
      exact walk_chain_l1 s tbl vaddr levels
  obtain ⟨k1, k2, k3⟩ := key
  refine ⟨fun l d hm hl hd => ?_, fun d hm hd => ?_, fun h => ?_⟩
  · simp only [pt_walk, k1 l d hm hl hd, walk_ret]
  · simp only [pt_walk, k2 d hm hd, walk_ret]
  · obtain ⟨w, hw, hlt⟩ := k3 h
    simp only [pt_walk, hw, walk_ret, NOADDR]
    omega

/-- The page level of the walk resolves whenever its descriptor has the
table/page bit set. -/
theorem walk_page_l3 (s : Machine) (nl vaddr d : Nat)
    (hm : (3, d) ∈ walk_reads_l3 s nl vaddr) (ht : bit_raised d TABLE_TYPE_BIT ≠ 0) :
    ∃ w, pt_walk_l3 s nl vaddr = some w ∧ w.ret < 2 ^ 48 := by
  simp only [walk_reads_l3, List.mem_singleton, Prod.mk.injEq, true_and] at hm
  subst hm
  refine ⟨block_type s vaddr nl ((vaddr &&& TABLE_3_MASK) >>> L3_SHIFT)
      (s.mem (entry_addr nl ((vaddr &&& TABLE_3_MASK) >>> L3_SHIFT)) &&& PADDR_MASK) 4,
    by simp only [pt_walk_l3, ht, if_false], block_type_ret_lt _ _ _ _ _ _ ?_⟩
  exact lt_of_le_of_lt Nat.and_le_right (by decide)

theorem walk_page_l2 (s : Machine) (nl vaddr d : Nat)
    (hm : (3, d) ∈ walk_reads_l2 s nl vaddr) (ht : bit_raised d TABLE_TYPE_BIT ≠ 0) :
    ∃ w, pt_walk_l2 s nl vaddr = some w ∧ w.ret < 2 ^ 48 := by
  unfold walk_reads_l2 at hm
  unfold pt_walk_l2
  simp only [] at hm ⊢
  generalize s.mem (entry_addr nl ((vaddr &&& TABLE_2_MASK) >>> L2_SHIFT)) = d2 at hm ⊢
  by_cases hc : bit_raised d2 VALID_TABLE_BIT = 0 ∨ bit_raised d2 TABLE_TYPE_BIT = 0 ∨
      table_oaddr d2 = 0
  · rw [if_pos hc] at hm
    simp only [List.mem_singleton, Prod.mk.injEq] at hm
    omega
  · rw [if_neg hc] at hm
    rw [if_neg (fun c => hc (Or.inl c)), if_neg (fun c => hc (Or.inr (Or.inl c))),
      if_neg (fun c => hc (Or.inr (Or.inr c)))]
    rcases List.mem_cons.mp hm with e | e
    · simp only [Prod.mk.injEq] at e
      omega
    · exact walk_page_l3 s _ vaddr d e ht

theorem walk_page_l1 (s : Machine) (nl vaddr levels d : Nat)
    (hm : (3, d) ∈ walk_reads_l1 s nl vaddr levels) (ht : bit_raised d TABLE_TYPE_BIT ≠ 0) :
    ∃ w, pt_walk_l1 s nl vaddr levels = some w ∧ w.ret < 2 ^ 48 := by
  unfold walk_reads_l1 at hm
  unfold pt_walk_l1
  by_cases hl : levels ≥ 3
  · rw [if_pos hl] at hm ⊢
    simp only [] at hm ⊢
    generalize s.mem (entry_addr nl ((vaddr &&& TABLE_1_MASK) >>> L1_SHIFT)) = d1 at hm ⊢
    by_cases hc : bit_raised d1 VALID_TABLE_BIT = 0 ∨ bit_raised d1 TABLE_TYPE_BIT = 0 ∨
        table_oaddr d1 = 0
    · rw [if_pos hc] at hm
      simp only [List.mem_singleton, Prod.mk.injEq] at hm
      omega
    · rw [if_neg hc] at hm
      rw [if_neg (fun c => hc (Or.inl c)), if_neg (fun c => hc (Or.inr (Or.inl c))),
        if_neg (fun c => hc (Or.inr (Or.inr c)))]
      rcases List.mem_cons.mp hm with e | e
      · simp only [Prod.mk.injEq] at e
        omega
      · exact walk_page_l2 s _ vaddr d e ht
  · rw [if_neg hl] at hm ⊢
    exact walk_page_l2 s nl vaddr d hm ht

/-- C4, what the code does: at the page level `__pt_walk` tests the table/page
bit of the descriptor and not its valid bit, unlike at the levels 0 to 2.  So
whenever the walk comes to a page-level descriptor `d` with the table/page bit
set, it returns a physical address and not `~0UL`, also when the valid bit of
`d` is clear. -/
theorem pt_walk_page_ignores_valid (s : Machine) (tbl vaddr levels d : Nat)
    (hm : (3, d) ∈ walk_reads s tbl vaddr levels) (ht : bit_raised d TABLE_TYPE_BIT ≠ 0)
    (_hv : bit_raised d VALID_TABLE_BIT = 0) :
    pt_walk s tbl vaddr levels ≠ NOADDR := by
  have key : ∃ w, __pt_walk s tbl vaddr levels = some w ∧ w.ret < 2 ^ 48 := by
    unfold walk_reads at hm
    unfold __pt_walk
    by_cases hl : levels ≥ 4
    · rw [if_pos hl] at hm ⊢
      simp only [] at hm ⊢
      generalize s.mem (entry_addr tbl ((vaddr &&& TABLE_0_MASK) >>> L0_SHIFT)) = d0 at hm ⊢
      by_cases hc : bit_raised d0 VALID_TABLE_BIT = 0 ∨ table_oaddr d0 = 0
      · rw [if_pos hc] at hm
        simp only [List.mem_singleton, Prod.mk.injEq] at hm
        omega
      · rw [if_neg hc] at hm
        rw [if_neg (fun c => hc (Or.inl c)), if_neg (fun c => hc (Or.inr c))]
        rcases List.mem_cons.mp hm with e | e
        · simp only [Prod.mk.injEq] at e
          omega
        · exact walk_page_l1 s _ vaddr levels d e ht
    · rw [if_neg hl] at hm ⊢
      exact walk_page_l1 s tbl vaddr levels d hm ht
  obtain ⟨w, hw, hlt⟩ := key
  simp only [pt_walk, hw, walk_ret, NOADDR]
  omega

/-- C4, witness and failing input: the walk of address 0 in `staleLeafMachine`
reads the page-level descriptor `0x5002`, whose valid bit is clear, and
returns the physical address `0x5000`. -/
theorem pt_walk_page_ignores_valid_witness :
    (3, 0x5002) ∈ walk_reads staleLeafMachine 0x101000 0 4 ∧
    bit_raised 0x5002 VALID_TABLE_BIT = 0 ∧
    pt_walk staleLeafMachine 0x101000 0 4 = 0x5000 ∧
    pt_walk staleLeafMachine 0x101000 0 4 ≠ NOADDR :=
  ⟨by decide, by decide, by decide,
    pt_walk_page_ignores_valid staleLeafMachine 0x101000 0 4 0x5002 (by decide) (by decide)
      (by decide)⟩

/-! ## `unmap_range` with an explicit root -/

/-- For every root that is not null, `unmap_range` returns `-EINVAL` and
changes nothing, whatever the stage: the cases of its `switch` fall through
to `default`. -/
theorem unmap_range_nonnull (P : Platform) (s : Machine) (pgd stage vaddr length : Nat)
    (h : pgd ≠ 0) : unmap_range P s pgd stage vaddr length = some (-EINVAL, s) := by
  simp [unmap_range, h]

/-- C2, the code at the failing input: the page `0x40000000` is installed in
the registered stage-2 root `0x101000` by `mmap_range`, and `unmap_range` on
that root and range returns `-EINVAL`; the page is still mapped afterwards. -/
theorem unmap_range_registered_root_einval :
    (mmap_range virtPlatform bootMachine 0x101000 2 0x40000000 0x40000000 4096 0x40 4).map
        Prod.fst = some 0 ∧
    get_guest_by_s2pgd onePageMachine 0x101000 = some 0 ∧
    pt_walk onePageMachine 0x101000 0x40000000 4 = 0x40000000 ∧
    (unmap_range virtPlatform onePageMachine 0x101000 2 0x40000000 4096).map Prod.fst
        = some (-EINVAL) ∧
    (∀ r, unmap_range virtPlatform onePageMachine 0x101000 2 0x40000000 4096 = some r →
        pt_walk r.2 0x101000 0x40000000 4 = 0x40000000) := by
  have hw : pt_walk onePageMachine 0x101000 0x40000000 4 = 0x40000000 := by decide
  have hu := unmap_range_nonnull virtPlatform onePageMachine 0x101000 2 0x40000000 4096
    (by decide)
  refine ⟨by decide, by decide, hw, by rw [hu]; rfl, fun r hr => ?_⟩
  rw [hu] at hr
  cases hr
  exact hw

/-! ## Page measurement -/

theorem bsearch_some (key : kvm_page_data) (base : List kvm_page_data) (fuel : Nat) :
    ∀ l u i, bsearch key base fuel l u = some i →
      ∃ p, base.get? i = some p ∧ compfunc key p = 0 := by
  induction fuel with
  | zero => intro l u i h; simp [bsearch] at h
  | succ fuel ih =>
    intro l u i h
    rw [bsearch] at h
    by_cases hlu : l < u
    · rw [if_pos hlu] at h
      dsimp only at h
      cases hp : base.get? ((l + u) / 2) with
      | none => rw [hp] at h; cases h
      | some p =>
        rw [hp] at h
        by_cases h1 : compfunc key p < 0
        · simp only [h1, if_true] at h; exact ih _ _ _ h
        · by_cases h2 : compfunc key p > 0
          · simp only [h1, h2, if_true, if_false] at h; exact ih _ _ _ h
          · simp only [h1, h2, if_false, Option.some.injEq] at h
            subst h
            exact ⟨p, hp, by omega⟩
    · rw [if_neg hlu] at h; cases h

/-- When the lookup of `ipa` in the measurement table of guest `g` finds a
record, `verify_range` returns 0 exactly when `calc_hash` succeeds, the
digest equals the stored one and the guest id of the record is the id of
`g`; in every other case it returns `-EFAULT` or `-EINVAL`. -/
theorem verify_range_iff (X : Ext) (mem : Nat → Nat) (g : kvm_guest_t)
    (ipa addr len i : Nat) (hg : get_range_info (some g) ipa = some i) :
    ∃ res, g.hyp_page_data.get? i = some res ∧
      (verify_range X mem (some g) ipa addr len = 0 ↔
        ((X.calc_hash mem addr len).1 = 0 ∧ (X.calc_hash mem addr len).2 = res.sha256 ∧
          res.vmid = g.vmid)) ∧
      (verify_range X mem (some g) ipa addr len = 0 ∨
        verify_range X mem (some g) ipa addr len = -EFAULT ∨
        verify_range X mem (some g) ipa addr len = -EINVAL) := by
  obtain ⟨res, hres, _⟩ := bsearch_some _ _ _ _ _ _ hg
  refine ⟨res, hres, ?_, ?_⟩
  · simp only [verify_range, hg, hres]
    by_cases h1 : res.vmid = g.vmid
    · by_cases h2 : (X.calc_hash mem addr len).1 = 0
      · by_cases h3 : (X.calc_hash mem addr len).2 = res.sha256
        · simp [h1, h2, h3]
        · simp [h1, h2, h3, EINVAL]
      · simp [h1, h2, EFAULT]
    · simp [h1, EFAULT]
  · simp only [verify_range, hg, hres]
    by_cases h1 : res.vmid = g.vmid
    · by_cases h2 : (X.calc_hash mem addr len).1 = 0
      · by_cases h3 : (X.calc_hash mem addr len).2 = res.sha256
        · simp [h1, h2, h3]
        · simp [h1, h2, h3]
      · simp [h1, h2]
    · simp [h1]

/-- The record of `measuredGuest` is found under `0x2000`. -/
theorem verify_range_iff_witness :
    get_range_info (some measuredGuest) 0x2000 = some 0 ∧
    ∃ res, measuredGuest.hyp_page_data.get? 0 = some res ∧
      (verify_range sampleExt (fun _ => 7) (some measuredGuest) 0x2000 0x2000 0x1000 = 0 ↔
        ((sampleExt.calc_hash (fun _ => 7) 0x2000 0x1000).1 = 0 ∧
          (sampleExt.calc_hash (fun _ => 7) 0x2000 0x1000).2 = res.sha256 ∧
          res.vmid = measuredGuest.vmid)) ∧
      (verify_range sampleExt (fun _ => 7) (some measuredGuest) 0x2000 0x2000 0x1000 = 0 ∨
        verify_range sampleExt (fun _ => 7) (some measuredGuest) 0x2000 0x2000 0x1000
          = -EFAULT ∨
        verify_range sampleExt (fun _ => 7) (some measuredGuest) 0x2000 0x2000 0x1000
          = -EINVAL) :=
  ⟨by decide,
    verify_range_iff sampleExt (fun _ => 7) measuredGuest 0x2000 0x2000 0x1000 0 (by decide)⟩

/-- C8, what the code does at the failing input: the pages `0x30000000`,
`0x40000000` and `0xC0000000` of guest 1 are measured with `add_range_info`,
which leaves the table of `threePageGuest`, sorted by address.  The address
`0xC0000000` has a record in it, with the id of the guest and the digest that
`calc_hash` gives for the page.  The lookup compares `0xC0000000` with the
middle record `0x40000000` first; `compfunc` returns the difference `2^31` as
a negative `int`, the search goes on among the lower records and finds
nothing, and `verify_range` returns `-ENOENT`. -/
theorem verify_range_misses_record :
    (add_range_info sampleExt virtPlatform (fun _ => 7)
      (add_range_info sampleExt virtPlatform (fun _ => 7)
        (add_range_info sampleExt virtPlatform (fun _ => 7) (some sampleGuest)
          0x30000000 0x30000000 0x1000).2
        0x40000000 0x40000000 0x1000).2
      0xC0000000 0xC0000000 0x1000).2 = some threePageGuest ∧
    threePageGuest.hyp_page_data.get? 2
      = some { phys_addr := 0xC0000000, vmid := threePageGuest.vmid, len := 0x1000,
               sha256 := (sampleExt.calc_hash (fun _ => 7) 0xC0000000 0x1000).2 } ∧
    (sampleExt.calc_hash (fun _ => 7) 0xC0000000 0x1000).1 = 0 ∧
    get_range_info (some threePageGuest) 0xC0000000 = none ∧
    verify_range sampleExt (fun _ => 7) (some threePageGuest) 0xC0000000 0xC0000000 0x1000
      = -ENOENT := by
  decide

/-- C7, the code at the failing input: a page of guest 1 at the guest address
`0x1000`, backed by the host address `0x2000`, is measured with
`add_range_info`, which succeeds and files the record under `0x2000`.
`verify_range` looks the record up under `0x1000` and returns `-ENOENT`,
whether the contents at `0x2000` are unchanged (all words 7) or overwritten
(all words 9). -/
theorem verify_range_key_mismatch :
    (add_range_info sampleExt virtPlatform (fun _ => 7) (some sampleGuest)
        0x1000 0x2000 0x1000).1 = 0 ∧
    ((add_range_info sampleExt virtPlatform (fun _ => 7) (some sampleGuest)
        0x1000 0x2000 0x1000).2.map (fun g => g.hyp_page_data.map (fun r => r.phys_addr)))
      = some [0x2000] ∧
    verify_range sampleExt (fun _ => 7)
      (add_range_info sampleExt virtPlatform (fun _ => 7) (some sampleGuest)
        0x1000 0x2000 0x1000).2 0x1000 0x2000 0x1000 = -ENOENT ∧
    verify_range sampleExt (fun _ => 9)
      (add_range_info sampleExt virtPlatform (fun _ => 7) (some sampleGuest)
        0x1000 0x2000 0x1000).2 0x1000 0x2000 0x1000 = -ENOENT := by
  decide

/-! ## Memory governor: pages that are mapped as requested already -/

theorem guest_map_loop_stuck (X : Ext) (P : Platform) (s : Machine) (guest : kvm_guest_t)
    (vaddr len prot page_vaddr page_paddr : Nat) (w : walk_t)
    (hlen : page_vaddr < (vaddr + len) % 2 ^ 64)
    (hw : __pt_walk s guest.s2_pgd page_vaddr P.TABLE_LEVELS = some w)
    (hptep : w.ptep ≠ 0) (hret : w.ret = page_paddr)
    (htype : s.mem w.ptep &&& P.TYPE_MASK_STAGE2 = prot &&& P.TYPE_MASK_STAGE2)
    (hprot : s.mem w.ptep &&& P.PROT_MASK_STAGE2 = prot) (fuel : Nat) :
    ∀ mc, guest_map_loop X P s guest vaddr len prot fuel page_vaddr page_paddr mc = none := by
  induction fuel with
  | zero => intro mc; rfl
  | succ fuel ih =>
    intro mc
    rw [guest_map_loop, if_pos hlen, hw]
    simp only [hptep, hret, htype, hprot, ne_eq, not_false_eq_true, and_self, decide_True,
      if_true]
    exact ih _

/-- C6, what the code does: when the first page of the range is mapped in the
guest's stage-2 to the requested physical address with the requested type
and protection already, `guest_map_range` does not return, however many
turns its loop is given: the turn that finds such a page goes on to the next
turn without advancing the page address. -/
theorem guest_map_range_hangs (X : Ext) (P : Platform) (s : Machine) (g : Option Nat)
    (guest : kvm_guest_t) (vaddr paddr len prot : Nat) (w : walk_t)
    (hg : g.bind (fun i => s.guests.get? i) = some guest)
    (hv : vaddr ≠ 0) (hp : paddr ≠ 0) (hl : len % PAGE_SIZE = 0)
    (hval : X.is_range_valid vaddr len guest ≠ 0)
    (hlen : vaddr < (vaddr + len) % 2 ^ 64)
    (hw : __pt_walk s guest.s2_pgd vaddr P.TABLE_LEVELS = some w)
    (hptep : w.ptep ≠ 0) (hret : w.ret = paddr)
    (htype : s.mem w.ptep &&& P.TYPE_MASK_STAGE2 = prot &&& P.TYPE_MASK_STAGE2)
    (hprot : s.mem w.ptep &&& P.PROT_MASK_STAGE2 = prot) (fuel : Nat) :
    guest_map_range X P fuel s g vaddr paddr len prot = none := by
  unfold guest_map_range
  rw [hg]
  simp only [hv, hp, hl, hval, ne_eq, not_true_eq_false, or_self, if_false]
  rw [guest_map_loop_stuck X P s guest vaddr len prot vaddr paddr w hlen hw hptep hret htype
    hprot fuel 0]

/-- C6, witness and failing input: the page `0x40000000` is mapped 1:1 in the
host stage-2 root with the protection `0x40`; a request to map that page to
the same address with the same protection does not return within a million
turns. -/
theorem guest_map_range_hangs_witness :
    __pt_walk devicePageMachine hostGuest.s2_pgd 0x40000000 virtPlatform.TABLE_LEVELS
        = some { ret := 0x40000000, ptep := 0x104000, level := 4 } ∧
    devicePageMachine.mem 0x104000 = 0x40000443 ∧
    guest_map_range sampleExt virtPlatform 1000000 devicePageMachine (some 0)
      0x40000000 0x40000000 4096 0x40 = none :=
  ⟨by decide, by decide,
    guest_map_range_hangs sampleExt virtPlatform devicePageMachine (some 0) hostGuest
      0x40000000 0x40000000 4096 0x40 { ret := 0x40000000, ptep := 0x104000, level := 4 }
      (by decide) (by decide) (by decide) (by decide) (by decide) (by decide) (by decide)
      (by decide) (by decide) (by decide) (by decide) 1000000⟩

/-! ## Page map-then-walk above 1 TiB -/

/-- C5, the code at the failing input: on the state after boot, `mmap_addr`
installs a page for `0x40000000` at the physical address `2 ^ 40`, which is
page-aligned and not above `MAX_PADDR`, and returns 0.  The descriptor that
it stores holds the whole address with the valid bit and the access flag,
but the walk of `0x40000123` returns `0x123` and not `2 ^ 40 + 0x123`: at the
page level the walker masks the descriptor with `PADDR_MASK`, which keeps
bits 12 to 39 only. -/
theorem mmap_addr_page_walk_truncated :
    0x10000000000 ≤ MAX_PADDR ∧ 0x10000000000 % PAGE_SIZE = 0 ∧
    0x40 &&& virtPlatform.PROT_MASK_STAGE2 = 0x40 ∧ 4 < virtPlatform.INVALID_MEMORY ∧
    (mmap_addr virtPlatform bootMachine 0x101000 0x40000000 0x10000000000 PAGE_SIZE 0x40 4 4
      0).1 = 0 ∧
    (mmap_addr virtPlatform bootMachine 0x101000 0x40000000 0x10000000000 PAGE_SIZE 0x40 4 4
      0).2.mem 0x104000 = 0x10000000453 ∧
    (__pt_walk (mmap_addr virtPlatform bootMachine 0x101000 0x40000000 0x10000000000 PAGE_SIZE
      0x40 4 4 0).2 0x101000 0x40000123 4).map (fun w => w.ptep) = some 0x104000 ∧
    pt_walk (mmap_addr virtPlatform bootMachine 0x101000 0x40000000 0x10000000000 PAGE_SIZE
      0x40 4 4 0).2 0x101000 0x40000123 4 = 0x123 ∧
    0x10000000000 ||| (0x40000123 &&& 0xFFF) = 0x10000000123 := by
  decide

/-! ## The walker and the mapper by height -/

theorem walk_h_succ (h : Nat) (s : Machine) (nl vaddr : Nat) :
    walk_h (h + 1) s nl vaddr =
      if bit_raised (s.mem (entry_addr nl (tidx (h + 1) vaddr))) VALID_TABLE_BIT = 0 then none
      else if h + 1 ≤ 2 ∧
          bit_raised (s.mem (entry_addr nl (tidx (h + 1) vaddr))) TABLE_TYPE_BIT = 0
      then some (block_type s vaddr nl (tidx (h + 1) vaddr) 0 (2 - h))
      else if table_oaddr (s.mem (entry_addr nl (tidx (h + 1) vaddr))) = 0 then none
      else walk_h h s (table_oaddr (s.mem (entry_addr nl (tidx (h + 1) vaddr)))) vaddr := by
  rw [walk_h]

theorem map_h_succ (P : Platform) (h : Nat) (s : Machine)
    (tp vaddr paddr range_size prot type vmid : Nat) :
    map_h P (h + 1) s tp vaddr paddr range_size prot type vmid =
      if h + 1 = 2 ∧ range_size = 1 <<< L1_SHIFT then
        mmap_block P s tp (tidx 2 vaddr) paddr tdinfo.l1_blk_oa_mask prot type
      else if h + 1 = 1 ∧ range_size = 1 <<< L2_SHIFT then
        mmap_block P s tp (tidx 1 vaddr) paddr tdinfo.l2_blk_oa_mask prot type
      else
        match mmap_next P s tp (tidx (h + 1) vaddr)
            (table_oaddr (s.mem (entry_addr tp (tidx (h + 1) vaddr)))) vmid
            (decide (h + 1 ≤ 2)) with
        | (none, s1) => (-ENOSPC, s1)
        | (some nl, s1) => map_h P h s1 nl vaddr paddr range_size prot type vmid := by
  rw [map_h]

theorem walk_h_zero (s : Machine) (nl vaddr : Nat) :
    walk_h 0 s nl vaddr = pt_walk_l3 s nl vaddr := by
  rw [walk_h]

theorem map_h_zero (P : Platform) (s : Machine) (tp vaddr paddr range_size prot type vmid : Nat) :
    map_h P 0 s tp vaddr paddr range_size prot type vmid
      = mmap_level3 P s tp vaddr paddr prot type := by
  rw [map_h]

theorem walk_h_one (s : Machine) (nl vaddr : Nat) :
    walk_h 1 s nl vaddr = pt_walk_l2 s nl vaddr := by
  rw [show (1 : Nat) = 0 + 1 from rfl, walk_h_succ, pt_walk_l2]
  simp only [tidx, walk_h_zero]
  simp

theorem walk_h_two (s : Machine) (nl vaddr levels : Nat) (h : levels ≥ 3) :
    walk_h 2 s nl vaddr = pt_walk_l1 s nl vaddr levels := by
  rw [pt_walk_l1, if_pos h, show (2 : Nat) = 1 + 1 from rfl, walk_h_succ]
  simp only [tidx, walk_h_one]
  simp

theorem pt_walk_eq_walk_h (s : Machine) (tbl vaddr levels : Nat) :
    __pt_walk s tbl vaddr levels = walk_h (walk_height levels) s tbl vaddr := by
  unfold __pt_walk walk_height
  by_cases h4 : levels ≥ 4
  · have h3 : levels ≥ 3 := by omega
    rw [if_pos h4, if_pos h4, show (3 : Nat) = 2 + 1 from rfl, walk_h_succ]
    simp only [tidx, walk_h_two s _ vaddr levels h3]
    simp
  · by_cases h3 : levels ≥ 3
    · simp only [h4, h3, if_true, if_false, walk_h_two s _ vaddr levels h3]
    · simp only [h4, h3, if_false, walk_h_one]
      rw [pt_walk_l1, if_neg h3]

theorem map_h_one (P : Platform) (s : Machine)
    (tp vaddr paddr range_size prot type levels vmid : Nat) (h : levels ≥ 2) :
    map_h P 1 s tp vaddr paddr range_size prot type vmid
      = mmap_level2 P s tp vaddr paddr range_size prot type levels vmid := by
  rw [mmap_level2, if_pos h, show (1 : Nat) = 0 + 1 from rfl, map_h_succ]
  simp only [tidx, map_h_zero]
  simp

theorem map_h_two (P : Platform) (s : Machine)
    (tp vaddr paddr range_size prot type levels vmid : Nat) (h : levels ≥ 3) :
    map_h P 2 s tp vaddr paddr range_size prot type vmid
      = mmap_level1 P s tp vaddr paddr range_size prot type levels vmid := by
  rw [mmap_level1, if_pos h, show (2 : Nat) = 1 + 1 from rfl, map_h_succ]
  simp only [tidx, map_h_one P _ _ vaddr paddr range_size prot type levels vmid (by omega)]
  simp

theorem mmap_addr_eq_map_h (P : Platform) (s : Machine)
    (pgd vaddr paddr range_size prot type levels vmid : Nat)
    (hp : pgd ≠ 0) (hv : vaddr ≤ MAX_VADDR) (ha : paddr ≤ MAX_PADDR) :
    mmap_addr P s pgd vaddr paddr range_size prot type levels vmid
      = map_h P (map_height levels) s pgd vaddr paddr range_size prot type vmid := by
  have hc : ¬ (pgd = 0 ∨ vaddr > MAX_VADDR ∨ paddr > MAX_PADDR) := by
    rintro (h | h | h) <;> omega
  unfold mmap_addr map_height
  rw [if_neg hc]
  by_cases h4 : levels ≥ 4
  · rw [if_pos h4, if_pos h4, show (3 : Nat) = 2 + 1 from rfl, map_h_succ]
    simp only [tidx, map_h_two P _ _ vaddr paddr range_size prot type levels vmid (by omega)]
    simp
  · by_cases h3 : levels ≥ 3
    · simp only [h4, h3, if_true, if_false, map_h_two P s _ vaddr paddr range_size prot type
        levels vmid h3]
    · by_cases h2 : levels ≥ 2
      · simp only [h4, h3, h2, if_true, if_false, map_h_one P s _ vaddr paddr range_size prot
          type levels vmid h2]
        rw [mmap_level1, if_neg h3]
      · simp only [h4, h3, h2, if_false]
        rw [mmap_level1, if_neg h3, mmap_level2, if_neg h2, map_h_zero]

/-! ## Masks as arithmetic -/

/-- Masking with `n` one bits that start at bit `a`. -/
theorem and_block_mask (x a n : Nat) :
    x &&& (2 ^ a * (2 ^ n - 1)) = 2 ^ a * (x % 2 ^ (a + n) / 2 ^ a) := by
  apply Nat.eq_of_testBit_eq
  intro i
  rw [Nat.testBit_and, Nat.testBit_mul_pow_two, Nat.testBit_mul_pow_two,
    Nat.testBit_two_pow_sub_one, ← Nat.shiftRight_eq_div_pow, Nat.testBit_shiftRight,
    Nat.testBit_mod_two_pow]
  by_cases h : i ≥ a
  · have e : a + (i - a) = i := by omega
    rw [e]
    by_cases h2 : i - a < n
    · have h3 : i < a + n := by omega
      simp [h, h2, h3]
    · have h3 : ¬ i < a + n := by omega
      simp [h, h2, h3]
  · simp [h]

theorem and_table_oa (x : Nat) :
    x &&& tdinfo.table_oa_mask = 4096 * (x % 2 ^ 48 / 4096) := by
  have h := and_block_mask x 12 36
  have e : tdinfo.table_oa_mask = 2 ^ 12 * (2 ^ 36 - 1) := by decide
  rw [e, h]; norm_num

theorem and_l1_oa (x : Nat) :
    x &&& tdinfo.l1_blk_oa_mask = 2 ^ 30 * (x % 2 ^ 48 / 2 ^ 30) := by
  have h := and_block_mask x 30 18
  have e : tdinfo.l1_blk_oa_mask = 2 ^ 30 * (2 ^ 18 - 1) := by decide
  rw [e, h]

theorem and_l2_oa (x : Nat) :
    x &&& tdinfo.l2_blk_oa_mask = 2 ^ 21 * (x % 2 ^ 48 / 2 ^ 21) := by
  have h := and_block_mask x 21 27
  have e : tdinfo.l2_blk_oa_mask = 2 ^ 21 * (2 ^ 27 - 1) := by decide
  rw [e, h]

theorem and_paddr_mask (x : Nat) : x &&& PADDR_MASK = 4096 * (x % 2 ^ 40 / 4096) := by
  have h := and_block_mask x 12 28
  have e : PADDR_MASK = 2 ^ 12 * (2 ^ 28 - 1) := by decide
  rw [e, h]; norm_num

theorem and_not_page_off (x : Nat) :
    x &&& (2 ^ 64 - 1 - PAGE_OFF_MASK) = 4096 * (x % 2 ^ 64 / 4096) := by
  have h := and_block_mask x 12 52
  have e : 2 ^ 64 - 1 - PAGE_OFF_MASK = 2 ^ 12 * (2 ^ 52 - 1) := by decide
  rw [e, h]; norm_num

theorem and_l1_offt (x : Nat) : x &&& tdinfo.l1_blk_offt_mask = x % 2 ^ 30 := by
  have e : tdinfo.l1_blk_offt_mask = 2 ^ 30 - 1 := by decide
  rw [e, Nat.and_pow_two_sub_one_eq_mod]

theorem and_l2_offt (x : Nat) : x &&& tdinfo.l2_blk_offt_mask = x % 2 ^ 21 := by
  have e : tdinfo.l2_blk_offt_mask = 2 ^ 21 - 1 := by decide
  rw [e, Nat.and_pow_two_sub_one_eq_mod]

theorem and_page_off (x : Nat) : x &&& PAGE_OFF_MASK = x % 4096 := by
  have e : PAGE_OFF_MASK = 2 ^ 12 - 1 := by decide
  rw [e, Nat.and_pow_two_sub_one_eq_mod]

theorem and_vaddr_mask (x : Nat) : x &&& VADDR_MASK = x % 2 ^ 48 := by
  have e : VADDR_MASK = 2 ^ 48 - 1 := by decide
  rw [e, Nat.and_pow_two_sub_one_eq_mod]

/-- The index of an address in a table of height `h` is the 9-bit field of
the address at bit `12 + 9 * h`. -/
theorem tidx_eq (h v : Nat) (hh : h ≤ 3) : tidx h v = v / 2 ^ (12 + 9 * h) % 512 := by
  have h0 := and_block_mask v 12 9
  have h1 := and_block_mask v 21 9
  have h2 := and_block_mask v 30 9
  have h3 := and_block_mask v 39 9
  have e0 : TABLE_3_MASK = 2 ^ 12 * (2 ^ 9 - 1) := by decide
  have e1 : TABLE_2_MASK = 2 ^ 21 * (2 ^ 9 - 1) := by decide
  have e2 : TABLE_1_MASK = 2 ^ 30 * (2 ^ 9 - 1) := by decide
  have e3 : TABLE_0_MASK = 2 ^ 39 * (2 ^ 9 - 1) := by decide
  unfold tidx
  rcases (by omega : h = 0 ∨ h = 1 ∨ h = 2 ∨ h = 3) with e | e | e | e <;> subst e
  · simp only [if_true, e0, h0, L3_SHIFT, Nat.shiftRight_eq_div_pow]; omega
  · simp only [if_true, e1, h1, L2_SHIFT, Nat.shiftRight_eq_div_pow]
    norm_num; omega
  · simp only [if_true, e2, h2, L1_SHIFT, Nat.shiftRight_eq_div_pow]
    norm_num; omega
  · simp only [e3, h3, L0_SHIFT, Nat.shiftRight_eq_div_pow]
    norm_num; omega

theorem tidx_lt (h v : Nat) (hh : h ≤ 3) : tidx h v < 512 := by
  rw [tidx_eq h v hh]; exact Nat.mod_lt _ (by norm_num)

theorem bit_raised_type (c : Nat) : bit_raised c TABLE_TYPE_BIT = 2 * (c % 4 / 2) := by
  have h := and_block_mask c 1 1
  simp only [bit_raised, TABLE_TYPE_BIT]
  norm_num at h ⊢
  exact h

theorem table_oaddr_eq (d : Nat) :
    table_oaddr d = if d % 4 / 2 = 0 then 0 else 4096 * (d % 2 ^ 48 / 4096) := by
  unfold table_oaddr
  rw [bit_raised_type, and_table_oa]
  by_cases h : d % 4 / 2 = 0
  · simp [h]
  · rw [if_pos (by omega), if_neg h]

/-- A mask that lies within another one annihilates what the larger one
annihilates. -/
theorem and_eq_zero_of_sub (x m big : Nat) (hx : x &&& big = 0) (hm : m &&& big = m) :
    x &&& m = 0 := by
  rw [← hm, ← Nat.and_assoc, Nat.and_comm x m, Nat.and_assoc, hx, Nat.and_zero]

theorem or_two_pow_of_clear (x k : Nat) (h : x / 2 ^ k % 2 = 0) : x ||| 2 ^ k = x + 2 ^ k := by
  apply Nat.eq_of_testBit_eq
  intro i
  have hx : x.testBit k = false := by
    rw [Nat.testBit_to_div_mod]; simp [h]
  by_cases hik : i = k
  · subst hik
    rw [Nat.testBit_or, hx, Nat.add_comm, Nat.testBit_two_pow_add_eq, hx]
    simp
  · rw [Nat.testBit_or, Nat.testBit_two_pow_of_ne (Ne.symm hik), Bool.or_false]
    rcases Nat.lt_or_gt_of_ne hik with l | g
    · rw [Nat.add_comm, Nat.testBit_two_pow_add_gt l]
    · rw [Nat.testBit_to_div_mod, Nat.testBit_to_div_mod]
      congr 2
      obtain ⟨d, rfl⟩ : ∃ d, i = k + 1 + d := ⟨i - k - 1, by omega⟩
      have e1 : x / 2 ^ (k + 1 + d) = x / 2 ^ k / 2 / 2 ^ d := by
        rw [Nat.div_div_eq_div_mul, Nat.div_div_eq_div_mul]; congr 1; ring
      have e2 : (x + 2 ^ k) / 2 ^ (k + 1 + d) = (x + 2 ^ k) / 2 ^ k / 2 / 2 ^ d := by
        rw [Nat.div_div_eq_div_mul, Nat.div_div_eq_div_mul]; congr 1; ring
      rw [e1, e2, Nat.add_div_right _ (Nat.two_pow_pos k)]
      have : (x / 2 ^ k + 1) / 2 = x / 2 ^ k / 2 := by omega
      rw [this]

/-! ## Effects of the elementary steps -/

@[simp] theorem write_mem (s : Machine) (a v x : Nat) :
    (s.write a v).mem x = if x = a then v else s.mem x := rfl

@[simp] theorem write_props (s : Machine) (a v : Nat) :
    (s.write a v).table_props = s.table_props := rfl

@[simp] theorem write_guests (s : Machine) (a v : Nat) : (s.write a v).guests = s.guests := rfl

@[simp] theorem write_invalidate (s : Machine) (a v : Nat) :
    (s.write a v).invalidate = s.invalidate := rfl

@[simp] theorem write_ttbr0 (s : Machine) (a v : Nat) :
    (s.write a v).ttbr0_el2 = s.ttbr0_el2 := rfl

@[simp] theorem write_vttbr (s : Machine) (a v : Nat) :
    (s.write a v).vttbr_el2 = s.vttbr_el2 := rfl

@[simp] theorem write_init_ready (s : Machine) (a v : Nat) :
    (s.write a v).init_ready = s.init_ready := rfl

theorem write_write (s : Machine) (a v1 v2 : Nat) :
    (s.write a v1).write a v2 = s.write a v2 := by
  simp only [Machine.write]
  congr 1
  funext x
  by_cases h : x = a <;> simp [h]

@[simp] theorem release_mem (s : Machine) (P : Platform) (i x : Nat) :
    (s.release P i).mem x
      = if table_addr P i ≤ x ∧ x < table_addr P i + 4096 then 0 else s.mem x := rfl

@[simp] theorem release_props (s : Machine) (P : Platform) (i j : Nat) :
    (s.release P i).table_props j = if j = i then 0 else s.table_props j := rfl

@[simp] theorem release_guests (s : Machine) (P : Platform) (i : Nat) :
    (s.release P i).guests = s.guests := rfl

@[simp] theorem release_invalidate (s : Machine) (P : Platform) (i : Nat) :
    (s.release P i).invalidate = s.invalidate := rfl

@[simp] theorem release_ttbr0 (s : Machine) (P : Platform) (i : Nat) :
    (s.release P i).ttbr0_el2 = s.ttbr0_el2 := rfl

@[simp] theorem release_vttbr (s : Machine) (P : Platform) (i : Nat) :
    (s.release P i).vttbr_el2 = s.vttbr_el2 := rfl

@[simp] theorem release_init_ready (s : Machine) (P : Platform) (i : Nat) :
    (s.release P i).init_ready = s.init_ready := rfl

theorem free_table_loop_miss (P : Platform) (table : Nat) (n : Nat) :
    ∀ i r, (∀ j, i ≤ j → j < i + n → table ≠ table_addr P j) →
      free_table_loop P table i n r = r := by
  induction n with
  | zero => intro i r _; rfl
  | succ n ih =>
    intro i r h
    obtain ⟨res, s⟩ := r
    rw [free_table_loop, if_neg (h i (le_refl i) (by omega))]
    exact ih (i + 1) (res, s) (fun j h1 h2 => h j (by omega) (by omega))

theorem free_table_loop_hit (P : Platform) (table k : Nat) (hk : table = table_addr P k)
    (n : Nat) :
    ∀ i res s, i ≤ k → k < i + n →
      free_table_loop P table i n (res, s) = (0, s.release P k) := by
  induction n with
  | zero => intro i res s h1 h2; omega
  | succ n ih =>
    intro i res s h1 h2
    rcases Nat.eq_or_lt_of_le h1 with e | l
    · subst e
      rw [free_table_loop, if_pos hk]
      apply free_table_loop_miss
      intro j hj1 hj2 hc
      have := table_addr_inj P _ _ (hk.symm.trans hc)
      omega
    · have hne : table ≠ table_addr P i := by
        intro hc
        have := table_addr_inj P _ _ (hk.symm.trans hc)
        omega
      rw [free_table_loop, if_neg hne]
      exact ih (i + 1) res s (by omega) (by omega)

/-- What `free_table` does: a slot of the arena is zeroed together with its
property word; any other pointer is refused and nothing changes. -/
theorem free_table_spec (P : Platform) (s : Machine) (table : Nat) :
    (∀ k, k < NUM_TABLES → table = table_addr P k →
        free_table P s table = (0, s.release P k)) ∧
    ((∀ k, k < NUM_TABLES → table ≠ table_addr P k) →
        free_table P s table = (-ENOENT, s)) := by
  constructor
  · intro k hk he
    exact free_table_loop_hit P table k he NUM_TABLES 0 _ s (Nat.zero_le _) (by omega)
  · intro h
    exact free_table_loop_miss P table NUM_TABLES 0 _ (fun j _ hj => h j (by omega))

/-- What `alloc_table` does, in terms of the slot that it takes. -/
theorem alloc_table_cases (P : Platform) (s : Machine) (vm : Nat) :
    ((∀ i, i < NUM_TABLES → bit_raised (s.table_props i) VALID_TABLE_BIT ≠ 0) ∧
        alloc_table P s vm = (0, s)) ∨
    ∃ k, k < NUM_TABLES ∧ bit_raised (s.table_props k) VALID_TABLE_BIT = 0 ∧
      alloc_table P s vm = (table_addr P k, { s with table_props := fun j =>
        if j = k then (vm % 256) * 256 + 1 else s.table_props j }) := by
  cases hs : alloc_scan s.table_props 0 NUM_TABLES with
  | none =>
    left
    have hall := (alloc_scan_none _ _ _).1 hs
    exact ⟨fun i hi => hall i (Nat.zero_le i) (by omega), by simp [alloc_table, hs]⟩
  | some k =>
    right
    obtain ⟨_, hk, hfree, _⟩ := (alloc_scan_some _ _ _ _).1 hs
    exact ⟨k, by omega, hfree, by unfold alloc_table; rw [hs]; simp only [alloc_word]⟩

/-! ## Descriptors -/

theorem table_desc_eq (t : Nat) (ht : t % 4096 = 0) :
    bit_set (bit_set t VALID_TABLE_BIT) TABLE_TYPE_BIT = t + 3 := by
  simp only [bit_set, VALID_TABLE_BIT, TABLE_TYPE_BIT, Nat.shiftLeft_zero]
  rw [or_one_of_even t (by omega)]
  have h := or_two_pow_of_clear (t + 1) 1 (by omega)
  have e : (1 : Nat) <<< 1 = 2 ^ 1 := by decide
  rw [e, h]; norm_num

theorem table_desc_oaddr (t : Nat) (ht : t % 4096 = 0) (hlt : t < 2 ^ 48) :
    table_oaddr (t + 3) = t ∧ bit_raised (t + 3) VALID_TABLE_BIT ≠ 0 := by
  rw [table_oaddr_eq, bit_raised_valid]
  constructor
  · rw [if_neg (by omega)]; omega
  · omega

theorem table_oaddr_props (d : Nat) (h : table_oaddr d ≠ 0) :
    table_oaddr d % 4096 = 0 ∧ table_oaddr d < 2 ^ 48 ∧
    d &&& tdinfo.table_oa_mask = table_oaddr d := by
  rw [table_oaddr_eq] at h ⊢
  by_cases hd : d % 4 / 2 = 0
  · simp [hd] at h
  · rw [if_neg hd, and_table_oa]
    refine ⟨by omega, by omega, rfl⟩

theorem leaf_bits_and (base prot type m : Nat) (hp : prot &&& m = 0)
    (ht : (type <<< 2) % 2 ^ 64 &&& m = 0) (h0 : 1 &&& m = 0) (h10 : 1024 &&& m = 0) :
    bit_set (bit_set (base ||| prot ||| (type <<< 2) % 2 ^ 64) VALID_TABLE_BIT) AF_BIT &&& m
      = base &&& m := by
  have e0 : (1 : Nat) <<< 0 = 1 := by decide
  have e10 : (1 : Nat) <<< 10 = 1024 := by decide
  simp only [bit_set, VALID_TABLE_BIT, AF_BIT, e0, e10, Nat.and_distrib_right, hp, ht, h0, h10,
    Nat.or_zero]

theorem leaf_bits_valid (x : Nat) :
    bit_raised (bit_set (bit_set x VALID_TABLE_BIT) AF_BIT) VALID_TABLE_BIT ≠ 0 := by
  rw [bit_raised_valid]
  have e0 : (1 : Nat) <<< 0 = 1 := by decide
  have e10 : (1 : Nat) <<< 10 = 1024 := by decide
  simp only [bit_set, VALID_TABLE_BIT, AF_BIT, e0, e10]
  have : (x ||| 1 ||| 1024) % 2 = 1 := by
    rw [Nat.or_mod_two_eq_one, Nat.or_mod_two_eq_one]; simp
  omega

theorem attr_type_shift (type : Nat) (h : type < 1024) :
    (type <<< 2) % 2 ^ 64 = 4 * type := by
  rw [Nat.shiftLeft_eq]; omega

/-- The attribute bits of a descriptor do not reach into a mask that lies
within the output address and the table bit. -/
theorem attr_and_zero (prot type m : Nat) (ha : attr_ok prot type)
    (hm : m &&& 0x0000FFFFFFFFF003 = m) (hm2 : m % 2 = 0) (hm4 : m &&& 0xFFC = 0) :
    prot &&& m = 0 ∧ (type <<< 2) % 2 ^ 64 &&& m = 0 ∧ 1 &&& m = 0 ∧ 1024 &&& m = 0 := by
  obtain ⟨_, hp, ht⟩ := ha
  refine ⟨and_eq_zero_of_sub prot m _ hp hm, ?_, ?_, ?_⟩
  · rw [attr_type_shift type ht]
    have h1 : 4 * type &&& 0xFFC = 4 * type := by
      have := and_block_mask (4 * type) 2 10
      norm_num at this ⊢
      rw [this]; omega
    rw [← h1, Nat.and_assoc, Nat.and_comm 0xFFC m, hm4, Nat.and_zero]
  · rw [Nat.one_and_eq_mod_two]; exact hm2
  · have h1 : (1024 : Nat) &&& 0xFFC = 1024 := by decide
    rw [← h1, Nat.and_assoc, Nat.and_comm 0xFFC m, hm4, Nat.and_zero]

theorem mmap_level3_eq (P : Platform) (s : Machine) (tp vaddr paddr prot type : Nat) :
    mmap_level3 P s tp vaddr paddr prot type
      = (0, s.write (entry_addr tp (tidx 0 vaddr))
          (if paddr &&& tdinfo.table_oa_mask = 0 ∨ type = P.INVALID_MEMORY then 0
           else page_desc paddr prot type)) := by
  have e : tidx 0 vaddr = (vaddr &&& TABLE_3_MASK) >>> L3_SHIFT := by simp [tidx]
  simp only [mmap_level3, mmap_finalize, ← e, write_mem, if_true, write_write]
  by_cases h0 : paddr &&& tdinfo.table_oa_mask = 0
  · simp [h0]
  · have hne : bit_set (paddr &&& tdinfo.table_oa_mask) TABLE_TYPE_BIT ≠ 0 := by
      intro hc
      have : paddr &&& tdinfo.table_oa_mask ≤ 0 := by
        rw [← hc]; simp only [bit_set]
        exact Nat.le_of_testBit (fun i hi => by rw [Nat.testBit_or, hi]; rfl)
      omega
    by_cases ht : type = P.INVALID_MEMORY
    · simp [h0, ht]
    · simp [h0, ht, hne, page_desc]

theorem mmap_block_eq (P : Platform) (s : Machine) (tp noff paddr oa_mask prot type : Nat) :
    mmap_block P s tp noff paddr oa_mask prot type
      = (0, (if bit_raised (s.mem (entry_addr tp noff)) TABLE_TYPE_BIT ≠ 0 then
              (free_table P s (table_oaddr (s.mem (entry_addr tp noff)))).2 else s).write
            (entry_addr tp noff)
            (if paddr &&& oa_mask = 0 ∨ type = P.INVALID_MEMORY then 0
             else block_desc paddr oa_mask prot type)) := by
  simp only [mmap_block, mmap_finalize, write_mem, if_true, write_write]
  by_cases h0 : paddr &&& oa_mask = 0
  · simp [h0]
  · by_cases ht : type = P.INVALID_MEMORY
    · simp [h0, ht]
    · simp [h0, ht, block_desc]

/-! ## Walks through single descriptors -/

theorem walk_h_zero_entry (h : Nat) (s : Machine) (nl v : Nat)
    (he : s.mem (entry_addr nl (tidx h v)) = 0) : walk_h h s nl v = none := by
  cases h with
  | zero =>
    have e : tidx 0 v = (v &&& TABLE_3_MASK) >>> L3_SHIFT := by simp [tidx]
    rw [walk_h_zero, pt_walk_l3, ← e, he]
    simp [bit_raised]
  | succ h =>
    rw [walk_h_succ, he]
    simp [bit_raised]

theorem walk_h_table_entry (h : Nat) (s : Machine) (nl v : Nat)
    (hv : bit_raised (s.mem (entry_addr nl (tidx (h + 1) v))) VALID_TABLE_BIT ≠ 0)
    (ht : table_oaddr (s.mem (entry_addr nl (tidx (h + 1) v))) ≠ 0) :
    walk_h (h + 1) s nl v
      = walk_h h s (table_oaddr (s.mem (entry_addr nl (tidx (h + 1) v)))) v := by
  have hb : bit_raised (s.mem (entry_addr nl (tidx (h + 1) v))) TABLE_TYPE_BIT ≠ 0 := by
    intro hc
    apply ht
    simp [table_oaddr, hc]
  rw [walk_h_succ, if_neg hv, if_neg (fun hc => hb hc.2), if_neg ht]

theorem block_type_page (s : Machine) (v nl noff addr : Nat) :
    block_type s v nl noff addr 4
      = { ret := addr &&& (2 ^ 64 - 1 - PAGE_OFF_MASK) ||| v &&& PAGE_OFF_MASK,
          ptep := entry_addr nl noff, level := 4 } := by
  simp [block_type]

theorem block_type_l2 (s : Machine) (v nl noff addr : Nat) :
    block_type s v nl noff addr 2
      = { ret := s.mem (entry_addr nl noff) &&& tdinfo.l2_blk_oa_mask
                 ||| v &&& tdinfo.l2_blk_offt_mask,
          ptep := entry_addr nl noff, level := 2 } := by
  simp [block_type]

theorem block_type_l1 (s : Machine) (v nl noff addr : Nat) :
    block_type s v nl noff addr 1
      = { ret := s.mem (entry_addr nl noff) &&& tdinfo.l1_blk_oa_mask
                 ||| v &&& tdinfo.l1_blk_offt_mask,
          ptep := entry_addr nl noff, level := 1 } := by
  simp [block_type]

theorem walk_h_page_entry (s : Machine) (nl v paddr prot type : Nat) (ha : attr_ok prot type)
    (he : s.mem (entry_addr nl (tidx 0 v)) = page_desc paddr prot type) :
    walk_h 0 s nl v = some { ret := leaf_ret 0 paddr v, ptep := entry_addr nl (tidx 0 v),
                             level := 4 } := by
  have e : tidx 0 v = (v &&& TABLE_3_MASK) >>> L3_SHIFT := by simp [tidx]
  obtain ⟨p2, t2, o2, a2⟩ := attr_and_zero prot type 2 ha (by decide) (by decide) (by decide)
  obtain ⟨p3, t3, o3, a3⟩ := attr_and_zero prot type PADDR_MASK ha (by decide) (by decide)
    (by decide)
  have hbase : bit_set (paddr &&& tdinfo.table_oa_mask) TABLE_TYPE_BIT
      = 4096 * (paddr % 2 ^ 48 / 4096) + 2 := by
    rw [and_table_oa]
    simp only [bit_set, TABLE_TYPE_BIT]
    have h := or_two_pow_of_clear (4096 * (paddr % 2 ^ 48 / 4096)) 1 (by omega)
    have e1 : (1 : Nat) <<< 1 = 2 ^ 1 := by decide
    rw [e1, h]; norm_num
  have e1 : (1 : Nat) <<< TABLE_TYPE_BIT = 2 := by decide
  have htype : bit_raised (page_desc paddr prot type) TABLE_TYPE_BIT ≠ 0 := by
    simp only [bit_raised, e1, page_desc]
    rw [leaf_bits_and _ prot type 2 p2 t2 o2 a2, hbase]
    have := bit_raised_type (4096 * (paddr % 2 ^ 48 / 4096) + 2)
    simp only [bit_raised, e1] at this
    rw [this]; omega
  have hpm : page_desc paddr prot type &&& PADDR_MASK = 2 ^ 12 * (paddr % 2 ^ 40 / 4096) := by
    simp only [page_desc]
    rw [leaf_bits_and _ prot type PADDR_MASK p3 t3 o3 a3, hbase, and_paddr_mask]
    omega
  rw [walk_h_zero, pt_walk_l3, ← e, he, if_neg htype, block_type_page, hpm, and_not_page_off,
    and_page_off]
  have h1 : 4096 * (2 ^ 12 * (paddr % 2 ^ 40 / 4096) % 2 ^ 64 / 4096)
      = 2 ^ 12 * (paddr % 2 ^ 40 / 4096) := by omega
  rw [h1, ← Nat.mul_add_lt_is_or (by omega)]
  simp only [leaf_ret, if_true]

theorem walk_h_block_entry (h : Nat) (s : Machine) (nl v paddr prot type : Nat)
    (hh : h = 0 ∨ h = 1) (ha : attr_ok prot type)
    (he : s.mem (entry_addr nl (tidx (h + 1) v))
      = block_desc paddr (leaf_mask (h + 1)) prot type) :
    walk_h (h + 1) s nl v
      = some { ret := leaf_ret (h + 1) paddr v, ptep := entry_addr nl (tidx (h + 1) v),
               level := 2 - h } := by
  obtain ⟨p2, t2, o2, a2⟩ := attr_and_zero prot type 2 ha (by decide) (by decide) (by decide)
  have hvalid : bit_raised (block_desc paddr (leaf_mask (h + 1)) prot type) VALID_TABLE_BIT ≠ 0 :=
    leaf_bits_valid _
  have e1 : (1 : Nat) <<< TABLE_TYPE_BIT = 2 := by decide
  have hm2 : leaf_mask (h + 1) &&& 2 = 0 := by
    rcases hh with e | e <;> subst e <;> decide
  have htype : bit_raised (block_desc paddr (leaf_mask (h + 1)) prot type) TABLE_TYPE_BIT = 0 := by
    simp only [bit_raised, e1, block_desc]
    rw [leaf_bits_and _ prot type 2 p2 t2 o2 a2, Nat.and_assoc, hm2, Nat.and_zero]
  rw [walk_h_succ, he, if_neg hvalid, if_pos ⟨by omega, htype⟩]
  congr 1
  rcases hh with e | e <;> subst e
  · obtain ⟨p3, t3, o3, a3⟩ := attr_and_zero prot type tdinfo.l2_blk_oa_mask ha (by decide)
      (by decide) (by decide)
    have hl : leaf_mask (0 + 1) = tdinfo.l2_blk_oa_mask := by decide
    rw [show 2 - 0 = 2 from rfl, block_type_l2, he, hl]
    simp only [block_desc]
    rw [leaf_bits_and _ prot type _ p3 t3 o3 a3, Nat.and_assoc, Nat.and_self, and_l2_oa,
      and_l2_offt, ← Nat.mul_add_lt_is_or (Nat.mod_lt _ (by norm_num))]
    simp only [leaf_ret, span]
    norm_num
  · obtain ⟨p3, t3, o3, a3⟩ := attr_and_zero prot type tdinfo.l1_blk_oa_mask ha (by decide)
      (by decide) (by decide)
    have hl : leaf_mask (1 + 1) = tdinfo.l1_blk_oa_mask := by decide
    rw [show 2 - 1 = 1 from rfl, block_type_l1, he, hl]
    simp only [block_desc]
    rw [leaf_bits_and _ prot type _ p3 t3 o3 a3, Nat.and_assoc, Nat.and_self, and_l1_oa,
      and_l1_offt, ← Nat.mul_add_lt_is_or (Nat.mod_lt _ (by norm_num))]
    simp only [leaf_ret, span]
    norm_num

/-! ## Tables of a tree -/

theorem entry_addr_inj (t t' j j' : Nat) (ht : t % 4096 = 0) (ht' : t' % 4096 = 0)
    (hj : j < 512) (hj' : j' < 512) (h : entry_addr t j = entry_addr t' j') : t = t' ∧ j = j' := by
  unfold entry_addr at h; omega

theorem entry_addr_range (t j : Nat) (hj : j < 512) :
    t ≤ entry_addr t j ∧ entry_addr t j < t + 4096 := by
  unfold entry_addr; omega

theorem range_disjoint (t t' x : Nat) (ht : t % 4096 = 0) (ht' : t' % 4096 = 0)
    (h1 : t ≤ x ∧ x < t + 4096) (h2 : t' ≤ x ∧ x < t' + 4096) : t = t' := by
  omega

theorem table_addr_aligned (P : Platform) (hP : arena_ok P) (i : Nat) (hi : i < NUM_TABLES) :
    table_addr P i % 4096 = 0 ∧ table_addr P i ≠ 0 ∧ table_addr P i < 2 ^ 48 := by
  obtain ⟨h1, h2, h3⟩ := hP
  unfold table_addr
  simp only [NUM_TABLES] at h3 hi
  omega

/-- A table of the tree is not the table of a free slot, so the two have no
address in common. -/
theorem Tree.not_in_free {P : Platform} {s : Machine} {ht : Nat → Option Nat}
    {par : Nat → Nat × Nat} {root hr : Nat} (T : Tree P s ht par root hr) (hP : arena_ok P)
    (t h x : Nat) (hh : ht t = some h) (hx : t ≤ x ∧ x < t + 4096)
    (f : Nat) (hf : is_free P s f) : ¬ (f ≤ x ∧ x < f + 4096) := by
  intro hc
  obtain ⟨i, hi, rfl, hb⟩ := hf
  have ha := table_addr_aligned P hP i hi
  have := range_disjoint t (table_addr P i) x (T.aligned t h hh).1 ha.1 hx hc
  exact T.in_use t h hh ⟨i, hi, this, hb⟩

/-- Two tables of a tree with different heights are different tables. -/
theorem Tree.ne_of_height {P : Platform} {s : Machine} {ht : Nat → Option Nat}
    {par : Nat → Nat × Nat} {root hr : Nat} (_T : Tree P s ht par root hr)
    (t t' h h' : Nat) (hh : ht t = some h) (hh' : ht t' = some h') (hne : h ≠ h') : t ≠ t' := by
  intro e; subst e; rw [hh] at hh'; cases hh'; exact hne rfl

/-- Storing a value in an entry keeps the tree, provided that a value with a
table address in it is valid and refers to a table of the next lower height
that has this entry as its parent. -/
theorem Tree.write {P : Platform} {s : Machine} {ht : Nat → Option Nat}
    {par : Nat → Nat × Nat} {root hr : Nat} (T : Tree P s ht par root hr)
    (tp k j v : Nat) (hk : ht tp = some k) (hj : j < 512)
    (hv : ∀ h, k = h + 1 → table_oaddr v ≠ 0 →
      bit_raised v VALID_TABLE_BIT ≠ 0 ∧ ht (table_oaddr v) = some h ∧
      par (table_oaddr v) = (tp, j)) :
    Tree P (s.write (entry_addr tp j) v) ht par root hr := by
  refine ⟨T.root_ht, T.bound, T.aligned, ?_, ?_⟩
  · intro t h hh hf
    exact T.in_use t h hh hf
  · intro t h j' hh hj' hne
    by_cases he : entry_addr t j' = entry_addr tp j
    · obtain ⟨e1, e2⟩ := entry_addr_inj t tp j' j (T.aligned t _ hh).1 (T.aligned tp _ hk).1
        hj' hj he
      subst e1; subst e2
      rw [write_mem, if_pos rfl] at hne ⊢
      rw [hk] at hh
      exact hv h (by cases hh; rfl) hne
    · rw [write_mem, if_neg he] at hne ⊢
      exact T.child t h j' hh hj' hne

/-- A walk from a table of height `h` reads the table itself and tables of
lower heights only. -/
theorem walk_d_congr {P : Platform} {s : Machine} {ht : Nat → Option Nat}
    {par : Nat → Nat × Nat} {root hr : Nat} (T : Tree P s ht par root hr) (s2 : Machine)
    (h : Nat) : ∀ (x v : Nat), h ≤ 3 → ht x = some h →
      (∀ a, ((x ≤ a ∧ a < x + 4096) ∨ ∃ t k, ht t = some k ∧ k < h ∧ t ≤ a ∧ a < t + 4096) →
        s2.mem a = s.mem a) →
      walk_d h s2 x v = walk_d h s x v := by
  induction h with
  | zero =>
    intro x v _ _ hag
    have e : tidx 0 v = (v &&& TABLE_3_MASK) >>> L3_SHIFT := by simp [tidx]
    have hr := entry_addr_range x (tidx 0 v) (tidx_lt 0 v (by omega))
    have hm := hag (entry_addr x (tidx 0 v)) (Or.inl hr)
    simp only [walk_d, walk_h_zero, pt_walk_l3, ← e, hm]
    by_cases hb : bit_raised (s.mem (entry_addr x (tidx 0 v))) TABLE_TYPE_BIT = 0
    · simp [hb]
    · simp only [hb, if_false, Option.map_some', block_type_page, hm]
  | succ h ih =>
    intro x v hle hx hag
    have hr := entry_addr_range x (tidx (h + 1) v) (tidx_lt (h + 1) v hle)
    have hm := hag (entry_addr x (tidx (h + 1) v)) (Or.inl hr)
    simp only [walk_d]
    rw [walk_h_succ, walk_h_succ, hm]
    by_cases hv : bit_raised (s.mem (entry_addr x (tidx (h + 1) v))) VALID_TABLE_BIT = 0
    · rw [if_pos hv, if_pos hv]; rfl
    · rw [if_neg hv, if_neg hv]
      by_cases hb : h + 1 ≤ 2 ∧
          bit_raised (s.mem (entry_addr x (tidx (h + 1) v))) TABLE_TYPE_BIT = 0
      · rw [if_pos hb, if_pos hb]
        simp only [Option.map_some', block_type, hm]
      · rw [if_neg hb, if_neg hb]
        by_cases ho : table_oaddr (s.mem (entry_addr x (tidx (h + 1) v))) = 0
        · rw [if_pos ho, if_pos ho]; rfl
        · rw [if_neg ho, if_neg ho]
          obtain ⟨_, hc, _⟩ := T.child x h _ hx (tidx_lt (h + 1) v hle) ho
          have := ih (table_oaddr (s.mem (entry_addr x (tidx (h + 1) v)))) v (by omega) hc
            (fun a ha => by
              apply hag
              rcases ha with ha | ⟨t, k, h1, h2, h3⟩
              · exact Or.inr ⟨_, h, hc, by omega, ha.1, ha.2⟩
              · exact Or.inr ⟨t, k, h1, by omega, h3⟩)
          simpa only [walk_d] using this

/-- A walk from a table whose entries are all zero finds nothing. -/
theorem walk_h_zero_table (h : Nat) (s : Machine) (nl v : Nat) (hh : h ≤ 3)
    (hz : ∀ x, nl ≤ x → x < nl + 4096 → s.mem x = 0) : walk_h h s nl v = none := by
  have hr := entry_addr_range nl (tidx h v) (tidx_lt h v hh)
  exact walk_h_zero_entry h s nl v (hz _ hr.1 hr.2)

theorem table_oaddr_zero : table_oaddr 0 = 0 := by decide

theorem free_zero_write {P : Platform} {s : Machine} {ht : Nat → Option Nat}
    {par : Nat → Nat × Nat} {root hr : Nat} (T : Tree P s ht par root hr) (hP : arena_ok P)
    (hz : free_zero P s) (tp k j v : Nat) (hk : ht tp = some k) (hj : j < 512) :
    free_zero P (s.write (entry_addr tp j) v) := by
  intro i hi hb x hx1 hx2
  rw [write_props] at hb
  rw [write_mem, if_neg]
  · exact hz i hi hb x hx1 hx2
  · intro hc
    subst hc
    exact T.not_in_free hP tp k _ hk (entry_addr_range tp j hj) (table_addr P i)
      ⟨i, hi, rfl, hb⟩ ⟨hx1, hx2⟩

/-- What `mmap_next` does to a tree: either the arena is exhausted and
nothing changes, or the entry refers to a table of the next lower height
afterwards, which is the table that it referred to before or a fresh, zeroed
one. -/
theorem mmap_next_spec {P : Platform} {s : Machine} {ht : Nat → Option Nat}
    {par : Nat → Nat × Nat} {root hr : Nat} (T : Tree P s ht par root hr) (hP : arena_ok P)
    (hz : free_zero P s) (tp h j vmid : Nat) (masked : Bool)
    (hk : ht tp = some (h + 1)) (hj : j < 512) :
    mmap_next P s tp j (table_oaddr (s.mem (entry_addr tp j))) vmid masked = (none, s) ∨
    ∃ nl d s1 ht1 par1,
      mmap_next P s tp j (table_oaddr (s.mem (entry_addr tp j))) vmid masked = (some nl, s1) ∧
      Tree P s1 ht1 par1 root hr ∧ free_zero P s1 ∧ ht1 tp = some (h + 1) ∧ ht1 nl = some h ∧
      (∀ x, s1.mem x = if x = entry_addr tp j then d else s.mem x) ∧
      table_oaddr d = nl ∧ nl ≠ 0 ∧ bit_raised d VALID_TABLE_BIT ≠ 0 ∧
      s1.guests = s.guests ∧ s1.invalidate = s.invalidate ∧ s1.ttbr0_el2 = s.ttbr0_el2 ∧
      s1.vttbr_el2 = s.vttbr_el2 ∧ s1.init_ready = s.init_ready ∧
      (∀ t, t ≠ nl → ht1 t = ht t) ∧
      (∀ t, is_free P s1 t → is_free P s t) ∧
      ((table_oaddr (s.mem (entry_addr tp j)) = 0 ∧ is_free P s nl ∧
          (∀ i, table_addr P i ≠ nl → s1.table_props i = s.table_props i)) ∨
       (table_oaddr (s.mem (entry_addr tp j)) = nl ∧ ht nl = some h ∧
          s1.table_props = s.table_props ∧
          bit_raised (s.mem (entry_addr tp j)) VALID_TABLE_BIT ≠ 0)) := by
  have htp := T.aligned tp _ hk
  by_cases h0 : table_oaddr (s.mem (entry_addr tp j)) = 0
  · -- a table has to be allocated
    rcases alloc_table_cases P s vmid with ⟨_, he⟩ | ⟨k, hkn, hfree, he⟩
    · left
      simp [mmap_next, h0, he]
    · right
      have hka := table_addr_aligned P hP k hkn
      have hnlfree : is_free P s (table_addr P k) := ⟨k, hkn, rfl, hfree⟩
      have hnl_not : ∀ t hh, ht t = some hh → t ≠ table_addr P k := by
        intro t hh hth e
        exact T.in_use t hh hth (e ▸ hnlfree)
      have hd : bit_set (bit_set (if masked = true then table_addr P k &&& tdinfo.table_oa_mask
          else table_addr P k) VALID_TABLE_BIT) TABLE_TYPE_BIT = table_addr P k + 3 := by
        have : table_addr P k &&& tdinfo.table_oa_mask = table_addr P k := by
          rw [and_table_oa]; omega
        rw [this, ite_self, table_desc_eq _ hka.1]
      obtain ⟨hoa, hval⟩ := table_desc_oaddr (table_addr P k) hka.1 hka.2.2
      -- the tree after the allocation
      have T1 : Tree P { s with table_props := fun i =>
            if i = k then (vmid % 256) * 256 + 1 else s.table_props i }
          (fun t => if t = table_addr P k then some h else ht t)
          (fun t => if t = table_addr P k then (tp, j) else par t) root hr := by
        refine ⟨?_, ?_, ?_, ?_, ?_⟩
        · rw [if_neg (hnl_not root hr T.root_ht)]; exact T.root_ht
        · intro t hh hth
          by_cases e : t = table_addr P k
          · rw [if_pos e] at hth; cases hth
            have := T.bound tp _ hk; omega
          · rw [if_neg e] at hth; exact T.bound t hh hth
        · intro t hh hth
          by_cases e : t = table_addr P k
          · rw [e]; exact ⟨hka.1, hka.2.1⟩
          · rw [if_neg e] at hth; exact T.aligned t hh hth
        · intro t hh hth hf
          obtain ⟨i, hi, hti, hb⟩ := hf
          by_cases e : i = k
          · subst e
            simp only [if_true, bit_raised_valid] at hb
            omega
          · simp only [e, if_false] at hb
            have hne : t ≠ table_addr P k := by
              intro hc; exact e (table_addr_inj P _ _ (hti.symm.trans hc))
            rw [if_neg hne] at hth
            exact T.in_use t hh hth ⟨i, hi, hti, hb⟩
        · intro t hh j' hth hj' hne
          by_cases e : t = table_addr P k
          · exfalso
            apply hne
            have hr := entry_addr_range t j' hj'
            rw [e] at hr
            show table_oaddr (s.mem (entry_addr t j')) = 0
            rw [e, hz k hkn hfree _ hr.1 hr.2, table_oaddr_zero]
          · rw [if_neg e] at hth
            obtain ⟨c1, c2, c3⟩ := T.child t hh j' hth hj' hne
            have hx := hnl_not _ _ c2
            refine ⟨c1, ?_, ?_⟩
            · show (if table_oaddr (s.mem (entry_addr t j')) = table_addr P k then some h
                else ht (table_oaddr (s.mem (entry_addr t j')))) = some hh
              rw [if_neg hx]; exact c2
            · show (if table_oaddr (s.mem (entry_addr t j')) = table_addr P k then (tp, j)
                else par (table_oaddr (s.mem (entry_addr t j')))) = (t, j')
              rw [if_neg hx]; exact c3
      have hz1 : free_zero P { s with table_props := fun i =>
            if i = k then (vmid % 256) * 256 + 1 else s.table_props i } := by
        intro i hi hb x hx1 hx2
        by_cases e : i = k
        · subst e
          simp only [if_true, bit_raised_valid] at hb
          omega
        · simp only [e, if_false] at hb
          exact hz i hi hb x hx1 hx2
      have hk1 : (fun t => if t = table_addr P k then some h else ht t) tp = some (h + 1) := by
        show (if tp = table_addr P k then some h else ht tp) = some (h + 1)
        rw [if_neg (hnl_not tp _ hk)]; exact hk
      have T2 := T1.write tp (h + 1) j (table_addr P k + 3) hk1 hj (by
        intro h' e _
        have e' : h' = h := by omega
        subst e'
        rw [hoa]
        exact ⟨hval, by simp, by simp⟩)
      refine ⟨table_addr P k, table_addr P k + 3, _, _, _, ?_, T2,
        free_zero_write T1 hP hz1 tp (h + 1) j _ hk1 hj, hk1, by simp, ?_, hoa, hka.2.1, hval,
        rfl, rfl, rfl, rfl, rfl, ?_, ?_, Or.inl ⟨h0, hnlfree, ?_⟩⟩
      · simp only [mmap_next, h0, he, if_true]
        rw [if_neg hka.2.1, hd]
      · intro x; rfl
      · intro t hne; simp [hne]
      · rintro t ⟨i, hi, hti, hb⟩
        refine ⟨i, hi, hti, ?_⟩
        simp only [write_props] at hb
        by_cases e : i = k
        · subst e
          simp only [if_true, bit_raised_valid] at hb
          omega
        · simpa only [e, if_false] using hb
      · intro i hne
        have e : i ≠ k := fun hc => hne (hc ▸ rfl)
        simp [e]
  · -- the entry refers to a table already
    right
    obtain ⟨c1, c2, c3⟩ := T.child tp h j hk hj h0
    obtain ⟨a1, a2, a3⟩ := table_oaddr_props _ h0
    by_cases hm : masked = true
    · have hd : bit_set (bit_set (s.mem (entry_addr tp j) &&& tdinfo.table_oa_mask)
          VALID_TABLE_BIT) TABLE_TYPE_BIT = table_oaddr (s.mem (entry_addr tp j)) + 3 := by
        rw [a3, table_desc_eq _ a1]
      obtain ⟨hoa, hval⟩ := table_desc_oaddr _ a1 a2
      have T2 := T.write tp (h + 1) j (table_oaddr (s.mem (entry_addr tp j)) + 3) hk hj (by
        intro h' e _
        have e' : h' = h := by omega
        subst e'
        rw [hoa]
        exact ⟨hval, c2, c3⟩)
      refine ⟨_, table_oaddr (s.mem (entry_addr tp j)) + 3, _, ht, par, ?_, T2,
        free_zero_write T hP hz tp (h + 1) j _ hk hj, hk, c2, ?_, hoa, h0, hval,
        rfl, rfl, rfl, rfl, rfl, fun _ _ => rfl, ?_, Or.inr ⟨rfl, c2, rfl, c1⟩⟩
      · simp only [mmap_next, h0, hm, if_true, if_false, hd]
      · intro x; rfl
      · rintro t ⟨i, hi, hti, hb⟩; exact ⟨i, hi, hti, hb⟩
    · refine ⟨_, s.mem (entry_addr tp j), s, ht, par, ?_, T, hz, hk, c2, ?_, rfl, h0, c1,
        rfl, rfl, rfl, rfl, rfl, fun _ _ => rfl, fun _ hf => hf, Or.inr ⟨rfl, c2, rfl, c1⟩⟩
      · simp only [mmap_next, h0, hm, if_false]
        rfl
      · intro x
        by_cases e : x = entry_addr tp j
        · rw [if_pos e, e]
        · rw [if_neg e]

theorem walk_d_one_entry (h : Nat) (s s2 : Machine) (x v : Nat)
    (hm : s2.mem (entry_addr x (tidx h v)) = s.mem (entry_addr x (tidx h v)))
    (hleaf : h = 0 ∨ table_oaddr (s.mem (entry_addr x (tidx h v))) = 0) :
    walk_d h s2 x v = walk_d h s x v := by
  cases h with
  | zero =>
    have e : tidx 0 v = (v &&& TABLE_3_MASK) >>> L3_SHIFT := by simp [tidx]
    simp only [walk_d, walk_h_zero, pt_walk_l3, ← e, hm]
    by_cases hb : bit_raised (s.mem (entry_addr x (tidx 0 v))) TABLE_TYPE_BIT = 0
    · simp [hb]
    · simp only [hb, if_false, Option.map_some', block_type_page, hm]
  | succ h =>
    have ho : table_oaddr (s.mem (entry_addr x (tidx (h + 1) v))) = 0 := by
      rcases hleaf with e | e
      · omega
      · exact e
    simp only [walk_d]
    rw [walk_h_succ, walk_h_succ, hm, if_pos ho, if_pos ho]
    by_cases hv : bit_raised (s.mem (entry_addr x (tidx (h + 1) v))) VALID_TABLE_BIT = 0
    · rw [if_pos hv, if_pos hv]; rfl
    · rw [if_neg hv, if_neg hv]
      by_cases hb : h + 1 ≤ 2 ∧
          bit_raised (s.mem (entry_addr x (tidx (h + 1) v))) TABLE_TYPE_BIT = 0
      · rw [if_pos hb, if_pos hb]
        simp only [Option.map_some', block_type, hm]
      · rw [if_neg hb, if_neg hb]; rfl

/-- A change of one entry `(tp, j)` and of the table `b` below it leaves the
walks from the tables of the height of `tp` that do not pass through this
entry as they were. -/
theorem walk_d_other {P : Platform} {s : Machine} {ht : Nat → Option Nat}
    {par : Nat → Nat × Nat} {root hr : Nat} (T : Tree P s ht par root hr) (s2 : Machine)
    (tp h j b x v : Nat) (hh : h ≤ 3) (hk : ht tp = some h) (hj : j < 512) (hx : ht x = some h)
    (hmod : ∀ a, s2.mem a ≠ s.mem a → a = entry_addr tp j ∨
      (∃ h', h = h' + 1 ∧ ht b = some h' ∧ par b = (tp, j) ∧ b ≤ a ∧ a < b + 4096))
    (hne : x ≠ tp ∨ tidx h v ≠ j) :
    walk_d h s2 x v = walk_d h s x v := by
  have hxa := T.aligned x _ hx
  have hta := T.aligned tp _ hk
  have hjv := tidx_lt h v hh
  have hm : s2.mem (entry_addr x (tidx h v)) = s.mem (entry_addr x (tidx h v)) := by
    by_contra hc
    rcases hmod _ hc with e | ⟨h', e1, hb, _, r1, r2⟩
    · obtain ⟨e1, e2⟩ := entry_addr_inj x tp _ j hxa.1 hta.1 hjv hj e
      rcases hne with n | n
      · exact n e1
      · exact n e2
    · have := range_disjoint x b _ hxa.1 (T.aligned b _ hb).1 (entry_addr_range x _ hjv) ⟨r1, r2⟩
      exact T.ne_of_height x b h h' hx hb (by omega) this
  cases h with
  | zero => exact walk_d_one_entry 0 s s2 x v hm (Or.inl rfl)
  | succ h =>
    by_cases ho : table_oaddr (s.mem (entry_addr x (tidx (h + 1) v))) = 0
    · exact walk_d_one_entry (h + 1) s s2 x v hm (Or.inr ho)
    · obtain ⟨c1, c2, c3⟩ := T.child x h _ hx hjv ho
      have hb : ¬ (h + 1 ≤ 2 ∧
          bit_raised (s.mem (entry_addr x (tidx (h + 1) v))) TABLE_TYPE_BIT = 0) := by
        rintro ⟨_, hc⟩
        apply ho
        simp [table_oaddr, hc]
      have hstep : ∀ s', s'.mem (entry_addr x (tidx (h + 1) v))
            = s.mem (entry_addr x (tidx (h + 1) v)) →
          walk_d (h + 1) s' x v
            = walk_d h s' (table_oaddr (s.mem (entry_addr x (tidx (h + 1) v)))) v := by
        intro s' e
        simp only [walk_d]
        rw [walk_h_succ, e, if_neg c1, if_neg hb, if_neg ho]
      rw [hstep s2 hm, hstep s rfl]
      apply walk_d_congr T s2 h _ v (by omega) c2
      intro a ha
      by_contra hc
      rcases hmod _ hc with e | ⟨h', e1, hb', hp, r1, r2⟩
      · have hr := entry_addr_range tp j hj
        rw [← e] at hr
        rcases ha with ha | ⟨t, k, h1, h2, h3⟩
        · have := range_disjoint _ tp a (T.aligned _ _ c2).1 hta.1 ha hr
          exact T.ne_of_height _ tp h (h + 1) c2 hk (by omega) this
        · have := range_disjoint t tp a (T.aligned _ _ h1).1 hta.1 h3 hr
          exact T.ne_of_height t tp k (h + 1) h1 hk (by omega) this
      · have e' : h' = h := by omega
        subst e'
        rcases ha with ha | ⟨t, k, h1, h2, h3⟩
        · have := range_disjoint _ b a (T.aligned _ _ c2).1 (T.aligned _ _ hb').1 ha ⟨r1, r2⟩
          rw [this, hp] at c3
          have e1 : tp = x := (Prod.mk.inj c3).1
          have e2 : j = tidx (h' + 1) v := (Prod.mk.inj c3).2
          rcases hne with n | n
          · exact n e1.symm
          · exact n e2.symm
        · have := range_disjoint t b a (T.aligned _ _ h1).1 (T.aligned _ _ hb').1 h3 ⟨r1, r2⟩
          exact T.ne_of_height t b k h' h1 hb' (by omega) this

/-! ## The mapper on a tree -/

theorem walk_h_of_walk_d (h : Nat) (s s2 : Machine) (x v : Nat)
    (e : walk_d h s2 x v = walk_d h s x v) : walk_h h s2 x v = walk_h h s x v := by
  simp only [walk_d] at e
  cases h1 : walk_h h s2 x v with
  | none =>
    cases h2 : walk_h h s x v with
    | none => rfl
    | some w => rw [h1, h2] at e; cases e
  | some w =>
    cases h2 : walk_h h s x v with
    | none => rw [h1, h2] at e; cases e
    | some w' =>
      rw [h1, h2] at e
      simp only [Option.map_some', Option.some.injEq, Prod.mk.injEq] at e
      rw [e.1]

theorem walk_d_none (h : Nat) (s : Machine) (x v : Nat) (e : walk_h h s x v = none) :
    walk_d h s x v = none := by
  simp [walk_d, e]

theorem walk_d_some (h : Nat) (s : Machine) (x v : Nat) (w : walk_t)
    (e : walk_h h s x v = some w) : walk_d h s x v = some (w, s.mem w.ptep) := by
  simp [walk_d, e]

/-- The page level: `mmap_level3` on a table of height 0. -/
theorem map_h_ok_zero {P : Platform} {s : Machine} {ht : Nat → Option Nat}
    {par : Nat → Nat × Nat} {root hr : Nat} (T : Tree P s ht par root hr) (hP : arena_ok P)
    (hz : free_zero P s) (tp va pa size prot type vmid : Nat) (ha : attr_ok prot type)
    (hk : ht tp = some 0) :
    MapOK P s ht root hr tp 0 va pa size prot type
      (map_h P 0 s tp va pa size prot type vmid) := by
  have hj := tidx_lt 0 va (by omega)
  rw [map_h_zero, mmap_level3_eq]
  have ht0 : target_h 0 size = 0 := by simp [target_h]
  have hmod : ∀ V a, (s.write (entry_addr tp (tidx 0 va)) V).mem a ≠ s.mem a →
      a = entry_addr tp (tidx 0 va) ∨
      (∃ h', 0 = h' + 1 ∧ ht 0 = some h' ∧ par 0 = (tp, tidx 0 va) ∧ 0 ≤ a ∧ a < 0 + 4096) := by
    intro V a hne
    left
    by_contra hc
    exact hne (by rw [write_mem, if_neg hc])
  refine ⟨⟨ht, par, T.write tp 0 _ _ hk hj (fun h e => by omega), fun t h => Or.inl h,
      fun t k h _ => h, fun t k h => Or.inl h, ?_⟩, free_zero_write T hP hz tp 0 _ _ hk hj,
      ?_, ?_, ?_, rfl, rfl, rfl, rfl, rfl, Or.inl rfl, ?_, ?_, ?_, fun hc => absurd rfl hc⟩
  · intro x hx
    right
    refine ⟨tp, 0, tidx 0 va, hk, hj, ?_, fun _ => Or.inl rfl⟩
    by_contra hc
    exact hx (by rw [write_mem, if_neg hc])
  · rintro t ⟨i, hi, hti, hb⟩; exact Or.inr ⟨i, hi, hti, hb⟩
  · intro x hx
    left
    by_contra hc
    exact hx (by rw [write_mem, if_neg hc])
  · intro i hi; exact absurd rfl hi
  · intro x v hx hne
    exact walk_d_other T _ tp 0 _ 0 x v (by omega) hk hj hx (hmod _) (Or.inl hne)
  · intro _
    refine ⟨entry_addr tp (tidx 0 va), fun v hv => ?_⟩
    have hi : tidx 0 v = tidx 0 va := hv 0 (by omega) (by omega)
    rw [ht0]
    have hl : leaf_mask 0 = tdinfo.table_oa_mask := rfl
    rw [hl]
    by_cases hc : pa &&& tdinfo.table_oa_mask = 0 ∨ type = P.INVALID_MEMORY
    · rw [if_pos hc, if_pos hc]
      apply walk_d_none
      apply walk_h_zero_entry
      rw [hi, write_mem, if_pos rfl]
    · rw [if_neg hc, if_neg hc]
      have he : (s.write (entry_addr tp (tidx 0 va)) (page_desc pa prot type)).mem
          (entry_addr tp (tidx 0 v)) = page_desc pa prot type := by
        rw [hi, write_mem, if_pos rfl]
      rw [walk_d_some _ _ _ _ _ (walk_h_page_entry _ tp v pa prot type ha he)]
      simp only [hi, write_mem, if_true, leaf_level, leaf_desc]
  · intro _ _ v hv
    have hi : tidx 0 v ≠ tidx 0 va := by
      intro e
      apply hv
      intro k h1 h2
      have : k = 0 := by omega
      subst this; exact e
    exact walk_d_other T _ tp 0 _ 0 tp v (by omega) hk hj hk (hmod _) (Or.inr hi)

/-- Storing a leaf descriptor (or zero) in the entry of `tp` for `va`, after
the table below this entry was released if there was one, is what `MapOK`
asks of a call that installs its leaf at the height of `tp`. -/
theorem leaf_write_ok {P : Platform} {s : Machine} {ht : Nat → Option Nat}
    {par : Nat → Nat × Nat} {root hr : Nat} (T : Tree P s ht par root hr) (hP : arena_ok P)
    (hz : free_zero P s) (tp h va pa size prot type : Nat) (sf : Machine)
    (hh : h ≤ 3) (hk : ht tp = some h) (htg : target_h h size = h)
    (hLo : table_oaddr (leaf_desc h pa prot type) = 0)
    (hD : desc_ok h (leaf_desc h pa prot type))
    (hwalk : ∀ (s' : Machine) v, s'.mem (entry_addr tp (tidx h v)) = leaf_desc h pa prot type →
      walk_h h s' tp v = some { ret := leaf_ret h pa v, ptep := entry_addr tp (tidx h v),
                                level := leaf_level h })
    (hsf : sf = s ∨ ∃ k h', k < NUM_TABLES ∧ h = h' + 1 ∧ ht (table_addr P k) = some h' ∧
      par (table_addr P k) = (tp, tidx h va) ∧ sf = s.release P k) :
    MapOK P s ht root hr tp h va pa size prot type
      (0, sf.write (entry_addr tp (tidx h va))
        (if pa &&& leaf_mask h = 0 ∨ type = P.INVALID_MEMORY then 0
         else leaf_desc h pa prot type)) := by
  have hj := tidx_lt h va hh
  have hta := T.aligned tp _ hk
  have hVo : table_oaddr (if pa &&& leaf_mask h = 0 ∨ type = P.INVALID_MEMORY then 0
      else leaf_desc h pa prot type) = 0 := by
    split
    · exact table_oaddr_zero
    · exact hLo
  have hmapped : ∀ s2 : Machine, s2.mem (entry_addr tp (tidx h va))
        = (if pa &&& leaf_mask h = 0 ∨ type = P.INVALID_MEMORY then 0
           else leaf_desc h pa prot type) →
      ∃ a, ∀ v, same_path h (target_h h size) v va →
        walk_d h s2 tp v =
          if pa &&& leaf_mask (target_h h size) = 0 ∨ type = P.INVALID_MEMORY then none
          else some ({ ret := leaf_ret (target_h h size) pa v, ptep := a,
                       level := leaf_level (target_h h size) },
                     leaf_desc (target_h h size) pa prot type) := by
    intro s2 he
    refine ⟨entry_addr tp (tidx h va), fun v hv => ?_⟩
    rw [htg] at hv ⊢
    have hi : tidx h v = tidx h va := hv h (le_refl h) (le_refl h)
    by_cases hc : pa &&& leaf_mask h = 0 ∨ type = P.INVALID_MEMORY
    · rw [if_pos hc] at he ⊢
      apply walk_d_none
      apply walk_h_zero_entry
      rw [hi, he]
    · rw [if_neg hc] at he ⊢
      rw [walk_d_some _ _ _ _ _ (hwalk s2 v (by rw [hi, he]))]
      simp only [hi, he]
  have hnot : ∀ v, ¬ same_path h (target_h h size) v va → tidx h v ≠ tidx h va := by
    intro v hv e
    apply hv
    rw [htg]
    intro k h1 h2
    have : k = h := by omega
    subst this; exact e
  rcases hsf with rfl | ⟨k, h', hkn, rfl, hB, hpB, rfl⟩
  · have hmod : ∀ V a, (sf.write (entry_addr tp (tidx h va)) V).mem a ≠ sf.mem a →
        a = entry_addr tp (tidx h va) ∨
        (∃ h', h = h' + 1 ∧ ht 0 = some h' ∧ par 0 = (tp, tidx h va) ∧ 0 ≤ a ∧ a < 0 + 4096) := by
      intro V a hne
      left
      by_contra hc
      exact hne (by rw [write_mem, if_neg hc])
    refine ⟨⟨ht, par, T.write tp h _ _ hk hj (fun h1 _ e => absurd hVo e), fun t h => Or.inl h,
        fun t k h _ => h, fun t k h => Or.inl h, ?_⟩, free_zero_write T hP hz tp h _ _ hk hj,
        ?_, ?_, ?_, rfl, rfl, rfl, rfl, rfl, Or.inl rfl, ?_, ?_, ?_, fun hc => absurd rfl hc⟩
    · intro x hx
      have hxe : x = entry_addr tp (tidx h va) := by
        by_contra hc
        exact hx (by rw [write_mem, if_neg hc])
      subst hxe
      dsimp only
      rw [write_mem, if_pos rfl]
      by_cases hc : pa &&& leaf_mask h = 0 ∨ type = P.INVALID_MEMORY
      · left; rw [if_pos hc]
      · right
        rw [if_neg hc]
        exact ⟨tp, h, tidx h va, hk, hj, rfl, hD⟩
    · rintro t ⟨i, hi, hti, hb⟩; exact Or.inr ⟨i, hi, hti, hb⟩
    · intro x hx
      left
      by_contra hc
      exact hx (by rw [write_mem, if_neg hc])
    · intro i hi; exact absurd rfl hi
    · intro x v hx hne
      exact walk_d_other T _ tp h _ 0 x v hh hk hj hx (hmod _) (Or.inl hne)
    · intro _
      exact hmapped _ (by rw [write_mem, if_pos rfl])
    · intro _ _ v hv
      exact walk_d_other T _ tp h _ 0 tp v hh hk hj hk (hmod _) (Or.inr (hnot v hv))
  · have hBa := T.aligned _ _ hB
    have hne_tpB : tp ≠ table_addr P k := T.ne_of_height tp _ (h' + 1) h' hk hB (by omega)
    have ha_out : ¬ (table_addr P k ≤ entry_addr tp (tidx (h' + 1) va) ∧
        entry_addr tp (tidx (h' + 1) va) < table_addr P k + 4096) := by
      intro hc
      exact hne_tpB (range_disjoint tp _ _ hta.1 hBa.1 (entry_addr_range tp _ hj) hc)
    have hmod : ∀ V a, ((s.release P k).write (entry_addr tp (tidx (h' + 1) va)) V).mem a
          ≠ s.mem a →
        a = entry_addr tp (tidx (h' + 1) va) ∨
        (∃ h'', h' + 1 = h'' + 1 ∧ ht (table_addr P k) = some h'' ∧
          par (table_addr P k) = (tp, tidx (h' + 1) va) ∧ table_addr P k ≤ a ∧
          a < table_addr P k + 4096) := by
      intro V a hne
      by_cases hc : a = entry_addr tp (tidx (h' + 1) va)
      · exact Or.inl hc
      · right
        rw [write_mem, if_neg hc, release_mem] at hne
        by_cases hr : table_addr P k ≤ a ∧ a < table_addr P k + 4096
        · exact ⟨h', rfl, hB, hpB, hr.1, hr.2⟩
        · rw [if_neg hr] at hne; exact absurd rfl hne
    refine ⟨⟨fun t => if t = table_addr P k then none else ht t, par, ⟨?_, ?_, ?_, ?_, ?_⟩, ?_, ?_,
        ?_, ?_⟩,
        ?_, ?_, ?_, ?_, rfl, rfl, rfl, rfl, rfl, Or.inl rfl, ?_, ?_, ?_,
        fun hc => absurd rfl hc⟩
    · have : root ≠ table_addr P k := by
        have hb := T.bound tp _ hk
        exact T.ne_of_height root _ hr h' T.root_ht hB (by omega)
      simp only [if_neg this]; exact T.root_ht
    · intro t h1 e
      by_cases ht1 : t = table_addr P k
      · simp only [if_pos ht1] at e; cases e
      · simp only [if_neg ht1] at e; exact T.bound t h1 e
    · intro t h1 e
      by_cases ht1 : t = table_addr P k
      · simp only [if_pos ht1] at e; cases e
      · simp only [if_neg ht1] at e; exact T.aligned t h1 e
    · intro t h1 e
      by_cases ht1 : t = table_addr P k
      · simp only [if_pos ht1] at e; cases e
      · simp only [if_neg ht1] at e
        rintro ⟨i, hi, hti, hb⟩
        rw [write_props, release_props] at hb
        by_cases hik : i = k
        · subst hik; exact ht1 hti
        · rw [if_neg hik] at hb
          exact T.in_use t h1 e ⟨i, hi, hti, hb⟩
    · intro t h1 j' e hj' hne
      by_cases ht1 : t = table_addr P k
      · simp only [if_pos ht1] at e; cases e
      · simp only [if_neg ht1] at e
        have hta1 := T.aligned t _ e
        by_cases he : entry_addr t j' = entry_addr tp (tidx (h' + 1) va)
        · rw [write_mem, if_pos he] at hne
          exact absurd hVo hne
        · have hout : ¬ (table_addr P k ≤ entry_addr t j' ∧
              entry_addr t j' < table_addr P k + 4096) := by
            intro hc
            exact ht1 (range_disjoint t _ _ hta1.1 hBa.1 (entry_addr_range t _ hj') hc)
          rw [write_mem, if_neg he, release_mem, if_neg hout] at hne ⊢
          obtain ⟨c1, c2, c3⟩ := T.child t h1 j' e hj' hne
          refine ⟨c1, ?_, c3⟩
          have : table_oaddr (s.mem (entry_addr t j')) ≠ table_addr P k := by
            intro hc
            rw [hc, hpB] at c3
            apply he
            rw [(Prod.mk.inj c3).1, (Prod.mk.inj c3).2]
          simp only [if_neg this]; exact c2
    · intro t e
      by_cases ht1 : t = table_addr P k
      · simp only [if_pos ht1] at e; exact absurd rfl e
      · simp only [if_neg ht1] at e; exact Or.inl e
    · intro t k' e hle
      have : t ≠ table_addr P k := T.ne_of_height t _ k' h' e hB (by omega)
      simp only [if_neg this]; exact e
    · intro t k' e
      by_cases ht1 : t = table_addr P k
      · simp only [if_pos ht1] at e; cases e
      · simp only [if_neg ht1] at e; exact Or.inl e
    · intro x hx
      dsimp only at hx ⊢
      by_cases hxe : x = entry_addr tp (tidx (h' + 1) va)
      · subst hxe
        rw [write_mem, if_pos rfl]
        by_cases hc : pa &&& leaf_mask (h' + 1) = 0 ∨ type = P.INVALID_MEMORY
        · left; rw [if_pos hc]
        · right
          rw [if_neg hc]
          refine ⟨tp, h' + 1, tidx (h' + 1) va, ?_, hj, rfl, hD⟩
          simp only [if_neg hne_tpB]; exact hk
      · left
        rcases hmod _ x hx with e | ⟨_, _, _, _, r1, r2⟩
        · exact absurd e hxe
        · rw [write_mem, if_neg hxe, release_mem, if_pos ⟨r1, r2⟩]
    · intro i hi hb x hx1 hx2
      rw [write_props, release_props] at hb
      by_cases hik : i = k
      · subst hik
        have : x ≠ entry_addr tp (tidx (h' + 1) va) := by
          intro hc; subst hc; exact ha_out ⟨hx1, hx2⟩
        rw [write_mem, if_neg this, release_mem, if_pos ⟨hx1, hx2⟩]
      · rw [if_neg hik] at hb
        have : x ≠ entry_addr tp (tidx (h' + 1) va) := by
          intro hc; subst hc
          exact T.not_in_free hP tp _ _ hk (entry_addr_range tp _ hj) (table_addr P i)
            ⟨i, hi, rfl, hb⟩ ⟨hx1, hx2⟩
        rw [write_mem, if_neg this, release_mem]
        split
        · rfl
        · exact hz i hi hb x hx1 hx2
    · rintro t ⟨i, hi, hti, hb⟩
      rw [write_props, release_props] at hb
      by_cases hik : i = k
      · subst hik; left; rw [hti, hB]; exact Option.some_ne_none _
      · rw [if_neg hik] at hb; exact Or.inr ⟨i, hi, hti, hb⟩
    · intro x hx
      rcases hmod _ x hx with e | ⟨h'', _, _, _, r1, r2⟩
      · exact Or.inl e
      · exact Or.inr ⟨_, r1, r2, Or.inr ⟨h', by omega, hB⟩⟩
    · intro i hi
      rw [write_props, release_props] at hi
      by_cases hik : i = k
      · subst hik; exact Or.inr ⟨h', by omega, hB⟩
      · rw [if_neg hik] at hi; exact absurd rfl hi
    · intro x v hx hne
      exact walk_d_other T _ tp (h' + 1) _ _ x v hh hk hj hx (hmod _) (Or.inl hne)
    · intro _
      exact hmapped _ (by rw [write_mem, if_pos rfl])
    · intro _ _ v hv
      exact walk_d_other T _ tp (h' + 1) _ _ tp v hh hk hj hk (hmod _) (Or.inr (hnot v hv))

theorem target_h_le (h size : Nat) : target_h h size ≤ h := by
  unfold target_h
  split
  · omega
  · split
    · omega
    · omega

theorem target_h_succ (h size : Nat) (c1 : ¬ (h + 1 = 2 ∧ size = 1 <<< L1_SHIFT))
    (c2 : ¬ (h + 1 = 1 ∧ size = 1 <<< L2_SHIFT)) :
    target_h (h + 1) size = target_h h size := by
  have hAB : (1 : Nat) <<< L1_SHIFT ≠ 1 <<< L2_SHIFT := by decide
  unfold target_h
  by_cases hA : size = 1 <<< L1_SHIFT
  · have h1 : h ≠ 1 := fun e => c1 ⟨by omega, hA⟩
    subst hA
    simp only [and_true, hAB, and_false, if_false]
    split_ifs <;> omega
  · by_cases hB : size = 1 <<< L2_SHIFT
    · have h0 : h ≠ 0 := fun e => c2 ⟨by omega, hB⟩
      subst hB
      simp only [and_true, hAB.symm, and_false, if_false]
      split_ifs <;> omega
    · simp only [hA, hB, and_false, if_false]

theorem target_h_block (h size : Nat)
    (c : (h + 1 = 2 ∧ size = 1 <<< L1_SHIFT) ∨ (h + 1 = 1 ∧ size = 1 <<< L2_SHIFT)) :
    target_h (h + 1) size = h + 1 := by
  have hAB : (1 : Nat) <<< L1_SHIFT ≠ 1 <<< L2_SHIFT := by decide
  unfold target_h
  rcases c with ⟨e, hA⟩ | ⟨e, hB⟩
  · rw [if_pos ⟨by omega, hA⟩]; omega
  · rw [if_neg (fun c => by omega), if_pos ⟨by omega, hB⟩]; omega

theorem block_desc_no_table (h paddr prot type : Nat) (hh : h = 0 ∨ h = 1)
    (ha : attr_ok prot type) :
    table_oaddr (block_desc paddr (leaf_mask (h + 1)) prot type) = 0 := by
  obtain ⟨p2, t2, o2, a2⟩ := attr_and_zero prot type 2 ha (by decide) (by decide) (by decide)
  have e1 : (1 : Nat) <<< TABLE_TYPE_BIT = 2 := by decide
  have hm2 : leaf_mask (h + 1) &&& 2 = 0 := by
    rcases hh with e | e <;> subst e <;> decide
  have htype : bit_raised (block_desc paddr (leaf_mask (h + 1)) prot type) TABLE_TYPE_BIT = 0 := by
    simp only [bit_raised, e1, block_desc]
    rw [leaf_bits_and _ prot type 2 p2 t2 o2 a2, Nat.and_assoc, hm2, Nat.and_zero]
  simp [table_oaddr, htype]

theorem block_desc_ok (h paddr prot type : Nat) (hh : h = 0 ∨ h = 1) (ha : attr_ok prot type) :
    desc_ok (h + 1) (block_desc paddr (leaf_mask (h + 1)) prot type) := by
  obtain ⟨p2, t2, o2, a2⟩ := attr_and_zero prot type 2 ha (by decide) (by decide) (by decide)
  obtain ⟨p3, t3, o3, a3⟩ := attr_and_zero prot type tdinfo.table_oa_mask ha (by decide)
    (by decide) (by decide)
  have e1 : (1 : Nat) <<< TABLE_TYPE_BIT = 2 := by decide
  have hm2 : leaf_mask (h + 1) &&& 2 = 0 := by
    rcases hh with e | e <;> subst e <;> decide
  have htype : bit_raised (block_desc paddr (leaf_mask (h + 1)) prot type) TABLE_TYPE_BIT = 0 := by
    simp only [bit_raised, e1, block_desc]
    rw [leaf_bits_and _ prot type 2 p2 t2 o2 a2, Nat.and_assoc, hm2, Nat.and_zero]
  intro _
  refine Or.inr (Or.inr ⟨htype, ?_⟩)
  simp only [block_desc]
  rw [leaf_bits_and _ prot type _ p3 t3 o3 a3, and_table_oa]
  rcases hh with e | e <;> subst e
  · have hl : leaf_mask (0 + 1) = tdinfo.l2_blk_oa_mask := rfl
    rw [hl, and_l2_oa]
    simp only [span]
    norm_num
    omega
  · have hl : leaf_mask (1 + 1) = tdinfo.l1_blk_oa_mask := rfl
    rw [hl, and_l1_oa]
    simp only [span]
    norm_num
    omega

/-- The block levels: `mmap_block` on a table of height 1 or 2. -/
theorem map_h_ok_block {P : Platform} {s : Machine} {ht : Nat → Option Nat}
    {par : Nat → Nat × Nat} {root hr : Nat} (T : Tree P s ht par root hr) (hP : arena_ok P)
    (hz : free_zero P s) (tp h va pa size prot type : Nat) (ha : attr_ok prot type)
    (hh : h = 0 ∨ h = 1) (hk : ht tp = some (h + 1)) (htg : target_h (h + 1) size = h + 1) :
    MapOK P s ht root hr tp (h + 1) va pa size prot type
      (mmap_block P s tp (tidx (h + 1) va) pa (leaf_mask (h + 1)) prot type) := by
  have hj := tidx_lt (h + 1) va (by omega)
  have hld : block_desc pa (leaf_mask (h + 1)) prot type = leaf_desc (h + 1) pa prot type := by
    simp [leaf_desc]
  rw [mmap_block_eq, hld]
  apply leaf_write_ok T hP hz tp (h + 1) va pa size prot type _ (by omega) hk htg
  · rw [← hld]; exact block_desc_no_table h pa prot type hh ha
  · rw [← hld]; exact block_desc_ok h pa prot type hh ha
  · intro s' v he
    rw [← hld] at he
    rw [walk_h_block_entry h s' tp v pa prot type hh ha he]
    have : leaf_level (h + 1) = 2 - h := by simp [leaf_level]
    rw [this]
  · by_cases hb : bit_raised (s.mem (entry_addr tp (tidx (h + 1) va))) TABLE_TYPE_BIT ≠ 0
    · rw [if_pos hb]
      by_cases hex : ∃ k, k < NUM_TABLES ∧
          table_oaddr (s.mem (entry_addr tp (tidx (h + 1) va))) = table_addr P k
      · obtain ⟨k, hkn, he⟩ := hex
        right
        have hne : table_oaddr (s.mem (entry_addr tp (tidx (h + 1) va))) ≠ 0 := by
          rw [he]; exact (table_addr_aligned P hP k hkn).2.1
        obtain ⟨_, c2, c3⟩ := T.child tp h _ hk hj hne
        rw [he] at c2 c3
        exact ⟨k, h, hkn, rfl, c2, c3, by rw [(free_table_spec P s _).1 k hkn he]⟩
      · left
        rw [(free_table_spec P s _).2 (fun k hkn he => hex ⟨k, hkn, he⟩)]
    · rw [if_neg hb]; left; rfl

theorem walk_h_leaf_none (h : Nat) (s : Machine) (tp v va : Nat)
    (hn : walk_h (h + 1) s tp va = none) (hi : tidx (h + 1) v = tidx (h + 1) va)
    (ho : table_oaddr (s.mem (entry_addr tp (tidx (h + 1) va))) = 0) :
    walk_h (h + 1) s tp v = none := by
  rw [walk_h_succ] at hn ⊢
  rw [hi]
  by_cases hv : bit_raised (s.mem (entry_addr tp (tidx (h + 1) va))) VALID_TABLE_BIT = 0
  · rw [if_pos hv]
  · rw [if_neg hv] at hn ⊢
    by_cases hb : h + 1 ≤ 2 ∧
        bit_raised (s.mem (entry_addr tp (tidx (h + 1) va))) TABLE_TYPE_BIT = 0
    · rw [if_pos hb] at hn; cases hn
    · rw [if_neg hb, if_pos ho]

/-- The step of the mapper from a table of height `h + 1` into the table of
height `h` below the entry for `va`. -/
theorem map_h_ok_step {P : Platform} {s : Machine} {ht : Nat → Option Nat}
    {par : Nat → Nat × Nat} {root hr : Nat} (T : Tree P s ht par root hr) (hP : arena_ok P)
    (hz : free_zero P s) (tp h va pa size prot type vmid : Nat) (hle : h + 1 ≤ 3)
    (hk : ht tp = some (h + 1))
    (c1 : ¬ (h + 1 = 2 ∧ size = 1 <<< L1_SHIFT)) (c2 : ¬ (h + 1 = 1 ∧ size = 1 <<< L2_SHIFT))
    (ih : ∀ (s1 : Machine) ht1 par1 nl, Tree P s1 ht1 par1 root hr → free_zero P s1 →
      ht1 nl = some h →
      MapOK P s1 ht1 root hr nl h va pa size prot type
        (map_h P h s1 nl va pa size prot type vmid)) :
    MapOK P s ht root hr tp (h + 1) va pa size prot type
      (map_h P (h + 1) s tp va pa size prot type vmid) := by
  have hj := tidx_lt (h + 1) va hle
  have hta := T.aligned tp _ hk
  rw [map_h_succ, if_neg c1, if_neg c2]
  rcases mmap_next_spec T hP hz tp h (tidx (h + 1) va) vmid (decide (h + 1 ≤ 2)) hk hj with
    hfail | ⟨nl, d, s1, ht1, par1, hnext, T1, hz1, htp1, hnl1, hmem1, hdo, hnl0, hdv, hg, hi,
      ht0, hvt, hir, hht1, hfree1, hcase⟩
  · rw [hfail]
    refine ⟨⟨ht, par, T, fun t h => Or.inl h, fun t k h _ => h, fun t k h => Or.inl h,
        fun x hx => absurd rfl hx⟩, hz, fun t h => Or.inr h,
      fun x hx => absurd rfl hx, fun i hi => absurd rfl hi, rfl, rfl, rfl, rfl, rfl, Or.inr rfl,
      fun x v _ _ => rfl, ?_, ?_, fun _ _ _ => rfl⟩
    · intro hc; simp [ENOSPC] at hc
    · intro hc; simp [ENOSPC] at hc
  · rw [hnext]
    have IH := ih s1 ht1 par1 nl T1 hz1 hnl1
    simp only
    generalize map_h P h s1 nl va pa size prot type vmid = r at IH ⊢
    have htg := target_h_succ h size c1 c2
    have hnl_tp : nl ≠ tp := T1.ne_of_height nl tp h (h + 1) hnl1 htp1 (by omega)
    have hnl_src : is_free P s nl ∨ ht nl = some h := by
      rcases hcase with ⟨_, hf, _⟩ | ⟨_, hn, _⟩
      · exact Or.inl hf
      · exact Or.inr hn
    have hdown : ∀ t k, ht1 t = some k → k < h → ht t = some k := by
      intro t k e hlt
      have : t ≠ nl := by
        intro c; rw [c, hnl1] at e; cases e; omega
      rw [← hht1 t this]; exact e
    have hup : ∀ t k, ht t = some k → ht1 t = some k := by
      intro t k e
      by_cases c : t = nl
      · rcases hnl_src with hf | hn
        · exact absurd (c ▸ hf) (T.in_use t k e)
        · rw [c] at e ⊢; rw [hnl1, ← hn, e]
      · rw [hht1 t c]; exact e
    have hsrc : ∀ t, ht1 t ≠ none ∨ is_free P s1 t → ht t ≠ none ∨ is_free P s t := by
      intro t ht
      rcases ht with e | e
      · by_cases c : t = nl
        · rcases hnl_src with hf | hn
          · exact Or.inr (c ▸ hf)
          · left; rw [c, hn]; exact Option.some_ne_none _
        · rw [hht1 t c] at e; exact Or.inl e
      · exact Or.inr (hfree1 t e)
    have hs1 : ∀ a, a ≠ entry_addr tp (tidx (h + 1) va) → s1.mem a = s.mem a := by
      intro a ha; rw [hmem1 a, if_neg ha]
    have hmem : ∀ x, r.2.mem x ≠ s.mem x → x = entry_addr tp (tidx (h + 1) va) ∨
        ∃ t, t ≤ x ∧ x < t + 4096 ∧ (is_free P s t ∨ ∃ k, k < h + 1 ∧ ht t = some k) := by
      intro x hx
      by_cases hc : r.2.mem x = s1.mem x
      · left
        by_contra hne
        exact hx (hc.trans (hs1 x hne))
      · right
        rcases IH.mem x hc with e | ⟨t, r1, r2, hf | ⟨k, hlt, e⟩⟩
        · have hr := entry_addr_range nl (tidx h va) (tidx_lt h va (by omega))
          rw [← e] at hr
          refine ⟨nl, hr.1, hr.2, ?_⟩
          rcases hnl_src with hf | hn
          · exact Or.inl hf
          · exact Or.inr ⟨h, by omega, hn⟩
        · exact ⟨t, r1, r2, Or.inl (hfree1 t hf)⟩
        · exact ⟨t, r1, r2, Or.inr ⟨k, by omega, hdown t k e hlt⟩⟩
    have hentry_r : r.2.mem (entry_addr tp (tidx (h + 1) va)) = d := by
      have h1 : s1.mem (entry_addr tp (tidx (h + 1) va)) = d := by rw [hmem1, if_pos rfl]
      rw [← h1]
      by_contra hc
      have hr := entry_addr_range tp (tidx (h + 1) va) hj
      rcases IH.mem _ hc with e | ⟨t, r1, r2, hf | ⟨k, hlt, e⟩⟩
      · exact hnl_tp (entry_addr_inj tp nl _ _ hta.1 (T1.aligned nl _ hnl1).1 hj
          (tidx_lt h va (by omega)) e).1.symm
      · exact T1.not_in_free hP tp _ _ htp1 hr t hf ⟨r1, r2⟩
      · have := range_disjoint tp t _ hta.1 (T1.aligned t _ e).1 hr ⟨r1, r2⟩
        exact T1.ne_of_height tp t (h + 1) k htp1 e (by omega) this
    have hstep_r : ∀ v, tidx (h + 1) v = tidx (h + 1) va →
        walk_d (h + 1) r.2 tp v = walk_d h r.2 nl v := by
      intro v hv
      have e1 : r.2.mem (entry_addr tp (tidx (h + 1) v)) = d := by rw [hv, hentry_r]
      simp only [walk_d]
      rw [walk_h_table_entry h r.2 tp v (by rw [e1]; exact hdv) (by rw [e1, hdo]; exact hnl0),
        e1, hdo]
    have hcong : ∀ x v, ht x = some h → walk_d h s1 x v = walk_d h s x v := by
      intro x v hx
      apply walk_d_congr T s1 h x v (by omega) hx
      intro a ha
      apply hs1
      intro hc
      have hr := entry_addr_range tp (tidx (h + 1) va) hj
      rw [← hc] at hr
      rcases ha with ha | ⟨t, k, e, hlt, r1⟩
      · have := range_disjoint x tp a (T.aligned x _ hx).1 hta.1 ha hr
        exact T.ne_of_height x tp h (h + 1) hx hk (by omega) this
      · have := range_disjoint t tp a (T.aligned t _ e).1 hta.1 r1 hr
        exact T.ne_of_height t tp k (h + 1) e hk (by omega) this
    have hsub : ∀ x v, ht x = some (h + 1) → (x ≠ tp ∨ tidx (h + 1) v ≠ tidx (h + 1) va) →
        walk_d (h + 1) r.2 x v = walk_d (h + 1) s x v := by
      intro x v hx hne
      have hxa := T.aligned x _ hx
      have hjv := tidx_lt (h + 1) v hle
      have hr := entry_addr_range x (tidx (h + 1) v) hjv
      have hm : r.2.mem (entry_addr x (tidx (h + 1) v)) = s.mem (entry_addr x (tidx (h + 1) v)) := by
        by_contra hc
        rcases hmem _ hc with e | ⟨t, r1, r2, hf | ⟨k, hlt, e⟩⟩
        · obtain ⟨e1, e2⟩ := entry_addr_inj x tp _ _ hxa.1 hta.1 hjv hj e
          rcases hne with n | n
          · exact n e1
          · exact n e2
        · exact T.not_in_free hP x _ _ hx hr t hf ⟨r1, r2⟩
        · have := range_disjoint x t _ hxa.1 (T.aligned t _ e).1 hr ⟨r1, r2⟩
          exact T.ne_of_height x t (h + 1) k hx e (by omega) this
      by_cases ho : table_oaddr (s.mem (entry_addr x (tidx (h + 1) v))) = 0
      · exact walk_d_one_entry (h + 1) s r.2 x v hm (Or.inr ho)
      · obtain ⟨c1, c2, c3⟩ := T.child x h _ hx hjv ho
        have hxnl : table_oaddr (s.mem (entry_addr x (tidx (h + 1) v))) ≠ nl := by
          intro e
          rcases hcase with ⟨_, hf, _⟩ | ⟨hoe, _, _, _⟩
          · exact T.in_use _ h c2 (e ▸ hf)
          · obtain ⟨_, _, d3⟩ := T.child tp h _ hk hj (by rw [hoe]; exact hnl0)
            rw [hoe] at d3
            rw [e, d3] at c3
            rcases hne with n | n
            · exact n (Prod.mk.inj c3).1.symm
            · exact n (Prod.mk.inj c3).2.symm
        have e2 : walk_d (h + 1) r.2 x v
            = walk_d h r.2 (table_oaddr (s.mem (entry_addr x (tidx (h + 1) v)))) v := by
          simp only [walk_d]
          rw [walk_h_table_entry h r.2 x v (by rw [hm]; exact c1) (by rw [hm]; exact ho), hm]
        have e3 : walk_d (h + 1) s x v
            = walk_d h s (table_oaddr (s.mem (entry_addr x (tidx (h + 1) v)))) v := by
          simp only [walk_d]
          rw [walk_h_table_entry h s x v c1 ho]
        rw [e2, e3, IH.other _ v (by rw [hht1 _ hxnl]; exact c2) hxnl]
        exact hcong _ v c2
    have hbelow : walk_h (h + 1) s tp va = none → ∀ v, tidx (h + 1) v = tidx (h + 1) va →
        walk_h h s1 nl va = none ∧ walk_d h s1 nl v = walk_d (h + 1) s tp v := by
      intro hnone v hiv
      rcases hcase with ⟨ho0, hf, _⟩ | ⟨hoe, hn, _, hve⟩
      · have hzero : ∀ x, nl ≤ x → x < nl + 4096 → s1.mem x = 0 := by
          intro x x1 x2
          have hne : x ≠ entry_addr tp (tidx (h + 1) va) := by
            intro hc
            rw [hc] at x1 x2
            exact T.not_in_free hP tp _ _ hk (entry_addr_range tp _ hj) nl hf ⟨x1, x2⟩
          rw [hs1 x hne]
          obtain ⟨i, hi, hti, hb⟩ := hf
          rw [hti] at x1 x2
          exact hz i hi hb x x1 x2
        refine ⟨walk_h_zero_table h s1 nl va (by omega) hzero, ?_⟩
        rw [walk_d_none _ _ _ _ (walk_h_zero_table h s1 nl v (by omega) hzero),
          walk_d_none _ _ _ _ (walk_h_leaf_none h s tp v va hnone hiv ho0)]
      · have hstep : ∀ w, tidx (h + 1) w = tidx (h + 1) va →
            walk_h (h + 1) s tp w = walk_h h s nl w := by
          intro w hw
          rw [walk_h_table_entry h s tp w (by rw [hw]; exact hve)
            (by rw [hw, hoe]; exact hnl0), hw, hoe]
        constructor
        · rw [walk_h_of_walk_d h s s1 nl va (hcong nl va hn), ← hstep va rfl]
          exact hnone
        · rw [hcong nl v hn]
          simp only [walk_d]
          rw [hstep v hiv]
    obtain ⟨ht', par', T', hdom, hpres, hkeep, hval⟩ := IH.tree
    have hkeep' : ∀ t k, ht' t = some k → ht t = some k ∨ is_free P s t := by
      intro t k e
      rcases hkeep t k e with e1 | e1
      · by_cases c : t = nl
        · rcases hnl_src with hf | hn
          · exact Or.inr (c ▸ hf)
          · left
            rw [c] at e1 ⊢
            rw [hn, ← hnl1, e1]
        · rw [hht1 t c] at e1; exact Or.inl e1
      · exact Or.inr (hfree1 t e1)
    have hval' : ∀ x, r.2.mem x ≠ s.mem x → r.2.mem x = 0 ∨
        ∃ t k j, ht' t = some k ∧ j < 512 ∧ x = entry_addr t j ∧ desc_ok k (r.2.mem x) := by
      intro x hx
      by_cases hc : r.2.mem x = s1.mem x
      · right
        have hxe : x = entry_addr tp (tidx (h + 1) va) := by
          by_contra hne
          exact hx (hc.trans (hs1 x hne))
        subst hxe
        refine ⟨tp, h + 1, tidx (h + 1) va, hpres tp _ htp1 (by omega), hj, rfl, ?_⟩
        rw [hentry_r]
        intro _
        refine Or.inr (Or.inl ⟨?_, by rw [hdo]; exact hnl0⟩)
        intro hb
        apply hnl0
        rw [← hdo, table_oaddr, if_neg (by simpa using hb)]
      · exact hval x hc
    refine ⟨⟨ht', par', T', fun t e => hsrc t (hdom t e),
        fun t k e hlek => hpres t k (hup t k e) (by omega), hkeep', hval'⟩, IH.fz,
      fun t e => hsrc t (IH.free_sub t e), hmem, ?_, IH.guests.trans hg, IH.invalidate.trans hi,
      IH.ttbr0.trans ht0, IH.vttbr.trans hvt, IH.init_ready.trans hir, IH.res,
      fun x v hx hne => hsub x v hx (Or.inl hne), ?_, ?_, ?_⟩
    · intro i hne
      by_cases hc : r.2.table_props i = s1.table_props i
      · left
        rcases hcase with ⟨_, hf, hp⟩ | ⟨_, _, hp, _⟩
        · by_cases c : table_addr P i = nl
          · rw [c]; exact hf
          · exact absurd (hc.trans (hp i c)) hne
        · rw [hp] at hc; exact absurd hc hne
      · rcases IH.props i hc with hf | ⟨k, hlt, e⟩
        · exact Or.inl (hfree1 _ hf)
        · exact Or.inr ⟨k, by omega, hdown _ k e hlt⟩
    · intro hr0
      obtain ⟨a, hA⟩ := IH.mapped hr0
      refine ⟨a, fun v hv => ?_⟩
      rw [htg] at hv ⊢
      have hle2 := target_h_le h size
      rw [hstep_r v (hv (h + 1) (by omega) (le_refl _))]
      exact hA v (fun k h1 h2 => hv k h1 (by omega))
    · intro hr0 hnone v hv
      rw [htg] at hv
      by_cases hiv : tidx (h + 1) v = tidx (h + 1) va
      · have hnsp : ¬ same_path h (target_h h size) v va := by
          intro hc
          apply hv
          intro k h1 h2
          by_cases hk1 : k = h + 1
          · rw [hk1]; exact hiv
          · exact hc k h1 (by omega)
        have hprov := hbelow hnone v hiv
        rw [hstep_r v hiv, IH.rest hr0 hprov.1 v hnsp]
        exact hprov.2
      · exact hsub tp v hk (Or.inr hiv)
    · intro hr0 hnone v
      by_cases hiv : tidx (h + 1) v = tidx (h + 1) va
      · have hprov := hbelow hnone v hiv
        rw [hstep_r v hiv, IH.fail hr0 hprov.1 v]
        exact hprov.2
      · exact hsub tp v hk (Or.inr hiv)

/-- The mapper on a tree: from a table of any height it keeps the tree and
the zeroed free tables, installs the leaf for `va` at the height that the
range size selects, and leaves the walks elsewhere as they were. -/
theorem map_h_ok {P : Platform} (hP : arena_ok P) (va pa size prot type vmid : Nat)
    (ha : attr_ok prot type) (root hr : Nat) :
    ∀ h, h ≤ 3 → ∀ (s : Machine) ht par tp, Tree P s ht par root hr → free_zero P s →
      ht tp = some h →
      MapOK P s ht root hr tp h va pa size prot type
        (map_h P h s tp va pa size prot type vmid) := by
  intro h
  induction h with
  | zero =>
    intro _ s ht par tp T hz hk
    exact map_h_ok_zero T hP hz tp va pa size prot type vmid ha hk
  | succ h ih =>
    intro hle s ht par tp T hz hk
    by_cases c1 : h + 1 = 2 ∧ size = 1 <<< L1_SHIFT
    · have e : h = 1 := by omega
      subst e
      rw [map_h_succ, if_pos c1]
      exact map_h_ok_block T hP hz tp 1 va pa size prot type ha (Or.inr rfl) hk
        (target_h_block 1 size (Or.inl c1))
    · by_cases c2 : h + 1 = 1 ∧ size = 1 <<< L2_SHIFT
      · have e : h = 0 := by omega
        subst e
        rw [map_h_succ, if_neg c1, if_pos c2]
        exact map_h_ok_block T hP hz tp 0 va pa size prot type ha (Or.inl rfl) hk
          (target_h_block 0 size (Or.inr c2))
      · exact map_h_ok_step T hP hz tp h va pa size prot type vmid hle hk c1 c2
          (fun s1 ht1 par1 nl T1 hz1 hn => ih (by omega) s1 ht1 par1 nl T1 hz1 hn)

/-! ## Chunks of a range -/

theorem get_block_size_cases (va tl : Nat) :
    (get_block_size va tl = 2 ^ 30 ∧ va % 2 ^ 30 = 0 ∧ 2 ^ 30 ≤ tl) ∨
    (get_block_size va tl = 2 ^ 21 ∧ va % 2 ^ 21 = 0 ∧ 2 ^ 21 ≤ tl) ∨
    get_block_size va tl = 4096 := by
  have e1 : tdinfo.l1_blk_size = 2 ^ 30 := by decide
  have e2 : tdinfo.l2_blk_size = 2 ^ 21 := by decide
  have e3 : PAGE_SIZE = 4096 := rfl
  unfold get_block_size
  rw [and_l1_offt, and_l2_offt, e1, e2, e3]
  by_cases c1 : va % 2 ^ 30 = 0 ∧ tl ≥ 2 ^ 30
  · rw [if_pos c1]; exact Or.inl ⟨rfl, c1.1, c1.2⟩
  · rw [if_neg c1]
    by_cases c2 : va % 2 ^ 21 = 0 ∧ tl ≥ 2 ^ 21
    · rw [if_pos c2]; exact Or.inr (Or.inl ⟨rfl, c2.1, c2.2⟩)
    · rw [if_neg c2]; exact Or.inr (Or.inr rfl)

theorem target_h_l1 (hr : Nat) (h : 2 ≤ hr) : target_h hr (2 ^ 30) = 2 := by
  have e : (2 : Nat) ^ 30 = 1 <<< L1_SHIFT := by decide
  unfold target_h
  rw [if_pos ⟨h, e⟩]

theorem target_h_l2 (hr : Nat) (h : 1 ≤ hr) : target_h hr (2 ^ 21) = 1 := by
  have e : (2 : Nat) ^ 21 = 1 <<< L2_SHIFT := by decide
  have n : (2 : Nat) ^ 21 ≠ 1 <<< L1_SHIFT := by decide
  unfold target_h
  rw [if_neg (fun c => n c.2), if_pos ⟨h, e⟩]

theorem target_h_page (hr : Nat) : target_h hr 4096 = 0 := by
  have n1 : (4096 : Nat) ≠ 1 <<< L1_SHIFT := by decide
  have n2 : (4096 : Nat) ≠ 1 <<< L2_SHIFT := by decide
  unfold target_h
  rw [if_neg (fun c => n1 c.2), if_neg (fun c => n2 c.2)]

/-- Two addresses of one window of a table of height `hr` select the same
entries from the height `t` upwards exactly when they lie in the same aligned
piece of the size that an entry at height `t` covers. -/
theorem same_path_iff (hr t v va : Nat) (hhr : hr ≤ 3) (ht : t ≤ hr)
    (hw : v / span (hr + 1) = va / span (hr + 1)) (hal : va % span t = 0) :
    same_path hr t v va ↔ (va ≤ v ∧ v < va + span t) := by
  have e0 : ∀ x, tidx 0 x = x / 4096 % 512 := fun x => by
    rw [tidx_eq 0 x (by omega)]; norm_num
  have e1 : ∀ x, tidx 1 x = x / 2097152 % 512 := fun x => by
    rw [tidx_eq 1 x (by omega)]; norm_num
  have e2 : ∀ x, tidx 2 x = x / 1073741824 % 512 := fun x => by
    rw [tidx_eq 2 x (by omega)]; norm_num
  have e3 : ∀ x, tidx 3 x = x / 549755813888 % 512 := fun x => by
    rw [tidx_eq 3 x (by omega)]; norm_num
  unfold same_path
  constructor
  · intro h
    have a0 := h 0
    have a1 := h 1
    have a2 := h 2
    have a3 := h 3
    rw [e0, e0] at a0
    rw [e1, e1] at a1
    rw [e2, e2] at a2
    rw [e3, e3] at a3
    clear h e0 e1 e2 e3
    interval_cases hr <;> interval_cases t <;> simp only [span] at hw hal ⊢ <;>
      norm_num at hw hal a0 a1 a2 a3 ⊢ <;> omega
  · rintro ⟨h1, h2⟩ k c1 c2
    interval_cases hr <;> interval_cases t <;> interval_cases k <;>
      simp only [span, e0, e1, e2, e3] at hw hal h2 ⊢ <;> norm_num at hw hal h2 ⊢ <;> omega

/-! ## Runs of the mapper over a range -/

theorem FrameOK.refl {P : Platform} {s : Machine} {ht : Nat → Option Nat}
    {par : Nat → Nat × Nat} {root hr : Nat} (T : Tree P s ht par root hr) (hz : free_zero P s)
    (win lo hi : Nat) : FrameOK P s ht root hr win lo hi s :=
  ⟨⟨ht, par, T, fun _ h => Or.inl h⟩, hz, fun _ h => Or.inr h, fun _ h => absurd rfl h,
    fun _ h => absurd rfl h, rfl, rfl, rfl, rfl, rfl, fun _ _ _ => rfl⟩

theorem FrameOK.mono {P : Platform} {s s' : Machine} {ht : Nat → Option Nat}
    {root hr win lo hi : Nat} (F : FrameOK P s ht root hr win lo hi s') (lo' hi' : Nat)
    (h1 : lo' ≤ lo) (h2 : hi ≤ hi') : FrameOK P s ht root hr win lo' hi' s' :=
  ⟨F.tree, F.fz, F.free_sub, F.mem, F.props, F.guests, F.invalidate, F.ttbr0, F.vttbr,
    F.init_ready, fun v hw hv => F.outside v hw (by omega)⟩

theorem FrameOK.trans {P : Platform} {s0 s1 s2 : Machine} {ht0 ht1 : Nat → Option Nat}
    {root hr win lo hi : Nat} (F1 : FrameOK P s0 ht0 root hr win lo hi s1)
    (hdom : ∀ t, ht1 t ≠ none → ht0 t ≠ none ∨ is_free P s0 t)
    (F2 : FrameOK P s1 ht1 root hr win lo hi s2) : FrameOK P s0 ht0 root hr win lo hi s2 := by
  have hsrc : ∀ t, ht1 t ≠ none ∨ is_free P s1 t → ht0 t ≠ none ∨ is_free P s0 t := by
    intro t h
    rcases h with h | h
    · exact hdom t h
    · exact F1.free_sub t h
  obtain ⟨ht2, par2, T2, hdom2⟩ := F2.tree
  refine ⟨⟨ht2, par2, T2, fun t h => hsrc t (hdom2 t h)⟩, F2.fz,
    fun t h => hsrc t (F2.free_sub t h), ?_, ?_, F2.guests.trans F1.guests,
    F2.invalidate.trans F1.invalidate, F2.ttbr0.trans F1.ttbr0, F2.vttbr.trans F1.vttbr,
    F2.init_ready.trans F1.init_ready,
    fun v hw hv => (F2.outside v hw hv).trans (F1.outside v hw hv)⟩
  · intro x hx
    by_cases hc : s2.mem x = s1.mem x
    · exact F1.mem x (fun e => hx (hc.trans e))
    · obtain ⟨t, r1, r2, h⟩ := F2.mem x hc
      exact ⟨t, r1, r2, hsrc t h⟩
  · intro i hi
    by_cases hc : s2.table_props i = s1.table_props i
    · exact F1.props i (fun e => hi (hc.trans e))
    · exact hsrc _ (F2.props i hc)

theorem target_h_le_two (h size : Nat) : target_h h size ≤ 2 := by
  unfold target_h
  split
  · omega
  · split <;> omega

/-- A successful call of the mapper at the root, for an address that was not
mapped, keeps everything outside the piece that it maps. -/
theorem map_root_frame {P : Platform} {s : Machine} {ht : Nat → Option Nat}
    {par : Nat → Nat × Nat} {root hr : Nat} (T : Tree P s ht par root hr) (hhr : hr ≤ 3)
    (va pa size prot type : Nat) (r : Int × Machine)
    (M : MapOK P s ht root hr root hr va pa size prot type r) (hr0 : r.1 = 0)
    (hun : walk_h hr s root va = none) (hspan : span (target_h hr size) = size)
    (hva : va % size = 0) :
    FrameOK P s ht root hr (va / span (hr + 1)) va (va + size) r.2 := by
  obtain ⟨ht', par', T', hdom, _⟩ := M.tree
  have hroot : ht root ≠ none := by rw [T.root_ht]; exact Option.some_ne_none _
  refine ⟨⟨ht', par', T', hdom⟩, M.fz, M.free_sub, ?_, ?_, M.guests, M.invalidate, M.ttbr0,
    M.vttbr, M.init_ready, ?_⟩
  · intro x hx
    rcases M.mem x hx with e | ⟨t, r1, r2, hf | ⟨k, _, e⟩⟩
    · have hr := entry_addr_range root (tidx hr va) (tidx_lt hr va hhr)
      rw [← e] at hr
      exact ⟨root, hr.1, hr.2, Or.inl hroot⟩
    · exact ⟨t, r1, r2, Or.inr hf⟩
    · exact ⟨t, r1, r2, Or.inl (by rw [e]; exact Option.some_ne_none _)⟩
  · intro i hi
    rcases M.props i hi with hf | ⟨k, _, e⟩
    · exact Or.inr hf
    · exact Or.inl (by rw [e]; exact Option.some_ne_none _)
  · intro v hw hv
    apply M.rest hr0 hun v
    rw [same_path_iff hr _ v va hhr (target_h_le hr size) hw (by rw [hspan]; exact hva), hspan]
    omega

theorem walk_h_none_of_walk_d (h : Nat) (s : Machine) (x v : Nat) (e : walk_d h s x v = none) :
    walk_h h s x v = none := by
  cases hw : walk_h h s x v with
  | none => rfl
  | some w => rw [walk_d_some h s x v w hw] at e; cases e

theorem same_path_refl (h t va : Nat) : same_path h t va va := fun _ _ _ => rfl

/-- The leaf descriptor of an aligned piece: the output address is kept by
the mask and the walker adds the offset within the piece. -/
theorem leaf_ret_eq (t pa va v : Nat) (ht : t ≤ 2) (hpa : pa % span t = 0) (hpa0 : pa ≠ 0)
    (h40 : pa + span t ≤ 2 ^ 40) (hva : va % span t = 0) (h1 : va ≤ v) (h2 : v < va + span t) :
    pa &&& leaf_mask t ≠ 0 ∧ leaf_ret t pa v = pa + (v - va) := by
  interval_cases t
  · have e : leaf_mask 0 = tdinfo.table_oa_mask := rfl
    rw [e, and_table_oa]
    simp only [leaf_ret, span] at *
    norm_num at *
    omega
  · have e : leaf_mask 1 = tdinfo.l2_blk_oa_mask := rfl
    rw [e, and_l2_oa]
    simp only [leaf_ret, span] at *
    norm_num at *
    omega
  · have e : leaf_mask 2 = tdinfo.l1_blk_oa_mask := rfl
    rw [e, and_l1_oa]
    simp only [leaf_ret, span] at *
    norm_num at *
    omega

/-- One turn of the loop of `__mmap_range`: the break-before-make call, if it
is made, and the call that maps the piece. -/
theorem chunk_ok {P : Platform} (hP : arena_ok P) (hI : P.INVALID_MEMORY < 1024)
    {s : Machine} {ht : Nat → Option Nat} {par : Nat → Nat × Nat} {root hr : Nat}
    (T : Tree P s ht par root hr) (hz : free_zero P s) (hhr : hr ≤ 3)
    (levels : Nat) (hlev : map_height levels = hr) (va pa blk prot type vmid : Nat)
    (hprot : prot < 2 ^ 64 ∧ prot &&& 0x0000FFFFFFFFF003 = 0) (htype : type < P.INVALID_MEMORY)
    (hspan : span (target_h hr blk) = blk) (hva : va % blk = 0) (hpa : pa % blk = 0)
    (hpa0 : pa ≠ 0) (h40 : pa + blk ≤ 2 ^ 40) (h48 : va + blk ≤ 2 ^ 48)
    (hun : walk_h hr s root va = none) (bbm : Prop) [Decidable bbm] (r1 r2 : Int × Machine)
    (hr1 : r1 = if bbm then mmap_addr P s root va 0 blk prot P.INVALID_MEMORY levels vmid
      else (0, s))
    (hr2 : r2 = mmap_addr P r1.2 root va pa blk prot type levels vmid)
    (h10 : r1.1 = 0) (h20 : r2.1 = 0) :
    FrameOK P s ht root hr (va / span (hr + 1)) va (va + blk) r2.2 ∧
    ∀ v, va ≤ v → v < va + blk → v / span (hr + 1) = va / span (hr + 1) →
      ∃ w, walk_d hr r2.2 root v = some (w, leaf_desc (target_h hr blk) pa prot type) ∧
        w.ret = pa + (v - va) := by
  have hroot := (T.aligned root hr T.root_ht).2
  have hblk : 0 < blk := by rw [← hspan]; exact Nat.two_pow_pos _
  have hvm : va ≤ MAX_VADDR := by simp only [MAX_VADDR]; omega
  have hpm : pa ≤ MAX_PADDR := by simp only [MAX_PADDR, VADDR_MASK]; omega
  have hal : va % span (target_h hr blk) = 0 := by rw [hspan]; exact hva
  have key : ∀ (s1 : Machine) ht1 par1, Tree P s1 ht1 par1 root hr → free_zero P s1 →
      walk_h hr s1 root va = none →
      (mmap_addr P s1 root va pa blk prot type levels vmid).1 = 0 →
      FrameOK P s1 ht1 root hr (va / span (hr + 1)) va (va + blk)
        (mmap_addr P s1 root va pa blk prot type levels vmid).2 ∧
      ∀ v, va ≤ v → v < va + blk → v / span (hr + 1) = va / span (hr + 1) →
        ∃ w, walk_d hr (mmap_addr P s1 root va pa blk prot type levels vmid).2 root v
            = some (w, leaf_desc (target_h hr blk) pa prot type) ∧
          w.ret = pa + (v - va) := by
    intro s1 ht1 par1 T1 hz1 hun1 h0
    rw [mmap_addr_eq_map_h P s1 root va pa blk prot type levels vmid hroot hvm hpm, hlev] at h0 ⊢
    have M := map_h_ok hP va pa blk prot type vmid ⟨hprot.1, hprot.2, by omega⟩ root hr hr hhr
      s1 ht1 par1 root T1 hz1 T1.root_ht
    refine ⟨map_root_frame T1 hhr va pa blk prot type _ M h0 hun1 hspan hva, ?_⟩
    obtain ⟨a, hA⟩ := M.mapped h0
    intro v v1 v2 hw
    have hsp : same_path hr (target_h hr blk) v va := by
      rw [same_path_iff hr _ v va hhr (target_h_le hr blk) hw hal, hspan]
      exact ⟨v1, v2⟩
    obtain ⟨l1, l2⟩ := leaf_ret_eq (target_h hr blk) pa va v (target_h_le_two hr blk)
      (by rw [hspan]; exact hpa) hpa0 (by rw [hspan]; exact h40) hal v1 (by rw [hspan]; exact v2)
    have hc : ¬ (pa &&& leaf_mask (target_h hr blk) = 0 ∨ type = P.INVALID_MEMORY) := by
      rintro (c | c)
      · exact l1 c
      · omega
    refine ⟨{ ret := leaf_ret (target_h hr blk) pa v, ptep := a,
              level := leaf_level (target_h hr blk) }, ?_, l2⟩
    rw [hA v hsp, if_neg hc]
  by_cases hb : bbm
  · rw [if_pos hb] at hr1
    have e1 : r1 = map_h P hr s root va 0 blk prot P.INVALID_MEMORY vmid := by
      rw [hr1, mmap_addr_eq_map_h P s root va 0 blk prot P.INVALID_MEMORY levels vmid hroot hvm
        (Nat.zero_le _), hlev]
    have h10' := h10
    rw [e1] at h10'
    have M1 := map_h_ok hP va 0 blk prot P.INVALID_MEMORY vmid ⟨hprot.1, hprot.2, hI⟩ root hr hr
      hhr s ht par root T hz T.root_ht
    have F1 := map_root_frame T hhr va 0 blk prot P.INVALID_MEMORY _ M1 h10' hun hspan hva
    obtain ⟨a, hA⟩ := M1.mapped h10'
    have hn := hA va (same_path_refl _ _ _)
    rw [if_pos (Or.inl (Nat.zero_and _))] at hn
    have hn' := walk_h_none_of_walk_d _ _ _ _ hn
    obtain ⟨ht1, par1, T1, hdom1⟩ := F1.tree
    rw [← e1] at hn' T1 F1
    have hz1 := F1.fz
    rw [hr2] at h20 ⊢
    obtain ⟨F2, hin⟩ := key r1.2 ht1 par1 T1 hz1 hn' h20
    exact ⟨F1.trans hdom1 F2, hin⟩
  · rw [if_neg hb] at hr1
    rw [hr2, hr1] at h20 ⊢
    exact key s ht par T hz hun h20

theorem mmap_range_loop_done (P : Platform) (ctype pgd prot type levels vmid fuel : Nat)
    (s : Machine) (vaddr paddr : Nat) :
    mmap_range_loop P ctype pgd prot type levels vmid fuel s vaddr paddr 0 = some (0, s) := by
  cases fuel <;> simp [mmap_range_loop]

theorem mmap_range_loop_succ (P : Platform) (ctype pgd prot type levels vmid fuel : Nat)
    (s : Machine) (vaddr paddr tl : Nat) (h : tl ≠ 0) (r1 r2 : Int × Machine)
    (hr1 : r1 = if s.invalidate ≠ 0 ∧ paddr ≠ 0 ∧ ctype = MAPPING_ACTIVE then
      mmap_addr P s pgd vaddr 0 (get_block_size vaddr tl) prot P.INVALID_MEMORY levels vmid
      else (0, s))
    (hr2 : r2 = mmap_addr P r1.2 pgd vaddr paddr (get_block_size vaddr tl) prot type levels vmid) :
    mmap_range_loop P ctype pgd prot type levels vmid (fuel + 1) s vaddr paddr tl
      = if r1.1 ≠ 0 then some r1
        else if r2.1 ≠ 0 then some r2
        else mmap_range_loop P ctype pgd prot type levels vmid fuel r2.2
          ((vaddr + get_block_size vaddr tl) % 2 ^ 64)
          (if paddr ≠ 0 then (paddr + get_block_size vaddr tl) % 2 ^ 64 else paddr)
          ((tl + 2 ^ 64 - get_block_size vaddr tl) % 2 ^ 64) := by
  rw [mmap_range_loop, if_neg h, hr2, hr1]

theorem span_chunk (hr va tl L : Nat) (hfit : 2 ≤ hr ∨ L < span (hr + 1)) (htl : tl ≤ L) :
    span (target_h hr (get_block_size va tl)) = get_block_size va tl := by
  have hs1 : span 1 = 2 ^ 21 := by simp [span]
  have hs2 : span 2 = 2 ^ 30 := by simp [span]
  rcases get_block_size_cases va tl with ⟨e, _, h⟩ | ⟨e, _, h⟩ | e
  · have h2 : 2 ≤ hr := by
      rcases hfit with c | c
      · exact c
      · by_contra hc
        have : hr = 0 ∨ hr = 1 := by omega
        rcases this with rfl | rfl
        · rw [show 0 + 1 = 1 from rfl, hs1] at c; omega
        · rw [show 1 + 1 = 2 from rfl, hs2] at c; omega
    rw [e, target_h_l1 hr h2, hs2]
  · have h1 : 1 ≤ hr := by
      rcases hfit with c | c
      · omega
      · by_contra hc
        have : hr = 0 := by omega
        subst this
        rw [show 0 + 1 = 1 from rfl, hs1] at c; omega
    rw [e, target_h_l2 hr h1, hs1]
  · rw [e, target_h_page]; simp [span]

theorem get_block_size_fits (va tl : Nat) (hva : va % 4096 = 0) (htl : 4096 ≤ tl) :
    va % get_block_size va tl = 0 ∧ get_block_size va tl ≤ tl ∧
    4096 ≤ get_block_size va tl ∧ get_block_size va tl ≤ 2 ^ 30 := by
  rcases get_block_size_cases va tl with ⟨e, h1, h2⟩ | ⟨e, h1, h2⟩ | e
  · rw [e]; exact ⟨h1, h2, by norm_num, le_refl _⟩
  · rw [e]; exact ⟨h1, h2, by norm_num, by norm_num⟩
  · rw [e]; exact ⟨hva, htl, le_refl _, by norm_num⟩

/-- The loop of `__mmap_range` ends within its turns, and when it returns 0
the whole range is mapped and everything outside it is as before. -/
theorem mmap_range_loop_ok {P : Platform} (hP : arena_ok P) (hI : P.INVALID_MEMORY < 1024)
    (root hr levels : Nat) (hlev : map_height levels = hr) (hhr : hr ≤ 3)
    (ctype prot type vmid : Nat)
    (hprot : prot < 2 ^ 64 ∧ prot &&& 0x0000FFFFFFFFF003 = 0) (htype : type < P.INVALID_MEMORY)
    (vaddr paddr L : Nat) (s0 : Machine) (ht0 : Nat → Option Nat)
    (hwin : ∀ v, vaddr ≤ v → v < vaddr + L → v / span (hr + 1) = vaddr / span (hr + 1))
    (hfit : 2 ≤ hr ∨ L < span (hr + 1))
    (h48 : vaddr + L ≤ 2 ^ 48) (hpa0 : paddr ≠ 0) (h40 : paddr + L ≤ 2 ^ 40)
    (hal : ∀ off, off < L → off % 4096 = 0 →
      (paddr + off) % get_block_size (vaddr + off) (L - off) = 0)
    (hun : ∀ v, vaddr ≤ v → v < vaddr + L → walk_h hr s0 root v = none)
    (hL : L % 4096 = 0) (hva : vaddr % 4096 = 0) :
    ∀ fuel off (s : Machine), off ≤ L → off % 4096 = 0 → L - off ≤ 4096 * fuel →
      FrameOK P s0 ht0 root hr (vaddr / span (hr + 1)) vaddr (vaddr + off) s →
      (∀ v, vaddr ≤ v → v < vaddr + off → ∃ w t pc,
        walk_d hr s root v = some (w, leaf_desc t pc prot type) ∧ w.ret = paddr + (v - vaddr)) →
      ∃ r, mmap_range_loop P ctype root prot type levels vmid fuel s (vaddr + off) (paddr + off)
            (L - off) = some r ∧
        (r.1 = 0 → FrameOK P s0 ht0 root hr (vaddr / span (hr + 1)) vaddr (vaddr + L) r.2 ∧
          ∀ v, vaddr ≤ v → v < vaddr + L → ∃ w t pc,
            walk_d hr r.2 root v = some (w, leaf_desc t pc prot type) ∧
            w.ret = paddr + (v - vaddr)) := by
  intro fuel
  induction fuel with
  | zero =>
    intro off s h1 h2 h3 F hin
    have e : off = L := by omega
    subst e
    rw [Nat.sub_self, mmap_range_loop_done]
    exact ⟨_, rfl, fun _ => ⟨F, hin⟩⟩
  | succ fuel ih =>
    intro off s h1 h2 h3 F hin
    by_cases e : off = L
    · subst e
      rw [Nat.sub_self, mmap_range_loop_done]
      exact ⟨_, rfl, fun _ => ⟨F, hin⟩⟩
    · have hlt : off < L := by omega
      have htl : L - off ≠ 0 := by omega
      have htl4 : 4096 ≤ L - off := by omega
      rw [mmap_range_loop_succ P ctype root prot type levels vmid fuel s _ _ _ htl _ _ rfl rfl]
      have hsp := span_chunk hr (vaddr + off) (L - off) L hfit (by omega)
      have halb := hal off hlt h2
      obtain ⟨hb1, hb2, hb3, hb4⟩ := get_block_size_fits (vaddr + off) (L - off) (by omega) htl4
      generalize get_block_size (vaddr + off) (L - off) = blk at hsp halb hb1 hb2 hb3 hb4 ⊢
      obtain ⟨ht', par', T', hdom⟩ := F.tree
      have hw0 : (vaddr + off) / span (hr + 1) = vaddr / span (hr + 1) :=
        hwin (vaddr + off) (by omega) (by omega)
      have hun' : walk_h hr s root (vaddr + off) = none := by
        rw [walk_h_of_walk_d hr s0 s root _ (F.outside (vaddr + off) hw0 (Or.inr (le_refl _)))]
        exact hun _ (by omega) (by omega)
      generalize hr1 : (if s.invalidate ≠ 0 ∧ paddr + off ≠ 0 ∧ ctype = MAPPING_ACTIVE then
        mmap_addr P s root (vaddr + off) 0 blk prot P.INVALID_MEMORY levels vmid
        else (0, s)) = r1
      generalize hr2 : mmap_addr P r1.2 root (vaddr + off) (paddr + off) blk prot type levels
        vmid = r2
      by_cases c1 : r1.1 ≠ 0
      · rw [if_pos c1]
        exact ⟨r1, rfl, fun h => absurd h c1⟩
      · rw [if_neg c1]
        by_cases c2 : r2.1 ≠ 0
        · rw [if_pos c2]
          exact ⟨r2, rfl, fun h => absurd h c2⟩
        · rw [if_neg c2]
          obtain ⟨F2, hin2⟩ := chunk_ok hP hI T' F.fz hhr levels hlev (vaddr + off) (paddr + off)
            blk prot type vmid hprot htype hsp hb1 halb (by omega) (by omega) (by omega) hun'
            _ r1 r2 hr1.symm hr2.symm (by omega) (by omega)
          rw [hw0] at F2 hin2
          have e1 : (vaddr + off + blk) % 2 ^ 64 = vaddr + (off + blk) := by omega
          have e2 : (if paddr + off ≠ 0 then (paddr + off + blk) % 2 ^ 64 else paddr + off)
              = paddr + (off + blk) := by
            rw [if_pos (by omega)]; omega
          have e3 : (L - off + 2 ^ 64 - blk) % 2 ^ 64 = L - (off + blk) := by omega
          rw [e1, e2, e3]
          have hmod : (off + blk) % 4096 = 0 := by
            have : blk % 4096 = 0 := by
              rw [← hsp]
              have := target_h_le_two hr blk
              generalize target_h hr blk = t at this
              interval_cases t <;> simp [span]
            omega
          apply ih (off + blk) r2.2 (by omega) hmod (by omega)
          · exact (F.mono vaddr (vaddr + (off + blk)) (le_refl _) (by omega)).trans hdom
              (F2.mono vaddr (vaddr + (off + blk)) (by omega) (by omega))
          · intro v v1 v2
            by_cases hv : v < vaddr + off
            · rw [F2.outside v (hwin v v1 (by omega)) (Or.inl hv)]
              exact hin v v1 hv
            · obtain ⟨w, hw, hret⟩ := hin2 v (by omega) (by omega) (hwin v v1 (by omega))
              exact ⟨w, _, _, hw, by rw [hret]; omega⟩

theorem round_up_page (n : Nat) (h : n < 2 ^ 48) :
    ROUND_UP n 0x1000 = (n + 4095) / 4096 * 4096 := by
  unfold ROUND_UP
  have : (n + 0x1000 - 1) % 2 ^ 64 = n + 4095 := by omega
  rw [this]

/-- The function `__mmap_range` on a tree: it returns, and when it returns 0
the pages of the range are mapped to the physical range and everything
outside them is as before. -/
theorem mmap_range_ok {P : Platform} (hP : arena_ok P) (hI : P.INVALID_MEMORY < 1024)
    {s : Machine} {ht : Nat → Option Nat} {par : Nat → Nat × Nat} {root : Nat}
    (levels : Nat) (T : Tree P s ht par root (map_height levels)) (hz : free_zero P s)
    (vaddr paddr length prot type vmid : Nat)
    (hprot : prot < 2 ^ 64 ∧ prot &&& 0x0000FFFFFFFFF003 = 0) (htype : type < P.INVALID_MEMORY)
    (hlen : length < 2 ^ 48)
    (hwin : ∀ v, vaddr ≤ v → v < vaddr + ROUND_UP length 0x1000 →
      v / span (map_height levels + 1) = vaddr / span (map_height levels + 1))
    (hfit : 2 ≤ map_height levels ∨ ROUND_UP length 0x1000 < span (map_height levels + 1))
    (h48 : vaddr + ROUND_UP length 0x1000 ≤ 2 ^ 48) (hpa0 : paddr ≠ 0)
    (h40 : paddr + ROUND_UP length 0x1000 ≤ 2 ^ 40)
    (hal : ∀ off, off < ROUND_UP length 0x1000 → off % 4096 = 0 →
      (paddr + off) % get_block_size (vaddr + off) (ROUND_UP length 0x1000 - off) = 0)
    (hun : ∀ v, vaddr ≤ v → v < vaddr + ROUND_UP length 0x1000 →
      walk_h (map_height levels) s root v = none)
    (hva : vaddr % 4096 = 0) :
    ∃ r, __mmap_range P s root vaddr paddr length prot type levels vmid = some r ∧
      (r.1 = 0 →
        FrameOK P s ht root (map_height levels) (vaddr / span (map_height levels + 1)) vaddr
          (vaddr + ROUND_UP length 0x1000) r.2 ∧
        ∀ v, vaddr ≤ v → v < vaddr + ROUND_UP length 0x1000 → ∃ w t pc,
          walk_d (map_height levels) r.2 root v = some (w, leaf_desc t pc prot type) ∧
          w.ret = paddr + (v - vaddr)) := by
  have hL := round_up_page length hlen
  have hhr : map_height levels ≤ 3 := by
    unfold map_height; split_ifs <;> omega
  unfold __mmap_range
  by_cases h0 : length = 0
  · rw [if_pos h0]
    have hL0 : ROUND_UP length 0x1000 = 0 := by rw [hL, h0]
    rw [hL0]
    exact ⟨_, rfl, fun _ => ⟨FrameOK.refl T hz _ _ _, fun v v1 v2 => by omega⟩⟩
  · rw [if_neg h0, if_neg (by omega), and_vaddr_mask, Nat.mod_eq_of_lt (by omega)]
    have hLm : ROUND_UP length 0x1000 % 4096 = 0 := by rw [hL]; omega
    have := mmap_range_loop_ok hP hI root (map_height levels) levels rfl hhr
      (get_mapping_type s root) prot type vmid hprot htype vaddr paddr (ROUND_UP length 0x1000)
      s ht hwin hfit h48 hpa0 h40 hal hun hLm hva (ROUND_UP length 0x1000 / 0x1000) 0 s
      (Nat.zero_le _) rfl (by omega) (FrameOK.refl T hz _ _ _) (fun v v1 v2 => by omega)
    simpa only [Nat.add_zero, Nat.sub_zero] using this

theorem walk_h_some_of_walk_d (h : Nat) (s : Machine) (x v : Nat) (w : walk_t) (d : Nat)
    (e : walk_d h s x v = some (w, d)) : walk_h h s x v = some w := by
  cases hw : walk_h h s x v with
  | none => rw [walk_d_none h s x v hw] at e; cases e
  | some w' =>
    rw [walk_d_some h s x v w' hw] at e
    simp only [Option.some.injEq, Prod.mk.injEq] at e
    rw [e.1]

/-- C3, amended: let `root` be the root of a tree of tables in use, with the
free slots of the arena zeroed, for `levels` of 2 or more; let the range lie
in one window of the root and below `2 ^ 48`, with less than 1 GiB of it when
`levels` is 2; let `vaddr` be page-aligned, `paddr` nonzero and page-aligned
with `paddr + length` at most `2 ^ 40`, and `paddr` aligned, at every
page-aligned offset, to the block size that `get_block_size` gives there; let
`prot` keep clear of the valid and type bits and of the output address, and
let the memory type be below `INVALID_MEMORY` (which fits the type field);
let no page of the range be mapped.  Then when `__mmap_range` returns 0,
`pt_walk(root, vaddr + i)` returns `paddr + i` for every `i < length`. -/
theorem mmap_range_then_walk (P : Platform) (hP : arena_ok P) (hI : P.INVALID_MEMORY < 1024)
    (s s' : Machine) (ht : Nat → Option Nat) (par : Nat → Nat × Nat)
    (root levels vaddr paddr length prot type vmid : Nat) (hlev : 2 ≤ levels)
    (T : Tree P s ht par root (map_height levels)) (hz : free_zero P s)
    (hva : vaddr % PAGE_SIZE = 0) (hpa0 : paddr ≠ 0) (hpa : paddr % PAGE_SIZE = 0)
    (hlen : 0 < length)
    (hwin : (vaddr + length - 1) / span (map_height levels + 1)
      = vaddr / span (map_height levels + 1))
    (hfit : 3 ≤ levels ∨ ROUND_UP length 0x1000 < 2 ^ 30)
    (h48 : vaddr + length ≤ 2 ^ 48) (h40 : paddr + length ≤ 2 ^ 40)
    (hal : ∀ off, off < ROUND_UP length 0x1000 → off % PAGE_SIZE = 0 →
      (paddr + off) % get_block_size (vaddr + off) (ROUND_UP length 0x1000 - off) = 0)
    (hprot : prot < 2 ^ 64 ∧ prot &&& 0x0000FFFFFFFFF003 = 0) (htype : type < P.INVALID_MEMORY)
    (hun : ∀ i, i < ROUND_UP length 0x1000 → __pt_walk s root (vaddr + i) levels = none)
    (hret : __mmap_range P s root vaddr paddr length prot type levels vmid = some (0, s')) :
    ∀ i, i < length → pt_walk s' root (vaddr + i) levels = paddr + i := by
  have hps : PAGE_SIZE = 4096 := rfl
  rw [hps] at hva hpa hal
  have hL := round_up_page length (by omega)
  have hwh : walk_height levels = map_height levels := by
    unfold walk_height map_height; split_ifs <;> omega
  have hcases : (map_height levels = 1 ∧ levels = 2) ∨ map_height levels = 2 ∨
      map_height levels = 3 := by
    unfold map_height; split_ifs <;> omega
  have hs2 : span (1 + 1) = 2 ^ 30 := by simp [span]
  have hs3 : span (2 + 1) = 2 ^ 39 := by simp [span]
  have hs4 : span (3 + 1) = 2 ^ 48 := by simp [span]
  have hwin' : ∀ v, vaddr ≤ v → v < vaddr + ROUND_UP length 0x1000 →
      v / span (map_height levels + 1) = vaddr / span (map_height levels + 1) := by
    intro v v1 v2
    rw [hL] at v2
    rcases hcases with ⟨e, _⟩ | e | e <;> rw [e] at hwin ⊢
    · rw [hs2] at hwin ⊢; omega
    · rw [hs3] at hwin ⊢; omega
    · rw [hs4] at hwin ⊢; omega
  have hfit' : 2 ≤ map_height levels ∨
      ROUND_UP length 0x1000 < span (map_height levels + 1) := by
    rcases hcases with ⟨e, e'⟩ | e | e
    · right
      rw [e, hs2]
      rcases hfit with c | c
      · omega
      · exact c
    · left; omega
    · left; omega
  obtain ⟨r, hr, hok⟩ := mmap_range_ok hP hI levels T hz vaddr paddr length prot type vmid hprot
    htype (by omega) hwin' hfit' (by rw [hL]; omega) hpa0 (by rw [hL]; omega) hal
    (fun v v1 v2 => by
      have := hun (v - vaddr) (by omega)
      rw [pt_walk_eq_walk_h, hwh, show vaddr + (v - vaddr) = v by omega] at this
      exact this) hva
  rw [hret] at hr
  cases hr
  obtain ⟨_, hin⟩ := hok rfl
  intro i hi
  obtain ⟨w, t, pc, hw, hret'⟩ := hin (vaddr + i) (by omega) (by rw [hL]; omega)
  unfold pt_walk
  rw [pt_walk_eq_walk_h, hwh, walk_h_some_of_walk_d _ _ _ _ _ _ hw]
  simp only [walk_ret]
  rw [hret']; omega

theorem virtPlatform_arena_ok : arena_ok virtPlatform := by
  unfold arena_ok; decide

theorem bootMachine_tree :
    Tree virtPlatform bootMachine bootHeights (fun _ => (0, 0)) 0x101000 3 := by
  refine ⟨rfl, ?_, ?_, ?_, ?_⟩
  · intro t h e
    simp only [bootHeights] at e
    split at e
    · cases e; exact le_refl _
    · cases e
  · intro t h e
    simp only [bootHeights] at e
    split at e
    · rename_i ht; subst ht; exact ⟨by decide, by decide⟩
    · cases e
  · intro t h e
    simp only [bootHeights] at e
    split at e
    · rename_i ht; subst ht
      rintro ⟨i, hi, hti, hb⟩
      have : i = 1 := by
        simp only [table_addr, virtPlatform] at hti; omega
      subst this
      revert hb; decide
    · cases e
  · intro t h j _ _ hne
    exact absurd table_oaddr_zero hne

theorem bootMachine_free_zero : free_zero virtPlatform bootMachine :=
  fun _ _ _ _ _ _ => rfl

theorem bootMachine_unmapped (root v levels : Nat) :
    __pt_walk bootMachine root v levels = none := by
  rw [pt_walk_eq_walk_h]
  exact walk_h_zero_table _ _ _ _ (by unfold walk_height; split_ifs <;> omega)
    (fun _ _ _ => rfl)

theorem blockPageMachine_eq :
    __mmap_range virtPlatform bootMachine 0x101000 0x40000000 0x80000000 0x201000 0x40 4 4 0
      = some (0, blockPageMachine) := by
  have h : (__mmap_range virtPlatform bootMachine 0x101000 0x40000000 0x80000000 0x201000
      0x40 4 4 0).map (fun r => r.1) = some 0 := by decide
  unfold blockPageMachine
  generalize __mmap_range virtPlatform bootMachine 0x101000 0x40000000 0x80000000 0x201000
      0x40 4 4 0 = x at h ⊢
  cases x with
  | none => cases h
  | some r =>
    obtain ⟨a, b⟩ := r
    simp only [Option.map_some', Option.some.injEq] at h
    subst h; rfl

theorem blockPageMachine_aligned (off : Nat) (h1 : off < 0x201000) (h2 : off % 4096 = 0) :
    (0x80000000 + off) % get_block_size (0x40000000 + off) (0x201000 - off) = 0 := by
  rcases get_block_size_cases (0x40000000 + off) (0x201000 - off) with ⟨e, _, h⟩ | ⟨e, h3, h⟩ | e
  · omega
  · rw [e]; omega
  · rw [e]; omega

/-- C3, the claim at a failing input: on the state after boot, the range of
2 MiB at `0x200000` is mapped to the physical address `0x1000`, which is
nonzero and page-aligned.  `__mmap_range` returns 0, but it has installed a
2 MiB block, whose output address is `0x1000` masked to a multiple of 2 MiB,
that is 0, so that the entry was cleared: the walk of `0x200000` finds no
mapping and not `0x1000`. -/
theorem mmap_range_unaligned_counterexample :
    0x200000 % PAGE_SIZE = 0 ∧ 0x200000 ≤ MAX_VADDR ∧ 0x1000 % PAGE_SIZE = 0 ∧
    0x1000 ≤ MAX_PADDR ∧ 4 < virtPlatform.INVALID_MEMORY ∧
    (∀ v, __pt_walk bootMachine 0x101000 v 4 = none) ∧
    (__mmap_range virtPlatform bootMachine 0x101000 0x200000 0x1000 0x200000 0x40 4 4 0).map
      (fun r => (r.1, pt_walk r.2 0x101000 0x200000 4)) = some (0, NOADDR) ∧
    NOADDR ≠ 0x1000 + 0 :=
  ⟨by decide, by decide, by decide, by decide, by decide,
    fun v => bootMachine_unmapped _ v _, by decide, by decide⟩

/-- C3, witness: on the state after boot, the range of 2 MiB and a page at
`0x40000000` is mapped to `0x80000000`. -/
theorem mmap_range_then_walk_witness :
    __mmap_range virtPlatform bootMachine 0x101000 0x40000000 0x80000000 0x201000 0x40 4 4 0
      = some (0, blockPageMachine) ∧
    ∀ i, i < 0x201000 → pt_walk blockPageMachine 0x101000 (0x40000000 + i) 4 = 0x80000000 + i := by
  have hR : ROUND_UP 0x201000 0x1000 = 0x201000 := by decide
  refine ⟨blockPageMachine_eq, mmap_range_then_walk virtPlatform virtPlatform_arena_ok
    (by decide) bootMachine blockPageMachine bootHeights (fun _ => (0, 0)) 0x101000 4
    0x40000000 0x80000000 0x201000 0x40 4 0 (by decide) bootMachine_tree bootMachine_free_zero
    (by decide) (by decide) (by decide) (by decide) (by decide) (Or.inl (by decide)) (by decide)
    (by decide) ?_ ⟨by decide, by decide⟩ (by decide) (fun i _ => bootMachine_unmapped _ _ _)
    blockPageMachine_eq⟩
  intro off h1 h2
  rw [hR] at h1 ⊢
  exact blockPageMachine_aligned off h1 h2

/-! ## Paths of walks -/

theorem descend_le (h k : Nat) (s : Machine) (x v : Nat) (hle : h ≤ k) :
    descend h k s x v = some x := by
  cases h with
  | zero => rfl
  | succ h => rw [descend, if_pos hle]

theorem descend_succ (h k : Nat) (s : Machine) (x v : Nat) (hlt : k < h + 1) :
    descend (h + 1) k s x v =
      if bit_raised (s.mem (entry_addr x (tidx (h + 1) v))) VALID_TABLE_BIT = 0 then none
      else if h + 1 ≤ 2 ∧
          bit_raised (s.mem (entry_addr x (tidx (h + 1) v))) TABLE_TYPE_BIT = 0 then none
      else if table_oaddr (s.mem (entry_addr x (tidx (h + 1) v))) = 0 then none
      else descend h k s (table_oaddr (s.mem (entry_addr x (tidx (h + 1) v)))) v := by
  rw [descend, if_neg (by omega)]

/-- A descriptor with a table address in it has the table bit. -/
theorem type_bit_of_table (d : Nat) (h : table_oaddr d ≠ 0) :
    bit_raised d TABLE_TYPE_BIT ≠ 0 := by
  intro hc
  apply h
  simp [table_oaddr, hc]

theorem descend_table_entry (h k : Nat) (s : Machine) (x v : Nat) (hlt : k < h + 1)
    (hv : bit_raised (s.mem (entry_addr x (tidx (h + 1) v))) VALID_TABLE_BIT ≠ 0)
    (ho : table_oaddr (s.mem (entry_addr x (tidx (h + 1) v))) ≠ 0) :
    descend (h + 1) k s x v
      = descend h k s (table_oaddr (s.mem (entry_addr x (tidx (h + 1) v)))) v := by
  rw [descend_succ h k s x v hlt, if_neg hv, if_neg (fun c => type_bit_of_table _ ho c.2),
    if_neg ho]

/-- What a step of `descend` that goes on has read. -/
theorem descend_step (h k : Nat) (s : Machine) (x v tp : Nat) (hlt : k < h + 1)
    (hd : descend (h + 1) k s x v = some tp) :
    bit_raised (s.mem (entry_addr x (tidx (h + 1) v))) VALID_TABLE_BIT ≠ 0 ∧
    table_oaddr (s.mem (entry_addr x (tidx (h + 1) v))) ≠ 0 ∧
    descend h k s (table_oaddr (s.mem (entry_addr x (tidx (h + 1) v)))) v = some tp := by
  rw [descend_succ h k s x v hlt] at hd
  by_cases hv : bit_raised (s.mem (entry_addr x (tidx (h + 1) v))) VALID_TABLE_BIT = 0
  · rw [if_pos hv] at hd; cases hd
  · rw [if_neg hv] at hd
    by_cases hb : h + 1 ≤ 2 ∧
        bit_raised (s.mem (entry_addr x (tidx (h + 1) v))) TABLE_TYPE_BIT = 0
    · rw [if_pos hb] at hd; cases hd
    · rw [if_neg hb] at hd
      by_cases ho : table_oaddr (s.mem (entry_addr x (tidx (h + 1) v))) = 0
      · rw [if_pos ho] at hd; cases hd
      · rw [if_neg ho] at hd
        exact ⟨hv, ho, hd⟩

/-- The walk from a table goes on from the table that it comes to. -/
theorem descend_walk (k : Nat) (s : Machine) (v tp : Nat) :
    ∀ h x, k ≤ h → descend h k s x v = some tp → walk_h h s x v = walk_h k s tp v := by
  intro h
  induction h with
  | zero =>
    intro x hk hd
    have : k = 0 := by omega
    subst this
    rw [descend_le 0 0 s x v (le_refl _)] at hd
    cases hd; rfl
  | succ h ih =>
    intro x hk hd
    by_cases e : k = h + 1
    · subst e
      rw [descend_le _ _ s x v (le_refl _)] at hd
      cases hd; rfl
    · obtain ⟨hv, ho, hd'⟩ := descend_step h k s x v tp (by omega) hd
      rw [walk_h_table_entry h s x v hv ho]
      exact ih _ (by omega) hd'

/-- Addresses with the same indices above the height `k` come to the same
table of height `k`. -/
theorem descend_same_path (k : Nat) (s : Machine) (v a : Nat) :
    ∀ h x, (∀ i, k < i → i ≤ h → tidx i v = tidx i a) →
      descend h k s x v = descend h k s x a := by
  intro h
  induction h with
  | zero => intro x _; rfl
  | succ h ih =>
    intro x hp
    by_cases hle : h + 1 ≤ k
    · rw [descend_le _ _ s x v hle, descend_le _ _ s x a hle]
    · rw [descend_succ h k s x v (by omega), descend_succ h k s x a (by omega),
        hp (h + 1) (by omega) (le_refl _)]
      split
      · rfl
      · split
        · rfl
        · split
          · rfl
          · exact ih _ (fun i h1 h2 => hp i h1 (by omega))

/-- The table that `descend` comes to is a table of the tree, of the height
asked for. -/
theorem descend_height {P : Platform} {s : Machine} {ht : Nat → Option Nat}
    {par : Nat → Nat × Nat} {root hr : Nat} (T : Tree P s ht par root hr) (k v tp : Nat) :
    ∀ h x, h ≤ 3 → k ≤ h → ht x = some h → descend h k s x v = some tp → ht tp = some k := by
  intro h
  induction h with
  | zero =>
    intro x _ hk hx hd
    have : k = 0 := by omega
    subst this
    rw [descend_le 0 0 s x v (le_refl _)] at hd
    cases hd; exact hx
  | succ h ih =>
    intro x h3 hk hx hd
    by_cases e : k = h + 1
    · subst e
      rw [descend_le _ _ s x v (le_refl _)] at hd
      cases hd; exact hx
    · obtain ⟨hv, ho, hd'⟩ := descend_step h k s x v tp (by omega) hd
      obtain ⟨_, c2, _⟩ := T.child x h _ hx (tidx_lt (h + 1) v h3) ho
      exact ih _ (by omega) (by omega) c2 hd'

/-- In a tree, a table is come to from one table of each height above it, by
one sequence of indices. -/
theorem descend_unique {P : Platform} {s : Machine} {ht : Nat → Option Nat}
    {par : Nat → Nat × Nat} {root hr : Nat} (T : Tree P s ht par root hr) (k u u' tp : Nat) :
    ∀ h c c', h ≤ 3 → ht c = some h → ht c' = some h →
      descend h k s c u = some tp → descend h k s c' u' = some tp →
      c = c' ∧ ∀ i, k < i → i ≤ h → tidx i u = tidx i u' := by
  intro h
  induction h with
  | zero =>
    intro c c' _ _ _ h1 h2
    rw [descend_le 0 k s c u (Nat.zero_le _)] at h1
    rw [descend_le 0 k s c' u' (Nat.zero_le _)] at h2
    cases h1; cases h2
    exact ⟨rfl, fun i _ _ => by omega⟩
  | succ h ih =>
    intro c c' h3 hc hc' h1 h2
    by_cases hle : h + 1 ≤ k
    · rw [descend_le _ k s c u hle] at h1
      rw [descend_le _ k s c' u' hle] at h2
      cases h1; cases h2
      exact ⟨rfl, fun i _ _ => by omega⟩
    · obtain ⟨_, o1, d1⟩ := descend_step h k s c u tp (by omega) h1
      obtain ⟨_, o2, d2⟩ := descend_step h k s c' u' tp (by omega) h2
      obtain ⟨_, a2, a3⟩ := T.child c h _ hc (tidx_lt (h + 1) u h3) o1
      obtain ⟨_, b2, b3⟩ := T.child c' h _ hc' (tidx_lt (h + 1) u' h3) o2
      obtain ⟨e, hi⟩ := ih _ _ (by omega) a2 b2 d1 d2
      rw [e, b3] at a3
      have e1 : c' = c := (Prod.mk.inj a3).1
      have e2 : tidx (h + 1) u' = tidx (h + 1) u := (Prod.mk.inj a3).2
      refine ⟨e1.symm, fun i i1 i2 => ?_⟩
      by_cases ei : i = h + 1
      · rw [ei]; exact e2.symm
      · exact hi i i1 (by omega)

/-- The path to a table of height `k` is read from the tables above that
height only. -/
theorem descend_congr {P : Platform} {s : Machine} {ht : Nat → Option Nat}
    {par : Nat → Nat × Nat} {root hr : Nat} (T : Tree P s ht par root hr) (s2 : Machine)
    (k v : Nat)
    (hag : ∀ t k' a, ht t = some k' → k < k' → t ≤ a → a < t + 4096 → s2.mem a = s.mem a) :
    ∀ h x, h ≤ 3 → ht x = some h → descend h k s2 x v = descend h k s x v := by
  intro h
  induction h with
  | zero => intro x _ _; rfl
  | succ h ih =>
    intro x h3 hx
    by_cases hle : h + 1 ≤ k
    · rw [descend_le _ _ s2 x v hle, descend_le _ _ s x v hle]
    · have hr := entry_addr_range x (tidx (h + 1) v) (tidx_lt (h + 1) v h3)
      rw [descend_succ h k s2 x v (by omega), descend_succ h k s x v (by omega),
        hag x (h + 1) _ hx (by omega) hr.1 hr.2]
      split
      · rfl
      · split
        · rfl
        · split
          · rfl
          · rename_i ho
            obtain ⟨_, c2, _⟩ := T.child x h _ hx (tidx_lt (h + 1) v h3) ho
            exact ih _ (by omega) c2

/-- A walk that ends at a descriptor without the table bit ended at a block
descriptor of a table of height 1 or 2 on its path. -/
theorem walk_block_descend {P : Platform} {s : Machine} {ht : Nat → Option Nat}
    {par : Nat → Nat × Nat} {root hr : Nat} (T : Tree P s ht par root hr) (a : Nat) (w : walk_t)
    (hb : bit_raised (s.mem w.ptep) TABLE_TYPE_BIT = 0) :
    ∀ h x, h ≤ 3 → ht x = some h → walk_h h s x a = some w →
      ∃ tp h', h' + 1 ≤ h ∧ h' + 1 ≤ 2 ∧ descend h (h' + 1) s x a = some tp ∧
        ht tp = some (h' + 1) ∧
        bit_raised (s.mem (entry_addr tp (tidx (h' + 1) a))) VALID_TABLE_BIT ≠ 0 ∧
        w = block_type s a tp (tidx (h' + 1) a) 0 (2 - h') := by
  intro h
  induction h with
  | zero =>
    intro x _ _ hw
    exfalso
    rw [walk_h_zero, pt_walk_l3] at hw
    split at hw
    · cases hw
    · rename_i hne
      simp only [Option.some.injEq] at hw
      rw [← hw] at hb
      exact hne hb
  | succ h ih =>
    intro x h3 hx hw
    rw [walk_h_succ] at hw
    by_cases hv : bit_raised (s.mem (entry_addr x (tidx (h + 1) a))) VALID_TABLE_BIT = 0
    · rw [if_pos hv] at hw; cases hw
    · rw [if_neg hv] at hw
      by_cases hblk : h + 1 ≤ 2 ∧
          bit_raised (s.mem (entry_addr x (tidx (h + 1) a))) TABLE_TYPE_BIT = 0
      · rw [if_pos hblk] at hw
        simp only [Option.some.injEq] at hw
        exact ⟨x, h, le_refl _, hblk.1, descend_le _ _ s x a (le_refl _), hx, hv, hw.symm⟩
      · rw [if_neg hblk] at hw
        by_cases ho : table_oaddr (s.mem (entry_addr x (tidx (h + 1) a))) = 0
        · rw [if_pos ho] at hw; cases hw
        · rw [if_neg ho] at hw
          obtain ⟨_, c2, _⟩ := T.child x h _ hx (tidx_lt (h + 1) a h3) ho
          obtain ⟨tp, h', l1, l2, l3, l4, l5, l6⟩ := ih _ (by omega) c2 hw
          refine ⟨tp, h', by omega, l2, ?_, l4, l5, l6⟩
          rw [descend_table_entry h (h' + 1) s x a (by omega) hv ho]
          exact l3

/-- A change of one entry `(tp, j)` of a table of the tree, and of free
tables, leaves the walks that do not come to this entry as they were. -/
theorem deep_frame {P : Platform} {s : Machine} {ht : Nat → Option Nat}
    {par : Nat → Nat × Nat} {root hr : Nat} (T : Tree P s ht par root hr) (hP : arena_ok P)
    (s2 : Machine) (tp k j v : Nat) (hk : ht tp = some k) (hj : j < 512)
    (hmod : ∀ x, s2.mem x ≠ s.mem x → x = entry_addr tp j ∨
      ∃ t, t ≤ x ∧ x < t + 4096 ∧ is_free P s t) :
    ∀ h x, h ≤ 3 → ht x = some h → (descend h k s x v ≠ some tp ∨ tidx k v ≠ j) →
      walk_d h s2 x v = walk_d h s x v := by
  have hta := T.aligned tp _ hk
  intro h
  induction h with
  | zero =>
    intro x _ hx hne
    apply walk_d_one_entry 0 s s2 x v _ (Or.inl rfl)
    by_contra hc
    have hr := entry_addr_range x (tidx 0 v) (tidx_lt 0 v (by omega))
    rcases hmod _ hc with e | ⟨t, r1, r2, hf⟩
    · obtain ⟨e1, e2⟩ := entry_addr_inj x tp _ j (T.aligned x _ hx).1 hta.1
        (tidx_lt 0 v (by omega)) hj e
      subst e1
      rw [hx] at hk
      cases hk
      rcases hne with n | n
      · exact n (descend_le 0 0 s x v (le_refl _))
      · exact n e2
    · exact T.not_in_free hP x _ _ hx hr t hf ⟨r1, r2⟩
  | succ h ih =>
    intro x h3 hx hne
    have hjv := tidx_lt (h + 1) v h3
    have hr := entry_addr_range x (tidx (h + 1) v) hjv
    have hm : s2.mem (entry_addr x (tidx (h + 1) v)) = s.mem (entry_addr x (tidx (h + 1) v)) := by
      by_contra hc
      rcases hmod _ hc with e | ⟨t, r1, r2, hf⟩
      · obtain ⟨e1, e2⟩ := entry_addr_inj x tp _ j (T.aligned x _ hx).1 hta.1 hjv hj e
        subst e1
        rw [hx] at hk
        cases hk
        rcases hne with n | n
        · exact n (descend_le _ _ s x v (le_refl _))
        · exact n e2
      · exact T.not_in_free hP x _ _ hx hr t hf ⟨r1, r2⟩
    by_cases ho : table_oaddr (s.mem (entry_addr x (tidx (h + 1) v))) = 0
    · exact walk_d_one_entry (h + 1) s s2 x v hm (Or.inr ho)
    · obtain ⟨c1, c2, c3⟩ := T.child x h _ hx hjv ho
      have e2 : walk_d (h + 1) s2 x v
          = walk_d h s2 (table_oaddr (s.mem (entry_addr x (tidx (h + 1) v)))) v := by
        simp only [walk_d]
        rw [walk_h_table_entry h s2 x v (by rw [hm]; exact c1) (by rw [hm]; exact ho), hm]
      have e3 : walk_d (h + 1) s x v
          = walk_d h s (table_oaddr (s.mem (entry_addr x (tidx (h + 1) v)))) v := by
        simp only [walk_d]
        rw [walk_h_table_entry h s x v c1 ho]
      rw [e2, e3]
      apply ih _ (by omega) c2
      rcases hne with n | n
      · left
        by_cases hle : h + 1 ≤ k
        · rw [descend_le h k s _ v (by omega)]
          intro hc
          cases hc
          rw [c2] at hk
          cases hk
          omega
        · rw [descend_table_entry h k s x v (by omega) c1 ho] at n
          exact n
      · exact Or.inr n

theorem free_zero_invalidate {P : Platform} {s : Machine} (hz : free_zero P s) (n : Nat) :
    free_zero P { s with invalidate := n } := hz

/-- A table taken from a free slot of the arena is the root of a tree of its
own, and the free tables stay zeroed. -/
theorem fresh_root {P : Platform} {s : Machine} (hP : arena_ok P) (hz : free_zero P s)
    (k vm h : Nat) (hkn : k < NUM_TABLES)
    (hfree : bit_raised (s.table_props k) VALID_TABLE_BIT = 0) (par : Nat → Nat × Nat) :
    Tree P { s with table_props := fun i =>
        if i = k then (vm % 256) * 256 + 1 else s.table_props i }
      (fun t => if t = table_addr P k then some h else none) par (table_addr P k) h ∧
    free_zero P { s with table_props := fun i =>
        if i = k then (vm % 256) * 256 + 1 else s.table_props i } := by
  have hka := table_addr_aligned P hP k hkn
  refine ⟨⟨by simp, ?_, ?_, ?_, ?_⟩, ?_⟩
  · intro t hh hth
    by_cases e : t = table_addr P k
    · rw [if_pos e] at hth; cases hth; exact le_refl _
    · rw [if_neg e] at hth; cases hth
  · intro t hh hth
    by_cases e : t = table_addr P k
    · rw [e]; exact ⟨hka.1, hka.2.1⟩
    · rw [if_neg e] at hth; cases hth
  · intro t hh hth hf
    obtain ⟨i, hi, hti, hb⟩ := hf
    by_cases e : t = table_addr P k
    · have : i = k := table_addr_inj P _ _ (hti.symm.trans e)
      subst this
      simp only [if_true, bit_raised_valid] at hb
      omega
    · rw [if_neg e] at hth; cases hth
  · intro t hh j' hth hj' hne
    by_cases e : t = table_addr P k
    · exfalso
      apply hne
      have hr := entry_addr_range t j' hj'
      rw [e] at hr
      show table_oaddr (s.mem (entry_addr t j')) = 0
      rw [e, hz k hkn hfree _ hr.1 hr.2, table_oaddr_zero]
    · rw [if_neg e] at hth; cases hth
  · intro i hi hb x hx1 hx2
    by_cases e : i = k
    · subst e
      simp only [if_true, bit_raised_valid] at hb
      omega
    · simp only [e, if_false] at hb
      exact hz i hi hb x hx1 hx2


/-- The steps of a completed `block_split`: a table is taken from the arena
with `invalidate` cleared, the head, the new range and the tail are mapped
into it, each with the result 0, and the block descriptor is replaced by the
descriptor of the table. -/
theorem block_split_some (P : Platform) (s : Machine) (b : mblockinfo_t)
    (o l np prot type vmid : Nat) (r : Machine × Nat × Nat × Nat)
    (hv : b.vaddr + b.size < 2 ^ 64) (hol : o + l ≤ b.size) (hbs : b.size < 2 ^ 64)
    (hpa : b.paddr + b.size < 2 ^ 64) (hnp : np + l < 2 ^ 64)
    (hsplit : block_split P s b (b.vaddr + o) np l prot type vmid = some r) :
    ∃ i s1 s2 s3, i < NUM_TABLES ∧
      bit_raised (s.table_props i) VALID_TABLE_BIT = 0 ∧
      __mmap_range P { s with invalidate := 0, table_props := fun j =>
          if j = i then (vmid % 256) * 256 + 1 else s.table_props j }
        (table_addr P i) b.vaddr b.paddr o b.prot b.type (if b.level = 1 then 2 else 1) vmid
        = some (0, s1) ∧
      __mmap_range P s1 (table_addr P i) (b.vaddr + o) np l prot type
        (if b.level = 1 then 2 else 1) vmid = some (0, s2) ∧
      __mmap_range P s2 (table_addr P i) (b.vaddr + o + l) (b.paddr + o + l) (b.size - o - l)
        b.prot b.type (if b.level = 1 then 2 else 1) vmid = some (0, s3) ∧
      r = ({ s3.write b.ptep (bit_set (bit_set (table_addr P i) VALID_TABLE_BIT) TABLE_TYPE_BIT)
              with invalidate := 1 }, b.vaddr + o + l, np + l, 0) := by
  have e1 : (b.vaddr + o + 2 ^ 64 - b.vaddr) % 2 ^ 64 = o := by omega
  have e2 : (b.size + 2 ^ 64 - o) % 2 ^ 64 = b.size - o := by omega
  have e3 : (if l < b.size - o then l else b.size - o) = l := by
    split <;> omega
  have e4 : (if l < b.size - o then (b.size - o + 2 ^ 64 - l) % 2 ^ 64 else 0)
      = b.size - o - l := by
    split <;> omega
  have e5 : (if l < b.size - o then 0 else (l + 2 ^ 64 - (b.size - o)) % 2 ^ 64) = 0 := by
    split <;> omega
  have e6 : (b.vaddr + o) % 2 ^ 64 = b.vaddr + o := by omega
  have e7 : (b.vaddr + o + l) % 2 ^ 64 = b.vaddr + o + l := by omega
  have e8 : (b.paddr + o) % 2 ^ 64 = b.paddr + o := by omega
  have e9 : (b.paddr + o + l) % 2 ^ 64 = b.paddr + o + l := by omega
  have e10 : (np + l) % 2 ^ 64 = np + l := by omega
  unfold block_split at hsplit
  rcases alloc_table_cases P { s with invalidate := 0 } vmid with ⟨_, he⟩ | ⟨i, hin, hfree, he⟩
  · rw [he] at hsplit
    simp only [if_true] at hsplit
    cases hsplit
  · rw [he] at hsplit
    simp only [e1, e2, e3, e4, e5, e6, e7, e8, e9, e10] at hsplit
    split at hsplit
    · cases hsplit
    · split at hsplit
      · cases hsplit
      · rename_i res1 s1 h1
        split at hsplit
        · cases hsplit
        · rename_i hr1
          split at hsplit
          · cases hsplit
          · rename_i res2 s2 h2
            split at hsplit
            · cases hsplit
            · rename_i hr2
              split at hsplit
              · cases hsplit
              · rename_i res3 s3 h3
                split at hsplit
                · cases hsplit
                · rename_i hr3
                  have z1 : res1 = 0 := by
                    by_contra hc; exact hr1 hc
                  have z2 : res2 = 0 := by
                    by_contra hc; exact hr2 hc
                  have z3 : res3 = 0 := by
                    by_contra hc; exact hr3 hc
                  subst z1; subst z2; subst z3
                  simp only [Option.some.injEq] at hsplit
                  exact ⟨i, s1, s2, s3, hin, hfree, h1, h2, h3, hsplit.symm⟩

theorem span_block (k' : Nat) (hk' : k' ≤ 1) :
    span (k' + 1) = 2 ^ 21 ∨ span (k' + 1) = 2 ^ 30 := by
  interval_cases k'
  · left; simp [span]
  · right; simp [span]

/-- Inside a block whose virtual and physical bases are aligned to its size,
the physical address is aligned to every block size that `get_block_size`
chooses for less than the whole block. -/
theorem block_aligned_hal (B base pa x n : Nat) (hB : B = 2 ^ 21 ∨ B = 2 ^ 30)
    (hbase : base % B = 0) (hpa : pa % B = 0) (hx : x % 4096 = 0) (hn : n < B) :
    (pa + x) % get_block_size (base + x) n = 0 := by
  rcases get_block_size_cases (base + x) n with ⟨e, h1, h2⟩ | ⟨e, h1, h2⟩ | e
  · rcases hB with rfl | rfl <;> omega
  · rw [e]
    rcases hB with rfl | rfl <;> omega
  · rw [e]
    rcases hB with rfl | rfl <;> omega

theorem round_up_aligned (n : Nat) (h : n < 2 ^ 48) (ha : n % 4096 = 0) :
    ROUND_UP n 0x1000 = n := by
  rw [round_up_page n h]; omega

/-- The three runs of `__mmap_range` of `block_split` on the fresh table: the
head and the tail of the block are mapped to the addresses of the block, and
the range in between to the new address. -/
theorem split_tables_ok {P : Platform} (hP : arena_ok P) (hI : P.INVALID_MEMORY < 1024)
    {sa : Machine} {hta : Nat → Option Nat} {para : Nat → Nat × Nat} {tbl : Nat}
    (lv k' : Nat) (hlv : map_height lv = k') (hk' : k' ≤ 1)
    (Ta : Tree P sa hta para tbl k') (hza : free_zero P sa)
    (hzero : ∀ v, walk_h k' sa tbl v = none)
    (base pa bp bt : Nat) (hbase : base % span (k' + 1) = 0)
    (h48 : base + span (k' + 1) ≤ 2 ^ 48)
    (hpal : pa % span (k' + 1) = 0) (hpa0 : pa ≠ 0) (h40 : pa + span (k' + 1) ≤ 2 ^ 40)
    (hbp : bp < 2 ^ 64 ∧ bp &&& 0x0000FFFFFFFFF003 = 0) (hbt : bt < P.INVALID_MEMORY)
    (o l np prot type vmid : Nat) (ho : o % 4096 = 0) (hl : l % 4096 = 0) (hl0 : 0 < l)
    (hlB : l < span (k' + 1)) (hol : o + l ≤ span (k' + 1))
    (hnp0 : np ≠ 0) (hnp40 : np + l ≤ 2 ^ 40)
    (hal : ∀ off, off < l → off % 4096 = 0 →
      (np + off) % get_block_size (base + o + off) (l - off) = 0)
    (hprot : prot < 2 ^ 64 ∧ prot &&& 0x0000FFFFFFFFF003 = 0) (htype : type < P.INVALID_MEMORY)
    (s1 s2 s3 : Machine)
    (c1 : __mmap_range P sa tbl base pa o bp bt lv vmid = some (0, s1))
    (c2 : __mmap_range P s1 tbl (base + o) np l prot type lv vmid = some (0, s2))
    (c3 : __mmap_range P s2 tbl (base + o + l) (pa + o + l) (span (k' + 1) - o - l) bp bt lv vmid
      = some (0, s3)) :
    FrameOK P sa hta tbl k' (base / span (k' + 1)) base (base + span (k' + 1)) s3 ∧
    (∀ v, base ≤ v → v < base + span (k' + 1) → v < base + o ∨ base + o + l ≤ v →
      ∃ w t pc, walk_d k' s3 tbl v = some (w, leaf_desc t pc bp bt) ∧
        w.ret = pa + (v - base)) ∧
    (∀ v, base + o ≤ v → v < base + o + l →
      ∃ w t pc, walk_d k' s3 tbl v = some (w, leaf_desc t pc prot type) ∧
        w.ret = np + (v - (base + o))) := by
  subst hlv
  have hB := span_block (map_height lv) hk'
  generalize hBdef : span (map_height lv + 1) = B at *
  have hB48 : B ≤ 2 ^ 30 := by rcases hB with e | e <;> omega
  have hB4 : B % 4096 = 0 := by rcases hB with e | e <;> omega
  have hwin : ∀ v, base ≤ v → v < base + B → v / B = base / B := by
    intro v v1 v2
    rcases hB with e | e <;> subst e <;> omega
  have hwin' : ∀ v, base ≤ v → v < base + B → v / span (map_height lv + 1) = base / B := by
    rw [hBdef]; exact hwin
  have hbase4 : base % 4096 = 0 := by rcases hB with e | e <;> subst e <;> omega
  have hpa4 : pa % 4096 = 0 := by rcases hB with e | e <;> subst e <;> omega
  have hRo := round_up_aligned o (by omega) ho
  have hRl := round_up_aligned l (by omega) hl
  have hRt := round_up_aligned (B - o - l) (by omega) (by omega)
  -- the head
  obtain ⟨r1, e1, ok1⟩ := mmap_range_ok hP hI lv Ta hza base pa o bp bt vmid hbp hbt (by omega)
    (by rw [hRo, hBdef]; intro v v1 v2; exact hwin v v1 (by omega))
    (Or.inr (by rw [hRo, hBdef]; omega)) (by rw [hRo]; omega) hpa0 (by rw [hRo]; omega)
    (by
      rw [hRo]
      intro off h1 h2
      exact block_aligned_hal B base pa off (o - off) hB hbase hpal h2 (by omega))
    (fun v _ _ => hzero v) hbase4
  rw [c1] at e1
  cases e1
  obtain ⟨F1, in1⟩ := ok1 rfl
  rw [hRo, hBdef] at F1
  rw [hRo] at in1
  dsimp only at F1 in1
  obtain ⟨ht1, par1, T1, hdom1⟩ := F1.tree
  have hw2 : (base + o) / B = base / B := hwin _ (by omega) (by omega)
  -- the new range
  obtain ⟨r2, e2, ok2⟩ := mmap_range_ok hP hI lv T1 F1.fz (base + o) np l prot type vmid hprot
    htype (by omega)
    (by rw [hRl, hBdef, hw2]; intro v v1 v2; exact hwin v (by omega) (by omega))
    (Or.inr (by rw [hRl, hBdef]; omega)) (by rw [hRl]; omega) hnp0 (by rw [hRl]; omega)
    (by rw [hRl]; exact hal)
    (fun v v1 v2 => by
      rw [walk_h_of_walk_d _ sa s1 tbl v (F1.outside v (hwin' v (by omega)
        (by rw [hRl] at v2; omega)) (Or.inr v1))]
      exact hzero v) (by omega)
  rw [c2] at e2
  cases e2
  obtain ⟨F2, in2⟩ := ok2 rfl
  rw [hRl, hBdef, hw2] at F2
  rw [hRl] at in2
  dsimp only at F2 in2
  obtain ⟨ht2, par2, T2, hdom2⟩ := F2.tree
  -- the tail
  have h3 : FrameOK P s2 ht2 tbl (map_height lv) (base / B) (base + o + l) (base + B) s3 ∧
      ∀ v, base + o + l ≤ v → v < base + B → ∃ w t pc,
        walk_d (map_height lv) s3 tbl v = some (w, leaf_desc t pc bp bt) ∧
        w.ret = pa + (v - base) := by
    by_cases hc : o + l = B
    · have e0 : B - o - l = 0 := by omega
      rw [e0] at c3
      unfold __mmap_range at c3
      rw [if_pos rfl] at c3
      simp only [Option.some.injEq, Prod.mk.injEq, true_and] at c3
      subst c3
      exact ⟨FrameOK.refl T2 F2.fz _ _ _, fun v v1 v2 => by omega⟩
    · have hw3 : (base + o + l) / B = base / B := hwin _ (by omega) (by omega)
      obtain ⟨r3, e3, ok3⟩ := mmap_range_ok hP hI lv T2 F2.fz (base + o + l) (pa + o + l)
        (B - o - l) bp bt vmid hbp hbt (by omega)
        (by rw [hRt, hBdef, hw3]; intro v v1 v2; exact hwin v (by omega) (by omega))
        (Or.inr (by rw [hRt, hBdef]; omega)) (by rw [hRt]; omega) (by omega)
        (by rw [hRt]; omega)
        (by
          rw [hRt]
          intro off h1 h2
          have := block_aligned_hal B base pa (o + l + off) (B - o - l - off) hB hbase hpal
            (by omega) (by omega)
          rw [show pa + o + l + off = pa + (o + l + off) by omega,
            show base + o + l + off = base + (o + l + off) by omega]
          exact this)
        (fun v v1 v2 => by
          rw [hRt] at v2
          have hv := hwin' v (by omega) (by omega)
          rw [walk_h_of_walk_d _ s1 s2 tbl v (F2.outside v hv (Or.inr (by omega))),
            walk_h_of_walk_d _ sa s1 tbl v (F1.outside v hv (Or.inr (by omega)))]
          exact hzero v) (by omega)
      rw [c3] at e3
      cases e3
      obtain ⟨F3, in3⟩ := ok3 rfl
      rw [hRt, hBdef, hw3] at F3
      rw [hRt] at in3
      dsimp only at F3 in3
      refine ⟨F3.mono _ _ (le_refl _) (by omega), fun v v1 v2 => ?_⟩
      obtain ⟨w, t, pc, hw, hret⟩ := in3 v v1 (by omega)
      exact ⟨w, t, pc, hw, by rw [hret]; omega⟩
  obtain ⟨F3, in3⟩ := h3
  refine ⟨((F1.mono base (base + B) (le_refl _) (by omega)).trans hdom1
      (F2.mono base (base + B) (by omega) (by omega))).trans
      (fun t h => by
        rcases hdom2 t h with c | c
        · exact hdom1 t c
        · exact F1.free_sub t c)
      (F3.mono base (base + B) (by omega) (le_refl _)), ?_, ?_⟩
  · intro v v1 v2 hv
    have hvw := hwin' v v1 v2
    rcases hv with hv | hv
    · rw [F3.outside v hvw (Or.inl (by omega)), F2.outside v hvw (Or.inl hv)]
      exact in1 v v1 hv
    · exact in3 v hv v2
  · intro v v1 v2
    have hvw := hwin' v (by omega) (by omega)
    rw [F3.outside v hvw (Or.inl v2)]
    exact in2 v v1 v2

theorem leaf_mask_aligned (k' e : Nat) (hk' : k' ≤ 1) :
    (e &&& leaf_mask (k' + 1)) % span (k' + 1) = 0 ∧ e &&& leaf_mask (k' + 1) < 2 ^ 48 := by
  interval_cases k'
  · have h : leaf_mask (0 + 1) = tdinfo.l2_blk_oa_mask := rfl
    rw [h, and_l2_oa]
    simp only [span]
    norm_num
    omega
  · have h : leaf_mask (1 + 1) = tdinfo.l1_blk_oa_mask := rfl
    rw [h, and_l1_oa]
    simp only [span]
    norm_num
    omega

/-- The walk through a block descriptor: the output address of the
descriptor plus the offset in the block. -/
theorem walk_d_block_entry (k' : Nat) (s : Machine) (tp v : Nat) (hk' : k' ≤ 1)
    (hv : bit_raised (s.mem (entry_addr tp (tidx (k' + 1) v))) VALID_TABLE_BIT ≠ 0)
    (hb : bit_raised (s.mem (entry_addr tp (tidx (k' + 1) v))) TABLE_TYPE_BIT = 0) :
    walk_d (k' + 1) s tp v
      = some ({ ret := (s.mem (entry_addr tp (tidx (k' + 1) v)) &&& leaf_mask (k' + 1))
                  + v % span (k' + 1),
                ptep := entry_addr tp (tidx (k' + 1) v), level := 2 - k' },
              s.mem (entry_addr tp (tidx (k' + 1) v))) := by
  have hw : walk_h (k' + 1) s tp v = some (block_type s v tp (tidx (k' + 1) v) 0 (2 - k')) := by
    rw [walk_h_succ, if_neg hv, if_pos ⟨by omega, hb⟩]
  rw [walk_d_some _ _ _ _ _ hw]
  interval_cases k'
  · have h : leaf_mask (0 + 1) = tdinfo.l2_blk_oa_mask := rfl
    rw [show 2 - 0 = 2 from rfl, block_type_l2, h, and_l2_oa, and_l2_offt,
      ← Nat.mul_add_lt_is_or (Nat.mod_lt _ (by norm_num))]
    simp only [span]
  · have h : leaf_mask (1 + 1) = tdinfo.l1_blk_oa_mask := rfl
    rw [show 2 - 1 = 1 from rfl, block_type_l1, h, and_l1_oa, and_l1_offt,
      ← Nat.mul_add_lt_is_or (Nat.mod_lt _ (by norm_num))]
    simp only [span]

/-- The addresses of a block lie in one window of the root. -/
theorem block_window (hr k' base v : Nat) (hhr : hr ≤ 3) (hk' : k' ≤ 1) (hkr : k' + 1 ≤ hr)
    (hbase : base % span (k' + 1) = 0) (v1 : base ≤ v) (v2 : v < base + span (k' + 1)) :
    v / span (hr + 1) = base / span (hr + 1) := by
  interval_cases hr <;> interval_cases k' <;> simp only [span] at * <;> norm_num at * <;> omega

/-- A completed `block_split`: the walks of the head and the tail of the
block return the addresses of the block, with leaf descriptors that carry the
protection and the type of the block, and the walks of the range in between
return the new addresses. -/
theorem block_split_ok {P : Platform} (hP : arena_ok P) (hI : P.INVALID_MEMORY < 1024)
    {s : Machine} {ht : Nat → Option Nat} {par : Nat → Nat × Nat} {pgd hr : Nat}
    (T : Tree P s ht par pgd hr) (hz : free_zero P s) (hhr : hr ≤ 3)
    (tp k' base : Nat) (hk' : k' ≤ 1) (hk : ht tp = some (k' + 1)) (hkr : k' + 1 ≤ hr)
    (hpath : descend hr (k' + 1) s pgd base = some tp)
    (b : mblockinfo_t) (hptep : b.ptep = entry_addr tp (tidx (k' + 1) base))
    (hlevel : b.level = 2 - k') (hbv : b.vaddr = base) (hbs : b.size = span (k' + 1))
    (hbase : base % span (k' + 1) = 0) (h48 : base + span (k' + 1) ≤ 2 ^ 48)
    (hpal : b.paddr % span (k' + 1) = 0) (hpa0 : b.paddr ≠ 0)
    (h40 : b.paddr + span (k' + 1) ≤ 2 ^ 40)
    (hbp : b.prot < 2 ^ 64 ∧ b.prot &&& 0x0000FFFFFFFFF003 = 0)
    (hbt : b.type < P.INVALID_MEMORY)
    (o l np prot type vmid : Nat) (ho : o % 4096 = 0) (hl : l % 4096 = 0) (hl0 : 0 < l)
    (hlB : l < span (k' + 1)) (hol : o + l ≤ span (k' + 1))
    (hnp0 : np ≠ 0) (hnp40 : np + l ≤ 2 ^ 40)
    (hal : ∀ off, off < l → off % 4096 = 0 →
      (np + off) % get_block_size (base + o + off) (l - off) = 0)
    (hprot : prot < 2 ^ 64 ∧ prot &&& 0x0000FFFFFFFFF003 = 0) (htype : type < P.INVALID_MEMORY)
    (r : Machine × Nat × Nat × Nat)
    (hsplit : block_split P s b (base + o) np l prot type vmid = some r) :
    r.2.2.2 = 0 ∧
    (∀ v, base ≤ v → v < base + span (k' + 1) → v < base + o ∨ base + o + l ≤ v →
      ∃ w t pc, walk_d hr r.1 pgd v = some (w, leaf_desc t pc b.prot b.type) ∧
        w.ret = b.paddr + (v - base)) ∧
    (∀ v, base + o ≤ v → v < base + o + l →
      ∃ w t pc, walk_d hr r.1 pgd v = some (w, leaf_desc t pc prot type) ∧
        w.ret = np + (v - (base + o))) := by
  have hB := span_block k' hk'
  have hB30 : span (k' + 1) ≤ 2 ^ 30 := by rcases hB with e | e <;> omega
  obtain ⟨i, s1, s2, s3, hin, hfree, c1, c2, c3, hres⟩ := block_split_some P s b o l np prot type
    vmid r (by rw [hbv, hbs]; omega) (by rw [hbs]; exact hol) (by rw [hbs]; omega)
    (by rw [hbs]; omega) (by omega) (by rw [hbv]; exact hsplit)
  rw [hbv] at c1 c2 c3
  rw [hbs] at c3
  have hlv : map_height (if b.level = 1 then 2 else 1) = k' := by
    rw [hlevel]
    interval_cases k' <;> decide
  have hka := table_addr_aligned P hP i hin
  have hfree_s : is_free P s (table_addr P i) := ⟨i, hin, rfl, hfree⟩
  obtain ⟨Ta, hza⟩ := fresh_root hP (free_zero_invalidate hz 0) i vmid k' hin hfree par
  have hzero : ∀ v, walk_h k' { s with invalidate := 0, table_props := fun j =>
      if j = i then (vmid % 256) * 256 + 1 else s.table_props j } (table_addr P i) v = none :=
    fun v => walk_h_zero_table k' _ _ v (by omega) (fun x x1 x2 => hz i hin hfree x x1 x2)
  obtain ⟨F, hht, hmid⟩ := split_tables_ok hP hI _ k' hlv hk' Ta hza hzero base b.paddr b.prot
    b.type hbase h48 hpal hpa0 h40 hbp hbt o l np prot type vmid ho hl hl0 hlB hol hnp0 hnp40
    hal hprot htype s1 s2 s3 c1 c2 c3
  obtain ⟨ht3, par3, T3, hdom3⟩ := F.tree
  -- the tables of the new tree were free tables
  have hfs : ∀ t, is_free P { s with invalidate := 0, table_props := fun j =>
      if j = i then (vmid % 256) * 256 + 1 else s.table_props j } t → is_free P s t := by
    rintro t ⟨i', hi', hti, hb⟩
    refine ⟨i', hi', hti, ?_⟩
    by_cases e : i' = i
    · subst e; exact hfree
    · simp only [e, if_false] at hb; exact hb
  have hsub : ∀ t, ht3 t ≠ none → is_free P s t := by
    intro t h3
    rcases hdom3 t h3 with c | c
    · by_cases e : t = table_addr P i
      · rw [e]; exact hfree_s
      · simp only [e, if_false] at c; exact absurd rfl c
    · exact hfs t c
  have hmain : ∀ t h' x, ht t = some h' → t ≤ x → x < t + 4096 → s3.mem x = s.mem x := by
    intro t h' x hth x1 x2
    by_contra hc
    obtain ⟨t', r1, r2, hf⟩ := F.mem x hc
    have : is_free P s t' := by
      rcases hf with c | c
      · by_cases e : t' = table_addr P i
        · rw [e]; exact hfree_s
        · simp only [e, if_false] at c; exact absurd rfl c
      · exact hfs t' c
    exact T.not_in_free hP t h' x hth ⟨x1, x2⟩ t' this ⟨r1, r2⟩
  have hj := tidx_lt (k' + 1) base (by omega)
  have hpr := entry_addr_range tp (tidx (k' + 1) base) hj
  have hta := T.aligned tp _ hk
  have hdesc := table_desc_eq (table_addr P i) hka.1
  obtain ⟨hoa, hval⟩ := table_desc_oaddr (table_addr P i) hka.1 hka.2.2
  -- the walk of an address of the block after the split
  have hwalk : ∀ v, base ≤ v → v < base + span (k' + 1) →
      walk_d hr r.1 pgd v = walk_d k' s3 (table_addr P i) v := by
    intro v v1 v2
    have hw := block_window hr k' base v hhr hk' hkr hbase v1 v2
    have hsp := (same_path_iff hr (k' + 1) v base hhr hkr hw hbase).2 ⟨v1, v2⟩
    have hmem : ∀ x, r.1.mem x = if x = b.ptep then table_addr P i + 3 else s3.mem x := by
      intro x
      rw [hres, ← hdesc]
      rfl
    have hd : descend hr (k' + 1) r.1 pgd v = some tp := by
      rw [descend_congr T r.1 (k' + 1) v (fun t k'' a hth hlt a1 a2 => by
          rw [hmem a, if_neg, hmain t k'' a hth a1 a2]
          intro hc
          rw [hc, hptep] at a1 a2
          exact T.ne_of_height t tp k'' (k' + 1) hth hk (by omega)
            (range_disjoint t tp _ (T.aligned t _ hth).1 hta.1 ⟨a1, a2⟩ hpr)) hr pgd hhr
        T.root_ht,
        descend_same_path (k' + 1) s v base hr pgd (fun i' i1 i2 => hsp i' (by omega) i2)]
      exact hpath
    have hidx : tidx (k' + 1) v = tidx (k' + 1) base := hsp (k' + 1) (le_refl _) hkr
    have hent : r.1.mem (entry_addr tp (tidx (k' + 1) v)) = table_addr P i + 3 := by
      rw [hidx, hmem, if_pos hptep.symm]
    have e1 : walk_d hr r.1 pgd v = walk_d k' r.1 (table_addr P i) v := by
      simp only [walk_d]
      rw [descend_walk (k' + 1) r.1 v tp hr pgd hkr hd,
        walk_h_table_entry k' r.1 tp v (by rw [hent]; exact hval)
          (by rw [hent, hoa]; exact hka.2.1), hent, hoa]
    rw [e1]
    apply walk_d_congr T3 r.1 k' _ v (by omega) T3.root_ht
    intro a ha
    rw [hmem a, if_neg]
    intro hc
    rw [hc, hptep] at ha
    rcases ha with ha | ⟨t, k'', hth, _, ha⟩
    · exact T.not_in_free hP tp _ _ hk hpr _ hfree_s ha
    · exact T.not_in_free hP tp _ _ hk hpr t
        (hsub t (by rw [hth]; exact Option.some_ne_none _)) ha
  refine ⟨by rw [hres], fun v v1 v2 hv => ?_, fun v v1 v2 => ?_⟩
  · rw [hwalk v v1 v2]
    exact hht v v1 v2 hv
  · rw [hwalk v (by omega) (by omega)]
    exact hmid v v1 v2

/-! ## Attributes of leaf descriptors -/

theorem and_zero_of_sub_zero (x m big : Nat) (hx : x &&& big = 0) (hm : m &&& big = m) :
    m &&& x = 0 := by
  rw [Nat.and_comm]; exact and_eq_zero_of_sub x m big hx hm

/-- The bits of a leaf descriptor under a mask that keeps clear of the
valid and table bits, of the access flag and of the output address. -/
theorem leaf_desc_and (t pc prot type m : Nat)
    (hm : m &&& 0x0000FFFFFFFFF403 = 0) :
    leaf_desc t pc prot type &&& m = (prot &&& m) ||| ((type <<< 2) % 2 ^ 64 &&& m) := by
  have e0 : (1 : Nat) <<< 0 = 1 := by decide
  have e1 : (1 : Nat) <<< 1 = 2 := by decide
  have e10 : (1 : Nat) <<< 10 = 1024 := by decide
  have z1 : (1 : Nat) &&& m = 0 := and_zero_of_sub_zero m 1 _ hm (by decide)
  have z2 : (2 : Nat) &&& m = 0 := and_zero_of_sub_zero m 2 _ hm (by decide)
  have z10 : (1024 : Nat) &&& m = 0 := and_zero_of_sub_zero m 1024 _ hm (by decide)
  have zoa : ∀ mask, mask &&& 0x0000FFFFFFFFF403 = mask → pc &&& mask &&& m = 0 := by
    intro mask hmask
    rw [Nat.and_assoc, and_zero_of_sub_zero m mask _ hm hmask, Nat.and_zero]
  have hbig : ∀ u, 2 ≤ u → leaf_desc u pc prot type = leaf_desc 2 pc prot type := by
    intro u hu
    have h0 : u ≠ 0 := by omega
    have h1 : u ≠ 1 := by omega
    simp [leaf_desc, leaf_mask, h0, h1]
  have ht : t = 0 ∨ t = 1 ∨ 2 ≤ t := by omega
  rcases ht with rfl | rfl | ht
  · have hd : leaf_desc 0 pc prot type
        = (pc &&& tdinfo.table_oa_mask ||| 2) ||| prot ||| (type <<< 2) % 2 ^ 64 ||| 1 ||| 1024 :=
      rfl
    rw [hd]
    simp only [Nat.and_distrib_right, z1, z2, z10, Nat.or_zero,
      zoa tdinfo.table_oa_mask (by decide), Nat.zero_or]
  · have hd : leaf_desc 1 pc prot type
        = pc &&& tdinfo.l2_blk_oa_mask ||| prot ||| (type <<< 2) % 2 ^ 64 ||| 1 ||| 1024 := rfl
    rw [hd]
    simp only [Nat.and_distrib_right, z1, z10, Nat.or_zero,
      zoa tdinfo.l2_blk_oa_mask (by decide), Nat.zero_or]
  · have hd : leaf_desc 2 pc prot type
        = pc &&& tdinfo.l1_blk_oa_mask ||| prot ||| (type <<< 2) % 2 ^ 64 ||| 1 ||| 1024 := rfl
    rw [hbig t ht, hd]
    simp only [Nat.and_distrib_right, z1, z10, Nat.or_zero,
      zoa tdinfo.l1_blk_oa_mask (by decide), Nat.zero_or]

theorem shift_round_trip (x : Nat) (h3 : x &&& 3 = 0) (hx : x < 2 ^ 64) :
    ((x >>> 2) <<< 2) % 2 ^ 64 = x := by
  have : x % 4 = 0 := by
    have := Nat.and_pow_two_sub_one_eq_mod x 2
    norm_num at this
    omega
  rw [Nat.shiftRight_eq_div_pow, Nat.shiftLeft_eq]
  omega

/-- A leaf descriptor made from the protection and the type that
`get_block_info` extracts from a descriptor `d` has the protection and type
bits of `d`. -/
theorem leaf_desc_attrs (t pc d pm tm : Nat) (hm : masks_ok pm tm) :
    leaf_desc t pc (d &&& pm) ((d &&& tm) >>> 2) &&& pm = d &&& pm ∧
    leaf_desc t pc (d &&& pm) ((d &&& tm) >>> 2) &&& tm = d &&& tm := by
  obtain ⟨h1, h2, h3, h4, h5⟩ := hm
  have htm3 : d &&& tm &&& 3 = 0 := by
    rw [Nat.and_assoc, and_eq_zero_of_sub tm 3 _ h4 (by decide), Nat.and_zero]
  have hlt : d &&& tm < 2 ^ 64 := lt_of_le_of_lt Nat.and_le_right h2
  have hty := shift_round_trip (d &&& tm) htm3 hlt
  constructor
  · rw [leaf_desc_and t pc _ _ pm h3, hty, Nat.and_assoc, Nat.and_self, Nat.and_assoc,
      Nat.and_comm tm pm, h5, Nat.and_zero, Nat.or_zero]
  · rw [leaf_desc_and t pc _ _ tm h4, hty, Nat.and_assoc, h5, Nat.and_zero, Nat.zero_or,
      Nat.and_assoc, Nat.and_self]

/-- The block record that `get_block_info` returns for an address in a block
mapping. -/
theorem get_block_info_hit {P : Platform} {s : Machine} (blk : mblockinfo_t) (gi : Nat)
    (guest : kvm_guest_t) (hg : blk.guest = some gi) (hgg : s.guests.get? gi = some guest)
    (hpg : guest.s2_pgd = blk.pgd ∨ guest.s1_pgd = blk.pgd)
    (tp k' base a : Nat) (hk' : k' ≤ 1) (hkr : k' + 1 ≤ walk_height guest.table_levels)
    (hpath : descend (walk_height guest.table_levels) (k' + 1) s blk.pgd a = some tp)
    (hidx : tidx (k' + 1) a = tidx (k' + 1) base)
    (hbase : base % span (k' + 1) = 0) (a1 : base ≤ a) (a2 : a < base + span (k' + 1))
    (ha64 : a < 2 ^ 64)
    (hv : bit_raised (s.mem (entry_addr tp (tidx (k' + 1) base))) VALID_TABLE_BIT ≠ 0)
    (hb : bit_raised (s.mem (entry_addr tp (tidx (k' + 1) base))) TABLE_TYPE_BIT = 0) :
    ∃ b, get_block_info P s a blk = some (true, b) ∧
      b.ptep = entry_addr tp (tidx (k' + 1) base) ∧ b.level = 2 - k' ∧ b.vaddr = base ∧
      b.size = span (k' + 1) ∧
      b.paddr = s.mem (entry_addr tp (tidx (k' + 1) base)) &&& leaf_mask (k' + 1) ∧
      b.prot = s.mem (entry_addr tp (tidx (k' + 1) base)) &&& block_prot_mask P blk.stage ∧
      b.type = (s.mem (entry_addr tp (tidx (k' + 1) base)) &&& block_type_mask P blk.stage)
        >>> 2 := by
  have hw : __pt_walk s blk.pgd a guest.table_levels
      = some { ret := (s.mem (entry_addr tp (tidx (k' + 1) base)) &&& leaf_mask (k' + 1))
                 + a % span (k' + 1),
               ptep := entry_addr tp (tidx (k' + 1) base), level := 2 - k' } := by
    rw [pt_walk_eq_walk_h, descend_walk (k' + 1) s a tp _ _ hkr hpath]
    have := walk_d_block_entry k' s tp a hk' (by rw [hidx]; exact hv) (by rw [hidx]; exact hb)
    rw [hidx] at this
    exact walk_h_some_of_walk_d _ _ _ _ _ _ this
  have hchk : ¬ (guest.s2_pgd ≠ blk.pgd ∧ guest.s1_pgd ≠ blk.pgd) := by
    rintro ⟨c1, c2⟩
    rcases hpg with c | c
    · exact c1 c
    · exact c2 c
  obtain ⟨hal, hlt⟩ := leaf_mask_aligned k' (s.mem (entry_addr tp (tidx (k' + 1) base))) hk'
  have hbind : blk.guest.bind (fun g => s.guests.get? g) = some guest := by
    rw [hg]; exact hgg
  have hB := span_block k' hk'
  unfold get_block_info
  rw [hbind]
  simp only []
  rw [if_neg hchk, hw]
  simp only []
  rw [if_neg (not_not.mpr hb)]
  refine ⟨_, rfl, ?_⟩
  generalize s.mem (entry_addr tp (tidx (k' + 1) base)) = d at *
  interval_cases k'
  · have hm : leaf_mask (0 + 1) = tdinfo.l2_blk_oa_mask := rfl
    have hsz : tdinfo.l2_blk_size = span (0 + 1) := by decide
    have hlev : ¬ (2 - 0 = 1) := by decide
    rw [hm] at hlt hal ⊢
    by_cases hst : blk.stage = P.STAGE1
    · simp only [hst, if_true, hlev, if_false, block_prot_mask, block_type_mask, hsz, true_and,
        and_true]
      simp only [span] at *
      norm_num at *
      omega
    · simp only [hst, hlev, if_false, block_prot_mask, block_type_mask, hsz, true_and, and_true]
      simp only [span] at *
      norm_num at *
      omega
  · have hm : leaf_mask (1 + 1) = tdinfo.l1_blk_oa_mask := rfl
    have hsz : tdinfo.l1_blk_size = span (1 + 1) := by decide
    have hlev : 2 - 1 = 1 := by decide
    rw [hm] at hlt hal ⊢
    by_cases hst : blk.stage = P.STAGE1
    · simp only [hst, if_true, hlev, block_prot_mask, block_type_mask, hsz, true_and, and_true]
      simp only [span] at *
      norm_num at *
      omega
    · simp only [hst, hlev, if_true, if_false, block_prot_mask, block_type_mask, hsz, true_and,
        and_true]
      simp only [span] at *
      norm_num at *
      omega

theorem block_remap_loop_done (P : Platform) (prot type lv vmid fuel : Nat) (s : Machine)
    (blk : mblockinfo_t) (a np : Nat) :
    block_remap_loop P prot type lv vmid fuel s blk a np 0 = some (0, s) := by
  cases fuel <;> simp [block_remap_loop]

theorem block_remap_loop_split (P : Platform) (prot type lv vmid fuel : Nat) (s : Machine)
    (blk b : mblockinfo_t) (a np l : Nat) (hl : l ≠ 0)
    (hgb : get_block_info P s a blk = some (true, b)) (hpart : l < b.size) :
    block_remap_loop P prot type lv vmid (fuel + 1) s blk a np l =
      match block_split P s b a np l prot type vmid with
      | none => none
      | some (s1, tv1, tp1, rl1) => block_remap_loop P prot type lv vmid fuel s1 b tv1 tp1 rl1 := by
  have hc : (True ∧
      ¬ (a &&& ((b.size + 2 ^ 64 - 1) % 2 ^ 64) = 0 ∧ l ≥ b.size)) := by
    refine ⟨trivial, ?_⟩
    rintro ⟨_, c⟩
    omega
  rw [block_remap_loop, if_neg hl]
  simp only [hgb]
  rw [if_pos hc]
  try rfl

theorem walk_d_some_inv (h : Nat) (s : Machine) (x v : Nat) (w : walk_t) (d : Nat)
    (e : walk_d h s x v = some (w, d)) : walk_h h s x v = some w ∧ d = s.mem w.ptep := by
  cases hw : walk_h h s x v with
  | none => rw [walk_d_none h s x v hw] at e; cases e
  | some w' =>
    rw [walk_d_some h s x v w' hw] at e
    simp only [Option.some.injEq, Prod.mk.injEq] at e
    rw [← e.1, ← e.2]
    exact ⟨rfl, rfl⟩

theorem walk_height_le (levels : Nat) : walk_height levels ≤ 3 := by
  unfold walk_height; split_ifs <;> omega

/-- The remap of a part of a block by `__block_remap`: the rest of the block
keeps its translation and its attributes, and the part is mapped to the new
address. -/
theorem block_remap_split_ok {P : Platform} (hP : arena_ok P) (hI : P.INVALID_MEMORY < 1024)
    {s : Machine} {ht : Nat → Option Nat} {par : Nat → Nat × Nat} {pgd : Nat}
    (blk : mblockinfo_t) (gi : Nat) (guest : kvm_guest_t)
    (hg : blk.guest = some gi) (hgg : s.guests.get? gi = some guest)
    (hpg : guest.s2_pgd = blk.pgd ∨ guest.s1_pgd = blk.pgd) (hpgd : blk.pgd = pgd)
    (hinit : s.init_ready = true)
    (T : Tree P s ht par pgd (walk_height guest.table_levels)) (hz : free_zero P s)
    (hm : masks_ok (block_prot_mask P blk.stage) (block_type_mask P blk.stage))
    (base : Nat) (w0 : walk_t) (hw0 : __pt_walk s pgd base guest.table_levels = some w0)
    (hblk : bit_raised (s.mem w0.ptep) TABLE_TYPE_BIT = 0)
    (B pa0 : Nat) (hBdef : B = if w0.level = 1 then tdinfo.l1_blk_size else tdinfo.l2_blk_size)
    (hpadef : pa0 = s.mem w0.ptep &&&
      (if w0.level = 1 then tdinfo.l1_blk_oa_mask else tdinfo.l2_blk_oa_mask))
    (hbase : base % B = 0) (h48 : base + B ≤ 2 ^ 48) (hpa0 : pa0 ≠ 0) (h40 : pa0 + B ≤ 2 ^ 40)
    (hbt : (s.mem w0.ptep &&& block_type_mask P blk.stage) >>> 2 < P.INVALID_MEMORY)
    (o l np prot type lvp : Nat) (ho : o % 4096 = 0) (hl : l % 4096 = 0) (hl0 : 0 < l)
    (hlB : l < B) (hol : o + l ≤ B) (hnp0 : np ≠ 0) (hnp40 : np + l ≤ 2 ^ 40)
    (hal : ∀ off, off < l → off % 4096 = 0 →
      (np + off) % get_block_size (base + o + off) (l - off) = 0)
    (hprot : prot < 2 ^ 64 ∧ prot &&& 0x0000FFFFFFFFF003 = 0) (htype : type < P.INVALID_MEMORY)
    (res : Int) (s' : Machine)
    (hret : __block_remap P s (base + o) l blk np prot type lvp = some (res, s')) :
    res = 0 ∧
    (∀ v, base ≤ v → v < base + B → v < base + o ∨ base + o + l ≤ v →
      ∃ w w', __pt_walk s pgd v guest.table_levels = some w ∧
        __pt_walk s' pgd v guest.table_levels = some w' ∧ w'.ret = w.ret ∧
        s'.mem w'.ptep &&& block_prot_mask P blk.stage
          = s.mem w.ptep &&& block_prot_mask P blk.stage ∧
        s'.mem w'.ptep &&& block_type_mask P blk.stage
          = s.mem w.ptep &&& block_type_mask P blk.stage) ∧
    (∀ i, i < l → pt_walk s' pgd (base + o + i) guest.table_levels = np + i) := by
  have hhr := walk_height_le guest.table_levels
  rw [pt_walk_eq_walk_h] at hw0
  obtain ⟨tp, k', l1, l2, hdesc, hk, hv, hw0eq⟩ :=
    walk_block_descend T base w0 hblk _ pgd hhr T.root_ht hw0
  have hk' : k' ≤ 1 := by omega
  have hptep : w0.ptep = entry_addr tp (tidx (k' + 1) base) := by rw [hw0eq]; rfl
  have hlevel : w0.level = 2 - k' := by rw [hw0eq]; rfl
  rw [hptep] at hblk hpadef hbt
  have hB : B = span (k' + 1) := by
    rw [hBdef, hlevel]
    interval_cases k' <;> decide
  have hpa : pa0 = s.mem (entry_addr tp (tidx (k' + 1) base)) &&& leaf_mask (k' + 1) := by
    rw [hpadef, hlevel]
    interval_cases k' <;> rfl
  subst hB
  obtain ⟨hal0, _⟩ := leaf_mask_aligned k' (s.mem (entry_addr tp (tidx (k' + 1) base))) hk'
  rw [← hpa] at hal0
  have hB30 : span (k' + 1) ≤ 2 ^ 30 := by
    rcases span_block k' hk' with e | e <;> omega
  -- the walks of the block before the call
  have hbefore : ∀ v, base ≤ v → v < base + span (k' + 1) →
      descend (walk_height guest.table_levels) (k' + 1) s pgd v = some tp ∧
      tidx (k' + 1) v = tidx (k' + 1) base ∧
      walk_d (walk_height guest.table_levels) s pgd v
        = some ({ ret := pa0 + v % span (k' + 1),
                  ptep := entry_addr tp (tidx (k' + 1) base), level := 2 - k' },
                s.mem (entry_addr tp (tidx (k' + 1) base))) := by
    intro v v1 v2
    have hw := block_window _ k' base v hhr hk' l1 hbase v1 v2
    have hsp := (same_path_iff _ (k' + 1) v base hhr l1 hw hbase).2 ⟨v1, v2⟩
    have hd : descend (walk_height guest.table_levels) (k' + 1) s pgd v = some tp := by
      rw [descend_same_path (k' + 1) s v base _ pgd (fun i' i1 i2 => hsp i' (by omega) i2)]
      exact hdesc
    have hidx : tidx (k' + 1) v = tidx (k' + 1) base := hsp (k' + 1) (le_refl _) l1
    refine ⟨hd, hidx, ?_⟩
    have := walk_d_block_entry k' s tp v hk' (by rw [hidx]; exact hv) (by rw [hidx]; exact hblk)
    rw [hidx, ← hpa] at this
    simp only [walk_d] at this ⊢
    rw [descend_walk (k' + 1) s v tp _ pgd l1 hd]
    exact this
  obtain ⟨hda, hia, _⟩ := hbefore (base + o) (by omega) (by omega)
  rw [← hpgd] at hda
  obtain ⟨b, hgb, b1, b2, b3, b4, b5, b6, b7⟩ := get_block_info_hit (P := P) blk gi guest hg hgg
    hpg tp k' base (base + o) hk' l1 hda hia hbase (by omega) (by omega) (by omega) hv hblk
  rw [← hpa] at b5
  -- the run of the loop
  have hbind : blk.guest.bind (fun g => s.guests.get? g) = some guest := by
    rw [hg]; exact hgg
  unfold __block_remap at hret
  rw [hbind] at hret
  simp only [] at hret
  rw [if_neg (by omega), if_neg (by rw [hinit]; decide)] at hret
  obtain ⟨f, hf⟩ : ∃ f, l = f + 1 := ⟨l - 1, by omega⟩
  have hloop := block_remap_loop_split P prot type lvp (guest.vmid % 2 ^ 32) f s blk b (base + o)
    np l (by omega) hgb (by rw [b4]; exact hlB)
  rw [← hf] at hloop
  rw [hloop] at hret
  cases hbs : block_split P s b (base + o) np l prot type (guest.vmid % 2 ^ 32) with
  | none => rw [hbs] at hret; cases hret
  | some r =>
    rw [hbs] at hret
    obtain ⟨s1, tv1, tp1, rl1⟩ := r
    simp only [] at hret
    have hm3 : ∀ x, x &&& block_prot_mask P blk.stage &&& 0x0000FFFFFFFFF003 = 0 := by
      intro x
      rw [Nat.and_assoc, and_eq_zero_of_sub _ 0x0000FFFFFFFFF003 _ hm.2.2.1 (by decide),
        Nat.and_zero]
    obtain ⟨z, hht, hmid⟩ := block_split_ok hP hI T hz hhr tp k' base hk' hk l1 hdesc b b1 b2 b3
      b4 hbase h48 (by rw [b5]; exact hal0) (by rw [b5]; exact hpa0) (by rw [b5]; exact h40)
      (by
        rw [b6]
        exact ⟨lt_of_le_of_lt Nat.and_le_right hm.1, hm3 _⟩)
      (by rw [b7]; exact hbt) o l np prot type (guest.vmid % 2 ^ 32) ho hl hl0 hlB hol hnp0
      hnp40 hal hprot htype _ hbs
    simp only [] at z hht hmid
    subst z
    rw [block_remap_loop_done] at hret
    simp only [Option.some.injEq, Prod.mk.injEq] at hret
    obtain ⟨e1, e2⟩ := hret
    subst e2
    refine ⟨e1.symm, fun v v1 v2 hv' => ?_, fun i hi => ?_⟩
    · obtain ⟨_, _, hwb⟩ := hbefore v v1 v2
      obtain ⟨w', t, pc, hw', hret'⟩ := hht v v1 v2 hv'
      obtain ⟨hw1, hd1⟩ := walk_d_some_inv _ _ _ _ _ _ hw'
      obtain ⟨a1, a2⟩ := leaf_desc_attrs t pc (s.mem (entry_addr tp (tidx (k' + 1) base)))
        _ _ hm
      rw [b6, b7] at hd1
      refine ⟨{ ret := pa0 + v % span (k' + 1), ptep := entry_addr tp (tidx (k' + 1) base),
                level := 2 - k' }, w', ?_, ?_, ?_, ?_, ?_⟩
      · rw [pt_walk_eq_walk_h]; exact walk_h_some_of_walk_d _ _ _ _ _ _ hwb
      · rw [pt_walk_eq_walk_h]; exact hw1
      · rw [hret', b5]
        show pa0 + (v - base) = pa0 + v % span (k' + 1)
        have hBs := span_block k' hk'
        rcases hBs with e | e <;> rw [e] at hbase v2 ⊢ <;> omega
      · show s1.mem w'.ptep &&& _ = s.mem (entry_addr tp (tidx (k' + 1) base)) &&& _
        rw [← hd1]; exact a1
      · show s1.mem w'.ptep &&& _ = s.mem (entry_addr tp (tidx (k' + 1) base)) &&& _
        rw [← hd1]; exact a2
    · obtain ⟨w', t, pc, hw', hret'⟩ := hmid (base + o + i) (by omega) (by omega)
      unfold pt_walk
      rw [pt_walk_eq_walk_h, walk_h_some_of_walk_d _ _ _ _ _ _ hw']
      simp only [walk_ret]
      rw [hret']; omega

theorem findIdx_get {α : Type} (xs : List α) (p : α → Bool) (i : Nat) (x : α)
    (h : xs.findIdx? p = some i) (hx : xs.get? i = some x) : p x = true := by
  have := List.findIdx?_of_eq_some h
  rw [List.get?_eq_getElem?] at hx
  rw [hx] at this
  exact this

/-- C1, amended: after machine initialisation, let `pgd` be a root of a
registered guest for the stage, the root of a tree of tables in use with the
free slots of the arena zeroed, and let the walk of `base` end at a block
descriptor of size `B` (2 MiB or 1 GiB) with `base` aligned to `B`, the block
below `2 ^ 48`, its output address nonzero with the physical block below
`2 ^ 40`, and its memory type below `INVALID_MEMORY`.  Let `o` and `l` be
page multiples with `0 < l < B` and `o + l ≤ B`, and let the new physical
address be nonzero, with the new physical range below `2 ^ 40`, and aligned,
at every page-aligned offset, to the block size that `get_block_size` gives
there; let the new memory type be below `INVALID_MEMORY`, and let the
protection and type masks of the stage keep clear of the valid and table
bits, the access flag, the output address and each other.  Then a call of
`mmap_range` for `[base + o, base + o + l)` that completes returns 0; every
walk at an address of the block outside the range returns the same physical
address as before, at a descriptor with the same protection and memory-type
bits; and the walk at `base + o + i` returns the new address plus `i` for
every `i < l`. -/
theorem mmap_range_splits_block (P : Platform) (hP : arena_ok P) (hI : P.INVALID_MEMORY < 1024)
    (hst : P.STAGE1 ≠ P.STAGE2) (s s' : Machine) (ht : Nat → Option Nat)
    (par : Nat → Nat × Nat) (pgd stage gi : Nat) (guest : kvm_guest_t) (res : Int)
    (hpgd : pgd ≠ 0) (hinit : s.init_ready = true)
    (hstage : stage = P.STAGE2 ∨ stage = P.STAGE1)
    (hgl : (if stage = P.STAGE2 then get_guest_by_s2pgd s pgd else get_guest_by_s1pgd s pgd)
      = some gi)
    (hgg : s.guests.get? gi = some guest)
    (T : Tree P s ht par pgd (walk_height guest.table_levels)) (hz : free_zero P s)
    (hm : masks_ok (block_prot_mask P stage) (block_type_mask P stage))
    (base : Nat) (w0 : walk_t) (hw0 : __pt_walk s pgd base guest.table_levels = some w0)
    (hblk : bit_raised (s.mem w0.ptep) TABLE_TYPE_BIT = 0)
    (B pa0 : Nat) (hBdef : B = if w0.level = 1 then tdinfo.l1_blk_size else tdinfo.l2_blk_size)
    (hpadef : pa0 = s.mem w0.ptep &&&
      (if w0.level = 1 then tdinfo.l1_blk_oa_mask else tdinfo.l2_blk_oa_mask))
    (hbase : base % B = 0) (h48 : base + B ≤ 2 ^ 48) (hpa0 : pa0 ≠ 0) (h40 : pa0 + B ≤ 2 ^ 40)
    (hbt : (s.mem w0.ptep &&& block_type_mask P stage) >>> 2 < P.INVALID_MEMORY)
    (o l np prot type : Nat) (ho : o % PAGE_SIZE = 0) (hl : l % PAGE_SIZE = 0) (hl0 : 0 < l)
    (hlB : l < B) (hol : o + l ≤ B) (hnp0 : np ≠ 0) (hnp40 : np + l ≤ 2 ^ 40)
    (hal : ∀ off, off < l → off % PAGE_SIZE = 0 →
      (np + off) % get_block_size (base + o + off) (l - off) = 0)
    (htype : type < P.INVALID_MEMORY)
    (hret : mmap_range P s pgd stage (base + o) np l prot type = some (res, s')) :
    res = 0 ∧
    (∀ v, base ≤ v → v < base + B → v < base + o ∨ base + o + l ≤ v →
      ∃ w w', __pt_walk s pgd v guest.table_levels = some w ∧
        __pt_walk s' pgd v guest.table_levels = some w' ∧ w'.ret = w.ret ∧
        s'.mem w'.ptep &&& block_prot_mask P stage = s.mem w.ptep &&& block_prot_mask P stage ∧
        s'.mem w'.ptep &&& block_type_mask P stage
          = s.mem w.ptep &&& block_type_mask P stage) ∧
    (∀ i, i < l → pt_walk s' pgd (base + o + i) guest.table_levels = np + i) := by
  have hps : PAGE_SIZE = 4096 := rfl
  rw [hps] at ho hl hal
  have hmp : ∀ x, x &&& block_prot_mask P stage < 2 ^ 64 ∧
      x &&& block_prot_mask P stage &&& 0x0000FFFFFFFFF003 = 0 := by
    intro x
    refine ⟨lt_of_le_of_lt Nat.and_le_right hm.1, ?_⟩
    rw [Nat.and_assoc, and_eq_zero_of_sub _ 0x0000FFFFFFFFF003 _ hm.2.2.1 (by decide),
      Nat.and_zero]
  unfold mmap_range at hret
  rw [if_neg hpgd] at hret
  by_cases h2 : stage = P.STAGE2
  · rw [if_pos h2] at hret hgl
    have hp2 : block_prot_mask P stage = P.PROT_MASK_STAGE2 := by
      unfold block_prot_mask
      rw [if_neg (by rw [h2]; exact fun c => hst c.symm)]
    have hpg : guest.s2_pgd = pgd := by
      have := findIdx_get _ _ gi guest hgl hgg
      simpa using this
    rw [← hp2] at hret
    exact block_remap_split_ok hP hI
      { block_zero with guest := get_guest_by_s2pgd s pgd, pgd := pgd, stage := stage } gi guest
      hgl hgg (Or.inl hpg) rfl hinit T hz hm base w0 hw0 hblk B pa0 hBdef hpadef hbase h48 hpa0
      h40 hbt o l np _ type P.TABLE_LEVELS ho hl hl0 hlB hol hnp0 hnp40 hal (hmp prot) htype res
      s' hret
  · have h1 : stage = P.STAGE1 := by
      rcases hstage with c | c
      · exact absurd c h2
      · exact c
    rw [if_neg h2, if_pos h1] at hret
    rw [if_neg h2] at hgl
    have hp1 : block_prot_mask P stage = P.PROT_MASK_STAGE1 := by
      unfold block_prot_mask
      rw [if_pos h1]
    have hpg : guest.s1_pgd = pgd := by
      have := findIdx_get _ _ gi guest hgl hgg
      simpa using this
    rw [← hp1] at hret
    exact block_remap_split_ok hP hI
      { block_zero with guest := get_guest_by_s1pgd s pgd, pgd := pgd, stage := stage } gi guest
      hgl hgg (Or.inr hpg) rfl hinit T hz hm base w0 hw0 hblk B pa0 hBdef hpadef hbase h48 hpa0
      h40 hbt o l np _ type P.TABLE_LEVELS ho hl hl0 hlB hol hnp0 hnp40 hal (hmp prot) htype res
      s' hret

/-! ## Remap of a part of a block: concrete runs -/

theorem blockPageMachine_tree :
    ∃ ht par, Tree virtPlatform blockPageMachine ht par 0x101000 3 ∧
      free_zero virtPlatform blockPageMachine ∧
      blockPageMachine.guests = bootMachine.guests ∧
      blockPageMachine.init_ready = bootMachine.init_ready := by
  have hR : ROUND_UP 0x201000 0x1000 = 0x201000 := by decide
  have hm : map_height 4 = 3 := by decide
  have hs : span (map_height 4 + 1) = 2 ^ 48 := by decide
  obtain ⟨r, hr, hok⟩ := mmap_range_ok virtPlatform_arena_ok (by decide) 4
    (by rw [hm]; exact bootMachine_tree) bootMachine_free_zero 0x40000000 0x80000000 0x201000
    0x40 4 0 ⟨by decide, by decide⟩ (by decide) (by decide)
    (by
      rw [hR, hs]
      intro v v1 v2
      omega)
    (Or.inl (by decide)) (by decide) (by decide) (by decide)
    (by rw [hR]; exact blockPageMachine_aligned)
    (fun v _ _ => by
      have := bootMachine_unmapped 0x101000 v 4
      rw [pt_walk_eq_walk_h] at this
      exact this) (by decide)
  rw [blockPageMachine_eq] at hr
  cases hr
  obtain ⟨F, _⟩ := hok rfl
  obtain ⟨ht, par, T, _⟩ := F.tree
  exact ⟨ht, par, T, F.fz, F.guests, F.init_ready⟩

theorem splitPageMachine_eq :
    mmap_range virtPlatform blockPageMachine 0x101000 2 0x40001000 0x90000000 0x1000 0x40 4
      = some (0, splitPageMachine) := by
  have h : (mmap_range virtPlatform blockPageMachine 0x101000 2 0x40001000 0x90000000 0x1000
      0x40 4).map (fun r => r.1) = some 0 := by decide!
  unfold splitPageMachine
  generalize mmap_range virtPlatform blockPageMachine 0x101000 2 0x40001000 0x90000000 0x1000
      0x40 4 = x at h ⊢
  cases x with
  | none => cases h
  | some r =>
    obtain ⟨a, b⟩ := r
    simp only [Option.map_some', Option.some.injEq] at h
    subst h; rfl

/-- C1, the claim at a failing input: after machine initialisation the host
stage-2 root holds a 1 GiB block based at `0x40000000`.  The 2 MiB at the
offset 2 MiB of the block are remapped to the physical address `0x80001000`,
which is page-aligned; offset and length are page multiples, the length is
less than the block and the range lies in the block.  `mmap_range` returns
0, but the walk at the start of the range returns `0x80000000` and not
`0x80001000`: the range was installed as a 2 MiB block, with the physical
address masked to a multiple of 2 MiB. -/
theorem mmap_range_split_unaligned_counterexample :
    gigBlockMachine.init_ready = true ∧
    (__pt_walk gigBlockMachine 0x101000 0x40000000 4).map
      (fun w => (w.ret, w.level, bit_raised (gigBlockMachine.mem w.ptep) TABLE_TYPE_BIT))
      = some (0x40000000, 1, 0) ∧
    0x200000 % PAGE_SIZE = 0 ∧ 0 < 0x200000 ∧ 0x200000 < tdinfo.l1_blk_size ∧
    0x200000 + 0x200000 ≤ tdinfo.l1_blk_size ∧ 0x80001000 % PAGE_SIZE = 0 ∧
    (mmap_range virtPlatform gigBlockMachine 0x101000 2 (0x40000000 + 0x200000) 0x80001000
      0x200000 0x40 4).map (fun r => (r.1, pt_walk r.2 0x101000 (0x40000000 + 0x200000) 4))
      = some (0, 0x80000000) ∧
    0x80000000 ≠ 0x80001000 + 0 := by
  decide!

/-- C1, witness: the page at the offset `0x1000` of the 2 MiB block of
`blockPageMachine` is remapped to `0x90000000`. -/
theorem mmap_range_splits_block_witness :
    mmap_range virtPlatform blockPageMachine 0x101000 2 (0x40000000 + 0x1000) 0x90000000 0x1000
      0x40 4 = some (0, splitPageMachine) ∧
    ((0 : Int) = 0 ∧
    (∀ v, 0x40000000 ≤ v → v < 0x40000000 + 0x200000 →
      v < 0x40000000 + 0x1000 ∨ 0x40000000 + 0x1000 + 0x1000 ≤ v →
      ∃ w w', __pt_walk blockPageMachine 0x101000 v hostGuest.table_levels = some w ∧
        __pt_walk splitPageMachine 0x101000 v hostGuest.table_levels = some w' ∧
        w'.ret = w.ret ∧
        splitPageMachine.mem w'.ptep &&& block_prot_mask virtPlatform 2
          = blockPageMachine.mem w.ptep &&& block_prot_mask virtPlatform 2 ∧
        splitPageMachine.mem w'.ptep &&& block_type_mask virtPlatform 2
          = blockPageMachine.mem w.ptep &&& block_type_mask virtPlatform 2) ∧
    (∀ i, i < 0x1000 →
      pt_walk splitPageMachine 0x101000 (0x40000000 + 0x1000 + i) hostGuest.table_levels
        = 0x90000000 + i)) := by
  obtain ⟨ht, par, T, hz, hg, hi⟩ := blockPageMachine_tree
  have hgl : (if 2 = virtPlatform.STAGE2 then get_guest_by_s2pgd blockPageMachine 0x101000
      else get_guest_by_s1pgd blockPageMachine 0x101000) = some 0 := by
    rw [if_pos (by decide)]
    unfold get_guest_by_s2pgd
    rw [hg]
    decide
  have hgg : blockPageMachine.guests.get? 0 = some hostGuest := by rw [hg]; rfl
  have hinit : blockPageMachine.init_ready = true := by rw [hi]; rfl
  have hal : ∀ off, off < 0x1000 → off % PAGE_SIZE = 0 →
      (0x90000000 + off) % get_block_size (0x40000000 + 0x1000 + off) (0x1000 - off) = 0 := by
    intro off h1 h2
    have hp : PAGE_SIZE = 4096 := rfl
    rw [hp] at h2
    have : off = 0 := by omega
    subst this
    decide
  exact ⟨splitPageMachine_eq, mmap_range_splits_block virtPlatform virtPlatform_arena_ok
    (by decide) (by decide) blockPageMachine splitPageMachine ht par 0x101000 2 0 hostGuest 0
    (by decide) hinit (Or.inl rfl) hgl hgg T hz (by unfold masks_ok; decide) 0x40000000
    { ret := 0x80000000, ptep := 0x103000, level := 2 } (by decide!) (by decide!)
    0x200000 0x80000000 (by decide) (by decide!) (by decide) (by decide) (by decide) (by decide)
    (by decide!) 0x1000 0x1000 0x90000000 0x40 4 (by decide) (by decide) (by decide) (by decide)
    (by decide) (by decide) (by decide) hal (by decide) splitPageMachine_eq⟩

/-! ## `free_table` on slots and on other pointers -/

/-- C19: for every arena state and every pointer `t`: when `t` is the slot
`k` of the arena, `free_table(t)` returns 0, all 512 descriptors of the slot
and its property word are zero afterwards, and every word of memory outside
the slot, every other property word and the rest of the state are as before;
when `t` is no slot of the arena the call returns `-ENOENT` and the state is
unchanged, which covers the null pointer, as the arena is not at address 0. -/
theorem free_table_slot_or_enoent (P : Platform) (s : Machine) (t : Nat) :
    (∀ k, k < NUM_TABLES → t = table_addr P k →
      (free_table P s t).1 = 0 ∧
      (∀ n, n < PT_SIZE_WORDS → (free_table P s t).2.mem (entry_addr t n) = 0) ∧
      (free_table P s t).2.table_props k = 0 ∧
      (∀ j, j ≠ k → (free_table P s t).2.table_props j = s.table_props j) ∧
      (∀ x, ¬ (t ≤ x ∧ x < t + 4096) → (free_table P s t).2.mem x = s.mem x) ∧
      (free_table P s t).2.guests = s.guests) ∧
    ((∀ k, k < NUM_TABLES → t ≠ table_addr P k) → free_table P s t = (-ENOENT, s)) ∧
    (P.tables ≠ 0 → free_table P s 0 = (-ENOENT, s)) := by
  refine ⟨fun k hk he => ?_, (free_table_spec P s t).2, fun h0 => ?_⟩
  · rw [(free_table_spec P s t).1 k hk he]
    refine ⟨rfl, fun n hn => ?_, ?_, fun j hj => ?_, fun x hx => ?_, rfl⟩
    · simp only [release_mem]
      rw [if_pos]
      subst he
      simp only [entry_addr, PT_SIZE_WORDS] at *
      omega
    · simp only [release_props, if_true]
    · simp only [release_props, if_neg hj]
    · simp only [release_mem]
      rw [if_neg]
      subst he
      exact hx
  · apply (free_table_spec P s 0).2
    intro k _ hc
    simp only [table_addr] at hc
    omega

/-- C19 at the first slot of the arena after boot and at the null pointer. -/
theorem free_table_slot_or_enoent_witness :
    (free_table virtPlatform bootMachine 0x100000).1 = 0 ∧
    (free_table virtPlatform bootMachine 0x100000).2.table_props 0 = 0 ∧
    free_table virtPlatform bootMachine 0 = (-ENOENT, bootMachine) := by
  have h := free_table_slot_or_enoent virtPlatform bootMachine 0x100000
  have h0 := (free_table_slot_or_enoent virtPlatform bootMachine 0).2.2 (by decide)
  obtain ⟨h1, _, h2, _⟩ := h.1 0 (by decide) (by decide)
  exact ⟨h1, h2, h0⟩

/-! ## The size of the next chunk -/

/-- C20: for every `vaddr` and every remaining length of at least a page,
`get_block_size` returns one of 1 GiB, 2 MiB and 4 KiB that does not exceed
the length; a block size is returned only for a `vaddr` aligned to it; every
size of the three to which `vaddr` is aligned and that does not exceed the
length is at most the size returned; and the page size is returned when
neither block size qualifies. -/
theorem get_block_size_largest (vaddr length : Nat) (hlen : PAGE_SIZE ≤ length) :
    (get_block_size vaddr length = 2 ^ 30 ∨ get_block_size vaddr length = 2 ^ 21 ∨
      get_block_size vaddr length = PAGE_SIZE) ∧
    get_block_size vaddr length ≤ length ∧
    (get_block_size vaddr length ≠ PAGE_SIZE → vaddr % get_block_size vaddr length = 0) ∧
    (∀ sz, sz = 2 ^ 30 ∨ sz = 2 ^ 21 ∨ sz = PAGE_SIZE → vaddr % sz = 0 → sz ≤ length →
      sz ≤ get_block_size vaddr length) ∧
    (¬ (vaddr % 2 ^ 30 = 0 ∧ 2 ^ 30 ≤ length) → ¬ (vaddr % 2 ^ 21 = 0 ∧ 2 ^ 21 ≤ length) →
      get_block_size vaddr length = PAGE_SIZE) := by
  have e1 : tdinfo.l1_blk_size = 2 ^ 30 := by decide
  have e2 : tdinfo.l2_blk_size = 2 ^ 21 := by decide
  have e3 : PAGE_SIZE = 4096 := rfl
  have hdiv : vaddr % 2 ^ 30 = 0 → vaddr % 2 ^ 21 = 0 := by
    intro h
    have : (2 : Nat) ^ 30 = 2 ^ 21 * 512 := by norm_num
    omega
  rw [e3] at hlen ⊢
  unfold get_block_size
  rw [and_l1_offt, and_l2_offt, e1, e2, e3]
  by_cases c1 : vaddr % 2 ^ 30 = 0 ∧ length ≥ 2 ^ 30
  · rw [if_pos c1]
    refine ⟨Or.inl rfl, c1.2, fun _ => c1.1, fun sz hsz _ _ => ?_, fun h => absurd c1 h⟩
    rcases hsz with h | h | h <;> rw [h] <;> norm_num
  · rw [if_neg c1]
    by_cases c2 : vaddr % 2 ^ 21 = 0 ∧ length ≥ 2 ^ 21
    · rw [if_pos c2]
      refine ⟨Or.inr (Or.inl rfl), c2.2, fun _ => c2.1, fun sz hsz ha hl => ?_,
        fun _ h => absurd c2 h⟩
      rcases hsz with h | h | h
      · subst h; exact absurd ⟨ha, hl⟩ c1
      · rw [h]
      · rw [h]; norm_num
    · rw [if_neg c2]
      refine ⟨Or.inr (Or.inr rfl), hlen, fun h => absurd rfl h, fun sz hsz ha hl => ?_,
        fun _ _ => rfl⟩
      rcases hsz with h | h | h
      · subst h; exact absurd ⟨ha, hl⟩ c1
      · subst h; exact absurd ⟨ha, hl⟩ c2
      · rw [h]

/-- C20 at a 2 MiB-aligned address with 3 MiB left: a 2 MiB block. -/
theorem get_block_size_largest_witness :
    PAGE_SIZE ≤ 0x300000 ∧ get_block_size 0x40200000 0x300000 = 2 ^ 21 := by
  have h := get_block_size_largest 0x40200000 0x300000 (by decide)
  refine ⟨by decide, ?_⟩
  have hle := h.2.2.2.1 (2 ^ 21) (Or.inr (Or.inl rfl)) (by decide) (by decide)
  rcases h.1 with e | e | e
  · have := h.2.1; rw [e] at this; norm_num at this
  · exact e
  · rw [e] at hle; norm_num [PAGE_SIZE] at hle

/-! ## Memory governor: refused requests -/

/-- C12 (amended): `guest_map_range` returns `-EINVAL` and changes nothing in
the state, the tables included, whenever the guest is null, `vaddr` is 0,
`paddr` is 0, `len` is not a multiple of the page size, or `is_range_valid`
refuses the range.  The function needs no turn of its loop for that.  A `len`
of 0 is among these cases only when `is_range_valid` refuses it. -/
theorem guest_map_range_refused (X : Ext) (P : Platform) (fuel : Nat) (s : Machine)
    (g : Option Nat) (vaddr paddr len prot : Nat)
    (h : g.bind (fun i => s.guests.get? i) = none ∨ vaddr = 0 ∨ paddr = 0 ∨
      len % PAGE_SIZE ≠ 0 ∨
      ∃ guest, g.bind (fun i => s.guests.get? i) = some guest ∧
        X.is_range_valid vaddr len guest = 0) :
    guest_map_range X P fuel s g vaddr paddr len prot = some (-EINVAL, s) := by
  unfold guest_map_range
  cases hg : g.bind (fun i => s.guests.get? i) with
  | none => rfl
  | some guest =>
    simp only []
    by_cases hc : vaddr = 0 ∨ paddr = 0 ∨ len % PAGE_SIZE ≠ 0
    · rw [if_pos hc]
    · rw [if_neg hc]
      rcases h with h | h | h | h | ⟨guest1, h1, h2⟩
      · rw [hg] at h; exact absurd h (by simp)
      · exact absurd (Or.inl h) hc
      · exact absurd (Or.inr (Or.inl h)) hc
      · exact absurd (Or.inr (Or.inr h)) hc
      · rw [hg] at h1
        cases h1
        rw [if_pos h2]

/-- C12 at a length that is not a multiple of the page size. -/
theorem guest_map_range_refused_witness :
    guest_map_range sampleExt virtPlatform 0 bootMachine (some 0) 0x40000000 0x40000000 0x1800
      0x40 = some (-EINVAL, bootMachine) :=
  guest_map_range_refused sampleExt virtPlatform 0 bootMachine (some 0) 0x40000000 0x40000000
    0x1800 0x40 (Or.inr (Or.inr (Or.inr (Or.inl (by decide)))))

/-- C12, counterexample: with an `is_range_valid` that accepts the empty
range, `guest_map_range` with `len = 0` returns 0, not `-EINVAL`: 0 is a
multiple of the page size, the loop over the pages makes no turn, and the
test `len == mc * PAGE_SIZE` holds with `mc = 0`. -/
theorem guest_map_range_empty_counterexample :
    guest_map_range sampleExt virtPlatform 1 bootMachine (some 0) 0x40000000 0x40000000 0 0x40
      = some (0, bootMachine) := by
  rfl

/-! ## Page measurement: order of the records -/

/-- C15, failing run: from the empty measurement table of `sampleGuest`, the
calls `add_range_info(ipa = 0x1000, addr = 0x2000)` and
`add_range_info(ipa = 0x3000, addr = 0x2000)` both return 0 and leave two
records with the physical address `0x2000`: the second call looks for the key
`0x3000`, finds no record and files a new one under `addr`.  The records are
then not strictly increasing by physical address. -/
theorem add_range_info_duplicate_record :
    (add_range_info sampleExt virtPlatform (fun _ => 0) (some sampleGuest)
        0x1000 0x2000 0x1000).1 = 0 ∧
    (add_range_info sampleExt virtPlatform (fun _ => 0)
        (add_range_info sampleExt virtPlatform (fun _ => 0) (some sampleGuest)
          0x1000 0x2000 0x1000).2 0x3000 0x2000 0x1000).1 = 0 ∧
    (add_range_info sampleExt virtPlatform (fun _ => 0)
        (add_range_info sampleExt virtPlatform (fun _ => 0) (some sampleGuest)
          0x1000 0x2000 0x1000).2 0x3000 0x2000 0x1000).2.map
      (fun g => g.hyp_page_data.map (fun r => r.phys_addr)) = some [0x2000, 0x2000] := by
  decide

/-! ## Memory slots -/

theorem slot_store_get (xs : List kvm_memslots) (i : Nat) (v : kvm_memslots) :
    (slot_store xs i v).get? i = some v := by
  unfold slot_store
  by_cases h : i < xs.length
  · rw [if_pos h]
    simp [List.getElem?_set, h]
  · rw [if_neg h]
    have hl : (xs ++ List.replicate (i - xs.length)
        ({ region := [], slot := { base_gfn := 0, npages := 0 } } : kvm_memslots)).length = i := by
      simp only [List.length_append, List.length_replicate]
      omega
    rw [List.get?_eq_getElem?, List.getElem?_append_right (by omega), hl]
    simp

theorem modify_get (f : kvm_guest_t → kvm_guest_t) (l : List kvm_guest_t) (i : Nat)
    (g : kvm_guest_t) (h : l.get? i = some g) : (l.modify f i).get? i = some (f g) := by
  rw [List.get?_eq_getElem?] at h ⊢
  rw [List.getElem?_modify]
  simp [h]

/-- C18, failing run in general: for a registered guest whose slot count
equals `KVM_MEM_SLOTS_NUM`, a call of `update_memslot` with a page count of at
most `0x100000` and a range that `is_range_valid` does not know returns 0,
stores the slot at the index `KVM_MEM_SLOTS_NUM` and raises the slot count to
`KVM_MEM_SLOTS_NUM + 1`. -/
theorem update_memslot_past_limit (H : Host) (X : Ext) (P : Platform) (s : Machine)
    (kvm ttbr0_el1 i : Nat) (sl : kvm_memslot) (rg : List Nat) (guest : kvm_guest_t)
    (hkvm : kvm ≠ 0) (hn : sl.npages ≤ 0x100000)
    (hfind : s.guests.findIdx? (fun g => g.kvm = H.kern_hyp_va kvm) = some i)
    (hg : s.guests.get? i = some guest)
    (hsn : guest.sn = H.KVM_MEM_SLOTS_NUM)
    (hnew : X.is_range_valid (H.fn_to_addr sl.base_gfn) ((sl.npages * PAGE_SIZE) % 2 ^ 64)
      guest = 0) :
    ∃ s1 g1, update_memslot H X P s kvm (some sl) (some rg) ttbr0_el1 = some (0, s1) ∧
      s1.guests.get? i = some g1 ∧ g1.sn = H.KVM_MEM_SLOTS_NUM + 1 ∧
      g1.slots.get? H.KVM_MEM_SLOTS_NUM = some { region := rg, slot := sl } := by
  have hgk : get_guest_by_kvm H P s (H.kern_hyp_va kvm) ttbr0_el1 = some (some i, s) := by
    unfold get_guest_by_kvm
    rw [hfind]
  have hres : update_memslot H X P s kvm (some sl) (some rg) ttbr0_el1 = some (0,
      { s with guests := s.guests.modify (fun g =>
          { g with slots := slot_store g.slots g.sn { region := rg, slot := sl },
                   sn := g.sn + 1 }) i }) := by
    unfold update_memslot
    simp only []
    rw [if_neg hkvm, if_neg (by omega), hgk]
    simp only []
    rw [hg]
    simp only []
    rw [if_neg (by omega), if_neg (not_not.mpr hnew)]
  refine ⟨_, _, hres, modify_get _ _ i guest hg, ?_, ?_⟩
  · simp only [hsn]
  · simp only [hsn]
    exact slot_store_get _ _ _

/-- C18 at a guest with 32 memory slots, where `KVM_MEM_SLOTS_NUM` is 32: the
call stores a slot at the index 32 and the slot count becomes 33. -/
theorem update_memslot_past_limit_witness :
    ∃ s1 g1, update_memslot sampleHost strictExt virtPlatform fullSlotsMachine 0x8000
        (some { base_gfn := 0x50000, npages := 16 }) (some [1, 2, 3]) 0 = some (0, s1) ∧
      s1.guests.get? 1 = some g1 ∧ g1.sn = 33 ∧
      g1.slots.get? 32 = some { region := [1, 2, 3], slot := { base_gfn := 0x50000, npages := 16 } } :=
  update_memslot_past_limit sampleHost strictExt virtPlatform fullSlotsMachine 0x8000 0 1
    { base_gfn := 0x50000, npages := 16 } [1, 2, 3]
    { sampleGuest with
      slots := List.replicate 32 { region := [], slot := { base_gfn := 0, npages := 1 } }
      sn := 32 }
    (by decide) (by decide) (by decide) (by decide) (by decide) (by decide)

/-! ## Memory governor: the result of an unmap -/

/-- The values of `res` and `pc` along the loop of `guest_unmap_range`: once
a page was handled `res` is 0, and until then `res` and `pc` are as at the
start and the state is unchanged. -/
theorem guest_unmap_loop_res (H : Host) (X : Ext) (P : Platform) (i vaddr len : Nat)
    (measure : Bool) (fuel : Nat) :
    ∀ (s : Machine) (map_addr : Nat) (res : Int) (pc : Nat) (r : Int × Nat × Machine),
      guest_unmap_loop H X P i vaddr len measure fuel s map_addr res pc = some r →
      (r.1 = res ∧ r.2.1 = pc ∧ r.2.2 = s) ∨ r.1 = 0 := by
  induction fuel with
  | zero => intro s map_addr res pc r h; simp [guest_unmap_loop] at h
  | succ fuel ih =>
    intro s map_addr res pc r h
    rw [guest_unmap_loop] at h
    by_cases hc : map_addr < (vaddr + len) % 2 ^ 64
    · rw [if_pos hc] at h
      cases hg : s.guests.get? i with
      | none => rw [hg] at h; simp at h
      | some guest =>
        rw [hg] at h
        simp only [] at h
        by_cases hw : pt_walk s guest.s2_pgd map_addr P.TABLE_LEVELS = NOADDR
        · rw [if_pos hw] at h
          exact ih _ _ _ _ _ h
        · rw [if_neg hw] at h
          split at h
          · simp at h
          · split at h
            · simp at h
            · rename_i r0 s4 _
              by_cases hr : r0 ≠ 0
              · rw [if_pos hr] at h; simp at h
              · rw [if_neg hr] at h
                have hr0 : r0 = 0 := not_not.mp hr
                rcases ih _ _ _ _ _ h with ⟨h1, _⟩ | h1
                · right; rw [h1, hr0]
                · right; exact h1
    · rw [if_neg hc] at h
      cases h
      exact Or.inl ⟨rfl, rfl, rfl⟩

/-- C13, the nonzero results of `guest_unmap_range`: the call returns a
nonzero value only when it has handled no page and left the state as it was,
and the value is then `0xF0F0` (a refused request) or `-EINVAL` (no page of
the range was mapped).  The bits above bit 15 of `-EINVAL` are all ones, so
that `r >> 16` is -1 and not the page count 0. -/
theorem guest_unmap_range_nonzero (H : Host) (X : Ext) (P : Platform) (fuel : Nat) (s : Machine)
    (g : Option Nat) (vaddr len : Nat) (measure : Bool) (r : Int) (s1 : Machine)
    (h : guest_unmap_range H X P fuel s g vaddr len measure = some (r, s1)) (hr : r ≠ 0) :
    s1 = s ∧ (r = 0xF0F0 ∨ (r = -EINVAL ∧ r >>> 16 = -1)) := by
  unfold guest_unmap_range at h
  cases g with
  | none =>
    simp only [Option.some.injEq, Prod.mk.injEq] at h
    exact ⟨h.2.symm, Or.inl h.1.symm⟩
  | some i =>
    simp only [] at h
    by_cases hc : s.guests.get? i = none ∨ vaddr = 0 ∨ len % PAGE_SIZE ≠ 0
    · rw [if_pos hc] at h
      simp only [Option.some.injEq, Prod.mk.injEq] at h
      exact ⟨h.2.symm, Or.inl h.1.symm⟩
    · rw [if_neg hc] at h
      cases hl : guest_unmap_loop H X P i vaddr len measure fuel s vaddr (-EINVAL) 0 with
      | none => rw [hl] at h; simp at h
      | some q =>
        obtain ⟨res, pc, s2⟩ := q
        rw [hl] at h
        simp only [] at h
        rcases guest_unmap_loop_res H X P i vaddr len measure fuel s vaddr (-EINVAL) 0 _ hl with
          ⟨h1, h2, h3⟩ | h1
        · simp only at h1 h2 h3
          subst h1 h2 h3
          rw [if_pos (by decide)] at h
          simp only [Option.some.injEq, Prod.mk.injEq] at h
          refine ⟨h.2.symm, Or.inr ?_⟩
          rw [← h.1]
          decide
        · simp only at h1
          subst h1
          rw [if_neg (by decide)] at h
          simp only [Option.some.injEq, Prod.mk.injEq] at h
          exact absurd h.1.symm hr

/-- C13 at a range of the host stage-2 root after boot in which no page is
mapped: the call returns `-EINVAL` and has unmapped no page. -/
theorem guest_unmap_range_nonzero_witness :
    guest_unmap_range sampleHost sampleExt virtPlatform 2 bootMachine (some 0) 0x40000000 0x1000
        false = some (-EINVAL, bootMachine) ∧
    (-EINVAL : Int) >>> 16 = -1 := by
  have h : guest_unmap_range sampleHost sampleExt virtPlatform 2 bootMachine (some 0) 0x40000000
      0x1000 false = some (-EINVAL, bootMachine) := by rfl
  have h2 := guest_unmap_range_nonzero sampleHost sampleExt virtPlatform 2 bootMachine (some 0)
    0x40000000 0x1000 false (-EINVAL) bootMachine h (by decide)
  refine ⟨h, ?_⟩
  rcases h2.2 with e | e
  · exact absurd e (by decide)
  · exact e.2

/-! ## Release of a guest -/

theorem free_guest_tables_loop_guests (P : Platform) (vmid : Nat) (n : Nat) :
    ∀ (i : Nat) (res : Int) (s : Machine),
      (free_guest_tables_loop P vmid i n (res, s)).2.guests = s.guests := by
  induction n with
  | zero => intro i res s; rfl
  | succ n ih =>
    intro i res s
    rw [free_guest_tables_loop]
    split
    · rw [ih]; rfl
    · rw [ih]

theorem free_guest_tables_guests (P : Platform) (s : Machine) (vmid : Nat) :
    (free_guest_tables P s vmid).2.guests = s.guests :=
  free_guest_tables_loop_guests P vmid NUM_TABLES 0 0 s

theorem free_table_guests (P : Platform) (s : Machine) (t : Nat) :
    (free_table P s t).2.guests = s.guests := by
  by_cases h : ∃ k, k < NUM_TABLES ∧ t = table_addr P k
  · obtain ⟨k, hk, he⟩ := h
    rw [(free_table_spec P s t).1 k hk he]
    rfl
  · rw [(free_table_spec P s t).2 (fun k hk he => h ⟨k, hk, he⟩)]

/-- The property words after `free_guest_tables(v)` followed by
`free_table(t)`. -/
theorem free_both_props (P : Platform) (s : Machine) (v t j : Nat) (hj : j < NUM_TABLES) :
    (free_table P (free_guest_tables P s v).2 t).2.table_props j
      = if v = s.table_props j >>> 8 ∨ t = table_addr P j then 0 else s.table_props j := by
  obtain ⟨_, h2, _, _⟩ := free_guest_tables_loop_spec P v NUM_TABLES 0 0 s
  have hp : (free_guest_tables P s v).2.table_props j
      = if v = s.table_props j >>> 8 then 0 else s.table_props j := by
    unfold free_guest_tables
    rw [h2]
    by_cases hv : v = s.table_props j >>> 8
    · rw [if_pos ⟨Nat.zero_le _, by omega, hv⟩, if_pos hv]
    · rw [if_neg (fun hc => hv hc.2.2), if_neg hv]
  by_cases h : ∃ k, k < NUM_TABLES ∧ t = table_addr P k
  · obtain ⟨k, hk, he⟩ := h
    rw [(free_table_spec P _ t).1 k hk he, release_props, hp]
    by_cases hjk : j = k
    · subst hjk
      rw [if_pos rfl, if_pos (Or.inr he)]
    · rw [if_neg hjk]
      have hne : t ≠ table_addr P j := by
        intro hc
        exact hjk (table_addr_inj P _ _ (hc.symm.trans he))
      by_cases hv : v = s.table_props j >>> 8
      · rw [if_pos hv, if_pos (Or.inl hv)]
      · rw [if_neg hv, if_neg (by tauto)]
  · rw [(free_table_spec P _ t).2 (fun k hk he => h ⟨k, hk, he⟩), hp]
    have hne : t ≠ table_addr P j := fun hc => h ⟨j, hj, hc⟩
    by_cases hv : v = s.table_props j >>> 8
    · rw [if_pos hv, if_pos (Or.inl hv)]
    · rw [if_neg hv, if_neg (by tauto)]

/-- The memory after `free_guest_tables(v)` followed by `free_table(t)`: the
tables of the slots released are zero, the rest is as before. -/
theorem free_both_mem (P : Platform) (s : Machine) (v t x : Nat) :
    (free_table P (free_guest_tables P s v).2 t).2.mem x
      = if ∃ j, j < NUM_TABLES ∧ (v = s.table_props j >>> 8 ∨ t = table_addr P j) ∧
            table_addr P j ≤ x ∧ x < table_addr P j + 4096 then 0 else s.mem x := by
  obtain ⟨_, _, h3, h4⟩ := free_guest_tables_loop_spec P v NUM_TABLES 0 0 s
  have hm : (free_guest_tables P s v).2.mem x
      = if ∃ j, j < NUM_TABLES ∧ v = s.table_props j >>> 8 ∧
            table_addr P j ≤ x ∧ x < table_addr P j + 4096 then 0 else s.mem x := by
    unfold free_guest_tables
    by_cases hv : ∃ j, j < NUM_TABLES ∧ v = s.table_props j >>> 8 ∧
        table_addr P j ≤ x ∧ x < table_addr P j + 4096
    · rw [if_pos hv]
      obtain ⟨j, a, b, c, d⟩ := hv
      exact h3 x ⟨j, Nat.zero_le _, by omega, b, c, d⟩
    · rw [if_neg hv]
      apply h4
      rintro ⟨j, _, a, b, c, d⟩
      exact hv ⟨j, by omega, b, c, d⟩
  by_cases h : ∃ k, k < NUM_TABLES ∧ t = table_addr P k
  · obtain ⟨k, hk, he⟩ := h
    rw [(free_table_spec P _ t).1 k hk he, release_mem, hm]
    by_cases hx : table_addr P k ≤ x ∧ x < table_addr P k + 4096
    · rw [if_pos hx, if_pos ⟨k, hk, Or.inr he, hx.1, hx.2⟩]
    · rw [if_neg hx]
      by_cases hv : ∃ j, j < NUM_TABLES ∧ v = s.table_props j >>> 8 ∧
          table_addr P j ≤ x ∧ x < table_addr P j + 4096
      · rw [if_pos hv]
        obtain ⟨j, a, b, c, d⟩ := hv
        rw [if_pos ⟨j, a, Or.inl b, c, d⟩]
      · rw [if_neg hv, if_neg]
        rintro ⟨j, a, b | b, c, d⟩
        · exact hv ⟨j, a, b, c, d⟩
        · have := table_addr_inj P _ _ (b.symm.trans he)
          subst this
          exact hx ⟨c, d⟩
  · rw [(free_table_spec P _ t).2 (fun k hk he => h ⟨k, hk, he⟩), hm]
    by_cases hv : ∃ j, j < NUM_TABLES ∧ v = s.table_props j >>> 8 ∧
        table_addr P j ≤ x ∧ x < table_addr P j + 4096
    · rw [if_pos hv]
      obtain ⟨j, a, b, c, d⟩ := hv
      rw [if_pos ⟨j, a, Or.inl b, c, d⟩]
    · rw [if_neg hv, if_neg]
      rintro ⟨j, a, b | b, c, d⟩
      · exact hv ⟨j, a, b, c, d⟩
      · exact h ⟨j, a, b⟩

/-- The runs of `free_guest` that return. -/
theorem free_guest_cases (H : Host) (P : Platform) (s : Machine) (kvm : Nat) (r : Int)
    (s' : Machine) (h : free_guest H P s kvm = some (r, s')) :
    s' = s ∨
    (∃ i, i < s.guests.length ∧ r = 0 ∧ s' = { s with guests := s.guests.set i guest_zero }) ∨
    (∃ i res, H.restore_host_mappings s i = some (res, s') ∧ res ≠ 0 ∧ r = res) ∨
    (∃ i s1 guest guest1, s.guests.get? i = some guest ∧ guest.vmid ≠ 0 ∧
      H.restore_host_mappings s i = some (0, s1) ∧
      s1.guests.get? i = some guest1 ∧ r = 0 ∧
      s' = { (free_table P (free_guest_tables P s1 guest1.vmid).2 guest1.s2_pgd).2 with
             guests := s1.guests.set i guest_zero }) := by
  unfold free_guest at h
  by_cases hk : kvm = 0
  · rw [if_pos hk] at h
    simp only [Option.some.injEq, Prod.mk.injEq] at h
    exact Or.inl h.2.symm
  · rw [if_neg hk] at h
    cases hf : s.guests.findIdx? (fun g => g.kvm = H.kern_hyp_va kvm) with
    | none =>
      rw [hf] at h
      simp only [Option.some.injEq, Prod.mk.injEq] at h
      exact Or.inl h.2.symm
    | some i =>
      rw [hf] at h
      simp only [] at h
      cases hg : s.guests.get? i with
      | none => rw [hg] at h; simp at h
      | some guest =>
        rw [hg] at h
        simp only [] at h
        have hi : i < s.guests.length := by
          rw [List.get?_eq_getElem?] at hg
          by_contra hc
          rw [List.getElem?_eq_none (by omega)] at hg
          cases hg
        by_cases hv : guest.vmid ≠ 0
        · rw [if_pos hv] at h
          cases hr : H.restore_host_mappings s i with
          | none => rw [hr] at h; simp at h
          | some q =>
            obtain ⟨res, s1⟩ := q
            rw [hr] at h
            simp only [] at h
            by_cases hres : res ≠ 0
            · rw [if_pos hres] at h
              simp only [Option.some.injEq, Prod.mk.injEq] at h
              refine Or.inr (Or.inr (Or.inl ⟨i, res, ?_, hres, h.1.symm⟩))
              rw [← h.2]
              exact hr
            · rw [if_neg hres] at h
              have hres0 : res = 0 := not_not.mp hres
              subst hres0
              cases hg1 : s1.guests.get? i with
              | none => rw [hg1] at h; simp at h
              | some guest1 =>
                rw [hg1] at h
                simp only [Option.some.injEq, Prod.mk.injEq] at h
                refine Or.inr (Or.inr (Or.inr ⟨i, s1, guest, guest1, hg, hv, hr, hg1, h.1.symm, ?_⟩))
                rw [← h.2, free_table_guests, free_guest_tables_guests]
        · rw [if_neg hv] at h
          simp only [Option.some.injEq, Prod.mk.injEq] at h
          exact Or.inr (Or.inl ⟨i, hi, h.1.symm, h.2.symm⟩)

/-- What `free_guest` does for a registered guest with a nonzero id whose
descriptor `restore_host_mappings` leaves alone. -/
theorem free_guest_run (H : Host) (P : Platform) (s : Machine) (kvm i : Nat)
    (guest : kvm_guest_t) (res : Int) (s1 : Machine)
    (hkvm : kvm ≠ 0)
    (hfind : s.guests.findIdx? (fun g => g.kvm = H.kern_hyp_va kvm) = some i)
    (hg : s.guests.get? i = some guest) (hv : guest.vmid ≠ 0)
    (hrest : H.restore_host_mappings s i = some (res, s1))
    (hg1 : s1.guests.get? i = some guest) :
    free_guest H P s kvm =
      if res ≠ 0 then some (res, s1)
      else some (0, { (free_table P (free_guest_tables P s1 guest.vmid).2 guest.s2_pgd).2 with
                      guests := s1.guests.set i guest_zero }) := by
  unfold free_guest
  rw [if_neg hkvm, hfind]
  simp only []
  rw [hg]
  simp only []
  rw [if_pos hv, hrest]
  simp only []
  by_cases hres : res ≠ 0
  · rw [if_pos hres, if_pos hres]
  · rw [if_neg hres, if_neg hres, hg1]
    simp only [free_table_guests, free_guest_tables_guests]

/-- C17 (amended): let a registered guest with a nonzero id be found in slot
`i` for the handle, and let `restore_host_mappings` return `res` and leave
the descriptor as it was.  If `res` is not 0, `free_guest` returns `res` and
the state is as `restore_host_mappings` left it.  If `res` is 0, `free_guest`
returns 0, the descriptor slot is zeroed, every slot of the arena whose
owner field equals the guest id and the slot of the stage-2 root are released
(property word and table zeroed), the other property words and the rest of
memory are unchanged, and no slot with the owner field of the guest id
remains. -/
theorem free_guest_releases (H : Host) (P : Platform) (s : Machine) (kvm i : Nat)
    (guest : kvm_guest_t) (res : Int) (s1 : Machine)
    (hkvm : kvm ≠ 0)
    (hfind : s.guests.findIdx? (fun g => g.kvm = H.kern_hyp_va kvm) = some i)
    (hg : s.guests.get? i = some guest) (hv : guest.vmid ≠ 0)
    (hrest : H.restore_host_mappings s i = some (res, s1))
    (hg1 : s1.guests.get? i = some guest) :
    (res ≠ 0 → free_guest H P s kvm = some (res, s1)) ∧
    (res = 0 → ∃ s', free_guest H P s kvm = some (0, s') ∧
      s'.guests = s1.guests.set i guest_zero ∧
      s'.guests.get? i = some guest_zero ∧
      (∀ j, j < NUM_TABLES →
        (guest.vmid = s1.table_props j >>> 8 ∨ guest.s2_pgd = table_addr P j) →
          s'.table_props j = 0 ∧
          ∀ x, table_addr P j ≤ x → x < table_addr P j + 4096 → s'.mem x = 0) ∧
      (∀ j, j < NUM_TABLES →
        ¬ (guest.vmid = s1.table_props j >>> 8 ∨ guest.s2_pgd = table_addr P j) →
          s'.table_props j = s1.table_props j) ∧
      (∀ x, (¬ ∃ j, j < NUM_TABLES ∧
          (guest.vmid = s1.table_props j >>> 8 ∨ guest.s2_pgd = table_addr P j) ∧
          table_addr P j ≤ x ∧ x < table_addr P j + 4096) → s'.mem x = s1.mem x) ∧
      (∀ j, j < NUM_TABLES → s'.table_props j >>> 8 ≠ guest.vmid)) := by
  have hrun := free_guest_run H P s kvm i guest res s1 hkvm hfind hg hv hrest hg1
  refine ⟨fun hres => by rw [hrun, if_pos hres], fun hres => ?_⟩
  rw [if_neg (not_not.mpr hres)] at hrun
  have hi : i < s1.guests.length := by
    rw [List.get?_eq_getElem?] at hg1
    by_contra hc
    rw [List.getElem?_eq_none (by omega)] at hg1
    cases hg1
  refine ⟨_, hrun, rfl, ?_, fun j hj hc => ⟨?_, fun x hx1 hx2 => ?_⟩, fun j hj hc => ?_,
    fun x hx => ?_, fun j hj => ?_⟩
  · rw [List.get?_eq_getElem?, List.getElem?_set]
    simp [hi]
  · show (free_table P (free_guest_tables P s1 guest.vmid).2 guest.s2_pgd).2.table_props j = 0
    rw [free_both_props P s1 _ _ j hj, if_pos hc]
  · show (free_table P (free_guest_tables P s1 guest.vmid).2 guest.s2_pgd).2.mem x = 0
    rw [free_both_mem, if_pos ⟨j, hj, hc, hx1, hx2⟩]
  · show (free_table P (free_guest_tables P s1 guest.vmid).2 guest.s2_pgd).2.table_props j = _
    rw [free_both_props P s1 _ _ j hj, if_neg hc]
  · show (free_table P (free_guest_tables P s1 guest.vmid).2 guest.s2_pgd).2.mem x = _
    rw [free_both_mem, if_neg hx]
  · show (free_table P (free_guest_tables P s1 guest.vmid).2 guest.s2_pgd).2.table_props j
      >>> 8 ≠ _
    rw [free_both_props P s1 _ _ j hj]
    by_cases hc : guest.vmid = s1.table_props j >>> 8 ∨ guest.s2_pgd = table_addr P j
    · rw [if_pos hc]
      intro h0
      apply hv
      rw [← h0]
      rfl
    · rw [if_neg hc]
      intro h0
      exact hc (Or.inl h0.symm)

/-- C17 at the guest 1 of `fullSlotsMachine`: the call returns 0, zeroes the
descriptor and releases the slot 2 of the arena, the stage-2 root. -/
theorem free_guest_releases_witness :
    ∃ s', free_guest sampleHost virtPlatform fullSlotsMachine 0x8000 = some (0, s') ∧
      s'.guests.get? 1 = some guest_zero ∧ s'.table_props 2 = 0 := by
  obtain ⟨s', h1, _, h2, h3, _⟩ := (free_guest_releases sampleHost virtPlatform fullSlotsMachine
    0x8000 1
    { sampleGuest with
      slots := List.replicate 32 { region := [], slot := { base_gfn := 0, npages := 1 } }
      sn := 32 }
    0 fullSlotsMachine (by decide) (by decide) (by decide) (by decide) rfl (by decide)).2 rfl
  exact ⟨s', h1, h2, (h3 2 (by decide) (Or.inr (by decide))).1⟩

/-- C17, counterexample: the guest in slot 1 has the id 256, and
`alloc_table(256)` has taken the slot 3 of the arena for it, whose owner
field is 0.  `free_guest` returns 0 and the slot 3 is still in use
afterwards. -/
theorem free_guest_wide_id_counterexample :
    (alloc_table virtPlatform wideGuestBase 256).1 = 0x103000 ∧
    ∃ s', free_guest sampleHost virtPlatform wideGuestMachine 0x8000 = some (0, s') ∧
      s'.table_props 3 = 1 := by
  have hrun := free_guest_run sampleHost virtPlatform wideGuestMachine 0x8000 1
    { sampleGuest with vmid := 256 } 0 wideGuestMachine (by decide) (by decide) (by decide)
    (by decide) rfl (by decide)
  rw [if_neg (by decide)] at hrun
  refine ⟨by decide, _, hrun, ?_⟩
  dsimp only
  rw [free_both_props virtPlatform wideGuestMachine _ _ 3 (by decide), if_neg (by decide)]
  decide

/-! ## The roots of the registry -/

theorem roots_host_owned_ok (P : Platform) (s : Machine) (h : roots_host_owned P s) :
    roots_ok P s := by
  refine ⟨h.1, fun i g hg hne => ?_⟩
  obtain ⟨k, hk, he, hp⟩ := h.2 i g hg hne
  refine ⟨k, hk, he, ?_⟩
  rw [hp]
  decide

/-- A step that creates no root and keeps the property words of the roots
that remain keeps the roots in order. -/
theorem roots_step (P : Platform) (s s' : Machine) (hI : roots_host_owned P s)
    (hg : ∀ i g', s'.guests.get? i = some g' → g'.s2_pgd ≠ 0 →
      ∃ g, s.guests.get? i = some g ∧ g.s2_pgd = g'.s2_pgd)
    (hp : ∀ i g' k, s'.guests.get? i = some g' → g'.s2_pgd ≠ 0 →
      g'.s2_pgd = table_addr P k → k < NUM_TABLES → s.table_props k = 1 →
      s'.table_props k = 1) :
    roots_host_owned P s' := by
  refine ⟨fun i j gi gj hi hj hne h1 h2 => ?_, fun i g hgi hne => ?_⟩
  · obtain ⟨a, ha, hae⟩ := hg i gi hi h1
    obtain ⟨b, hb, hbe⟩ := hg j gj hj h2
    rw [← hae, ← hbe]
    exact hI.1 i j a b ha hb hne (by rw [hae]; exact h1) (by rw [hbe]; exact h2)
  · obtain ⟨a, ha, hae⟩ := hg i g hgi hne
    obtain ⟨k, hk, he, hpk⟩ := hI.2 i a ha (by rw [hae]; exact hne)
    exact ⟨k, hk, by rw [← hae]; exact he, hp i g k hgi hne (by rw [← hae]; exact he) hk hpk⟩

theorem get_modify (f : kvm_guest_t → kvm_guest_t) (l : List kvm_guest_t) (i j : Nat) :
    (l.modify f i).get? j = (l.get? j).map (fun a => if i = j then f a else a) := by
  rw [List.get?_eq_getElem?, List.get?_eq_getElem?, List.getElem?_modify]
  rfl

theorem get_set (l : List kvm_guest_t) (i j : Nat) (v g : kvm_guest_t)
    (h : (l.set i v).get? j = some g) : (i = j ∧ g = v) ∨ (i ≠ j ∧ l.get? j = some g) := by
  rw [List.get?_eq_getElem?, List.getElem?_set] at h
  by_cases e : i = j
  · rw [if_pos e] at h
    split at h
    · left; exact ⟨e, by cases h; rfl⟩
    · cases h
  · rw [if_neg e] at h
    right
    exact ⟨e, by rw [List.get?_eq_getElem?]; exact h⟩

/-- A change of descriptors that leaves the stage-2 roots alone. -/
theorem roots_modify (P : Platform) (s : Machine) (f : kvm_guest_t → kvm_guest_t) (i : Nat)
    (hI : roots_host_owned P s) (hf : ∀ g, (f g).s2_pgd = g.s2_pgd)
    (s' : Machine) (hgs : s'.guests = s.guests.modify f i)
    (hprops : ∀ k, s.table_props k = 1 → s'.table_props k = 1) :
    roots_host_owned P s' := by
  apply roots_step P s s' hI
  · intro j g' hj hne
    rw [hgs, get_modify] at hj
    cases hl : s.guests.get? j with
    | none => rw [hl] at hj; cases hj
    | some g =>
      rw [hl] at hj
      simp only [Option.map_some', Option.some.injEq] at hj
      refine ⟨g, rfl, ?_⟩
      rw [← hj]
      split
      · rw [hf]
      · rfl
  · intro j g' k _ _ _ _ hk
    exact hprops k hk

theorem alloc_table_keeps (P : Platform) (s : Machine) (vm k : Nat)
    (h : bit_raised (s.table_props k) VALID_TABLE_BIT ≠ 0) :
    (alloc_table P s vm).2.table_props k = s.table_props k := by
  rcases alloc_table_cases P s vm with ⟨_, e⟩ | ⟨j, _, hfree, e⟩
  · rw [e]
  · rw [e]
    simp only []
    rw [if_neg]
    intro hc
    subst hc
    exact h hfree

theorem alloc_table_guests (P : Platform) (s : Machine) (vm : Nat) :
    (alloc_table P s vm).2.guests = s.guests := by
  rcases alloc_table_cases P s vm with ⟨_, e⟩ | ⟨j, _, _, e⟩ <;> rw [e]

theorem one_in_use (w : Nat) (h : w = 1) : bit_raised w VALID_TABLE_BIT ≠ 0 := by
  subst h; decide

theorem roots_alloc_table (P : Platform) (s : Machine) (vm : Nat) (hI : roots_host_owned P s) :
    roots_host_owned P (alloc_table P s vm).2 := by
  apply roots_step P s _ hI
  · intro j g' hj _
    rw [alloc_table_guests] at hj
    exact ⟨g', hj, rfl⟩
  · intro j g' k _ _ _ _ hk
    rw [alloc_table_keeps P s vm k (one_in_use _ hk), hk]

theorem roots_get_guest (P : Platform) (s s1 : Machine) (vmid : Nat) (g : Option Nat)
    (hI : roots_host_owned P s) (h : get_guest P s vmid = some (g, s1)) :
    roots_host_owned P s1 := by
  unfold get_guest at h
  split at h
  · split at h
    · cases h; exact hI
    · simp only [Option.some.injEq, Prod.mk.injEq] at h
      exact roots_modify P s (fun g => { g with vmid := vmid }) _ hI (fun g => rfl) s1
        (by rw [← h.2]) (fun k hk => by rw [← h.2]; exact hk)
  · split at h
    · cases h; exact hI
    · split at h
      · cases h
      · simp only [Option.some.injEq, Prod.mk.injEq] at h
        exact roots_modify P s (fun g => { g with vmid := HOST_VMID }) _ hI (fun g => rfl) s1
          (by rw [← h.2]) (fun k hk => by rw [← h.2]; exact hk)

theorem roots_free_guest (H : Host) (P : Platform) (s s1 : Machine) (kvm : Nat) (r : Int)
    (hH : restore_keeps_roots H) (hI : roots_host_owned P s)
    (h : free_guest H P s kvm = some (r, s1)) : roots_host_owned P s1 := by
  rcases free_guest_cases H P s kvm r s1 h with e | ⟨i, hi, _, e⟩ | ⟨i, res, hr, _, _⟩ |
    ⟨i, s2, guest, guest1, hg0, hv, hr, hg1, _, e⟩
  · rw [e]; exact hI
  · apply roots_step P s s1 hI
    · intro j g' hj hne
      rw [e] at hj
      rcases get_set _ _ _ _ _ hj with ⟨_, h2⟩ | ⟨_, h2⟩
      · rw [h2] at hne; exact absurd rfl hne
      · exact ⟨g', h2, rfl⟩
    · intro j g' k _ _ _ _ hk
      rw [e]; exact hk
  · obtain ⟨hg, hp⟩ := hH s i res s1 hr
    apply roots_step P s s1 hI
    · intro j g' hj _
      rw [hg] at hj
      exact ⟨g', hj, rfl⟩
    · intro j g' k _ _ _ _ hk
      rw [hp k (one_in_use _ hk), hk]
  · obtain ⟨hg, hp⟩ := hH s i 0 s2 hr
    rw [hg] at hg1
    have hgg : guest1 = guest := by rw [hg0] at hg1; cases hg1; rfl
    subst hgg
    apply roots_step P s s1 hI
    · intro j g' hj hne
      rw [e] at hj
      rcases get_set _ _ _ _ _ hj with ⟨_, h2⟩ | ⟨_, h2⟩
      · rw [h2] at hne; exact absurd rfl hne
      · rw [hg] at h2; exact ⟨g', h2, rfl⟩
    · intro j g' k hj hne hroot hk hpk
      rw [e] at hj ⊢
      rcases get_set _ _ _ _ _ hj with ⟨_, h2⟩ | ⟨hij, h2⟩
      · rw [h2] at hne; exact absurd rfl hne
      · dsimp only
        rw [free_both_props P s2 _ _ k hk, hp k (one_in_use _ hpk), hpk, if_neg]
        rintro (hc | hc)
        · have h0 : (1 : Nat) >>> 8 = 0 := by decide
          rw [h0] at hc
          exact hv hc
        · rw [hg] at h2
          by_cases hr0 : guest1.s2_pgd = 0
          · rw [hr0, ← hroot] at hc
            exact hne hc.symm
          · exact hI.1 i j guest1 g' hg0 h2 hij hr0 hne (by rw [hc, hroot])
theorem findIdx_some_get {α : Type} (xs : List α) (p : α → Bool) (i : Nat)
    (h : xs.findIdx? p = some i) : ∃ x, xs.get? i = some x ∧ p x = true := by
  have := List.findIdx?_of_eq_some h
  cases hx : xs[i]? with
  | none => rw [hx] at this; simp at this
  | some x =>
    rw [hx] at this
    exact ⟨x, by rw [List.get?_eq_getElem?]; exact hx, this⟩

theorem roots_init_guest_finish (H : Host) (P : Platform) (s s1 : Machine)
    (kvm ttbr0_el1 i : Nat) (r : Int) (hI : roots_host_owned P s)
    (h : init_guest_finish H P s kvm ttbr0_el1 i = some (r, s1)) : roots_host_owned P s1 := by
  unfold init_guest_finish at h
  split at h
  · cases h
  · simp only [Option.some.injEq, Prod.mk.injEq] at h
    exact roots_modify P s
      (fun g => { g with kvm := kvm, table_levels := P.TABLE_LEVELS, s1_pgd := ttbr0_el1 }) i hI
      (fun g => rfl) s1 (by rw [← h.2]; rfl) (fun k hk => by rw [← h.2]; exact hk)

/-- A root taken from `alloc_table(HOST_VMID)` and stored into a descriptor
keeps the roots in order. -/
theorem roots_new_root (P : Platform) (s : Machine) (i : Nat) (hI : roots_host_owned P s) :
    roots_host_owned P
      { (alloc_table P s HOST_VMID).2 with
        guests := (alloc_table P s HOST_VMID).2.guests.modify
          (fun g => { g with s2_pgd := (alloc_table P s HOST_VMID).1 }) i } := by
  rcases alloc_table_cases P s HOST_VMID with ⟨_, e⟩ | ⟨k, hk, hkfree, e⟩
  · rw [e]
    apply roots_step P s _ hI
    · intro j g' hj hne
      dsimp only at hj
      rw [get_modify] at hj
      cases hl : s.guests.get? j with
      | none => rw [hl] at hj; cases hj
      | some g =>
        rw [hl] at hj
        simp only [Option.map_some', Option.some.injEq] at hj
        by_cases hij : i = j
        · rw [if_pos hij] at hj
          rw [← hj] at hne
          exact absurd rfl hne
        · rw [if_neg hij] at hj
          exact ⟨g, rfl, by rw [hj]⟩
    · intro j g' k _ _ _ _ hk
      exact hk
  · rw [e]
    dsimp only
    have hother : ∀ j g, s.guests.get? j = some g → g.s2_pgd ≠ 0 →
        g.s2_pgd ≠ table_addr P k := by
      intro j g hg hne hc
      obtain ⟨k', _, he, hp⟩ := hI.2 j g hg hne
      have := table_addr_inj P _ _ (he.symm.trans hc)
      subst this
      rw [hp] at hkfree
      exact absurd hkfree (by decide)
    have hget : ∀ j g', (s.guests.modify
        (fun g => { g with s2_pgd := table_addr P k }) i).get? j = some g' →
        (i = j ∧ g'.s2_pgd = table_addr P k) ∨
        (i ≠ j ∧ s.guests.get? j = some g') := by
      intro j g' hj
      rw [get_modify] at hj
      cases hl : s.guests.get? j with
      | none => rw [hl] at hj; cases hj
      | some g =>
        rw [hl] at hj
        simp only [Option.map_some', Option.some.injEq] at hj
        by_cases hij : i = j
        · rw [if_pos hij] at hj
          left; exact ⟨hij, by rw [← hj]⟩
        · rw [if_neg hij] at hj
          right; exact ⟨hij, by rw [hj]⟩
    refine ⟨fun a b ga gb ha hb hab h1 h2 => ?_, fun a ga ha hne => ?_⟩
    · rcases hget a ga ha with ⟨ea, ra⟩ | ⟨ea, ra⟩ <;>
        rcases hget b gb hb with ⟨eb, rb⟩ | ⟨eb, rb⟩
      · omega
      · rw [ra]; exact fun hc => hother b gb rb h2 hc.symm
      · rw [rb]; exact hother a ga ra h1
      · exact hI.1 a b ga gb ra rb hab h1 h2
    · rcases hget a ga ha with ⟨_, ra⟩ | ⟨_, ra⟩
      · exact ⟨k, hk, ra, by simp [HOST_VMID]⟩
      · obtain ⟨k', hk', he, hp⟩ := hI.2 a ga ra hne
        refine ⟨k', hk', he, ?_⟩
        dsimp only
        rw [if_neg, hp]
        intro hc
        subst hc
        rw [hp] at hkfree
        exact absurd hkfree (by decide)

theorem roots_init_guest (H : Host) (P : Platform) (s s1 : Machine) (kvm ttbr0_el1 : Nat)
    (r : Int) (hH : restore_keeps_roots H) (hI : roots_host_owned P s)
    (h : init_guest H P s kvm ttbr0_el1 = some (r, s1)) : roots_host_owned P s1 := by
  unfold init_guest at h
  split at h
  · cases h; exact hI
  · split at h
    · exact roots_init_guest_finish H P s s1 _ _ _ r hI h
    · split at h
      · cases h; exact hI
      · rename_i i hfree
        have hmid := roots_new_root P s i hI
        simp only [] at h
        split at h
        · split at h
          · cases h
          · rename_i q r2 s2 hfg
            simp only [Option.some.injEq, Prod.mk.injEq] at h
            rw [← h.2]
            exact roots_free_guest H P _ s2 _ r2 hH hmid hfg
        · exact roots_init_guest_finish H P _ s1 _ _ _ r hmid h

theorem roots_table_init (P : Platform) (s0 s : Machine)
    (hz : ∀ g, g ∈ s0.guests → g = guest_zero) (h : table_init P s0 = some s) :
    roots_host_owned P s := by
  unfold table_init at h
  simp only [] at h
  split at h
  · cases h
  · cases h
  · rename_i i s1 hgg
    simp only [Option.some.injEq] at h
    have hnone : ∀ j g, s0.guests.get? j = some g → g.s2_pgd = 0 := by
      intro j g hg
      rw [List.get?_eq_getElem?] at hg
      have := hz g (List.getElem?_mem hg)
      rw [this]
      rfl
    have h0 : roots_host_owned P
        { s0 with
          mem := fun x => if P.tables ≤ x ∧ x < P.tables + 4096 * NUM_TABLES then 0 else s0.mem x
          table_props := fun _ => 0 } :=
      ⟨fun a b ga gb ha _ _ h1 _ => absurd (hnone a ga ha) h1,
        fun a ga ha h1 => absurd (hnone a ga ha) h1⟩
    have h1 := roots_get_guest P _ s1 HOST_VMID (some i) h0 hgg
    have h2 := roots_alloc_table P s1 HOST_VMID h1
    have h3 := roots_modify P (alloc_table P s1 HOST_VMID).2
      (fun g => { g with s1_pgd := (alloc_table P s1 HOST_VMID).1 }) i h2 (fun g => rfl)
      { (alloc_table P s1 HOST_VMID).2 with
        guests := (alloc_table P s1 HOST_VMID).2.guests.modify
          (fun g => { g with s1_pgd := (alloc_table P s1 HOST_VMID).1 }) i } rfl
      (fun k hk => hk)
    have h4 := roots_new_root P _ i h3
    rw [← h]
    exact h4

/-! ## Runs of the mapper and the arena -/

theorem arena_refl {P : Platform} {s : Machine} {ht : Nat → Option Nat}
    {par : Nat → Nat × Nat} {root hr : Nat} (T : Tree P s ht par root hr) (hz : free_zero P s) :
    ArenaOK P s ht root hr s :=
  ⟨⟨ht, par, T, fun _ h => Or.inl h⟩, hz, fun _ h => Or.inr h, fun _ h => absurd rfl h, rfl⟩

theorem arena_trans {P : Platform} {s0 s1 s2 : Machine} {ht0 ht1 : Nat → Option Nat}
    {root hr : Nat} (A1 : ArenaOK P s0 ht0 root hr s1)
    (hdom : ∀ t, ht1 t ≠ none → ht0 t ≠ none ∨ is_free P s0 t)
    (A2 : ArenaOK P s1 ht1 root hr s2) : ArenaOK P s0 ht0 root hr s2 := by
  have hsrc : ∀ t, ht1 t ≠ none ∨ is_free P s1 t → ht0 t ≠ none ∨ is_free P s0 t := by
    intro t h
    rcases h with h | h
    · exact hdom t h
    · exact A1.free_sub t h
  obtain ⟨ht2, par2, T2, hdom2⟩ := A2.tree
  refine ⟨⟨ht2, par2, T2, fun t h => hsrc t (hdom2 t h)⟩, A2.fz,
    fun t h => hsrc t (A2.free_sub t h), ?_, A2.guests.trans A1.guests⟩
  intro i hi
  by_cases hc : s2.table_props i = s1.table_props i
  · exact A1.props i (fun e => hi (hc.trans e))
  · obtain ⟨h1, h2⟩ := A2.props i hc
    exact ⟨h1, hsrc _ h2⟩

/-- A call of `mmap_addr` on the root of a tree, whatever its arguments and
its result. -/
theorem mmap_addr_arena {P : Platform} (hP : arena_ok P)
    {s : Machine} {ht : Nat → Option Nat} {par : Nat → Nat × Nat} {root : Nat}
    (levels : Nat) (T : Tree P s ht par root (map_height levels)) (hz : free_zero P s)
    (va pa blk prot type vmid : Nat) (ha : attr_ok prot type) :
    ArenaOK P s ht root (map_height levels)
      (mmap_addr P s root va pa blk prot type levels vmid).2 := by
  by_cases hc : root = 0 ∨ va > MAX_VADDR ∨ pa > MAX_PADDR
  · unfold mmap_addr
    rw [if_pos hc]
    exact arena_refl T hz
  · have hhr : map_height levels ≤ 3 := by
      unfold map_height; split_ifs <;> omega
    rw [mmap_addr_eq_map_h P s root va pa blk prot type levels vmid (fun h => hc (Or.inl h))
      (by by_contra h; exact hc (Or.inr (Or.inl (by omega))))
      (by by_contra h; exact hc (Or.inr (Or.inr (by omega))))]
    have M := map_h_ok hP va pa blk prot type vmid ha root (map_height levels)
      (map_height levels) hhr s ht par root T hz T.root_ht
    obtain ⟨ht', par', T', hdom, _⟩ := M.tree
    refine ⟨⟨ht', par', T', hdom⟩, M.fz, M.free_sub, ?_, M.guests⟩
    intro i hi
    rcases M.props i hi with hf | ⟨k, hk, e⟩
    · refine ⟨fun hc2 => ?_, Or.inr hf⟩
      rw [hc2] at hf
      exact T.in_use root _ T.root_ht hf
    · refine ⟨fun hc2 => ?_, Or.inl (by rw [e]; exact Option.some_ne_none _)⟩
      rw [hc2, T.root_ht] at e
      cases e
      omega

/-- The loop of `__mmap_range` on the root of a tree, whatever its arguments:
every result keeps the arena as `ArenaOK` says. -/
theorem mmap_range_loop_arena {P : Platform} (hP : arena_ok P) (hI : P.INVALID_MEMORY < 1024)
    (root levels ctype prot type vmid : Nat)
    (hprot : prot < 2 ^ 64 ∧ prot &&& 0x0000FFFFFFFFF003 = 0) (htype : type < 1024)
    (s0 : Machine) (ht0 : Nat → Option Nat) :
    ∀ fuel (s : Machine) (vaddr paddr tl : Nat) (r : Int × Machine),
      ArenaOK P s0 ht0 root (map_height levels) s →
      mmap_range_loop P ctype root prot type levels vmid fuel s vaddr paddr tl = some r →
      ArenaOK P s0 ht0 root (map_height levels) r.2 := by
  intro fuel
  induction fuel with
  | zero =>
    intro s vaddr paddr tl r A h
    rw [mmap_range_loop] at h
    split_ifs at h
    cases h
    exact A
  | succ fuel ih =>
    intro s vaddr paddr tl r A h
    by_cases h0 : tl = 0
    · rw [h0, mmap_range_loop_done] at h
      cases h
      exact A
    · rw [mmap_range_loop_succ P ctype root prot type levels vmid fuel s _ _ _ h0 _ _ rfl rfl]
        at h
      obtain ⟨ht1, par1, T1, hdom1⟩ := A.tree
      have A1 : ArenaOK P s ht1 root (map_height levels)
          (if s.invalidate ≠ 0 ∧ paddr ≠ 0 ∧ ctype = MAPPING_ACTIVE then
            mmap_addr P s root vaddr 0 (get_block_size vaddr tl) prot P.INVALID_MEMORY levels
              vmid
          else (0, s)).2 := by
        split_ifs
        · exact mmap_addr_arena hP levels T1 A.fz _ _ _ _ _ _ ⟨hprot.1, hprot.2, hI⟩
        · exact arena_refl T1 A.fz
      generalize (if s.invalidate ≠ 0 ∧ paddr ≠ 0 ∧ ctype = MAPPING_ACTIVE then
          mmap_addr P s root vaddr 0 (get_block_size vaddr tl) prot P.INVALID_MEMORY levels vmid
        else (0, s)) = r1 at h A1
      have B1 := arena_trans A hdom1 A1
      by_cases c1 : r1.1 ≠ 0
      · rw [if_pos c1] at h
        cases h
        exact B1
      · rw [if_neg c1] at h
        obtain ⟨ht2, par2, T2, hdom2⟩ := B1.tree
        have A2 := mmap_addr_arena hP levels T2 B1.fz vaddr paddr (get_block_size vaddr tl)
          prot type vmid ⟨hprot.1, hprot.2, htype⟩
        generalize mmap_addr P r1.2 root vaddr paddr (get_block_size vaddr tl) prot type levels
          vmid = r2 at h A2
        have hd2 : ∀ t, ht2 t ≠ none → ht2 t ≠ none ∨ is_free P r1.2 t := fun _ h => Or.inl h
        have B2 : ArenaOK P s0 ht0 root (map_height levels) r2.2 := by
          refine ⟨?_, A2.fz, fun t ht => ?_, fun i hi => ?_, A2.guests.trans B1.guests⟩
          · obtain ⟨ht3, par3, T3, hdom3⟩ := A2.tree
            refine ⟨ht3, par3, T3, fun t h3 => ?_⟩
            rcases hdom3 t h3 with e | e
            · exact hdom2 t e
            · exact B1.free_sub t e
          · rcases A2.free_sub t ht with e | e
            · exact hdom2 t e
            · exact B1.free_sub t e
          · by_cases hc : r2.2.table_props i = r1.2.table_props i
            · exact B1.props i (fun e => hi (hc.trans e))
            · obtain ⟨h1, h2⟩ := A2.props i hc
              refine ⟨h1, ?_⟩
              rcases h2 with e | e
              · exact hdom2 _ e
              · exact B1.free_sub _ e
        by_cases c2 : r2.1 ≠ 0
        · rw [if_pos c2] at h
          cases h
          exact B2
        · rw [if_neg c2] at h
          exact ih _ _ _ _ _ B2 h

/-- The function `__mmap_range` on the root of a tree of tables in use,
whatever its arguments: when it returns, the guest descriptors, the property
word of the root and the property words of the slots that were neither tables
of the tree nor free are as before. -/
theorem mmap_range_arena {P : Platform} (hP : arena_ok P) (hI : P.INVALID_MEMORY < 1024)
    {s : Machine} {ht : Nat → Option Nat} {par : Nat → Nat × Nat} {root : Nat}
    (levels : Nat) (T : Tree P s ht par root (map_height levels)) (hz : free_zero P s)
    (vaddr paddr length prot type vmid : Nat)
    (hprot : prot < 2 ^ 64 ∧ prot &&& 0x0000FFFFFFFFF003 = 0) (r : Int × Machine)
    (h : __mmap_range P s root vaddr paddr length prot type levels vmid = some r) :
    ArenaOK P s ht root (map_height levels) r.2 := by
  unfold __mmap_range at h
  by_cases h0 : length = 0
  · rw [if_pos h0] at h
    cases h
    exact arena_refl T hz
  · rw [if_neg h0] at h
    by_cases hty : type > P.INVALID_MEMORY
    · rw [if_pos hty] at h
      cases h
      exact arena_refl T hz
    · rw [if_neg hty] at h
      exact mmap_range_loop_arena hP hI root levels _ prot type vmid hprot (by omega) s ht _ _ _
        _ _ _ (arena_refl T hz) h

/-- A call of the mapper on a tree that holds no stage-2 root of another
guest descriptor keeps the roots of the registry in order. -/
theorem roots_mapper {P : Platform} (hP : arena_ok P) (hI : P.INVALID_MEMORY < 1024)
    (s s1 : Machine) (ht : Nat → Option Nat) (par : Nat → Nat × Nat)
    (root vaddr paddr length prot type levels vmid : Nat) (r : Int)
    (hR : roots_host_owned P s)
    (T : Tree P s ht par root (map_height levels)) (hz : free_zero P s)
    (hother : ∀ i g, s.guests.get? i = some g → g.s2_pgd ≠ root → ht g.s2_pgd = none)
    (hprot : prot < 2 ^ 64 ∧ prot &&& 0x0000FFFFFFFFF003 = 0)
    (h : __mmap_range P s root vaddr paddr length prot type levels vmid = some (r, s1)) :
    roots_host_owned P s1 := by
  have A := mmap_range_arena hP hI levels T hz vaddr paddr length prot type vmid hprot _ h
  apply roots_step P s s1 hR
  · intro i g' hg _
    rw [A.guests] at hg
    exact ⟨g', hg, rfl⟩
  · intro i g' k hg hne hroot hk hpk
    rw [A.guests] at hg
    by_contra hc
    obtain ⟨h1, h2⟩ := A.props k (fun e => hc (e.trans hpk))
    rw [← hroot] at h1 h2
    rcases h2 with e | ⟨j, _, hj, hb⟩
    · exact e (hother i g' hg h1)
    · rw [hroot] at hj
      have := table_addr_inj P _ _ hj
      subst this
      rw [hpk] at hb
      exact absurd hb (by decide)

/-- C16 (amended): let the arena lie in the low 48 address bits, away from
address 0, and let `restore_host_mappings` change neither the guest
descriptors nor the property word of a table in use.  Then in every state
reached from `table_init` by calls of `init_guest`, `free_guest`,
`alloc_table` and `get_guest`, and by calls of the mapper on the root of a
tree of tables in use that holds no stage-2 root of another guest descriptor,
two distinct guest descriptors with a stage-2 root that is not null have
different roots, and each such root is a table of the arena that is in
use. -/
theorem reach_roots_ok (H : Host) (P : Platform) (s : Machine) (hP : arena_ok P)
    (hI : P.INVALID_MEMORY < 1024) (hH : restore_keeps_roots H)
    (h : Reach H P s) : roots_ok P s := by
  apply roots_host_owned_ok
  induction h with
  | boot s0 s hz hs => exact roots_table_init P s0 s hz hs
  | init_guest s s1 kvm ttbr0_el1 r _ hs ih => exact roots_init_guest H P s s1 _ _ r hH ih hs
  | free_guest s s1 kvm r _ hs ih => exact roots_free_guest H P s s1 kvm r hH ih hs
  | alloc_table s vm _ ih => exact roots_alloc_table P s vm ih
  | get_guest s s1 vmid g _ hs ih => exact roots_get_guest P s s1 vmid g ih hs
  | mapper s s1 ht par root vaddr paddr length prot type levels vmid r _ T hz ho hp hs ih =>
    exact roots_mapper hP hI s s1 ht par root vaddr paddr length prot type levels vmid r ih T hz
      ho hp hs

theorem tableInitMachine_eq : table_init virtPlatform hostTablesMachine = some tableInitMachine := by
  have h : (table_init virtPlatform hostTablesMachine).isSome = true := by decide
  unfold tableInitMachine
  generalize table_init virtPlatform hostTablesMachine = x at h ⊢
  cases x with
  | none => cases h
  | some r => rfl

theorem oneGuestMachine_eq :
    init_guest sampleHost virtPlatform tableInitMachine 0x8000 0x4000000
      = some (0, oneGuestMachine) := by
  have h : (init_guest sampleHost virtPlatform tableInitMachine 0x8000 0x4000000).map
      (fun r => r.1) = some 0 := by decide
  unfold oneGuestMachine
  generalize init_guest sampleHost virtPlatform tableInitMachine 0x8000 0x4000000 = x at h ⊢
  cases x with
  | none => cases h
  | some r =>
    obtain ⟨a, b⟩ := r
    simp only [Option.map_some', Option.some.injEq] at h
    subst h; rfl

theorem rootFreedMachine_eq :
    mmap_range virtPlatform oneGuestMachine 0x4000000 1 0 0x80000000 0x200000 0 4
      = some (0, rootFreedMachine) := by
  have h : (mmap_range virtPlatform oneGuestMachine 0x4000000 1 0 0x80000000 0x200000 0 4).map
      (fun r => r.1) = some 0 := by decide!
  unfold rootFreedMachine
  generalize mmap_range virtPlatform oneGuestMachine 0x4000000 1 0 0x80000000 0x200000 0 4 = x
    at h ⊢
  cases x with
  | none => cases h
  | some r =>
    obtain ⟨a, b⟩ := r
    simp only [Option.map_some', Option.some.injEq] at h
    subst h; rfl

theorem sampleHost_keeps_roots : restore_keeps_roots sampleHost := by
  intro s i r s' h
  simp only [sampleHost, Option.some.injEq, Prod.mk.injEq] at h
  rw [← h.2]
  exact ⟨rfl, fun _ _ => rfl⟩

/-- The arena of `oneGuestMachine` holds zeroes only. -/
theorem oneGuestMachine_arena (x : Nat) (h1 : 0x100000 ≤ x) (h2 : x < 0x2100000) :
    oneGuestMachine.mem x = 0 := by
  have e1 : oneGuestMachine.mem x =
      (if x = (0x8000 + 0) % 2 ^ 64 then 0x102000 else tableInitMachine.mem x) := rfl
  have e2 : tableInitMachine.mem x =
      (if virtPlatform.tables ≤ x ∧ x < virtPlatform.tables + 4096 * NUM_TABLES then 0
        else hostTablesMachine.mem x) := rfl
  have e3 : virtPlatform.tables = 0x100000 := rfl
  rw [e1, if_neg (by omega), e2, if_pos]
  rw [e3]
  unfold NUM_TABLES
  omega

theorem oneGuestMachine_tree :
    Tree virtPlatform oneGuestMachine (fun t => if t = 0x102000 then some 3 else none)
      (fun _ => (0, 0)) 0x102000 3 := by
  refine ⟨rfl, ?_, ?_, ?_, ?_⟩
  · intro t h e
    split at e
    · cases e; exact le_refl _
    · cases e
  · intro t h e
    split at e
    · rename_i ht; subst ht; exact ⟨by decide, by decide⟩
    · cases e
  · intro t h e
    split at e
    · rename_i ht; subst ht
      rintro ⟨i, hi, hti, hb⟩
      have : i = 2 := by
        simp only [table_addr, virtPlatform] at hti; omega
      subst this
      revert hb; decide
    · cases e
  · intro t h j e hj hne
    split at e
    · rename_i ht; subst ht
      rw [oneGuestMachine_arena _ (by unfold entry_addr; omega) (by unfold entry_addr; omega)]
        at hne
      exact absurd table_oaddr_zero hne
    · cases e

theorem oneGuestMachine_free_zero : free_zero virtPlatform oneGuestMachine := by
  intro i hi _ x h1 h2
  have e : table_addr virtPlatform i = 0x100000 + 4096 * i := rfl
  rw [e] at h1 h2
  unfold NUM_TABLES at hi
  exact oneGuestMachine_arena x (by omega) (by omega)

theorem guestMappedMachine_eq :
    __mmap_range virtPlatform oneGuestMachine 0x102000 0x40000000 0x80000000 0x1000 0x40 4 4 0
      = some (0, guestMappedMachine) := by
  have h : (__mmap_range virtPlatform oneGuestMachine 0x102000 0x40000000 0x80000000 0x1000
      0x40 4 4 0).map (fun r => r.1) = some 0 := by decide!
  unfold guestMappedMachine
  generalize __mmap_range virtPlatform oneGuestMachine 0x102000 0x40000000 0x80000000 0x1000
      0x40 4 4 0 = x at h ⊢
  cases x with
  | none => cases h
  | some r =>
    obtain ⟨a, b⟩ := r
    simp only [Option.map_some', Option.some.injEq] at h
    subst h; rfl

/-- C16 at the state after `table_init`, one call of `init_guest` and one call
of the mapper on the stage-2 root of the new guest. -/
theorem reach_roots_ok_witness :
    arena_ok virtPlatform ∧ virtPlatform.INVALID_MEMORY < 1024 ∧
    restore_keeps_roots sampleHost ∧ Reach sampleHost virtPlatform guestMappedMachine ∧
    roots_ok virtPlatform guestMappedMachine :=
  have h1 : Reach sampleHost virtPlatform oneGuestMachine :=
    Reach.init_guest tableInitMachine oneGuestMachine 0x8000 0x4000000 0
      (Reach.boot hostTablesMachine tableInitMachine (by decide) tableInitMachine_eq)
      oneGuestMachine_eq
  have hr : Reach sampleHost virtPlatform guestMappedMachine :=
    Reach.mapper oneGuestMachine guestMappedMachine _ _ 0x102000 0x40000000 0x80000000 0x1000
      0x40 4 4 0 0 h1 oneGuestMachine_tree oneGuestMachine_free_zero
      (fun _ _ _ hne => if_neg hne) (by decide) guestMappedMachine_eq
  ⟨virtPlatform_arena_ok, by decide, sampleHost_keeps_roots, hr,
    reach_roots_ok sampleHost virtPlatform guestMappedMachine virtPlatform_arena_ok (by decide)
      sampleHost_keeps_roots hr⟩

/-- C16, counterexample: after `table_init`, `init_guest` registers a guest
with the stage-2 root `0x102000`, the slot 2 of the arena, and with the
stage-1 root `0x4000000` read from `TTBR0_EL1`, a table of the host kernel.
The tables below that stage-1 root hold a table descriptor for `0x102000` at
level 2.  `mmap_range` on the stage-1 root with a range of 2 MiB returns 0 and
installs a block in place of that descriptor, for which `mmap_addr` releases
the table `0x102000`: the guest descriptor still holds the root `0x102000`,
but the slot 2 of the arena is not in use. -/
theorem registry_root_freed_counterexample :
    table_init virtPlatform hostTablesMachine = some tableInitMachine ∧
    init_guest sampleHost virtPlatform tableInitMachine 0x8000 0x4000000
      = some (0, oneGuestMachine) ∧
    mmap_range virtPlatform oneGuestMachine 0x4000000 1 0 0x80000000 0x200000 0 4
      = some (0, rootFreedMachine) ∧
    (rootFreedMachine.guests.get? 1).map (fun g => g.s2_pgd) = some 0x102000 ∧
    table_addr virtPlatform 2 = 0x102000 ∧
    rootFreedMachine.table_props 2 = 0 ∧
    ¬ roots_ok virtPlatform rootFreedMachine := by
  have hg : (rootFreedMachine.guests.get? 1).map (fun g => g.s2_pgd) = some 0x102000 := by
    decide!
  have hp : rootFreedMachine.table_props 2 = 0 := by decide!
  refine ⟨tableInitMachine_eq, oneGuestMachine_eq, rootFreedMachine_eq, hg, by decide, hp, ?_⟩
  intro hc
  cases hq : rootFreedMachine.guests.get? 1 with
  | none => rw [hq] at hg; cases hg
  | some g =>
    rw [hq] at hg
    simp only [Option.map_some', Option.some.injEq] at hg
    obtain ⟨k, hk, he, hb⟩ := hc.2 1 g hq (by rw [hg]; decide)
    rw [hg] at he
    have hk2 : k = 2 := by
      simp only [table_addr, virtPlatform] at he
      omega
    subst hk2
    rw [hp] at hb
    exact hb (by decide)

/-! ## Memory governor: what an unmap zeroes -/

theorem add_range_info_root (X : Ext) (P : Platform) (mem : Nat → Nat) (g : kvm_guest_t)
    (ipa addr len : Nat) :
    ∃ g1, (add_range_info X P mem (some g) ipa addr len).2 = some g1 ∧ g1.s2_pgd = g.s2_pgd := by
  unfold add_range_info
  simp only []
  by_cases hc : ipa = 0 ∨ addr = 0 ∨ len = 0 ∨ len % PAGE_SIZE ≠ 0
  · rw [if_pos hc]
    exact ⟨g, rfl, rfl⟩
  · rw [if_neg hc]
    cases get_range_info (some g) ipa with
    | some i => exact ⟨_, rfl, rfl⟩
    | none =>
      simp only []
      by_cases hl : g.hyp_page_data.length + 1 = P.MAX_PAGING_BLOCKS
      · rw [if_pos hl]
        exact ⟨g, rfl, rfl⟩
      · rw [if_neg hl]
        exact ⟨_, rfl, rfl⟩

theorem unmap_measure_keeps (X : Ext) (P : Platform) (s : Machine) (i : Nat) (g : kvm_guest_t)
    (vaddr paddr : Nat) (measure : Bool) (hg : s.guests.get? i = some g) :
    (unmap_measure X P s i g vaddr paddr measure).mem = s.mem ∧
    ∃ g2, (unmap_measure X P s i g vaddr paddr measure).guests.get? i = some g2 ∧
      g2.s2_pgd = g.s2_pgd := by
  obtain ⟨g1, hg1, hg1r⟩ := add_range_info_root X P s.mem g vaddr paddr PAGE_SIZE
  have hi : i < s.guests.length := by
    rw [List.get?_eq_getElem?] at hg
    by_contra hcc
    rw [List.getElem?_eq_none (by omega)] at hg
    cases hg
  unfold unmap_measure
  by_cases hmz : measure = true
  · rw [if_pos hmz, hg1]
    refine ⟨rfl, g1, ?_, hg1r⟩
    simp only [List.get?_eq_getElem?, List.getElem?_set, hi]
    simp
  · rw [if_neg hmz]
    exact ⟨rfl, g, hg, rfl⟩

/-- A tree stays a tree when memory changes outside its tables and the
property words are kept. -/
theorem tree_mem_congr {P : Platform} {s : Machine} {ht : Nat → Option Nat}
    {par : Nat → Nat × Nat} {root hr : Nat} (T : Tree P s ht par root hr) (s2 : Machine)
    (hm : ∀ t a, ht t ≠ none → t ≤ a → a < t + 4096 → s2.mem a = s.mem a)
    (hp : s2.table_props = s.table_props) : Tree P s2 ht par root hr := by
  refine ⟨T.root_ht, T.bound, T.aligned, fun t h e => ?_, fun t h j e hj hne => ?_⟩
  · rintro ⟨i, hi, hti, hb⟩
    rw [hp] at hb
    exact T.in_use t h e ⟨i, hi, hti, hb⟩
  · have hr := entry_addr_range t j hj
    have he := hm t (entry_addr t j) (by rw [e]; simp) hr.1 hr.2
    rw [he] at hne ⊢
    exact T.child t h j e hj hne

/-- A call of the mapper at the root for an address that was not mapped keeps
everything outside the piece that it was to map, whether it succeeds or
not. -/
theorem map_root_frame_any {P : Platform} {s : Machine} {ht : Nat → Option Nat}
    {par : Nat → Nat × Nat} {root hr : Nat} (T : Tree P s ht par root hr) (hhr : hr ≤ 3)
    (va pa size prot type : Nat) (r : Int × Machine)
    (M : MapOK P s ht root hr root hr va pa size prot type r)
    (hun : walk_h hr s root va = none) (hspan : span (target_h hr size) = size)
    (hva : va % size = 0) :
    FrameOK P s ht root hr (va / span (hr + 1)) va (va + size) r.2 := by
  by_cases hr0 : r.1 = 0
  · exact map_root_frame T hhr va pa size prot type r M hr0 hun hspan hva
  · obtain ⟨ht', par', T', hdom, _⟩ := M.tree
    have hroot : ht root ≠ none := by rw [T.root_ht]; exact Option.some_ne_none _
    refine ⟨⟨ht', par', T', hdom⟩, M.fz, M.free_sub, ?_, ?_, M.guests, M.invalidate, M.ttbr0,
      M.vttbr, M.init_ready, fun v _ _ => M.fail hr0 hun v⟩
    · intro x hx
      rcases M.mem x hx with e | ⟨t, r1, r2, hf | ⟨k, _, e⟩⟩
      · have hr := entry_addr_range root (tidx hr va) (tidx_lt hr va hhr)
        rw [← e] at hr
        exact ⟨root, hr.1, hr.2, Or.inl hroot⟩
      · exact ⟨t, r1, r2, Or.inr hf⟩
      · exact ⟨t, r1, r2, Or.inl (by rw [e]; exact Option.some_ne_none _)⟩
    · intro i hi
      rcases M.props i hi with hf | ⟨k, _, e⟩
      · exact Or.inr hf
      · exact Or.inl (by rw [e]; exact Option.some_ne_none _)

/-- One turn of the loop of `__mmap_range` for a piece that was not mapped:
the state after the break-before-make call, and the state after the call that
maps the piece if the first call returned 0, are as before outside the
piece. -/
theorem chunk_frame {P : Platform} (hP : arena_ok P) (hI : P.INVALID_MEMORY < 1024)
    {s : Machine} {ht : Nat → Option Nat} {par : Nat → Nat × Nat} {root hr : Nat}
    (T : Tree P s ht par root hr) (hz : free_zero P s) (hhr : hr ≤ 3)
    (levels : Nat) (hlev : map_height levels = hr) (va pa blk prot type vmid : Nat)
    (hprot : prot < 2 ^ 64 ∧ prot &&& 0x0000FFFFFFFFF003 = 0) (htype : type < 1024)
    (hspan : span (target_h hr blk) = blk) (hva : va % blk = 0)
    (hpa48 : pa < 2 ^ 48) (h48 : va + blk ≤ 2 ^ 48)
    (hun : walk_h hr s root va = none) (bbm : Prop) [Decidable bbm] (r1 r2 : Int × Machine)
    (hr1 : r1 = if bbm then mmap_addr P s root va 0 blk prot P.INVALID_MEMORY levels vmid
      else (0, s))
    (hr2 : r2 = mmap_addr P r1.2 root va pa blk prot type levels vmid) :
    FrameOK P s ht root hr (va / span (hr + 1)) va (va + blk) r1.2 ∧
    (r1.1 = 0 → FrameOK P s ht root hr (va / span (hr + 1)) va (va + blk) r2.2) := by
  have hroot := (T.aligned root hr T.root_ht).2
  have hblk : 0 < blk := by rw [← hspan]; exact Nat.two_pow_pos _
  have hvm : va ≤ MAX_VADDR := by simp only [MAX_VADDR]; omega
  have hpm : pa ≤ MAX_PADDR := by simp only [MAX_PADDR, VADDR_MASK]; omega
  have key : ∀ (s1 : Machine) ht1 par1, Tree P s1 ht1 par1 root hr → free_zero P s1 →
      walk_h hr s1 root va = none →
      FrameOK P s1 ht1 root hr (va / span (hr + 1)) va (va + blk)
        (mmap_addr P s1 root va pa blk prot type levels vmid).2 := by
    intro s1 ht1 par1 T1 hz1 hun1
    rw [mmap_addr_eq_map_h P s1 root va pa blk prot type levels vmid hroot hvm hpm, hlev]
    have M := map_h_ok hP va pa blk prot type vmid ⟨hprot.1, hprot.2, htype⟩ root hr hr hhr
      s1 ht1 par1 root T1 hz1 T1.root_ht
    exact map_root_frame_any T1 hhr va pa blk prot type _ M hun1 hspan hva
  by_cases hb : bbm
  · rw [if_pos hb] at hr1
    have e1 : r1 = map_h P hr s root va 0 blk prot P.INVALID_MEMORY vmid := by
      rw [hr1, mmap_addr_eq_map_h P s root va 0 blk prot P.INVALID_MEMORY levels vmid hroot hvm
        (Nat.zero_le _), hlev]
    have M1 := map_h_ok hP va 0 blk prot P.INVALID_MEMORY vmid ⟨hprot.1, hprot.2, hI⟩ root hr hr
      hhr s ht par root T hz T.root_ht
    rw [← e1] at M1
    have F1 := map_root_frame_any T hhr va 0 blk prot P.INVALID_MEMORY _ M1 hun hspan hva
    refine ⟨F1, fun h10 => ?_⟩
    obtain ⟨a, hA⟩ := M1.mapped h10
    have hn := hA va (same_path_refl _ _ _)
    rw [if_pos (Or.inl (Nat.zero_and _))] at hn
    have hn' := walk_h_none_of_walk_d _ _ _ _ hn
    obtain ⟨ht1, par1, T1, hdom1⟩ := F1.tree
    rw [hr2]
    exact F1.trans hdom1 (key r1.2 ht1 par1 T1 F1.fz hn')
  · rw [if_neg hb] at hr1
    rw [hr2, hr1]
    exact ⟨FrameOK.refl T hz _ _ _, fun _ => key s ht par T hz hun⟩

/-- The loop of `__mmap_range` over a range of which no page was mapped ends
within its turns, and whatever it returns, everything outside the range is as
before. -/
theorem mmap_range_loop_frame {P : Platform} (hP : arena_ok P) (hI : P.INVALID_MEMORY < 1024)
    (root hr levels : Nat) (hlev : map_height levels = hr) (hhr : hr ≤ 3)
    (ctype prot type vmid : Nat)
    (hprot : prot < 2 ^ 64 ∧ prot &&& 0x0000FFFFFFFFF003 = 0) (htype : type < 1024)
    (vaddr L : Nat) (s0 : Machine) (ht0 : Nat → Option Nat)
    (hwin : ∀ v, vaddr ≤ v → v < vaddr + L → v / span (hr + 1) = vaddr / span (hr + 1))
    (hfit : 2 ≤ hr ∨ L < span (hr + 1))
    (h48 : vaddr + L ≤ 2 ^ 48)
    (hun : ∀ v, vaddr ≤ v → v < vaddr + L → walk_h hr s0 root v = none)
    (hL : L % 4096 = 0) (hva : vaddr % 4096 = 0) :
    ∀ fuel off pa (s : Machine), off ≤ L → off % 4096 = 0 → L - off ≤ 4096 * fuel →
      pa + (L - off) ≤ 2 ^ 48 →
      FrameOK P s0 ht0 root hr (vaddr / span (hr + 1)) vaddr (vaddr + off) s →
      ∃ r, mmap_range_loop P ctype root prot type levels vmid fuel s (vaddr + off) pa
            (L - off) = some r ∧
        FrameOK P s0 ht0 root hr (vaddr / span (hr + 1)) vaddr (vaddr + L) r.2 := by
  intro fuel
  induction fuel with
  | zero =>
    intro off pa s h1 h2 h3 _ F
    have e : off = L := by omega
    subst e
    rw [Nat.sub_self, mmap_range_loop_done]
    exact ⟨_, rfl, F⟩
  | succ fuel ih =>
    intro off pa s h1 h2 h3 hpa F
    by_cases e : off = L
    · subst e
      rw [Nat.sub_self, mmap_range_loop_done]
      exact ⟨_, rfl, F⟩
    · have hlt : off < L := by omega
      have htl : L - off ≠ 0 := by omega
      have htl4 : 4096 ≤ L - off := by omega
      rw [mmap_range_loop_succ P ctype root prot type levels vmid fuel s _ _ _ htl _ _ rfl rfl]
      have hsp := span_chunk hr (vaddr + off) (L - off) L hfit (by omega)
      obtain ⟨hb1, hb2, hb3, hb4⟩ := get_block_size_fits (vaddr + off) (L - off) (by omega) htl4
      generalize get_block_size (vaddr + off) (L - off) = blk at hsp hb1 hb2 hb3 hb4 ⊢
      obtain ⟨ht', par', T', hdom⟩ := F.tree
      have hw0 : (vaddr + off) / span (hr + 1) = vaddr / span (hr + 1) :=
        hwin (vaddr + off) (by omega) (by omega)
      have hun' : walk_h hr s root (vaddr + off) = none := by
        rw [walk_h_of_walk_d hr s0 s root _ (F.outside (vaddr + off) hw0 (Or.inr (le_refl _)))]
        exact hun _ (by omega) (by omega)
      generalize hr1 : (if s.invalidate ≠ 0 ∧ pa ≠ 0 ∧ ctype = MAPPING_ACTIVE then
        mmap_addr P s root (vaddr + off) 0 blk prot P.INVALID_MEMORY levels vmid
        else (0, s)) = r1
      generalize hr2 : mmap_addr P r1.2 root (vaddr + off) pa blk prot type levels
        vmid = r2
      obtain ⟨F1, F2⟩ := chunk_frame hP hI T' F.fz hhr levels hlev (vaddr + off) pa
        blk prot type vmid hprot htype hsp hb1 (by omega) (by omega) hun'
        _ r1 r2 hr1.symm hr2.symm
      rw [hw0] at F1 F2
      have hall : ∀ s2, FrameOK P s ht' root hr (vaddr / span (hr + 1)) (vaddr + off)
          (vaddr + off + blk) s2 →
          FrameOK P s0 ht0 root hr (vaddr / span (hr + 1)) vaddr (vaddr + L) s2 := by
        intro s2 G
        exact (F.mono vaddr (vaddr + L) (le_refl _) (by omega)).trans hdom
          (G.mono vaddr (vaddr + L) (by omega) (by omega))
      by_cases c1 : r1.1 ≠ 0
      · rw [if_pos c1]
        exact ⟨r1, rfl, hall _ F1⟩
      · rw [if_neg c1]
        have F2' := F2 (not_not.mp c1)
        by_cases c2 : r2.1 ≠ 0
        · rw [if_pos c2]
          exact ⟨r2, rfl, hall _ F2'⟩
        · rw [if_neg c2]
          have e1 : (vaddr + off + blk) % 2 ^ 64 = vaddr + (off + blk) := by omega
          have e3 : (L - off + 2 ^ 64 - blk) % 2 ^ 64 = L - (off + blk) := by omega
          rw [e1, e3]
          have hmod : (off + blk) % 4096 = 0 := by
            have : blk % 4096 = 0 := by
              rw [← hsp]
              have := target_h_le_two hr blk
              generalize target_h hr blk = t at this
              interval_cases t <;> simp [span]
            omega
          apply ih (off + blk) _ r2.2 (by omega) hmod (by omega)
          · split_ifs
            · have : (pa + blk) % 2 ^ 64 = pa + blk := by omega
              rw [this]; omega
            · omega
          · exact (F.mono vaddr (vaddr + (off + blk)) (le_refl _) (by omega)).trans hdom
              (F2'.mono vaddr (vaddr + (off + blk)) (by omega) (by omega))

/-- The function `__mmap_range` on a tree, for a range of which no page was
mapped: it returns, and whatever it returns, the walks of the addresses
outside the range, the tree and the rest of the state are as `FrameOK`
says. -/
theorem mmap_range_frame {P : Platform} (hP : arena_ok P) (hI : P.INVALID_MEMORY < 1024)
    {s : Machine} {ht : Nat → Option Nat} {par : Nat → Nat × Nat} {root : Nat}
    (levels : Nat) (T : Tree P s ht par root (map_height levels)) (hz : free_zero P s)
    (vaddr paddr length prot type vmid : Nat)
    (hprot : prot < 2 ^ 64 ∧ prot &&& 0x0000FFFFFFFFF003 = 0)
    (hlen : length < 2 ^ 48)
    (hwin : ∀ v, vaddr ≤ v → v < vaddr + ROUND_UP length 0x1000 →
      v / span (map_height levels + 1) = vaddr / span (map_height levels + 1))
    (hfit : 2 ≤ map_height levels ∨ ROUND_UP length 0x1000 < span (map_height levels + 1))
    (h48 : vaddr + ROUND_UP length 0x1000 ≤ 2 ^ 48)
    (hpa48 : paddr + ROUND_UP length 0x1000 ≤ 2 ^ 48)
    (hun : ∀ v, vaddr ≤ v → v < vaddr + ROUND_UP length 0x1000 →
      walk_h (map_height levels) s root v = none)
    (hva : vaddr % 4096 = 0) :
    ∃ r, __mmap_range P s root vaddr paddr length prot type levels vmid = some r ∧
      FrameOK P s ht root (map_height levels) (vaddr / span (map_height levels + 1)) vaddr
        (vaddr + ROUND_UP length 0x1000) r.2 := by
  have hL := round_up_page length hlen
  have hhr : map_height levels ≤ 3 := by
    unfold map_height; split_ifs <;> omega
  unfold __mmap_range
  by_cases h0 : length = 0
  · rw [if_pos h0]
    exact ⟨_, rfl, FrameOK.refl T hz _ _ _⟩
  · rw [if_neg h0]
    by_cases hty : type > P.INVALID_MEMORY
    · rw [if_pos hty]
      exact ⟨_, rfl, FrameOK.refl T hz _ _ _⟩
    · rw [if_neg hty]
      have hvm : vaddr &&& VADDR_MASK = vaddr := by
        have : VADDR_MASK = 2 ^ 48 - 1 := by decide
        rw [this, Nat.and_pow_two_sub_one_eq_mod]
        apply Nat.mod_eq_of_lt
        omega
      rw [hvm]
      have := mmap_range_loop_frame hP hI root (map_height levels) levels rfl hhr
        (get_mapping_type s root) prot type vmid hprot (by omega) vaddr
        (ROUND_UP length 0x1000) s ht hwin hfit h48 hun (by rw [hL]; omega) hva
        (ROUND_UP length 0x1000 / 0x1000) 0 paddr s (Nat.zero_le _) rfl (by rw [hL]; omega)
        (by omega) (FrameOK.refl T hz _ _ _)
      simpa only [Nat.add_zero, Nat.sub_zero] using this

/-- After machine initialisation the remapper returns 0 whenever it returns:
every failure of a step ends in `HYP_ABORT`. -/
theorem block_remap_loop_zero (P : Platform) (prot type pgd_levels vmid : Nat) (fuel : Nat) :
    ∀ (s : Machine) (block : mblockinfo_t) (tvaddr tpaddr rlen : Nat) (r : Int × Machine),
      block_remap_loop P prot type pgd_levels vmid fuel s block tvaddr tpaddr rlen = some r →
      r.1 = 0 := by
  induction fuel with
  | zero =>
    intro s block tvaddr tpaddr rlen r h
    rw [block_remap_loop] at h
    split_ifs at h
    · cases h; rfl
  | succ fuel ih =>
    intro s block tvaddr tpaddr rlen r h
    rw [block_remap_loop] at h
    by_cases h0 : rlen = 0
    · rw [if_pos h0] at h
      cases h; rfl
    · rw [if_neg h0] at h
      simp only [] at h
      cases hgb : get_block_info P s tvaddr block with
      | none => rw [hgb] at h; cases h
      | some q =>
        obtain ⟨hit, b⟩ := q
        rw [hgb] at h
        simp only [] at h
        by_cases hh : hit = true ∧
            ¬ (tvaddr &&& ((b.size + 2 ^ 64 - 1) % 2 ^ 64) = 0 ∧ rlen ≥ b.size)
        · rw [if_pos hh] at h
          cases hbs : block_split P s b tvaddr tpaddr rlen prot type vmid with
          | none => rw [hbs] at h; cases h
          | some q2 =>
            obtain ⟨s1, a1, a2, a3⟩ := q2
            rw [hbs] at h
            exact ih _ _ _ _ _ _ h
        · rw [if_neg hh] at h
          generalize (if (if (if hit = true then b.size else tvaddr &&& tdinfo.l2_blk_offt_mask)
              = 0 then (if hit = true then b.size else tdinfo.l2_blk_size)
              else (if hit = true then b.size else tvaddr &&& tdinfo.l2_blk_offt_mask)) > rlen
            then rlen
            else (if (if hit = true then b.size else tvaddr &&& tdinfo.l2_blk_offt_mask) = 0
              then (if hit = true then b.size else tdinfo.l2_blk_size)
              else (if hit = true then b.size else tvaddr &&& tdinfo.l2_blk_offt_mask))) = mlen
            at h
          cases hmr : __mmap_range P s b.pgd tvaddr tpaddr mlen prot type pgd_levels vmid with
          | none => rw [hmr] at h; cases h
          | some q3 =>
            obtain ⟨res, s1⟩ := q3
            rw [hmr] at h
            simp only [] at h
            by_cases hres : res ≠ 0
            · rw [if_pos hres] at h; cases h
            · rw [if_neg hres] at h
              exact ih _ _ _ _ _ _ h

theorem get_guest_frame (P : Platform) (s s1 : Machine) (vmid : Nat) (g : Option Nat)
    (h : get_guest P s vmid = some (g, s1)) :
    s1.mem = s.mem ∧ s1.table_props = s.table_props ∧ s1.invalidate = s.invalidate ∧
    s1.ttbr0_el2 = s.ttbr0_el2 ∧ s1.vttbr_el2 = s.vttbr_el2 ∧ s1.init_ready = s.init_ready := by
  unfold get_guest at h
  split at h
  · split at h
    · cases h; exact ⟨rfl, rfl, rfl, rfl, rfl, rfl⟩
    · cases h; exact ⟨rfl, rfl, rfl, rfl, rfl, rfl⟩
  · split at h
    · cases h; exact ⟨rfl, rfl, rfl, rfl, rfl, rfl⟩
    · split at h
      · cases h
      · cases h; exact ⟨rfl, rfl, rfl, rfl, rfl, rfl⟩

/-- The properties of a tree and of the free slots look at memory and at the
property words only. -/
theorem tree_state_congr {P : Platform} {s : Machine} {ht : Nat → Option Nat}
    {par : Nat → Nat × Nat} {root hr : Nat} (T : Tree P s ht par root hr) (s2 : Machine)
    (hm : s2.mem = s.mem) (hp : s2.table_props = s.table_props) : Tree P s2 ht par root hr :=
  tree_mem_congr T s2 (fun _ a _ _ _ => by rw [hm]) hp

theorem free_zero_congr {P : Platform} {s : Machine} (hz : free_zero P s) (s2 : Machine)
    (hm : s2.mem = s.mem) (hp : s2.table_props = s.table_props) : free_zero P s2 := by
  intro i hi hb x x1 x2
  rw [hm]
  rw [hp] at hb
  exact hz i hi hb x x1 x2

theorem walk_h_state_congr (h : Nat) (s s2 : Machine) (hm : s2.mem = s.mem) :
    ∀ x v, walk_h h s2 x v = walk_h h s x v := by
  induction h with
  | zero =>
    intro x v
    simp only [walk_h_zero, pt_walk_l3, block_type, hm]
  | succ h ih =>
    intro x v
    rw [walk_h_succ, walk_h_succ, hm]
    simp only [block_type, hm, ih]
/-- The remapper on a root of a tree, for a range of which no page was mapped:
when it returns a nonzero value, the machine initialisation is not over, and
every address of the window of the root that resolved before resolves to the
same result at the same descriptor afterwards. -/
theorem block_remap_fail_frame {P : Platform} (hP : arena_ok P) (hI : P.INVALID_MEMORY < 1024)
    (hlev : 2 ≤ P.TABLE_LEVELS)
    {s : Machine} {ht : Nat → Option Nat} {par : Nat → Nat × Nat} {root : Nat}
    (T : Tree P s ht par root (map_height P.TABLE_LEVELS)) (hz : free_zero P s)
    (s1 s' : Machine) (hmem : s1.mem = s.mem) (hprops : s1.table_props = s.table_props)
    (hinit : s1.init_ready = s.init_ready)
    (block : mblockinfo_t) (hpgd : block.pgd = root)
    (vaddr paddr length prot type : Nat) (res : Int)
    (hprot : prot < 2 ^ 64 ∧ prot &&& 0x0000FFFFFFFFF003 = 0)
    (hva : vaddr % 4096 = 0) (hpa : paddr % 4096 = 0)
    (hwin : (vaddr + length - 1) / span (map_height P.TABLE_LEVELS + 1)
      = vaddr / span (map_height P.TABLE_LEVELS + 1))
    (hfit : 3 ≤ P.TABLE_LEVELS ∨ ROUND_UP length 0x1000 < 2 ^ 30)
    (hlen : length < 2 ^ 48) (h48 : vaddr + length ≤ 2 ^ 48) (hpa48 : paddr + length ≤ 2 ^ 48)
    (hun : ∀ i, i < ROUND_UP length 0x1000 →
      __pt_walk s root (vaddr + i) P.TABLE_LEVELS = none)
    (hret : __block_remap P s1 vaddr length block paddr prot type P.TABLE_LEVELS
      = some (res, s'))
    (hres : res ≠ 0) :
    s.init_ready = false ∧
    ∀ v w, v / span (map_height P.TABLE_LEVELS + 1)
        = vaddr / span (map_height P.TABLE_LEVELS + 1) →
      __pt_walk s root v P.TABLE_LEVELS = some w →
      __pt_walk s' root v P.TABLE_LEVELS = some w ∧ s'.mem w.ptep = s.mem w.ptep := by
  have hwh : walk_height P.TABLE_LEVELS = map_height P.TABLE_LEVELS := by
    unfold walk_height map_height; split_ifs <;> omega
  have hcases : (map_height P.TABLE_LEVELS = 1 ∧ P.TABLE_LEVELS = 2) ∨
      map_height P.TABLE_LEVELS = 2 ∨ map_height P.TABLE_LEVELS = 3 := by
    unfold map_height; split_ifs <;> omega
  have hs2 : span (1 + 1) = 2 ^ 30 := by simp [span]
  have hs3 : span (2 + 1) = 2 ^ 39 := by simp [span]
  have hs4 : span (3 + 1) = 2 ^ 48 := by simp [span]
  unfold __block_remap at hret
  cases hg : block.guest.bind (fun g => s1.guests.get? g) with
  | none => rw [hg] at hret; cases hret
  | some guest =>
    rw [hg] at hret
    simp only [] at hret
    by_cases h0 : length = 0
    · rw [if_pos h0] at hret
      simp only [Option.some.injEq, Prod.mk.injEq] at hret
      exact absurd hret.1.symm hres
    · rw [if_neg h0] at hret
      by_cases hir : s1.init_ready = false
      · rw [if_pos hir, hpgd] at hret
        have hL := round_up_page length hlen
        have hwin' : ∀ v, vaddr ≤ v → v < vaddr + ROUND_UP length 0x1000 →
            v / span (map_height P.TABLE_LEVELS + 1)
              = vaddr / span (map_height P.TABLE_LEVELS + 1) := by
          intro v v1 v2
          rw [hL] at v2
          rcases hcases with ⟨e, _⟩ | e | e <;> rw [e] at hwin ⊢
          · rw [hs2] at hwin ⊢; omega
          · rw [hs3] at hwin ⊢; omega
          · rw [hs4] at hwin ⊢; omega
        have hfit' : 2 ≤ map_height P.TABLE_LEVELS ∨
            ROUND_UP length 0x1000 < span (map_height P.TABLE_LEVELS + 1) := by
          rcases hcases with ⟨e, e'⟩ | e | e
          · right
            rw [e, hs2]
            rcases hfit with c | c
            · omega
            · exact c
          · left; omega
          · left; omega
        have T1 := tree_state_congr T s1 hmem hprops
        have hz1 := free_zero_congr hz s1 hmem hprops
        obtain ⟨r, hr, F⟩ := mmap_range_frame hP hI P.TABLE_LEVELS T1 hz1 vaddr paddr length
          prot type (guest.vmid % 2 ^ 32) hprot hlen hwin' hfit' (by rw [hL]; omega)
          (by rw [hL]; omega)
          (fun v v1 v2 => by
            have := hun (v - vaddr) (by omega)
            rw [pt_walk_eq_walk_h, hwh, show vaddr + (v - vaddr) = v by omega] at this
            rw [walk_h_state_congr _ s s1 hmem]
            exact this) hva
        rw [hret] at hr
        cases hr
        refine ⟨by rw [← hinit]; exact hir, fun v w hv hw => ?_⟩
        rw [pt_walk_eq_walk_h, hwh] at hw ⊢
        by_cases hin : vaddr ≤ v ∧ v < vaddr + ROUND_UP length 0x1000
        · have := hun (v - vaddr) (by omega)
          rw [pt_walk_eq_walk_h, hwh, show vaddr + (v - vaddr) = v by omega, hw] at this
          cases this
        · have ho := F.outside v hv (by omega)
          have e1 : walk_d (map_height P.TABLE_LEVELS) s1 root v
              = some (w, s.mem w.ptep) := by
            rw [walk_d_some _ _ _ _ w (by rw [walk_h_state_congr _ s s1 hmem]; exact hw), hmem]
          rw [e1] at ho
          obtain ⟨h1, h2⟩ := walk_d_some_inv _ _ _ _ _ _ ho
          exact ⟨h1, h2.symm⟩
      · rw [if_neg hir] at hret
        exact absurd (block_remap_loop_zero _ _ _ _ _ _ _ _ _ _ _ _ hret) hres

/-- C11 (amended): let `mmap_range` work on the root of a tree of tables in
use, with the free slots of the arena zeroed, for `TABLE_LEVELS` of 2 or
more; let the range be page-aligned in `vaddr` and `paddr`, lie in one window
of the root and below `2 ^ 48`, with less than 1 GiB of it when
`TABLE_LEVELS` is 2; let the protection mask of the stage keep clear of the
valid and type bits and of the output address; and let no page of the range
be mapped before the call.  Then when `mmap_range` returns `-ENOSPC`, the
machine initialisation is not over, and every address of the window of the
root that resolved before the call resolves afterwards to the same physical
address, at the same level and through a descriptor at the same place with
the same value. -/
theorem mmap_range_enospc_keeps (P : Platform) (hP : arena_ok P) (hI : P.INVALID_MEMORY < 1024)
    (hst : P.STAGE1 ≠ P.STAGE2) (hlev : 2 ≤ P.TABLE_LEVELS) (s s' : Machine) (ht : Nat → Option Nat)
    (par : Nat → Nat × Nat) (pgd stage root vaddr paddr length prot type : Nat) (res : Int)
    (hroot : range_root P s pgd stage = some root)
    (T : Tree P s ht par root (map_height P.TABLE_LEVELS)) (hz : free_zero P s)
    (hm : masks_ok (block_prot_mask P stage) (block_type_mask P stage))
    (hva : vaddr % PAGE_SIZE = 0) (hpa : paddr % PAGE_SIZE = 0)
    (hwin : (vaddr + length - 1) / span (map_height P.TABLE_LEVELS + 1)
      = vaddr / span (map_height P.TABLE_LEVELS + 1))
    (hfit : 3 ≤ P.TABLE_LEVELS ∨ ROUND_UP length 0x1000 < 2 ^ 30)
    (hlen : length < 2 ^ 48) (h48 : vaddr + length ≤ 2 ^ 48) (hpa48 : paddr + length ≤ 2 ^ 48)
    (hun : ∀ i, i < ROUND_UP length 0x1000 →
      __pt_walk s root (vaddr + i) P.TABLE_LEVELS = none)
    (hret : mmap_range P s pgd stage vaddr paddr length prot type = some (res, s'))
    (hres : res = -ENOSPC) :
    s.init_ready = false ∧
    ∀ v w, v / span (map_height P.TABLE_LEVELS + 1)
        = vaddr / span (map_height P.TABLE_LEVELS + 1) →
      __pt_walk s root v P.TABLE_LEVELS = some w →
      __pt_walk s' root v P.TABLE_LEVELS = some w ∧ s'.mem w.ptep = s.mem w.ptep := by
  have hne : res ≠ 0 := by rw [hres]; decide
  have hne2 : res ≠ -EINVAL := by rw [hres]; decide
  have hmp : ∀ x, x &&& block_prot_mask P stage < 2 ^ 64 ∧
      x &&& block_prot_mask P stage &&& 0x0000FFFFFFFFF003 = 0 := by
    intro x
    refine ⟨lt_of_le_of_lt Nat.and_le_right hm.1, ?_⟩
    rw [Nat.and_assoc, and_eq_zero_of_sub _ 0x0000FFFFFFFFF003 _ hm.2.2.1 (by decide),
      Nat.and_zero]
  have hps : PAGE_SIZE = 4096 := rfl
  rw [hps] at hva hpa
  unfold mmap_range at hret
  unfold range_root at hroot
  by_cases hpgd : pgd = 0
  · rw [if_pos hpgd] at hret
    rw [if_neg (not_not.mpr hpgd)] at hroot
    cases hgg : get_guest P s HOST_VMID with
    | none => rw [hgg] at hret; cases hret
    | some q =>
      obtain ⟨g, s1⟩ := q
      rw [hgg] at hret hroot
      simp only [] at hret hroot
      obtain ⟨e1, e2, _, _, _, e6⟩ := get_guest_frame P s s1 HOST_VMID g hgg
      cases g with
      | none => cases hroot
      | some i =>
        dsimp only at hroot
        cases hgi : s1.guests.get? i with
        | none => rw [hgi] at hroot; cases hroot
        | some guest =>
          rw [hgi] at hroot
          simp only [Option.map_some', Option.some.injEq] at hroot
          simp only [Option.some_bind, hgi] at hret
          by_cases hs : stage = P.STAGE2
          · rw [if_pos hs] at hret hroot
            split_ifs at hret
            · simp only [Option.some.injEq, Prod.mk.injEq] at hret
              exact absurd hret.1.symm hne2
            · have hbm : block_prot_mask P stage = P.PROT_MASK_STAGE2 := by
                unfold block_prot_mask
                rw [if_neg (by rw [hs]; exact fun h1 => hst h1.symm)]
              exact block_remap_fail_frame hP hI hlev T hz s1 s' e1 e2 e6 _ hroot vaddr paddr
                length _ type res (by rw [← hbm]; exact hmp prot) hva hpa hwin hfit hlen h48 hpa48
                hun hret hne
          · rw [if_neg hs] at hret hroot
            by_cases hs1 : stage = P.STAGE1
            · rw [if_pos hs1] at hret
              have hbm : block_prot_mask P stage = P.PROT_MASK_STAGE1 := by
                unfold block_prot_mask
                rw [if_pos hs1]
              exact block_remap_fail_frame hP hI hlev T hz s1 s' e1 e2 e6 _ hroot vaddr paddr
                length _ type res (by rw [← hbm]; exact hmp prot) hva hpa hwin hfit hlen h48 hpa48
                hun hret hne
            · rw [if_neg hs1] at hret
              simp only [Option.some.injEq, Prod.mk.injEq] at hret
              exact absurd hret.1.symm hne2
  · rw [if_neg hpgd] at hret
    rw [if_pos hpgd] at hroot
    simp only [Option.some.injEq] at hroot
    by_cases hs : stage = P.STAGE2
    · rw [if_pos hs] at hret
      have hbm : block_prot_mask P stage = P.PROT_MASK_STAGE2 := by
        unfold block_prot_mask
        rw [if_neg (by rw [hs]; exact fun h1 => hst h1.symm)]
      exact block_remap_fail_frame hP hI hlev T hz s s' rfl rfl rfl _ hroot vaddr paddr
        length _ type res (by rw [← hbm]; exact hmp prot) hva hpa hwin hfit hlen h48 hpa48
        hun hret hne
    · rw [if_neg hs] at hret
      by_cases hs1 : stage = P.STAGE1
      · rw [if_pos hs1] at hret
        have hbm : block_prot_mask P stage = P.PROT_MASK_STAGE1 := by
          unfold block_prot_mask
          rw [if_pos hs1]
        exact block_remap_fail_frame hP hI hlev T hz s s' rfl rfl rfl _ hroot vaddr paddr
          length _ type res (by rw [← hbm]; exact hmp prot) hva hpa hwin hfit hlen h48 hpa48
          hun hret hne
      · rw [if_neg hs1] at hret
        simp only [Option.some.injEq, Prod.mk.injEq] at hret
        exact absurd hret.1.symm hne2

theorem fullArenaMachine_facts :
    ∃ ht par, Tree virtPlatform fullArenaMachine ht par 0x101000 3 ∧
      free_zero virtPlatform fullArenaMachine ∧
      ∀ v, v < 2 ^ 48 → v < 0x401FF000 ∨ 0x40200000 ≤ v →
        __pt_walk fullArenaMachine 0x101000 v 4 = none := by
  have hR : ROUND_UP 0x1000 0x1000 = 0x1000 := by decide
  have hm : map_height 4 = 3 := by decide
  have hs : span (map_height 4 + 1) = 2 ^ 48 := by decide
  have T0 : Tree virtPlatform { bootMachine with init_ready := false } bootHeights
      (fun _ => (0, 0)) 0x101000 3 := tree_state_congr bootMachine_tree _ rfl rfl
  have hz0 : free_zero virtPlatform { bootMachine with init_ready := false } :=
    free_zero_congr bootMachine_free_zero _ rfl rfl
  obtain ⟨r, hr, F⟩ := mmap_range_frame virtPlatform_arena_ok (by decide) 4
    (by rw [hm]; exact T0) hz0 0x401FF000 0x80000000 0x1000 0x40 4 0 ⟨by decide, by decide⟩
    (by decide)
    (by
      rw [hR, hs]
      intro v v1 v2
      omega)
    (Or.inl (by decide)) (by decide) (by decide)
    (fun v _ _ => by
      have := bootMachine_unmapped 0x101000 v 4
      rw [pt_walk_eq_walk_h] at this
      rw [walk_h_state_congr (map_height 4) bootMachine { bootMachine with init_ready := false }
        rfl]
      exact this) (by decide)
  have hfa : fullArenaMachine = { r.2 with table_props := fun _ => 1 } := by
    unfold fullArenaMachine
    rw [hr]
  obtain ⟨ht, par, T, _⟩ := F.tree
  rw [hm] at T
  have hnf : ∀ t, ¬ is_free virtPlatform fullArenaMachine t := by
    rintro t ⟨i, _, _, hb⟩
    rw [hfa] at hb
    have h1 : bit_raised 1 VALID_TABLE_BIT ≠ 0 := by decide
    exact h1 hb
  refine ⟨ht, par, ?_, ?_, ?_⟩
  · rw [hfa]
    exact ⟨T.root_ht, T.bound, T.aligned, fun t h _ => by rw [← hfa]; exact hnf t,
      fun t h j e hj hne => T.child t h j e hj hne⟩
  · intro i hi hb
    exact absurd ⟨i, hi, rfl, hb⟩ (hnf _)
  · intro v hv hout
    rw [pt_walk_eq_walk_h, show walk_height 4 = 3 from rfl]
    have h1 : walk_h 3 fullArenaMachine 0x101000 v = walk_h 3 r.2 0x101000 v :=
      walk_h_state_congr 3 r.2 fullArenaMachine (by rw [hfa]) _ _
    have ha : v / 2 ^ 48 = 0 := Nat.div_eq_of_lt hv
    have hb : 0x401FF000 / 2 ^ 48 = 0 := by decide
    have ho := F.outside v (by rw [hs, ha, hb]) (by rw [hR]; omega)
    rw [hm] at ho
    rw [h1, walk_h_of_walk_d 3 _ r.2 0x101000 v ho,
      walk_h_state_congr 3 bootMachine { bootMachine with init_ready := false } rfl]
    have := bootMachine_unmapped 0x101000 v 4
    rw [pt_walk_eq_walk_h] at this
    exact this

/-- C11 at the state `fullArenaMachine`: mapping the page `0x40200000` needs a
new table, the arena is exhausted and `mmap_range` returns `-ENOSPC`; the
page `0x401FF000` resolves to `0x80000000` before and after. -/
theorem mmap_range_enospc_keeps_witness :
    ∃ s', mmap_range virtPlatform fullArenaMachine 0x101000 2 0x40200000 0x90000000 0x1000
        0x40 4 = some (-ENOSPC, s') ∧
      fullArenaMachine.init_ready = false ∧
      pt_walk fullArenaMachine 0x101000 0x401FF000 4 = 0x80000000 ∧
      pt_walk s' 0x101000 0x401FF000 4 = 0x80000000 := by
  obtain ⟨ht, par, T, hz, hun⟩ := fullArenaMachine_facts
  have hrun : (mmap_range virtPlatform fullArenaMachine 0x101000 2 0x40200000 0x90000000
      0x1000 0x40 4).map (fun r => r.1) = some (-ENOSPC) := by decide!
  cases hx : mmap_range virtPlatform fullArenaMachine 0x101000 2 0x40200000 0x90000000 0x1000
      0x40 4 with
  | none => rw [hx] at hrun; cases hrun
  | some r =>
    obtain ⟨res, s'⟩ := r
    rw [hx] at hrun
    simp only [Option.map_some', Option.some.injEq] at hrun
    subst hrun
    have h := mmap_range_enospc_keeps virtPlatform virtPlatform_arena_ok (by decide) (by decide)
      (by decide) fullArenaMachine s' ht par 0x101000 2 0x101000 0x40200000 0x90000000 0x1000
      0x40 4 (-ENOSPC) (by decide) T hz
      (by unfold masks_ok; decide) (by decide) (by decide) (by decide) (Or.inl (by decide))
      (by decide) (by decide) (by decide)
      (fun i hi => hun _ (by
        have : ROUND_UP 0x1000 0x1000 = 0x1000 := by decide
        rw [this] at hi
        omega) (Or.inr (by omega))) hx rfl
    have hw : pt_walk fullArenaMachine 0x101000 0x401FF000 4 = 0x80000000 := by decide
    refine ⟨s', rfl, h.1, hw, ?_⟩
    cases hq : __pt_walk fullArenaMachine 0x101000 0x401FF000 4 with
    | none =>
      unfold pt_walk at hw
      rw [hq] at hw
      exact absurd hw (by decide)
    | some w =>
      obtain ⟨h1, _⟩ := h.2 0x401FF000 w (by decide) hq
      have h2 : __pt_walk s' 0x101000 0x401FF000 4 = some w := h1
      unfold pt_walk at hw ⊢
      rw [hq] at hw
      rw [h2]
      exact hw

/-- C11, counterexample: in `fullArenaMachine` the page `0x401FF000` resolves
to `0x80000000`.  `mmap_range` is asked to map the two pages from `0x401FF000`
to `0x90000000`: it remaps the first page, needs a new table for the second,
finds the arena exhausted and returns `-ENOSPC`.  The page `0x401FF000`
resolves to `0x90000000` afterwards. -/
theorem mmap_range_enospc_remap_counterexample :
    pt_walk fullArenaMachine 0x101000 0x401FF000 4 = 0x80000000 ∧
    (mmap_range virtPlatform fullArenaMachine 0x101000 2 0x401FF000 0x90000000 0x2000 0x40
        4).map (fun r => (r.1, pt_walk r.2 0x101000 0x401FF000 4))
      = some (-ENOSPC, 0x90000000) := by
  decide!

/-! ## Bootstrap allocator: static buffers -/

theorem round_up8 (n : Nat) (hn : n ≤ 2 ^ 64 - 8) :
    n ≤ ROUND_UP n 8 ∧ ROUND_UP n 8 < n + 8 ∧ ROUND_UP n 8 % 8 = 0 := by
  unfold ROUND_UP
  rw [Nat.mod_eq_of_lt (by omega)]
  omega

theorem round_up8_wrap (n : Nat) (hn : 2 ^ 64 - 8 < n) (hn64 : n < 2 ^ 64) :
    ROUND_UP n 8 = 0 := by
  unfold ROUND_UP
  omega

/-- A call of `get_static_buffer` that passes both tests: the pointer and the
new cursor. -/
theorem get_static_buffer_some (s : Heap) (n : Nat) (h1 : ROUND_UP n 8 ≤ s.heap_sz)
    (h2 : (s.buf_index + ROUND_UP n 8) % 2 ^ 64 < s.heap_sz) :
    (get_static_buffer s n).1 = (s.heap + s.buf_index) % 2 ^ 64 ∧
    (get_static_buffer s n).2.buf_index = (s.buf_index + ROUND_UP n 8) % 2 ^ 64 ∧
    (get_static_buffer s n).2.heap = s.heap ∧ (get_static_buffer s n).2.heap_sz = s.heap_sz := by
  unfold get_static_buffer
  simp only [if_neg (not_lt.mpr h1), ge_iff_le, if_neg (not_le.mpr h2), and_self]

/-- A call of `get_static_buffer` that fails a test returns `NULL` and
changes nothing. -/
theorem get_static_buffer_none (s : Heap) (n : Nat)
    (h : s.heap_sz < ROUND_UP n 8 ∨ s.heap_sz ≤ (s.buf_index + ROUND_UP n 8) % 2 ^ 64) :
    get_static_buffer s n = (0, s) := by
  unfold get_static_buffer
  by_cases h1 : ROUND_UP n 8 > s.heap_sz
  · simp only [if_pos h1]
  · have h2 : (s.buf_index + ROUND_UP n 8) % 2 ^ 64 ≥ s.heap_sz := by
      rcases h with h | h
      · exact absurd h h1
      · exact h
    simp only [if_neg h1, if_pos h2]

/-- The contract of the static buffers for requests of at most `2^64 - 8`
bytes: in a region of less than `2^63` bytes that lies in the address space
above address 0, the buffers that successive calls return lie one after the
other, from the cursor on, inside the region. -/
theorem static_buffers_ok (ns : List Nat) (hn : ∀ n ∈ ns, n ≤ 2 ^ 64 - 8) :
    ∀ s : Heap, s.heap ≠ 0 → s.heap + s.heap_sz ≤ 2 ^ 64 → s.heap_sz < 2 ^ 63 →
      s.buf_index ≤ s.heap_sz →
      (static_buffers s ns).Pairwise (fun a b => a.1 + a.2 ≤ b.1) ∧
      ∀ a ∈ static_buffers s ns,
        s.heap + s.buf_index ≤ a.1 ∧ a.1 + a.2 ≤ s.heap + s.heap_sz := by
  induction ns with
  | nil =>
    intro s _ _ _ _
    exact ⟨List.Pairwise.nil, fun a ha => absurd ha (List.not_mem_nil a)⟩
  | cons n ns ih =>
    intro s h0 hreg hsz hc
    have hr := round_up8 n (hn n (List.mem_cons_self _ _))
    have hns : ∀ m ∈ ns, m ≤ 2 ^ 64 - 8 := fun m hm => hn m (List.mem_cons_of_mem _ hm)
    by_cases hfail : s.heap_sz < ROUND_UP n 8 ∨
        s.heap_sz ≤ (s.buf_index + ROUND_UP n 8) % 2 ^ 64
    · have e := get_static_buffer_none s n hfail
      rw [static_buffers, e]
      simp only [ne_eq, not_true_eq_false, if_false]
      exact ih hns s h0 hreg hsz hc
    · have h1 : ROUND_UP n 8 ≤ s.heap_sz := by omega
      have h2 : (s.buf_index + ROUND_UP n 8) % 2 ^ 64 < s.heap_sz := by omega
      obtain ⟨e1, e2, e3, e4⟩ := get_static_buffer_some s n h1 h2
      have hw : (s.buf_index + ROUND_UP n 8) % 2 ^ 64 = s.buf_index + ROUND_UP n 8 :=
        Nat.mod_eq_of_lt (by omega)
      rw [hw] at e2 h2
      have hp : (s.heap + s.buf_index) % 2 ^ 64 = s.heap + s.buf_index :=
        Nat.mod_eq_of_lt (by omega)
      rw [hp] at e1
      have IH := ih hns (get_static_buffer s n).2 (by rw [e3]; exact h0)
        (by rw [e3, e4]; exact hreg) (by rw [e4]; exact hsz) (by rw [e2, e4]; omega)
      rw [e2, e3, e4] at IH
      rw [static_buffers, if_pos (by rw [e1]; omega), e1]
      refine ⟨List.Pairwise.cons ?_ IH.1, ?_⟩
      · intro b hb
        have := (IH.2 b hb).1
        dsimp only
        omega
      · intro a ha
        rcases List.mem_cons.mp ha with e | hb
        · subst e
          dsimp only
          omega
        · have := IH.2 a hb
          omega

/-- C21, what the code does for a request of more than `2^64 - 8` bytes:
`ROUND_UP(size, 8)` wraps to 0, so while the cursor is inside the region the
call succeeds, returns the region base plus the cursor and leaves the cursor
where it was.  Two such calls in a row return the same pointer, so their
buffers are not disjoint, and when `n` is more than the size of the region a
buffer of `n` bytes from that pointer does not end inside the region. -/
theorem get_static_buffer_wraps (s : Heap) (n : Nat) (hn : 2 ^ 64 - 8 < n) (hn64 : n < 2 ^ 64)
    (h0 : s.heap ≠ 0) (hreg : s.heap + s.heap_sz ≤ 2 ^ 64) (hc : s.buf_index < s.heap_sz)
    (hsz : s.heap_sz < n) :
    static_buffers s [n, n] = [(s.heap + s.buf_index, n), (s.heap + s.buf_index, n)] ∧
    (get_static_buffer s n).2.buf_index = s.buf_index ∧
    ¬ (s.heap + s.buf_index + n ≤ s.heap + s.heap_sz) := by
  have hr := round_up8_wrap n hn hn64
  have hs : ∀ t : Heap, t.heap = s.heap → t.heap_sz = s.heap_sz → t.buf_index = s.buf_index →
      (get_static_buffer t n).1 = s.heap + s.buf_index ∧
      (get_static_buffer t n).2.buf_index = s.buf_index ∧
      (get_static_buffer t n).2.heap = s.heap ∧
      (get_static_buffer t n).2.heap_sz = s.heap_sz := by
    intro t t1 t2 t3
    have h := get_static_buffer_some t n (by rw [hr]; omega)
      (by rw [hr, t2, t3, Nat.add_zero, Nat.mod_eq_of_lt (by omega)]; exact hc)
    rw [hr, t1, t2, t3, Nat.add_zero, Nat.mod_eq_of_lt (show s.buf_index < 2 ^ 64 by omega),
      Nat.mod_eq_of_lt (show s.heap + s.buf_index < 2 ^ 64 by omega)] at h
    exact h
  obtain ⟨a1, a2, a3, a4⟩ := hs s rfl rfl rfl
  obtain ⟨b1, _, _, _⟩ := hs (get_static_buffer s n).2 a3 a4 a2
  refine ⟨?_, a2, by omega⟩
  have hne : s.heap + s.buf_index ≠ 0 := by omega
  rw [static_buffers, if_pos (by rw [a1]; exact hne), static_buffers,
    if_pos (by rw [b1]; exact hne), a1, b1, static_buffers]

/-- C21, witness and failing input: after `set_heap((void *)0x200000, 0x2000)`
the request `get_static_buffer(2^64 - 1)` succeeds twice with the pointer
`0x200000`. -/
theorem get_static_buffer_wraps_witness :
    static_buffers bootHeap [2 ^ 64 - 1, 2 ^ 64 - 1]
      = [(0x200000, 2 ^ 64 - 1), (0x200000, 2 ^ 64 - 1)] ∧
    (get_static_buffer bootHeap (2 ^ 64 - 1)).2.buf_index = 0 ∧
    ¬ (0x200000 + 0 + (2 ^ 64 - 1) ≤ 0x200000 + 0x2000) :=
  get_static_buffer_wraps bootHeap (2 ^ 64 - 1) (by decide) (by decide) (by decide) (by decide)
    (by decide) (by decide)

/-- The function `get_static_buffer` fails exactly when at most
`ROUND_UP(size, 8)` bytes remain between the cursor and the end of the region,
as long as the sum of cursor and rounded size does not wrap and the pointer to
return is not null. -/
theorem get_static_buffer_null_iff (s : Heap) (n : Nat)
    (hw : s.buf_index + ROUND_UP n 8 < 2 ^ 64) (hp : (s.heap + s.buf_index) % 2 ^ 64 ≠ 0) :
    (get_static_buffer s n).1 = 0 ↔ s.heap_sz ≤ s.buf_index + ROUND_UP n 8 := by
  constructor
  · intro h
    by_contra hc
    have := (get_static_buffer_some s n (by omega)
      (by rw [Nat.mod_eq_of_lt hw]; omega)).1
    rw [h] at this
    exact hp this.symm
  · intro h
    rw [get_static_buffer_none s n (Or.inr (by rw [Nat.mod_eq_of_lt hw]; exact h))]

/-- C22, what the code does when exactly `ROUND_UP(size, 8)` bytes remain
between the cursor and the end of the region: the test
`(buf_index + size) >= __heap_sz` holds, so the call returns `NULL` and leaves
the state as it was, although the request fits. -/
theorem get_static_buffer_exact_fit (s : Heap) (n : Nat) (h64 : s.heap_sz < 2 ^ 64)
    (h : s.buf_index + ROUND_UP n 8 = s.heap_sz) : get_static_buffer s n = (0, s) :=
  get_static_buffer_none s n (Or.inr (by rw [h, Nat.mod_eq_of_lt h64]))

/-- C22, witness and failing input: after `set_heap((void *)0x200000, 0x2000)`
the request `get_static_buffer(0x2000)` for the whole region fails. -/
theorem get_static_buffer_exact_fit_witness :
    bootHeap.heap_sz < 2 ^ 64 ∧ bootHeap.buf_index + ROUND_UP 0x2000 8 = bootHeap.heap_sz ∧
    get_static_buffer bootHeap 0x2000 = (0, bootHeap) :=
  ⟨by decide, by decide, get_static_buffer_exact_fit bootHeap 0x2000 (by decide) (by decide)⟩

/-! ## Public entries of the remapper: refused requests -/

/-- The call `get_guest(HOST_VMID)` returns when the registry holds the
descriptor of the host or a free descriptor, and it changes neither the
memory nor the property words. -/
theorem get_guest_host_returns (P : Platform) (s : Machine)
    (hg : ∃ g ∈ s.guests, g.vmid = HOST_VMID ∨ g.s2_pgd = 0) :
    ∃ i s1, get_guest P s HOST_VMID = some (some i, s1) ∧ s1.mem = s.mem ∧
      s1.table_props = s.table_props := by
  unfold get_guest
  rw [if_neg (by simp)]
  cases h1 : s.guests.findIdx? (fun g => g.vmid = HOST_VMID) with
  | some i => exact ⟨i, s, rfl, rfl, rfl⟩
  | none =>
    dsimp only
    cases h2 : get_free_guest s with
    | some i => exact ⟨i, _, rfl, rfl, rfl⟩
    | none =>
      exfalso
      obtain ⟨g, hgm, hgv⟩ := hg
      rw [List.findIdx?_eq_none_iff] at h1
      unfold get_free_guest at h2
      rw [List.findIdx?_eq_none_iff] at h2
      have a1 := h1 g hgm
      have a2 := h2 g hgm
      simp only [decide_eq_false_iff_not] at a1 a2
      rcases hgv with e | e
      · exact a1 e
      · exact a2 e

/-- C23: in a state whose registry holds the descriptor of the host or a free
descriptor, `mmap_range` with a null root and the stage `STAGE2` returns
`-EINVAL` when `paddr` is not zero and differs from `vaddr`, and `mmap_range`
with a stage that is neither `STAGE1` nor `STAGE2` returns `-EINVAL`, in both
cases with the memory (and so every table) and the property words of the
arena as they were. -/
theorem mmap_range_refused (P : Platform) (s : Machine)
    (pgd stage vaddr paddr length prot type : Nat)
    (hg : ∃ g ∈ s.guests, g.vmid = HOST_VMID ∨ g.s2_pgd = 0)
    (h : (pgd = 0 ∧ stage = P.STAGE2 ∧ paddr ≠ 0 ∧ paddr ≠ vaddr) ∨
      (stage ≠ P.STAGE1 ∧ stage ≠ P.STAGE2)) :
    ∃ s1, mmap_range P s pgd stage vaddr paddr length prot type = some (-EINVAL, s1) ∧
      s1.mem = s.mem ∧ s1.table_props = s.table_props := by
  obtain ⟨i, s1, hgg, hm, hp⟩ := get_guest_host_returns P s hg
  unfold mmap_range
  rcases h with ⟨h0, hs, hpa, hne⟩ | ⟨h1, h2⟩
  · rw [if_pos h0, hgg]
    dsimp only
    rw [if_pos hs, if_pos ⟨fun e => hne e.symm, hpa⟩]
    exact ⟨s1, rfl, hm, hp⟩
  · by_cases h0 : pgd = 0
    · rw [if_pos h0, hgg]
      dsimp only
      rw [if_neg h2, if_neg h1]
      exact ⟨s1, rfl, hm, hp⟩
    · rw [if_neg h0, if_neg h2, if_neg h1]
      exact ⟨s, rfl, rfl, rfl⟩

/-- C23 in the state after boot: the host stage-2 request `0x40000000` to
`0x80000000` with a null root is refused. -/
theorem mmap_range_refused_witness :
    ∃ s1, mmap_range virtPlatform bootMachine 0 virtPlatform.STAGE2 0x40000000 0x80000000 0x1000
        0x40 4 = some (-EINVAL, s1) ∧
      s1.mem = bootMachine.mem ∧ s1.table_props = bootMachine.table_props :=
  mmap_range_refused virtPlatform bootMachine 0 virtPlatform.STAGE2 0x40000000 0x80000000 0x1000
    0x40 4 (by decide) (Or.inl ⟨rfl, rfl, by decide, by decide⟩)

/-! ## Turns of the remapper -/

/-- The loop of `__block_remap` is the iteration of `block_remap_turn`. -/
theorem block_remap_loop_turn (P : Platform) (prot type lv vmid fuel : Nat) (s : Machine)
    (blk : mblockinfo_t) (tv tp rlen : Nat) (h0 : rlen ≠ 0) :
    block_remap_loop P prot type lv vmid (fuel + 1) s blk tv tp rlen =
      match block_remap_turn P prot type lv vmid s blk tv tp rlen with
      | none => none
      | some (s1, b, tv1, tp1, rl1) => block_remap_loop P prot type lv vmid fuel s1 b tv1 tp1 rl1 := by
  rw [block_remap_loop, if_neg h0]
  unfold block_remap_turn remap_step
  dsimp only
  cases hg : get_block_info P s tv blk with
  | none => rfl
  | some r =>
    obtain ⟨hit, b⟩ := r
    dsimp only
    by_cases hc : hit = true ∧ ¬ (tv &&& ((b.size + 2 ^ 64 - 1) % 2 ^ 64) = 0 ∧ rlen ≥ b.size)
    · rw [if_pos hc, if_pos hc]
      cases block_split P s b tv tp rlen prot type vmid with
      | none => rfl
      | some r => rfl
    · rw [if_neg hc, if_neg hc]
      cases __mmap_range P s b.pgd tv tp
        (if (if (if hit = true then b.size else tv &&& tdinfo.l2_blk_offt_mask) = 0 then
            if hit = true then b.size else tdinfo.l2_blk_size
          else if hit = true then b.size else tv &&& tdinfo.l2_blk_offt_mask) > rlen then rlen
        else if (if hit = true then b.size else tv &&& tdinfo.l2_blk_offt_mask) = 0 then
          if hit = true then b.size else tdinfo.l2_blk_size
        else if hit = true then b.size else tv &&& tdinfo.l2_blk_offt_mask) prot type lv vmid with
      | none => rfl
      | some r =>
        obtain ⟨res, s1⟩ := r
        dsimp only
        by_cases hr : res ≠ 0
        · rw [if_pos hr, if_pos hr]
        · rw [if_neg hr, if_neg hr]
/-- What `__pt_walk` returns: a level-1 block, a level-2 block, or a level-3
descriptor whose table bit is set. -/
theorem pt_walk_result (s : Machine) (tbl v levels : Nat) (w : walk_t)
    (h : __pt_walk s tbl v levels = some w) :
    (w.level = 1 ∧ w.ret = (s.mem w.ptep &&& tdinfo.l1_blk_oa_mask) |||
        (v &&& tdinfo.l1_blk_offt_mask)) ∨
    (w.level = 2 ∧ w.ret = (s.mem w.ptep &&& tdinfo.l2_blk_oa_mask) |||
        (v &&& tdinfo.l2_blk_offt_mask)) ∨
    (w.level = 4 ∧ bit_raised (s.mem w.ptep) TABLE_TYPE_BIT ≠ 0) := by
  have h3 : ∀ nl, pt_walk_l3 s nl v = some w →
      (w.level = 4 ∧ bit_raised (s.mem w.ptep) TABLE_TYPE_BIT ≠ 0) := by
    intro nl h
    unfold pt_walk_l3 at h
    dsimp only at h
    split_ifs at h with c
    cases h
    exact ⟨rfl, c⟩
  have h2 : ∀ nl, pt_walk_l2 s nl v = some w →
      (w.level = 2 ∧ w.ret = (s.mem w.ptep &&& tdinfo.l2_blk_oa_mask) |||
        (v &&& tdinfo.l2_blk_offt_mask)) ∨
      (w.level = 4 ∧ bit_raised (s.mem w.ptep) TABLE_TYPE_BIT ≠ 0) := by
    intro nl h
    unfold pt_walk_l2 at h
    dsimp only at h
    split_ifs at h
    · cases h
      exact Or.inl ⟨rfl, rfl⟩
    · exact Or.inr (h3 _ h)
  have h1 : ∀ nl, pt_walk_l1 s nl v levels = some w →
      (w.level = 1 ∧ w.ret = (s.mem w.ptep &&& tdinfo.l1_blk_oa_mask) |||
        (v &&& tdinfo.l1_blk_offt_mask)) ∨
      (w.level = 2 ∧ w.ret = (s.mem w.ptep &&& tdinfo.l2_blk_oa_mask) |||
        (v &&& tdinfo.l2_blk_offt_mask)) ∨
      (w.level = 4 ∧ bit_raised (s.mem w.ptep) TABLE_TYPE_BIT ≠ 0) := by
    intro nl h
    unfold pt_walk_l1 at h
    dsimp only at h
    split_ifs at h
    · cases h
      exact Or.inl ⟨rfl, rfl⟩
    · exact Or.inr (h2 _ h)
    · exact Or.inr (h2 _ h)
  unfold __pt_walk at h
  dsimp only at h
  split_ifs at h
  · exact h1 _ h
  · exact h1 _ h

theorem disjoint_or_sub (a b m : Nat) (ha : a % 2 ^ m = 0) (hb : b < 2 ^ m) :
    (a ||| b) - a = b ∧ a ≤ a ||| b := by
  obtain ⟨k, rfl⟩ := Nat.dvd_of_mod_eq_zero ha
  rw [← Nat.mul_add_lt_is_or hb]
  omega

/-- A block hit of `get_block_info`, in every state: the size is that of a
level-1 or a level-2 block, and `block->vaddr` lies below `addr` by the offset
of `addr` in a block of that size. -/
theorem get_block_info_true (P : Platform) (s : Machine) (addr : Nat) (blk b : mblockinfo_t)
    (ha : addr < 2 ^ 64) (h : get_block_info P s addr blk = some (true, b)) :
    (b.size = 2 ^ 30 ∨ b.size = 2 ^ 21) ∧
    (addr + 2 ^ 64 - b.vaddr) % 2 ^ 64 = addr % b.size := by
  unfold get_block_info at h
  cases hg : blk.guest.bind (fun g => s.guests.get? g) with
  | none => rw [hg] at h; cases h
  | some guest =>
    rw [hg] at h
    dsimp only at h
    by_cases hgp : guest.s2_pgd ≠ blk.pgd ∧ guest.s1_pgd ≠ blk.pgd
    · rw [if_pos hgp] at h; cases h
    rw [if_neg hgp] at h
    cases hw : __pt_walk s blk.pgd addr guest.table_levels with
    | none => rw [hw] at h; cases h
    | some w =>
      rw [hw] at h
      dsimp only at h
      have hres := pt_walk_result s blk.pgd addr guest.table_levels w hw
      by_cases hty : bit_raised (s.mem w.ptep) TABLE_TYPE_BIT ≠ 0
      · rw [if_pos hty] at h; cases h
      · rw [if_neg hty] at h
        simp only [Option.some.injEq, Prod.mk.injEq, true_and] at h
        rcases hres with ⟨hl, hr⟩ | ⟨hl, hr⟩ | ⟨_, hr⟩
        · rw [if_pos hl] at h
          have d := disjoint_or_sub (s.mem w.ptep &&& tdinfo.l1_blk_oa_mask)
            (addr &&& tdinfo.l1_blk_offt_mask) 30
            (by rw [and_l1_oa]; exact Nat.mul_mod_right _ _)
            (by rw [and_l1_offt]; exact Nat.mod_lt _ (by norm_num))
          have hlt : (s.mem w.ptep &&& tdinfo.l1_blk_oa_mask) |||
              (addr &&& tdinfo.l1_blk_offt_mask) < 2 ^ 48 :=
            Nat.or_lt_two_pow (lt_of_le_of_lt Nat.and_le_right (by decide))
              (lt_of_le_of_lt Nat.and_le_right (by decide))
          have e1 : b.size = 2 ^ 30 := by rw [← h]; split_ifs <;> rfl
          have e2 : b.vaddr = (addr + 2 ^ 64 - (w.ret + 2 ^ 64 -
              (s.mem w.ptep &&& tdinfo.l1_blk_oa_mask)) % 2 ^ 64) % 2 ^ 64 := by
            rw [← h]; split_ifs <;> rfl
          rw [and_l1_offt] at d hr
          refine ⟨Or.inl e1, ?_⟩
          rw [e1, e2, hr]
          rw [and_l1_offt] at hlt
          have := Nat.mod_lt addr (show 0 < 2 ^ 30 by norm_num)
          have := Nat.mod_le addr (2 ^ 30)
          omega
        · have hl1 : ¬ w.level = 1 := by omega
          rw [if_neg hl1] at h
          have d := disjoint_or_sub (s.mem w.ptep &&& tdinfo.l2_blk_oa_mask)
            (addr &&& tdinfo.l2_blk_offt_mask) 21
            (by rw [and_l2_oa]; exact Nat.mul_mod_right _ _)
            (by rw [and_l2_offt]; exact Nat.mod_lt _ (by norm_num))
          have hlt : (s.mem w.ptep &&& tdinfo.l2_blk_oa_mask) |||
              (addr &&& tdinfo.l2_blk_offt_mask) < 2 ^ 48 :=
            Nat.or_lt_two_pow (lt_of_le_of_lt Nat.and_le_right (by decide))
              (lt_of_le_of_lt Nat.and_le_right (by decide))
          have e1 : b.size = 2 ^ 21 := by rw [← h]; split_ifs <;> rfl
          have e2 : b.vaddr = (addr + 2 ^ 64 - (w.ret + 2 ^ 64 -
              (s.mem w.ptep &&& tdinfo.l2_blk_oa_mask)) % 2 ^ 64) % 2 ^ 64 := by
            rw [← h]; split_ifs <;> rfl
          rw [and_l2_offt] at d hr
          refine ⟨Or.inr e1, ?_⟩
          rw [e1, e2, hr]
          rw [and_l2_offt] at hlt
          have := Nat.mod_lt addr (show 0 < 2 ^ 21 by norm_num)
          have := Nat.mod_le addr (2 ^ 21)
          omega
        · exact absurd hr hty
/-- The new remaining length and the new address after a split turn. -/
theorem block_split_rlen (P : Platform) (s : Machine) (b : mblockinfo_t)
    (tv tp rlen prot type vmid : Nat) (r : Machine × Nat × Nat × Nat)
    (h : block_split P s b tv tp rlen prot type vmid = some r) :
    r.2.2.2 = (if rlen < (b.size + 2 ^ 64 - (tv + 2 ^ 64 - b.vaddr) % 2 ^ 64) % 2 ^ 64 then 0
      else (rlen + 2 ^ 64 - (b.size + 2 ^ 64 - (tv + 2 ^ 64 - b.vaddr) % 2 ^ 64) % 2 ^ 64)
        % 2 ^ 64) ∧
    r.2.1 < 2 ^ 64 := by
  unfold block_split at h
  dsimp only at h
  by_cases c0 : (alloc_table P { s with invalidate := 0 } vmid).1 = 0
  · rw [if_pos c0] at h; cases h
  rw [if_neg c0] at h
  split at h
  · cases h
  · rename_i res1 s1 _
    by_cases c1 : res1 ≠ 0
    · rw [if_pos c1] at h; cases h
    rw [if_neg c1] at h
    split at h
    · cases h
    · rename_i res2 s2 _
      by_cases c2 : res2 ≠ 0
      · rw [if_pos c2] at h; cases h
      rw [if_neg c2] at h
      split at h
      · cases h
      · rename_i res3 s3 _
        by_cases c3 : res3 ≠ 0
        · rw [if_pos c3] at h; cases h
        rw [if_neg c3] at h
        cases h
        exact ⟨rfl, Nat.mod_lt _ (by norm_num)⟩

theorem remap_step_pos (hit : Bool) (b : mblockinfo_t) (tv rlen : Nat) (h0 : rlen ≠ 0)
    (hb : hit = true → b.size ≠ 0) :
    0 < remap_step hit b tv rlen ∧ remap_step hit b tv rlen ≤ rlen := by
  unfold remap_step
  dsimp only
  have h2 : tdinfo.l2_blk_size = 2 ^ 21 := by decide
  cases hit with
  | true =>
    have := hb rfl
    simp only [if_true]
    split_ifs <;> omega
  | false =>
    simp only [Bool.false_eq_true, if_false]
    split_ifs <;> omega

/-- One turn of loop of `__block_remap` that does not abort takes at least one
byte off the remaining length, in the branch that splits a block and in the
other branch. -/
theorem block_remap_turn_lt (P : Platform) (prot type lv vmid : Nat) (s : Machine)
    (blk : mblockinfo_t) (tv tp rlen : Nat) (h0 : rlen ≠ 0) (h64 : rlen < 2 ^ 64)
    (htv : tv < 2 ^ 64) (r : Machine × mblockinfo_t × Nat × Nat × Nat)
    (h : block_remap_turn P prot type lv vmid s blk tv tp rlen = some r) :
    r.2.2.2.2 < rlen ∧ r.2.2.1 < 2 ^ 64 := by
  unfold block_remap_turn at h
  cases hg : get_block_info P s tv blk with
  | none => rw [hg] at h; cases h
  | some x =>
    obtain ⟨hit, b⟩ := x
    rw [hg] at h
    dsimp only at h
    by_cases hc : hit = true ∧ ¬ (tv &&& ((b.size + 2 ^ 64 - 1) % 2 ^ 64) = 0 ∧ rlen ≥ b.size)
    · rw [if_pos hc] at h
      obtain ⟨ht, _⟩ := hc
      subst ht
      obtain ⟨hsz, hoff⟩ := get_block_info_true P s tv blk b htv hg
      cases hs : block_split P s b tv tp rlen prot type vmid with
      | none => rw [hs] at h; cases h
      | some y =>
        rw [hs] at h
        obtain ⟨e1, e2⟩ := block_split_rlen P s b tv tp rlen prot type vmid y hs
        obtain ⟨s1, tv1, tp1, rl1⟩ := y
        cases h
        dsimp only at e1 e2 ⊢
        refine ⟨?_, e2⟩
        rw [e1, hoff]
        have hlt : tv % b.size < b.size := Nat.mod_lt _ (by rcases hsz with e | e <;> rw [e] <;> norm_num)
        have hb : b.size ≤ 2 ^ 30 := by rcases hsz with e | e <;> rw [e] <;> norm_num
        generalize tv % b.size = off at hlt
        split_ifs <;> omega
    · rw [if_neg hc] at h
      have hpos := remap_step_pos hit b tv rlen h0 (by
        intro ht
        subst ht
        rcases (get_block_info_true P s tv blk b htv hg).1 with e | e <;> rw [e] <;> norm_num)
      generalize remap_step hit b tv rlen = mlen at h hpos
      cases hm : __mmap_range P s b.pgd tv tp mlen prot type lv vmid with
      | none => rw [hm] at h; cases h
      | some y =>
        obtain ⟨res, s1⟩ := y
        rw [hm] at h
        dsimp only at h
        split_ifs at h
        cases h
        dsimp only
        exact ⟨by omega, Nat.mod_lt _ (by norm_num)⟩

/-- With at least `rlen` turns allowed the loop of `__block_remap` gives the
result that it gives with `rlen` turns: more turns are never needed. -/
theorem block_remap_loop_fuel (P : Platform) (prot type lv vmid : Nat) :
    ∀ (rlen : Nat) (s : Machine) (blk : mblockinfo_t) (tv tp fuel : Nat), rlen < 2 ^ 64 →
      tv < 2 ^ 64 → rlen ≤ fuel →
      block_remap_loop P prot type lv vmid fuel s blk tv tp rlen =
        block_remap_loop P prot type lv vmid rlen s blk tv tp rlen := by
  intro rlen
  induction rlen using Nat.strong_induction_on with
  | _ rlen ih =>
    intro s blk tv tp fuel h64 htv hf
    by_cases h0 : rlen = 0
    · subst h0
      rw [block_remap_loop_done, block_remap_loop_done]
    · obtain ⟨f, rfl⟩ : ∃ f, fuel = f + 1 := ⟨fuel - 1, by omega⟩
      obtain ⟨n, rfl⟩ : ∃ n, rlen = n + 1 := ⟨rlen - 1, by omega⟩
      rw [block_remap_loop_turn _ _ _ _ _ f _ _ _ _ _ h0,
        block_remap_loop_turn _ _ _ _ _ n _ _ _ _ _ h0]
      cases ht : block_remap_turn P prot type lv vmid s blk tv tp (n + 1) with
      | none => rfl
      | some r =>
        obtain ⟨hlt, htv1⟩ := block_remap_turn_lt P prot type lv vmid s blk tv tp (n + 1) h0 h64
          htv r ht
        obtain ⟨s1, b, tv1, tp1, rl1⟩ := r
        dsimp only at hlt htv1 ⊢
        rw [ih rl1 hlt s1 b tv1 tp1 f (by omega) htv1 (by omega),
          ih rl1 hlt s1 b tv1 tp1 n (by omega) htv1 (by omega)]
/-- The loop of `__mmap_range` returns within one turn per page, in every
state. -/
theorem mmap_range_loop_returns (P : Platform) (ctype pgd prot type levels vmid : Nat) :
    ∀ (fuel : Nat) (s : Machine) (va pa tl : Nat), tl % 4096 = 0 → tl < 2 ^ 64 →
      tl / 4096 ≤ fuel →
      ∃ r, mmap_range_loop P ctype pgd prot type levels vmid fuel s va pa tl = some r := by
  intro fuel
  induction fuel with
  | zero =>
    intro s va pa tl h1 h2 h3
    have : tl = 0 := by omega
    subst this
    exact ⟨_, mmap_range_loop_done _ _ _ _ _ _ _ _ _ _ _⟩
  | succ fuel ih =>
    intro s va pa tl h1 h2 h3
    by_cases h0 : tl = 0
    · subst h0
      exact ⟨_, mmap_range_loop_done _ _ _ _ _ _ _ _ _ _ _⟩
    · rw [mmap_range_loop_succ P ctype pgd prot type levels vmid fuel s va pa tl h0 _ _ rfl rfl]
      have hb : get_block_size va tl ≤ tl ∧ 4096 ≤ get_block_size va tl ∧
          get_block_size va tl % 4096 = 0 := by
        rcases get_block_size_cases va tl with ⟨e, _, h⟩ | ⟨e, _, h⟩ | e <;> rw [e] <;>
          omega
      split_ifs
      all_goals first
        | exact ⟨_, rfl⟩
        | (apply ih <;> omega)

/-- The function `__mmap_range` returns, in every state and for all
arguments. -/
theorem mmap_range_returns (P : Platform) (s : Machine)
    (pgd vaddr paddr length prot type levels vmid : Nat) :
    ∃ r, __mmap_range P s pgd vaddr paddr length prot type levels vmid = some r := by
  unfold __mmap_range
  split_ifs
  · exact ⟨_, rfl⟩
  · exact ⟨_, rfl⟩
  · apply mmap_range_loop_returns
    · unfold ROUND_UP; omega
    · unfold ROUND_UP
      have := Nat.mod_lt (length + 4096 - 1) (show 0 < 2 ^ 64 by norm_num)
      omega
    · exact le_refl _

theorem block_remap_run_done (P : Platform) (prot type lv vmid fuel : Nat) (s : Machine)
    (blk : mblockinfo_t) (tv tp : Nat) :
    block_remap_run P prot type lv vmid fuel s blk tv tp 0 = some (some (0, s)) := by
  cases fuel <;> simp [block_remap_run]

theorem block_remap_run_turn (P : Platform) (prot type lv vmid fuel : Nat) (s : Machine)
    (blk : mblockinfo_t) (tv tp rlen : Nat) (h0 : rlen ≠ 0) :
    block_remap_run P prot type lv vmid (fuel + 1) s blk tv tp rlen =
      match block_remap_turn P prot type lv vmid s blk tv tp rlen with
      | none => some none
      | some (s1, b, tv1, tp1, rl1) => block_remap_run P prot type lv vmid fuel s1 b tv1 tp1 rl1 := by
  rw [block_remap_run, if_neg h0]

/-- The loop of `__block_remap` as embedded gives the result of
`block_remap_run`, with `HYP_ABORT` and a loop that has not ended both shown
as `none`. -/
theorem block_remap_loop_eq_run (P : Platform) (prot type lv vmid : Nat) :
    ∀ (fuel : Nat) (s : Machine) (blk : mblockinfo_t) (tv tp rlen : Nat),
      block_remap_loop P prot type lv vmid fuel s blk tv tp rlen =
        (block_remap_run P prot type lv vmid fuel s blk tv tp rlen).join := by
  intro fuel
  induction fuel with
  | zero =>
    intro s blk tv tp rlen
    by_cases h0 : rlen = 0
    · subst h0
      rw [block_remap_loop_done, block_remap_run_done]
      rfl
    · rw [block_remap_loop, if_neg h0]
      simp [block_remap_run, h0]
  | succ fuel ih =>
    intro s blk tv tp rlen
    by_cases h0 : rlen = 0
    · subst h0
      rw [block_remap_loop_done, block_remap_run_done]
      rfl
    · rw [block_remap_loop_turn _ _ _ _ _ fuel _ _ _ _ _ h0,
        block_remap_run_turn _ _ _ _ _ fuel _ _ _ _ _ h0]
      cases block_remap_turn P prot type lv vmid s blk tv tp rlen with
      | none => rfl
      | some r =>
        obtain ⟨s1, b, tv1, tp1, rl1⟩ := r
        exact ih s1 b tv1 tp1 rl1

/-- With `rlen` turns allowed the loop of `__block_remap` ends, and more turns
give the same end. -/
theorem block_remap_run_ends (P : Platform) (prot type lv vmid : Nat) :
    ∀ (rlen : Nat) (s : Machine) (blk : mblockinfo_t) (tv tp : Nat), rlen < 2 ^ 64 →
      tv < 2 ^ 64 →
      ∃ r, ∀ fuel, rlen ≤ fuel →
        block_remap_run P prot type lv vmid fuel s blk tv tp rlen = some r := by
  intro rlen
  induction rlen using Nat.strong_induction_on with
  | _ rlen ih =>
    intro s blk tv tp h64 htv
    by_cases h0 : rlen = 0
    · subst h0
      exact ⟨some (0, s), fun fuel _ => block_remap_run_done _ _ _ _ _ _ _ _ _ _⟩
    · cases ht : block_remap_turn P prot type lv vmid s blk tv tp rlen with
      | none =>
        refine ⟨none, fun fuel hf => ?_⟩
        obtain ⟨f, rfl⟩ : ∃ f, fuel = f + 1 := ⟨fuel - 1, by omega⟩
        rw [block_remap_run_turn _ _ _ _ _ f _ _ _ _ _ h0, ht]
      | some r =>
        obtain ⟨hlt, htv1⟩ := block_remap_turn_lt P prot type lv vmid s blk tv tp rlen h0 h64
          htv r ht
        obtain ⟨s1, b, tv1, tp1, rl1⟩ := r
        dsimp only at hlt htv1
        obtain ⟨q, hq⟩ := ih rl1 hlt s1 b tv1 tp1 (by omega) htv1
        refine ⟨q, fun fuel hf => ?_⟩
        obtain ⟨f, rfl⟩ : ∃ f, fuel = f + 1 := ⟨fuel - 1, by omega⟩
        rw [block_remap_run_turn _ _ _ _ _ f _ _ _ _ _ h0, ht]
        exact hq f (by omega)

/-- C30: the loop of `__block_remap` ends within `rlen` turns, for every
state, address and length (64-bit values).  With `rlen` turns or more allowed
it has an end `r` that does not depend on the number of turns: the loop has
run down to `rlen = 0` and `__block_remap` returns, or a turn has ended in
`HYP_ABORT` (`r = none`); the loop as embedded in `block_remap_loop` gives
this `r`, and so does `__block_remap`, which allows `len` turns, when it
enters the loop.  This is so because every turn that does not abort, in the
branch that splits a block and in the other branch, leaves a strictly smaller
`rlen`, and because the calls of `__mmap_range` in a turn return. -/
theorem block_remap_terminates (P : Platform) (prot type lv vmid : Nat) (s : Machine)
    (blk : mblockinfo_t) (tv tp rlen : Nat) (h64 : rlen < 2 ^ 64) (htv : tv < 2 ^ 64) :
    (∃ r, ∀ fuel, rlen ≤ fuel →
      block_remap_run P prot type lv vmid fuel s blk tv tp rlen = some r ∧
      block_remap_loop P prot type lv vmid fuel s blk tv tp rlen = r) ∧
    (∀ r, rlen ≠ 0 → block_remap_turn P prot type lv vmid s blk tv tp rlen = some r →
      r.2.2.2.2 < rlen) ∧
    (∀ (s' : Machine) (pgd va pa len pr ty lv' vm : Nat),
      ∃ r, __mmap_range P s' pgd va pa len pr ty lv' vm = some r) ∧
    (∀ guest, blk.guest.bind (fun g => s.guests.get? g) = some guest →
      vmid = guest.vmid % 2 ^ 32 → rlen ≠ 0 → s.init_ready = true →
      __block_remap P s tv rlen blk tp prot type lv
        = block_remap_loop P prot type lv vmid rlen s blk tv tp rlen) := by
  obtain ⟨r, hr⟩ := block_remap_run_ends P prot type lv vmid rlen s blk tv tp h64 htv
  refine ⟨⟨r, fun fuel hf => ⟨hr fuel hf, ?_⟩⟩, fun r h0 h =>
    (block_remap_turn_lt P prot type lv vmid s blk tv tp rlen h0 h64 htv r h).1,
    fun s' pgd va pa len pr ty lv' vm => mmap_range_returns P s' pgd va pa len pr ty lv' vm,
    fun guest hg hv h0 hi => ?_⟩
  · rw [block_remap_loop_eq_run, hr fuel hf]
    rfl
  · unfold __block_remap
    rw [hg]
    simp only [h0, hi, if_false, ← hv]
    simp

theorem bootMachine_run_three :
    (block_remap_run virtPlatform 0x40 4 4 0 3 bootMachine
      { block_zero with guest := some 0, pgd := 0x101000, stage := 2 }
      0x40001000 0x40001000 0x3000).map (fun r => r.map (fun x => x.1)) = some (some 0) := by
  decide

/-- C30 in the state after boot: the loop at `0x40001000` with `0x3000` bytes
to go ends after three turns, one for each page, and `__block_remap` returns
0. -/
theorem block_remap_terminates_witness :
    (block_remap_run virtPlatform 0x40 4 4 0 3 bootMachine
      { block_zero with guest := some 0, pgd := 0x101000, stage := 2 }
      0x40001000 0x40001000 0x3000).map (fun r => r.map (fun x => x.1)) = some (some 0) ∧
    ∃ r, ∀ fuel, 0x3000 ≤ fuel →
      block_remap_run virtPlatform 0x40 4 4 0 fuel bootMachine
        { block_zero with guest := some 0, pgd := 0x101000, stage := 2 }
        0x40001000 0x40001000 0x3000 = some r ∧
      block_remap_loop virtPlatform 0x40 4 4 0 fuel bootMachine
        { block_zero with guest := some 0, pgd := 0x101000, stage := 2 }
        0x40001000 0x40001000 0x3000 = r :=
  ⟨bootMachine_run_three, (block_remap_terminates virtPlatform 0x40 4 4 0 bootMachine
    { block_zero with guest := some 0, pgd := 0x101000, stage := 2 }
    0x40001000 0x40001000 0x3000 (by decide) (by decide)).1⟩

/-! ## The step of the remapper when no block is found -/

/-- C24, what the code does: when no block is found at `tvaddr`, the step is
`tvaddr & tdinfo.l2_blk_offt_mask`, the offset of `tvaddr` in its 2 MiB
region, and not the distance to the end of that region.  So when the offset is
more than 1 MiB and more than the distance to the end of the region remains,
the step ends in a later 2 MiB region than the one of `tvaddr`. -/
theorem remap_step_crosses (b : mblockinfo_t) (tv rlen : Nat) (h1 : 2 ^ 20 < tv % 2 ^ 21)
    (h2 : 2 ^ 21 - tv % 2 ^ 21 < rlen) :
    tv / 2 ^ 21 < (tv + remap_step false b tv rlen - 1) / 2 ^ 21 := by
  unfold remap_step
  simp only [Bool.false_eq_true, if_false]
  have hoff : ¬ tv % 2 ^ 21 = 0 := by omega
  rw [and_l2_offt, if_neg hoff]
  have hlt := Nat.mod_lt tv (show 0 < 2 ^ 21 by norm_num)
  have hd := Nat.div_add_mod tv (2 ^ 21)
  rw [Nat.lt_iff_add_one_le, Nat.le_div_iff_mul_le (by norm_num)]
  split_ifs <;> omega

theorem bootMachine_turn_crosses :
    (block_remap_turn virtPlatform 0x40 4 4 0 bootMachine
      { block_zero with guest := some 0, pgd := 0x101000, stage := 2 }
      0x401FF000 0x401FF000 0x3000).map (fun r => (r.2.2.1, r.2.2.2.2))
        = some (0x40202000, 0) := by
  decide

/-- C24, witness and failing input: in the state after boot no block is mapped
at `0x401FF000`, the last page of a 2 MiB region; with `0x3000` bytes to go
the step is `0x3000`, the turn of `__block_remap` maps `[0x401FF000,
0x40202000)` in one call of `__mmap_range` and goes on at `0x40202000`, past
the 2 MiB boundary `0x40200000`. -/
theorem remap_step_crosses_witness :
    remap_step false block_zero 0x401FF000 0x3000 = 0x3000 ∧
    (block_remap_turn virtPlatform 0x40 4 4 0 bootMachine
      { block_zero with guest := some 0, pgd := 0x101000, stage := 2 }
      0x401FF000 0x401FF000 0x3000).map (fun r => (r.2.2.1, r.2.2.2.2))
        = some (0x40202000, 0) ∧
    0x401FF000 / 2 ^ 21 < (0x401FF000 + remap_step false block_zero 0x401FF000 0x3000 - 1)
      / 2 ^ 21 :=
  ⟨by decide, bootMachine_turn_crosses,
    remap_step_crosses block_zero 0x401FF000 0x3000 (by norm_num) (by norm_num)⟩

/-! ## Memory governor: the page address in the loop -/

/-- A turn of the per-page loop of `guest_map_range` at a page that is not
mapped as requested and that `verify_range` accepts goes on with the next
page. -/
theorem guest_map_loop_next (X : Ext) (P : Platform) (s : Machine) (guest : kvm_guest_t)
    (vaddr len prot page_vaddr page_paddr mc fuel : Nat)
    (hlen : page_vaddr < (vaddr + len) % 2 ^ 64)
    (hn : ¬ mapped_as_requested P s guest prot page_vaddr page_paddr)
    (hv : verify_range X s.mem (some guest) page_vaddr page_paddr PAGE_SIZE ≠ -EINVAL) :
    guest_map_loop X P s guest vaddr len prot (fuel + 1) page_vaddr page_paddr mc =
      guest_map_loop X P s guest vaddr len prot fuel ((page_vaddr + PAGE_SIZE) % 2 ^ 64)
        ((page_paddr + PAGE_SIZE) % 2 ^ 64) mc := by
  rw [guest_map_loop, if_pos hlen]
  dsimp only
  cases hw : __pt_walk s guest.s2_pgd page_vaddr P.TABLE_LEVELS with
  | none =>
    dsimp only
    rw [if_neg (by decide), if_neg hv]
  | some w =>
    dsimp only
    have hd : ¬ (w.ptep ≠ 0 ∧ w.ret = page_paddr ∧
        s.mem w.ptep &&& P.TYPE_MASK_STAGE2 = prot &&& P.TYPE_MASK_STAGE2 ∧
        s.mem w.ptep &&& P.PROT_MASK_STAGE2 = prot) :=
      fun h => hn ⟨w, hw, h⟩
    rw [if_neg (by simpa using hd), if_neg hv]

/-- C29, what the code does: when the page number `k` of the requested range
is mapped as requested already, and the pages before it are not and pass
`verify_range`, then `guest_map_range` does not return, however many turns
its loop is given: the turns for the pages before advance the page address,
the turn for page `k` counts the page and goes on to the next turn with the
same page address. -/
theorem guest_map_range_stuck_at (X : Ext) (P : Platform) (s : Machine) (g : Option Nat)
    (guest : kvm_guest_t) (vaddr paddr len prot k : Nat)
    (hg : g.bind (fun i => s.guests.get? i) = some guest)
    (hv : vaddr ≠ 0) (hp : paddr ≠ 0) (hl : len % PAGE_SIZE = 0)
    (hval : X.is_range_valid vaddr len guest ≠ 0)
    (hend : vaddr + len < 2 ^ 64) (hk : (k + 1) * PAGE_SIZE ≤ len)
    (hpa : paddr + k * PAGE_SIZE < 2 ^ 64)
    (hpass : ∀ j, j < k →
      ¬ mapped_as_requested P s guest prot (vaddr + j * PAGE_SIZE) (paddr + j * PAGE_SIZE) ∧
      verify_range X s.mem (some guest) (vaddr + j * PAGE_SIZE) (paddr + j * PAGE_SIZE)
        PAGE_SIZE ≠ -EINVAL)
    (hsame : mapped_as_requested P s guest prot (vaddr + k * PAGE_SIZE) (paddr + k * PAGE_SIZE))
    (fuel : Nat) :
    guest_map_range X P fuel s g vaddr paddr len prot = none := by
  have hP : PAGE_SIZE = 4096 := rfl
  have key : ∀ (n : Nat) (fuel j : Nat), j + n = k →
      guest_map_loop X P s guest vaddr len prot fuel (vaddr + j * PAGE_SIZE)
        (paddr + j * PAGE_SIZE) 0 = none := by
    intro n
    induction n with
    | zero =>
      intro fuel j hj
      obtain ⟨w, hw, h1, h2, h3, h4⟩ := hsame
      have : j = k := by omega
      subst this
      exact guest_map_loop_stuck X P s guest vaddr len prot _ _ w
        (by rw [Nat.mod_eq_of_lt hend]; rw [hP] at hk ⊢; omega) hw h1 h2 h3 h4 fuel 0
    | succ n ih =>
      intro fuel j hj
      cases fuel with
      | zero => rfl
      | succ fuel =>
        obtain ⟨a, b⟩ := hpass j (by omega)
        rw [guest_map_loop_next X P s guest vaddr len prot _ _ 0 fuel
          (by rw [Nat.mod_eq_of_lt hend]; rw [hP] at hk ⊢; omega) a b]
        have e1 : (vaddr + j * PAGE_SIZE + PAGE_SIZE) % 2 ^ 64 = vaddr + (j + 1) * PAGE_SIZE := by
          rw [hP] at hk ⊢; omega
        have e2 : (paddr + j * PAGE_SIZE + PAGE_SIZE) % 2 ^ 64 = paddr + (j + 1) * PAGE_SIZE := by
          rw [hP] at hpa ⊢; omega
        rw [e1, e2]
        exact ih fuel (j + 1) (by omega)
  unfold guest_map_range
  rw [hg]
  simp only [hv, hp, hl, hval, ne_eq, not_true_eq_false, or_self, if_false]
  have := key k fuel 0 (by omega)
  rw [Nat.zero_mul, Nat.add_zero, Nat.add_zero] at this
  rw [this]
/-- C29, witness and failing input: the page `0x40000000` is mapped 1:1 in the
host stage-2 root with the protection `0x40` and the page `0x3FFFF000` before
it is not mapped; a request to map both pages 1:1 with that protection advances
over the first page and does not return within a million turns. -/
theorem guest_map_range_stuck_at_witness :
    __pt_walk devicePageMachine hostGuest.s2_pgd 0x3FFFF000 virtPlatform.TABLE_LEVELS = none ∧
    __pt_walk devicePageMachine hostGuest.s2_pgd 0x40000000 virtPlatform.TABLE_LEVELS
        = some { ret := 0x40000000, ptep := 0x104000, level := 4 } ∧
    guest_map_range sampleExt virtPlatform 1000000 devicePageMachine (some 0)
      0x3FFFF000 0x3FFFF000 0x2000 0x40 = none :=
  ⟨by decide, by decide,
    guest_map_range_stuck_at sampleExt virtPlatform devicePageMachine (some 0) hostGuest
      0x3FFFF000 0x3FFFF000 0x2000 0x40 1 (by decide) (by decide) (by decide) (by decide)
      (by decide) (by decide) (by decide) (by decide)
      (by
        intro j hj
        have : j = 0 := by omega
        subst this
        refine ⟨?_, by decide⟩
        rintro ⟨w, hw, _⟩
        have h0 : __pt_walk devicePageMachine hostGuest.s2_pgd (0x3FFFF000 + 0 * PAGE_SIZE)
            virtPlatform.TABLE_LEVELS = none := by decide
        rw [h0] at hw
        cases hw)
      ⟨{ ret := 0x40000000, ptep := 0x104000, level := 4 }, by decide, by decide, by decide,
        by decide, by decide⟩
      1000000⟩

/-! ## A level-1 block over a table descriptor -/

/-- C26, what the code does: when `mmap_addr` installs a level-1 block into a
slot that holds a table descriptor for the level-2 table in slot `k2` of the
arena, it calls `free_table` for that table only.  A level-3 table in another
slot `k3` that an entry `j` of the level-2 table refers to keeps its property
word: it is still marked in use afterwards, while the level-2 table is
released. -/
theorem mmap_addr_l1_block_leaks (P : Platform) (hP : arena_ok P) (s : Machine)
    (pgd vaddr paddr prot type levels vmid t1 k2 k3 j : Nat)
    (hp : pgd ≠ 0) (hv : vaddr ≤ MAX_VADDR) (ha : paddr ≤ MAX_PADDR) (hl : levels ≥ 3)
    (h1 : (levels ≥ 4 ∧
        table_oaddr (s.mem (entry_addr pgd ((vaddr &&& TABLE_0_MASK) >>> L0_SHIFT))) = t1 ∧
        t1 ≠ 0) ∨ (levels = 3 ∧ t1 = pgd))
    (hk2 : k2 < NUM_TABLES) (hk3 : k3 < NUM_TABLES) (hne : k3 ≠ k2)
    (h2 : table_oaddr (s.mem (entry_addr t1 ((vaddr &&& TABLE_1_MASK) >>> L1_SHIFT)))
      = table_addr P k2)
    (h3 : table_oaddr (s.mem (entry_addr (table_addr P k2) j)) = table_addr P k3)
    (hu : bit_raised (s.table_props k3) VALID_TABLE_BIT ≠ 0) :
    (mmap_addr P s pgd vaddr paddr (1 <<< L1_SHIFT) prot type levels vmid).1 = 0 ∧
    (mmap_addr P s pgd vaddr paddr (1 <<< L1_SHIFT) prot type levels vmid).2.table_props k2 = 0 ∧
    bit_raised ((mmap_addr P s pgd vaddr paddr (1 <<< L1_SHIFT) prot type levels
      vmid).2.table_props k3) VALID_TABLE_BIT ≠ 0 := by
  have hc : ¬ (pgd = 0 ∨ vaddr > MAX_VADDR ∨ paddr > MAX_PADDR) := by
    rintro (h | h | h) <;> omega
  have hty : bit_raised (s.mem (entry_addr t1 ((vaddr &&& TABLE_1_MASK) >>> L1_SHIFT)))
      TABLE_TYPE_BIT ≠ 0 := by
    intro h0
    have : table_addr P k2 = 0 := by rw [← h2, table_oaddr, if_neg (by simpa using h0)]
    unfold table_addr at this
    have := hP.1
    omega
  have key : (mmap_level1 P s t1 vaddr paddr (1 <<< L1_SHIFT) prot type levels vmid).1 = 0 ∧
      (mmap_level1 P s t1 vaddr paddr (1 <<< L1_SHIFT) prot type levels vmid).2.table_props k2
        = 0 ∧
      bit_raised ((mmap_level1 P s t1 vaddr paddr (1 <<< L1_SHIFT) prot type levels
        vmid).2.table_props k3) VALID_TABLE_BIT ≠ 0 := by
    rw [mmap_level1, if_pos hl]
    dsimp only
    rw [if_pos rfl, mmap_block_eq, if_pos hty, h2,
      (free_table_spec P s (table_addr P k2)).1 k2 hk2 rfl]
    simp only [write_props, release_props, if_neg hne, if_true, true_and]
    exact hu
  unfold mmap_addr
  rw [if_neg hc]
  rcases h1 with ⟨h4, e, h0⟩ | ⟨h4, e⟩
  · rw [if_pos h4]
    dsimp only
    rw [e]
    have hn : mmap_next P s pgd ((vaddr &&& TABLE_0_MASK) >>> L0_SHIFT) t1 vmid false
        = (some t1, s) := by
      unfold mmap_next
      simp [h0]
    rw [hn]
    exact key
  · rw [if_neg (by omega), ← e]
    exact key
/-- C26, witness and failing input: in `blockPageMachine` the level-1 entry for
`0x40000000` refers to the level-2 table in slot 3, whose entry 1 refers to
the level-3 table in slot 4 with the page descriptor of `0x40200000`.  After
`mmap_addr` has installed a 1 GiB block at `0x40000000`, slot 3 is released,
but slot 4 is still marked in use and still holds the page descriptor. -/
theorem mmap_addr_l1_block_leaks_witness :
    table_oaddr (blockPageMachine.mem (entry_addr 0x102000 1)) = 0x103000 ∧
    table_oaddr (blockPageMachine.mem (entry_addr 0x103000 1)) = 0x104000 ∧
    (mmap_addr virtPlatform blockPageMachine 0x101000 0x40000000 0x80000000 (1 <<< L1_SHIFT)
      0x40 4 4 0).2.mem (entry_addr 0x104000 0) = 0x80200453 ∧
    (mmap_addr virtPlatform blockPageMachine 0x101000 0x40000000 0x80000000 (1 <<< L1_SHIFT)
      0x40 4 4 0).1 = 0 ∧
    (mmap_addr virtPlatform blockPageMachine 0x101000 0x40000000 0x80000000 (1 <<< L1_SHIFT)
      0x40 4 4 0).2.table_props 3 = 0 ∧
    bit_raised ((mmap_addr virtPlatform blockPageMachine 0x101000 0x40000000 0x80000000
      (1 <<< L1_SHIFT) 0x40 4 4 0).2.table_props 4) VALID_TABLE_BIT ≠ 0 :=
  ⟨by decide, by decide, by decide!,
    mmap_addr_l1_block_leaks virtPlatform virtPlatform_arena_ok blockPageMachine 0x101000
      0x40000000 0x80000000 0x40 4 4 0 0x102000 3 4 1 (by decide) (by decide) (by decide)
      (by decide) (Or.inl ⟨by decide, by decide, by decide⟩) (by decide) (by decide) (by decide)
      (by decide) (by decide) (by decide)⟩

/-! ## Block map-then-walk round trip -/

theorem same_path_of_div (h t v va : Nat) (hh : h ≤ 3) (e : v / span t = va / span t) :
    same_path h t v va := by
  intro k hk1 hk2
  rw [tidx_eq k v (by omega), tidx_eq k va (by omega)]
  have : 2 ^ (12 + 9 * k) = span t * 2 ^ (9 * (k - t)) := by
    unfold span; rw [← pow_add]; congr 1; omega
  rw [this, ← Nat.div_div_eq_div_mul, ← Nat.div_div_eq_div_mul, e]

theorem same_path_trans (h t a b c : Nat) (h1 : same_path h t a b) (h2 : same_path h t b c) :
    same_path h t a c := fun k k1 k2 => (h1 k k1 k2).trans (h2 k k1 k2)

theorem same_path_symm (h t a b : Nat) (h1 : same_path h t a b) : same_path h t b a :=
  fun k k1 k2 => (h1 k k1 k2).symm

/-- C25 (amended): let `root` be the root of a tree of tables in use, with the
free slots of the arena zeroed, and let the protection bits and the memory type
stay clear of the valid and table bits and of the output address, the type not
being `INVALID_MEMORY`.  For a range size of 1 GiB (`levels` at least 3) or
2 MiB (`levels` at least 2), every `vaddr` up to `MAX_VADDR` and every nonzero
`paddr` up to `MAX_PADDR` aligned to the range size, a call of `mmap_addr`
that returns 0 leaves one entry `a` with the block descriptor for `paddr`; the
walk of every address `v` of the block of `vaddr` resolves at that entry, with
the address `paddr + v mod range_size` and the level 1 or 2; and when `vaddr`
was not mapped before, the walks of the addresses outside the block (in the
window of the root) are as before. -/
theorem mmap_addr_block_round_trip {P : Platform} (hP : arena_ok P) {s : Machine}
    {ht : Nat → Option Nat} {par : Nat → Nat × Nat} {root : Nat} (levels : Nat)
    (T : Tree P s ht par root (map_height levels)) (hz : free_zero P s)
    (vaddr paddr range_size prot type vmid : Nat) (ha : attr_ok prot type)
    (hty : type ≠ P.INVALID_MEMORY)
    (hsz : (range_size = 2 ^ 30 ∧ 3 ≤ levels) ∨ (range_size = 2 ^ 21 ∧ 2 ≤ levels))
    (hv : vaddr ≤ MAX_VADDR) (hpa0 : paddr ≠ 0) (hpal : paddr % range_size = 0)
    (hpm : paddr ≤ MAX_PADDR)
    (hret : (mmap_addr P s root vaddr paddr range_size prot type levels vmid).1 = 0) :
    ∃ a,
      (mmap_addr P s root vaddr paddr range_size prot type levels vmid).2.mem a
        = block_desc paddr (if range_size = 2 ^ 30 then tdinfo.l1_blk_oa_mask
            else tdinfo.l2_blk_oa_mask) prot type ∧
      (∀ v, v / range_size = vaddr / range_size →
        __pt_walk (mmap_addr P s root vaddr paddr range_size prot type levels vmid).2 root v
            levels
          = some { ret := paddr + v % range_size, ptep := a,
                   level := if range_size = 2 ^ 30 then 1 else 2 }) ∧
      (__pt_walk s root vaddr levels = none →
        ∀ v, v / span (map_height levels + 1) = vaddr / span (map_height levels + 1) →
          v / range_size ≠ vaddr / range_size →
          __pt_walk (mmap_addr P s root vaddr paddr range_size prot type levels vmid).2 root v
              levels
            = __pt_walk s root v levels) := by
  have hroot : root ≠ 0 := (T.aligned root _ T.root_ht).2
  have hhr : map_height levels ≤ 3 := by unfold map_height; split_ifs <;> omega
  have hlev : 2 ≤ levels := by rcases hsz with ⟨_, h⟩ | ⟨_, h⟩ <;> omega
  have hwh : walk_height levels = map_height levels := by
    unfold walk_height map_height; split_ifs <;> omega
  have hm48 : paddr < 2 ^ 48 := by
    have : MAX_PADDR = 2 ^ 48 - 1 := by decide
    omega
  rw [mmap_addr_eq_map_h P s root vaddr paddr range_size prot type levels vmid hroot hv hpm]
    at hret ⊢
  have M := map_h_ok hP vaddr paddr range_size prot type vmid ha root (map_height levels)
    (map_height levels) hhr s ht par root T hz T.root_ht
  obtain ⟨t, htt, hspan, ht12, hmask, hlvl⟩ : ∃ t, target_h (map_height levels) range_size = t ∧
      span t = range_size ∧ (t = 1 ∨ t = 2) ∧
      leaf_mask t = (if range_size = 2 ^ 30 then tdinfo.l1_blk_oa_mask
        else tdinfo.l2_blk_oa_mask) ∧
      leaf_level t = (if range_size = 2 ^ 30 then 1 else 2) := by
    rcases hsz with ⟨e, h3⟩ | ⟨e, h2⟩
    · refine ⟨2, ?_, ?_, Or.inr rfl, ?_, ?_⟩
      · rw [e]; exact target_h_l1 _ (by unfold map_height; split_ifs <;> omega)
      · rw [e]; simp [span]
      · rw [if_pos e]; rfl
      · rw [if_pos e]; rfl
    · refine ⟨1, ?_, ?_, Or.inl rfl, ?_, ?_⟩
      · rw [e]; exact target_h_l2 _ (by unfold map_height; split_ifs <;> omega)
      · rw [e]; simp [span]
      · rw [if_neg (by rw [e]; norm_num)]; rfl
      · rw [if_neg (by rw [e]; norm_num)]; rfl
  have htle : t ≤ map_height levels := by rw [← htt]; exact target_h_le _ _
  have hne : ¬ (paddr &&& leaf_mask t = 0 ∨ type = P.INVALID_MEMORY) := by
    rintro (h | h)
    · rcases ht12 with e | e
      · subst e
        have hs : span 1 = 2 ^ 21 := by simp [span]
        have hl : leaf_mask 1 = tdinfo.l2_blk_oa_mask := rfl
        rw [hl, and_l2_oa] at h
        rw [← hspan, hs] at hpal
        omega
      · subst e
        have hs : span 2 = 2 ^ 30 := by simp [span]
        have hl : leaf_mask 2 = tdinfo.l1_blk_oa_mask := rfl
        rw [hl, and_l1_oa] at h
        rw [← hspan, hs] at hpal
        omega
    · exact hty h
  have hretv : ∀ v, leaf_ret t paddr v = paddr + v % range_size := by
    intro v
    have h0 : t ≠ 0 := by omega
    unfold leaf_ret
    rw [if_neg h0, hspan]
    have hrs : range_size = 2 ^ 21 ∨ range_size = 2 ^ 30 := by
      rcases hsz with ⟨e, _⟩ | ⟨e, _⟩
      · exact Or.inr e
      · exact Or.inl e
    rw [Nat.mod_eq_of_lt hm48]
    have := Nat.div_add_mod paddr range_size
    rw [hpal, Nat.add_zero] at this
    rw [this]
  have hdesc : leaf_desc t paddr prot type = block_desc paddr (leaf_mask t) prot type := by
    unfold leaf_desc
    rw [if_neg (by omega)]
  obtain ⟨a, hmap⟩ := M.mapped hret
  rw [htt] at hmap
  refine ⟨a, ?_, ?_, ?_⟩
  · have h1 := hmap vaddr (same_path_refl _ _ _)
    rw [if_neg hne] at h1
    have h2 := (walk_d_some_inv _ _ _ _ _ _ h1).2
    dsimp only at h2
    rw [← h2, hdesc, hmask]
  · intro v hv'
    have h1 := hmap v (same_path_of_div _ _ _ _ hhr (by rw [hspan]; exact hv'))
    rw [if_neg hne] at h1
    rw [pt_walk_eq_walk_h, hwh, walk_h_some_of_walk_d _ _ _ _ _ _ h1, hretv, hlvl]
  · intro hun v hwin hout
    rw [pt_walk_eq_walk_h, hwh] at hun
    rw [pt_walk_eq_walk_h, pt_walk_eq_walk_h, hwh]
    apply walk_h_of_walk_d
    apply M.rest hret hun v
    rw [htt]
    intro hsp
    apply hout
    have hb : same_path (map_height levels) t vaddr (vaddr / span t * span t) :=
      same_path_of_div _ _ _ _ hhr (by
        rw [Nat.mul_div_cancel _ (by unfold span; positivity)])
    have hsp2 := same_path_trans _ _ _ _ _ hsp hb
    have hdvd : span t ∣ span (map_height levels + 1) := by
      unfold span
      exact pow_dvd_pow 2 (by omega)
    have hw2 : v / span (map_height levels + 1)
        = vaddr / span t * span t / span (map_height levels + 1) := by
      rw [hwin]
      obtain ⟨c, hc⟩ := hdvd
      have hpos : 0 < span t := by unfold span; positivity
      have hcpos : 0 < c := by
        rcases Nat.eq_zero_or_pos c with h | h
        · rw [h, Nat.mul_zero] at hc
          have : 0 < span (map_height levels + 1) := by unfold span; positivity
          omega
        · exact h
      rw [hc, ← Nat.div_div_eq_div_mul, ← Nat.div_div_eq_div_mul,
        Nat.mul_div_cancel _ hpos]
    have := (same_path_iff (map_height levels) t v (vaddr / span t * span t) hhr htle hw2
      (Nat.mul_mod_left _ _)).1 hsp2
    rw [← hspan]
    exact Nat.div_eq_of_lt_le this.1 (by rw [Nat.add_mul, Nat.one_mul]; exact this.2)
/-- C25 in the state after boot: `mmap_addr` installs a 2 MiB block for
`0x40000000` to `0x80000000` in the host stage-2 root, and the walk of every
address of that block resolves at level 2. -/
theorem mmap_addr_block_round_trip_witness :
    attr_ok 0x40 4 ∧
    (mmap_addr virtPlatform bootMachine 0x101000 0x40000000 0x80000000 (2 ^ 21) 0x40 4 4 0).1
      = 0 ∧
    ∃ a, ∀ v, v / 2 ^ 21 = 0x40000000 / 2 ^ 21 →
      __pt_walk (mmap_addr virtPlatform bootMachine 0x101000 0x40000000 0x80000000 (2 ^ 21)
          0x40 4 4 0).2 0x101000 v 4
        = some { ret := 0x80000000 + v % 2 ^ 21, ptep := a,
                 level := if (2 : Nat) ^ 21 = 2 ^ 30 then 1 else 2 } :=
  have ha : attr_ok 0x40 4 := by unfold attr_ok; decide
  have hr : (mmap_addr virtPlatform bootMachine 0x101000 0x40000000 0x80000000 (2 ^ 21) 0x40 4
      4 0).1 = 0 := by decide
  ⟨ha, hr,
    (mmap_addr_block_round_trip virtPlatform_arena_ok 4 bootMachine_tree bootMachine_free_zero
      0x40000000 0x80000000 (2 ^ 21) 0x40 4 0 ha (by decide) (Or.inr ⟨rfl, by decide⟩)
      (by decide) (by decide) (by decide) (by decide) hr).imp (fun _ h => h.2.1)⟩

/-- C25, counterexample: in the state after boot, `mmap_addr` is called for
the 2 MiB block of `0x40000000` with the physical address `0x80000000`, which
is not zero and aligned to 2 MiB, and with the memory type `INVALID_MEMORY`.
The call returns 0, but the entry is cleared and not filled: the walk of
`0x40000000` finds no mapping afterwards. -/
theorem mmap_addr_block_invalid_type_counterexample :
    (0x40000000 : Nat) ≤ MAX_VADDR ∧ 0x80000000 % 2 ^ 21 = 0 ∧
    (mmap_addr virtPlatform bootMachine 0x101000 0x40000000 0x80000000 (2 ^ 21) 0x40
      virtPlatform.INVALID_MEMORY 4 0).1 = 0 ∧
    __pt_walk (mmap_addr virtPlatform bootMachine 0x101000 0x40000000 0x80000000 (2 ^ 21) 0x40
      virtPlatform.INVALID_MEMORY 4 0).2 0x101000 0x40000000 4 = none := by
  decide

/-! ## Invariant I2 and the mapper -/

theorem desc_ok_zero (k : Nat) : desc_ok k 0 := by
  intro h
  exact absurd (by decide) h

/-- On a tree whose entries are as `desc_ok` wants them and whose tables are
tables of the arena, invariant I2 holds from every table of the tree. -/
theorem tree_I2_reach {P : Platform} (hP : arena_ok P) {s : Machine} {ht : Nat → Option Nat}
    {par : Nat → Nat × Nat} {root hr : Nat} (T : Tree P s ht par root hr)
    (hI : tree_I2 P s ht root) : ∀ h t, ht t = some h → I2 P s h t := by
  intro h
  induction h with
  | zero =>
    intro t _
    rw [I2]
    intro j _ _
    rw [and_table_oa]
    omega
  | succ h ih =>
    intro t hk
    rw [I2]
    intro j hj hv
    have hd := hI.2 t (h + 1) j hk hj hv
    rcases hd with h0 | ⟨hty, hoa⟩ | ⟨hty, hal⟩
    · omega
    · rw [if_neg hty]
      obtain ⟨_, c2, _⟩ := T.child t h j hk hj hoa
      have hne : table_oaddr (s.mem (entry_addr t j)) ≠ root := by
        intro e
        rw [e, T.root_ht] at c2
        have := T.bound t _ hk
        cases c2
        omega
      obtain ⟨i, hi, hti⟩ := hI.1 _ h c2 hne
      refine ⟨(table_oaddr_props _ hoa).1, ⟨i, hi, hti, ?_⟩, ih _ c2⟩
      intro hb
      exact T.in_use _ h c2 ⟨i, hi, hti, hb⟩
    · rw [if_pos hty]
      exact hal

/-- C27 (amended): let `root` be the root of a tree of tables in use in which
every descriptor with the table bit and a table address is valid and refers to
a table of the tree, also when the mapper reads it in an entry that is not
valid; let the free slots of the arena be zeroed, the tables below the root
be tables of the arena and the entries of the tables satisfy I2; let the
protection bits and the memory type stay clear of the valid and table bits and
of the output address.  Then after every call of `mmap_addr`, whatever it
returns, the same holds of the state, and invariant I2 holds from the root:
every valid table descriptor reached from the root refers, page-aligned, to a
table of the arena in use, and every valid leaf descriptor has an output
address aligned to the block size of its level. -/
theorem mmap_addr_keeps_I2 {P : Platform} (hP : arena_ok P) {s : Machine}
    {ht : Nat → Option Nat} {par : Nat → Nat × Nat} {root : Nat} (levels : Nat)
    (T : Tree P s ht par root (map_height levels)) (hz : free_zero P s)
    (hI : tree_I2 P s ht root) (vaddr paddr range_size prot type vmid : Nat)
    (ha : attr_ok prot type) :
    ∃ ht' par',
      Tree P (mmap_addr P s root vaddr paddr range_size prot type levels vmid).2 ht' par' root
        (map_height levels) ∧
      free_zero P (mmap_addr P s root vaddr paddr range_size prot type levels vmid).2 ∧
      tree_I2 P (mmap_addr P s root vaddr paddr range_size prot type levels vmid).2 ht' root ∧
      I2 P (mmap_addr P s root vaddr paddr range_size prot type levels vmid).2
        (map_height levels) root := by
  by_cases hc : root = 0 ∨ vaddr > MAX_VADDR ∨ paddr > MAX_PADDR
  · have e : mmap_addr P s root vaddr paddr range_size prot type levels vmid = (-EINVAL, s) := by
      unfold mmap_addr
      rw [if_pos hc]
    rw [e]
    exact ⟨ht, par, T, hz, hI, tree_I2_reach hP T hI _ _ T.root_ht⟩
  · have hhr : map_height levels ≤ 3 := by
      unfold map_height; split_ifs <;> omega
    rw [mmap_addr_eq_map_h P s root vaddr paddr range_size prot type levels vmid
      (fun h => hc (Or.inl h))
      (by by_contra h; exact hc (Or.inr (Or.inl (by omega))))
      (by by_contra h; exact hc (Or.inr (Or.inr (by omega))))]
    have M := map_h_ok hP vaddr paddr range_size prot type vmid ha root (map_height levels)
      (map_height levels) hhr s ht par root T hz T.root_ht
    generalize map_h P (map_height levels) s root vaddr paddr range_size prot type vmid = r
      at M ⊢
    obtain ⟨ht', par', T', _, _, hkeep, hval⟩ := M.tree
    have hI' : tree_I2 P r.2 ht' root := by
      constructor
      · intro t k e hne
        rcases hkeep t k e with e1 | ⟨i, hi, hti, _⟩
        · exact hI.1 t k e1 hne
        · exact ⟨i, hi, hti⟩
      · intro t k j e hj
        by_cases hm : r.2.mem (entry_addr t j) = s.mem (entry_addr t j)
        · rw [hm]
          rcases hkeep t k e with e1 | ⟨i, hi, hti, hb⟩
          · exact hI.2 t k j e1 hj
          · have hr := entry_addr_range t j hj
            subst hti
            rw [hz i hi hb _ hr.1 hr.2]
            exact desc_ok_zero k
        · rcases hval _ hm with e0 | ⟨t0, k0, j0, e1, hj0, hx, hd⟩
          · rw [e0]; exact desc_ok_zero k
          · obtain ⟨a1, a2⟩ := entry_addr_inj t t0 j j0 (T'.aligned t _ e).1
              (T'.aligned t0 _ e1).1 hj hj0 hx
            subst a1
            rw [e] at e1
            cases e1
            exact hd
    exact ⟨ht', par', T', M.fz, hI', tree_I2_reach hP T' hI' _ _ T'.root_ht⟩
theorem bootMachine_tree_I2 : tree_I2 virtPlatform bootMachine bootHeights 0x101000 := by
  constructor
  · intro t k e hne
    simp only [bootHeights] at e
    split at e
    · rename_i h; exact absurd h hne
    · cases e
  · intro t k j _ _
    exact desc_ok_zero k

/-- C27 in the state after boot: after `mmap_addr` has mapped the page
`0x40000000` in the host stage-2 root, invariant I2 holds from the root. -/
theorem mmap_addr_keeps_I2_witness :
    attr_ok 0x40 4 ∧ tree_I2 virtPlatform bootMachine bootHeights 0x101000 ∧
    I2 virtPlatform (mmap_addr virtPlatform bootMachine 0x101000 0x40000000 0x80000000 0x1000
      0x40 4 4 0).2 3 0x101000 :=
  have ha : attr_ok 0x40 4 := by unfold attr_ok; decide
  ⟨ha, bootMachine_tree_I2,
    (mmap_addr_keeps_I2 virtPlatform_arena_ok 4 bootMachine_tree bootMachine_free_zero
      bootMachine_tree_I2 0x40000000 0x80000000 0x1000 0x40 4 0 ha).elim
      (fun _ h => h.elim (fun _ h2 => h2.2.2.2))⟩

theorem staleEntryMachine_root (j : Nat) (hj : j < 512) :
    staleEntryMachine.mem (entry_addr 0x101000 j) = if j = 0 then 0x102003 else 0 := by
  have e : staleEntryMachine.mem (entry_addr 0x101000 j) =
      (if entry_addr 0x101000 j = 0x101000 then 0x102003
        else if entry_addr 0x101000 j = 0x102008 then 0xDEAD002 else 0) := rfl
  rw [e]
  unfold entry_addr
  by_cases h0 : j = 0
  · subst h0; rfl
  · rw [if_neg (by omega), if_neg (by omega), if_neg h0]

theorem staleEntryMachine_l1 (j : Nat) (hj : j < 512) :
    staleEntryMachine.mem (entry_addr 0x102000 j) = if j = 1 then 0xDEAD002 else 0 := by
  have e : staleEntryMachine.mem (entry_addr 0x102000 j) =
      (if entry_addr 0x102000 j = 0x101000 then 0x102003
        else if entry_addr 0x102000 j = 0x102008 then 0xDEAD002 else 0) := rfl
  rw [e]
  unfold entry_addr
  by_cases h1 : j = 1
  · subst h1; rfl
  · rw [if_neg (by omega), if_neg (by omega), if_neg h1]

/-- C27, counterexample: in `staleEntryMachine` invariant I2 holds from the
host stage-2 root `0x101000`: the only valid descriptor reached is the table
descriptor for the table in slot 2, and the entry 1 of that table is not
valid, so its other fields are ignored.  The call of `mmap_addr` for the page
`0x40000000` reads the table bit and the address `0xDEAD000` of that entry,
takes it for the level-2 table and stamps the entry valid: afterwards the
entry is a valid table descriptor whose address is not a table of the arena,
and I2 does not hold. -/
theorem mmap_addr_stale_entry_counterexample :
    attr_ok 0x40 4 ∧
    I2 virtPlatform staleEntryMachine 3 0x101000 ∧
    (mmap_addr virtPlatform staleEntryMachine 0x101000 0x40000000 0x80000000 0x1000 0x40 4 4
      0).1 = 0 ∧
    (mmap_addr virtPlatform staleEntryMachine 0x101000 0x40000000 0x80000000 0x1000 0x40 4 4
      0).2.mem (entry_addr 0x102000 1) = 0xDEAD003 ∧
    ¬ I2 virtPlatform (mmap_addr virtPlatform staleEntryMachine 0x101000 0x40000000 0x80000000
      0x1000 0x40 4 4 0).2 3 0x101000 := by
  have hv0 : ∀ j, bit_raised (if j = 1 then 0xDEAD002 else 0) VALID_TABLE_BIT = 0 := by
    intro j; split <;> decide
  refine ⟨by unfold attr_ok; decide, ?_, by decide, by decide, ?_⟩
  · rw [I2]
    intro j hj hv
    rw [staleEntryMachine_root j hj] at hv ⊢
    by_cases h0 : j = 0
    · subst h0
      rw [if_neg (by decide)]
      refine ⟨by decide, ⟨2, by decide, by decide, by decide⟩, ?_⟩
      have e : table_oaddr (if (0 : Nat) = 0 then 0x102003 else 0) = 0x102000 := by decide
      rw [e, I2]
      intro j hj hv
      rw [staleEntryMachine_l1 j hj] at hv
      exact absurd (hv0 j) hv
    · rw [if_neg h0] at hv
      exact absurd (by decide) hv
  · intro h
    rw [I2] at h
    have h1 := h 0 (by decide) (by decide)
    rw [if_neg (by decide)] at h1
    obtain ⟨_, _, h2⟩ := h1
    have e : table_oaddr ((mmap_addr virtPlatform staleEntryMachine 0x101000 0x40000000
        0x80000000 0x1000 0x40 4 4 0).2.mem (entry_addr 0x101000 0)) = 0x102000 := by decide
    rw [e, I2] at h2
    have h3 := h2 1 (by decide) (by decide)
    rw [if_neg (by decide)] at h3
    obtain ⟨_, ⟨k, hk, hka, _⟩, _⟩ := h3
    have e2 : table_oaddr ((mmap_addr virtPlatform staleEntryMachine 0x101000 0x40000000
        0x80000000 0x1000 0x40 4 4 0).2.mem (entry_addr 0x102000 1)) = 0xDEAD000 := by decide
    rw [e2] at hka
    have e3 : table_addr virtPlatform k = 0x100000 + 4096 * k := rfl
    rw [e3] at hka
    unfold NUM_TABLES at hk
    omega

/-! ## The free list -/

@[simp] theorem hdr_ptr_set_ptr (s : Heap) (a v x : Nat) :
    hdr_ptr (s.set_ptr a v) x = if x = a then v else hdr_ptr s x := rfl

@[simp] theorem hdr_size_set_ptr (s : Heap) (a v x : Nat) :
    hdr_size (s.set_ptr a v) x = if x + 8 = a then v % 2 ^ 32 else hdr_size s x := by
  unfold hdr_size Heap.set_ptr
  dsimp only
  split <;> rfl

@[simp] theorem hdr_ptr_set_size (s : Heap) (a v x : Nat) :
    hdr_ptr (s.set_size a v) x = if x = a + 8 then v % 2 ^ 32 else hdr_ptr s x := rfl

@[simp] theorem hdr_size_set_size (s : Heap) (a v x : Nat) :
    hdr_size (s.set_size a v) x = if x = a then v % 2 ^ 32 else hdr_size s x := by
  unfold hdr_size Heap.set_size
  dsimp only
  by_cases h : x = a
  · subst h; simp
  · rw [if_neg (by omega), if_neg h]

theorem hd_append (l1 l2 : List (Nat × Nat)) (d : Nat) :
    hd (l1 ++ l2) d = hd l1 (hd l2 d) := by
  cases l1 <;> rfl

theorem seg_append (s : Heap) (l1 l2 : List (Nat × Nat)) (nxt : Nat) :
    seg s (l1 ++ l2) nxt ↔ seg s l1 (hd l2 nxt) ∧ seg s l2 nxt := by
  induction l1 with
  | nil => simp [seg]
  | cons x t ih =>
    rw [List.cons_append, seg, seg, ih, hd_append]
    tauto

/-- The links and sizes of a segment depend on the headers of its blocks
only. -/
theorem seg_congr (s s' : Heap) (l : List (Nat × Nat)) (nxt : Nat)
    (h : ∀ x ∈ l, hdr_ptr s' x.1 = hdr_ptr s x.1 ∧ hdr_size s' x.1 = hdr_size s x.1)
    (hs : seg s l nxt) : seg s' l nxt := by
  induction l with
  | nil => trivial
  | cons x t ih =>
    obtain ⟨h1, h2, h3⟩ := hs
    obtain ⟨e1, e2⟩ := h x (List.mem_cons_self _ _)
    exact ⟨e1.trans h1, e2.trans h2, ih (fun y hy => h y (List.mem_cons_of_mem _ hy)) h3⟩

/-- The header of a block of a segment: its size, and its successor. -/
theorem seg_mem (s : Heap) (l : List (Nat × Nat)) (nxt : Nat) (hs : seg s l nxt)
    (x : Nat × Nat) (hx : x ∈ l) : hdr_size s x.1 = x.2 := by
  induction l with
  | nil => cases hx
  | cons y t ih =>
    obtain ⟨_, h2, h3⟩ := hs
    rcases List.mem_cons.mp hx with e | e
    · subst e; exact h2
    · exact ih h3 e

/-- The condition on which the loop of `free` stops at the header `p`. -/
theorem free_scan_stop (s : Heap) (bp fuel p : Nat)
    (h : (bp > p ∧ bp < hdr_ptr s p) ∨ (p ≥ hdr_ptr s p ∧ (bp > p ∨ bp < hdr_ptr s p))) :
    free_scan s bp (fuel + 1) p = some p := by
  rw [free_scan]
  rcases h with h | h
  · rw [if_pos h]
  · by_cases c : bp > p ∧ bp < hdr_ptr s p
    · rw [if_pos c]
    · rw [if_neg c, if_pos h]

/-- The loop of `free` runs through a segment at none of whose blocks it
stops. -/
theorem free_scan_seg (s : Heap) (bp : Nat) (l : List (Nat × Nat)) (nxt : Nat)
    (hs : seg s l nxt)
    (hn : ∀ x ∈ l, ¬ ((bp > x.1 ∧ bp < hdr_ptr s x.1) ∨
      (x.1 ≥ hdr_ptr s x.1 ∧ (bp > x.1 ∨ bp < hdr_ptr s x.1)))) (fuel : Nat) :
    free_scan s bp (fuel + l.length) (hd l nxt) = free_scan s bp fuel nxt := by
  induction l with
  | nil => rfl
  | cons x t ih =>
    obtain ⟨h1, _, h3⟩ := hs
    have hx := hn x (List.mem_cons_self _ _)
    rw [List.length_cons, ← Nat.add_assoc, free_scan]
    simp only [hd]
    rw [if_neg (fun c => hx (Or.inl c)), if_neg (fun c => hx (Or.inr c)), h1]
    exact ih h3 (fun y hy => hn y (List.mem_cons_of_mem _ hy))

/-- The loop of `free` stops at the same header when it is allowed more turns. -/
theorem free_scan_mono (s : Heap) (bp : Nat) : ∀ (fuel fuel' p q : Nat), fuel ≤ fuel' →
    free_scan s bp fuel p = some q → free_scan s bp fuel' p = some q := by
  intro fuel
  induction fuel with
  | zero => intro fuel' p q _ h; cases h
  | succ fuel ih =>
    intro fuel' p q hle h
    obtain ⟨f, rfl⟩ : ∃ f, fuel' = f + 1 := ⟨fuel' - 1, by omega⟩
    rw [free_scan] at h ⊢
    split_ifs at h ⊢
    · exact h
    · exact h
    · exact ih f _ q (by omega) h

/-- The successor of a block of a segment is the end of the segment or a
later block of the segment. -/
theorem seg_ptr (s : Heap) (R : Nat × Nat → Nat × Nat → Prop) (l : List (Nat × Nat))
    (nxt : Nat) (hs : seg s l nxt) (hp : l.Pairwise R) (x : Nat × Nat) (hx : x ∈ l) :
    hdr_ptr s x.1 = nxt ∨ ∃ y ∈ l, hdr_ptr s x.1 = y.1 ∧ R x y := by
  induction l with
  | nil => cases hx
  | cons z t ih =>
    obtain ⟨h1, _, h3⟩ := hs
    rw [List.pairwise_cons] at hp
    rcases List.mem_cons.mp hx with e | e
    · subst e
      cases t with
      | nil => left; exact h1
      | cons y t' =>
        right
        exact ⟨y, List.mem_cons_of_mem _ (List.mem_cons_self _ _), h1,
          hp.1 y (List.mem_cons_self _ _)⟩
    · rcases ih h3 hp.2 e with c | ⟨y, hy, c1, c2⟩
      · exact Or.inl c
      · exact Or.inr ⟨y, List.mem_cons_of_mem _ hy, c1, c2⟩

/-- The loop of `free` from a block of a segment at none of whose blocks it
stops comes to the end of the segment. -/
theorem free_scan_from (s : Heap) (bp : Nat) (l : List (Nat × Nat)) (nxt f q : Nat)
    (hs : seg s l nxt)
    (hn : ∀ x ∈ l, ¬ ((bp > x.1 ∧ bp < hdr_ptr s x.1) ∨
      (x.1 ≥ hdr_ptr s x.1 ∧ (bp > x.1 ∨ bp < hdr_ptr s x.1))))
    (hf : ∃ n, (f, n) ∈ l) (fuel : Nat) (hq : free_scan s bp fuel nxt = some q) :
    free_scan s bp (fuel + l.length) f = some q := by
  obtain ⟨n, hfn⟩ := hf
  obtain ⟨c1, c2, rfl⟩ := List.append_of_mem hfn
  have h2 := ((seg_append s c1 ((f, n) :: c2) nxt).1 hs).2
  have := free_scan_seg s bp ((f, n) :: c2) nxt h2
    (fun x hx => hn x (List.mem_append_right _ hx)) fuel
  simp only [hd] at this
  rw [hq] at this
  exact free_scan_mono s bp _ _ f q (by simp) this
/-- The state after `free` in terms of the header `p` at which its loop
stops: the headers other than those of `p` and of the block are as before,
and the two headers hold the block joined with its neighbours where they are
adjacent. -/
theorem free_result (s : Heap) (fuel bp p : Nat) (hbp : bp < 2 ^ 64)
    (hf : s.freep ≠ 0) (hscan : free_scan s bp fuel s.freep = some p)
    (hpb : p + 16 ≤ bp ∨ bp + 16 ≤ p)
    (hnx : hdr_ptr s p + 16 ≤ bp ∨ bp + 16 ≤ hdr_ptr s p) :
    ∃ s', free fuel s (bp + 16) = some s' ∧ s'.freep = p ∧ s'.heap = s.heap ∧
      s'.heap_sz = s.heap_sz ∧
      (∀ x, (x + 16 ≤ bp ∨ bp + 16 ≤ x) → (x + 16 ≤ p ∨ p + 16 ≤ x) →
        hdr_ptr s' x = hdr_ptr s x ∧ hdr_size s' x = hdr_size s x) ∧
      (if (p + 16 * hdr_size s p) % 2 ^ 64 = bp then
        hdr_size s' p = (hdr_size s p +
          (if (bp + 16 * hdr_size s bp) % 2 ^ 64 = hdr_ptr s p then
            (hdr_size s bp + hdr_size s (hdr_ptr s p)) % 2 ^ 32 else hdr_size s bp)) % 2 ^ 32 ∧
        hdr_ptr s' p = (if (bp + 16 * hdr_size s bp) % 2 ^ 64 = hdr_ptr s p then
          hdr_ptr s (hdr_ptr s p) else hdr_ptr s p)
      else
        hdr_ptr s' p = bp ∧ hdr_size s' p = hdr_size s p ∧
        hdr_ptr s' bp = (if (bp + 16 * hdr_size s bp) % 2 ^ 64 = hdr_ptr s p then
          hdr_ptr s (hdr_ptr s p) else hdr_ptr s p) ∧
        hdr_size s' bp = (if (bp + 16 * hdr_size s bp) % 2 ^ 64 = hdr_ptr s p then
          (hdr_size s bp + hdr_size s (hdr_ptr s p)) % 2 ^ 32 else hdr_size s bp)) := by
  have e0 : (bp + 16 + 2 ^ 64 - 16) % 2 ^ 64 = bp := by omega
  have hsz : ∀ t : Heap, hdr_size t bp % 2 ^ 32 = hdr_size t bp := fun t =>
    Nat.mod_eq_of_lt (Nat.mod_lt _ (by norm_num))
  have hszp : ∀ t : Heap, hdr_size t p % 2 ^ 32 = hdr_size t p := fun t =>
    Nat.mod_eq_of_lt (Nat.mod_lt _ (by norm_num))
  have n1 : p ≠ bp := by omega
  have n2 : p ≠ bp + 8 := by omega
  have n3 : ¬ p + 8 = bp := by omega
  have n4 : hdr_ptr s p ≠ bp + 8 := by omega
  have n5 : bp ≠ p := by omega
  have n6 : ¬ bp + 8 = p := by omega
  have n7 : bp ≠ p + 8 := by omega
  unfold free
  simp only [e0, if_neg hf, hscan]
  refine ⟨_, rfl, rfl, ?_, ?_, ?_, ?_⟩
  · split_ifs <;> rfl
  · split_ifs <;> rfl
  · intro x hx1 hx2
    have m1 : x ≠ bp := by omega
    have m2 : x ≠ bp + 8 := by omega
    have m3 : ¬ x + 8 = bp := by omega
    have m4 : x ≠ p := by omega
    have m5 : x ≠ p + 8 := by omega
    have m6 : ¬ x + 8 = p := by omega
    by_cases hU : (bp + 16 * hdr_size s bp) % 2 ^ 64 = hdr_ptr s p
    · simp only [if_pos hU]
      split_ifs <;>
        simp only [hdr_ptr, hdr_size, Heap.set_ptr, Heap.set_size, if_neg m1, if_neg m2,
          if_neg m4, if_neg m5, and_self, show ¬ x + 8 = bp + 8 by omega,
          show ¬ x + 8 = p + 8 by omega, if_neg m3, if_neg m6, if_false]
    · simp only [if_neg hU]
      split_ifs <;>
        simp only [hdr_ptr, hdr_size, Heap.set_ptr, Heap.set_size, if_neg m1, if_neg m2,
          if_neg m4, if_neg m5, and_self, show ¬ x + 8 = bp + 8 by omega,
          show ¬ x + 8 = p + 8 by omega, if_neg m3, if_neg m6, if_false]
  · have k1 : ¬ p + 8 = bp + 8 := by omega
    have k2 : ¬ bp + 8 = bp := by omega
    have k3 : ¬ p + 8 = p := by omega
    have k4 : ¬ s.mem p = bp + 8 := n4
    have k5 : ¬ bp + 8 = p + 8 := by omega
    simp only [hdr_ptr, hdr_size, Heap.set_ptr, Heap.set_size] at n4 ⊢
    by_cases hU : (bp + 16 * (s.mem (bp + 8) % 2 ^ 32)) % 2 ^ 64 = s.mem p
    · by_cases hD : (p + 16 * (s.mem (p + 8) % 2 ^ 32)) % 2 ^ 64 = bp
      · simp only [if_pos hU, if_pos hD, if_neg n1, if_neg n2, if_neg n3, if_neg n5, if_neg n6,
          if_neg n7, if_neg k1, if_neg k2, if_neg k3, if_neg k4, if_neg k5, if_true, Nat.mod_mod,
          and_self]
      · simp only [if_pos hU, if_neg hD, if_neg n1, if_neg n2, if_neg n3, if_neg n5, if_neg n6,
          if_neg n7, if_neg k1, if_neg k2, if_neg k3, if_neg k4, if_neg k5, if_true, Nat.mod_mod,
          and_self]
    · by_cases hD : (p + 16 * (s.mem (p + 8) % 2 ^ 32)) % 2 ^ 64 = bp
      · simp only [if_neg hU, if_pos hD, if_neg n1, if_neg n2, if_neg n3, if_neg n5, if_neg n6,
          if_neg n7, if_neg k1, if_neg k2, if_neg k3, if_neg k4, if_neg k5, if_true, Nat.mod_mod,
          and_self]
      · simp only [if_neg hU, if_neg hD, if_neg n1, if_neg n2, if_neg n3, if_neg n5, if_neg n6,
          if_neg n7, if_neg k1, if_neg k2, if_neg k3, if_neg k4, if_neg k5, if_true, Nat.mod_mod,
          and_self]

/-- The value of `hd` is the default for the empty list and the address of a block
of the list otherwise. -/
theorem hd_mem (l : List (Nat × Nat)) (d : Nat) :
    (l = [] ∧ hd l d = d) ∨ ∃ x ∈ l, hd l d = x.1 := by
  cases l with
  | nil => exact Or.inl ⟨rfl, rfl⟩
  | cons x t => exact Or.inr ⟨x, List.mem_cons_self _ _, rfl⟩

/-- The loop of `free` for a block that lies above the blocks of `lo` and
the block `P` and below the blocks of `hi` stops at the header of `P`. -/
theorem free_scan_after (base : Nat) (s : Heap) (lo hi : List (Nat × Nat)) (P : Nat × Nat)
    (bp nb : Nat) (hL : free_list base s (lo ++ P :: hi)) (hnb1 : 1 ≤ nb)
    (hlo : ∀ x ∈ lo ++ [P], x.1 + 16 * x.2 ≤ bp ∧ x.1 + 16 ≤ bp)
    (hhi : ∀ x ∈ hi, bp + 16 * nb ≤ x.1) :
    free_scan s bp (lo ++ P :: hi).length s.freep = some P.1 ∧
    hdr_ptr s P.1 = hd hi (hd lo P.1) ∧ hdr_size s P.1 = P.2 ∧
    seg s lo P.1 ∧ seg s hi (hd lo P.1) ∧ hd lo P.1 + 16 ≤ bp := by
  have hcyc := hL.cyc
  have hfirst : hd (lo ++ P :: hi) 0 = hd lo P.1 := by rw [hd_append]; rfl
  rw [hfirst, seg_append] at hcyc
  obtain ⟨s1, s2, s3, s4⟩ := hcyc
  have hsort := hL.sorted
  rw [List.pairwise_append, List.pairwise_cons] at hsort
  obtain ⟨p1, ⟨p2, p3⟩, p4⟩ := hsort
  have hPlo := hlo P (List.mem_append_right _ (List.mem_singleton_self _))
  have hfb : hd lo P.1 + 16 ≤ bp := by
    rcases hd_mem lo P.1 with ⟨_, e⟩ | ⟨x, hx, e⟩
    · rw [e]; exact hPlo.2
    · rw [e]; exact (hlo x (List.mem_append_left _ hx)).2
  have hfP : hd lo P.1 ≤ P.1 := by
    rcases hd_mem lo P.1 with ⟨_, e⟩ | ⟨x, hx, e⟩
    · rw [e]
    · rw [e]
      have := (p4 x hx P (List.mem_cons_self _ _)).2
      omega
  -- the blocks of `lo`
  have nlo : ∀ x ∈ lo, ¬ ((bp > x.1 ∧ bp < hdr_ptr s x.1) ∨
      (x.1 ≥ hdr_ptr s x.1 ∧ (bp > x.1 ∨ bp < hdr_ptr s x.1))) := by
    intro x hx
    have gP := p4 x hx P (List.mem_cons_self _ _)
    rcases seg_ptr s gap lo P.1 s1 p1 x hx with e | ⟨y, hy, e, g⟩
    · rw [e]; have := gP.2; omega
    · rw [e]
      have := (hlo y (List.mem_append_left _ hy)).2
      have := g.2
      omega
  -- the blocks of `hi`
  have nhi : ∀ x ∈ hi, ¬ ((bp > x.1 ∧ bp < hdr_ptr s x.1) ∨
      (x.1 ≥ hdr_ptr s x.1 ∧ (bp > x.1 ∨ bp < hdr_ptr s x.1))) := by
    intro x hx
    have := hhi x hx
    rcases seg_ptr s gap hi (hd lo P.1) s4 p3 x hx with e | ⟨y, hy, e, g⟩
    · rw [e]; omega
    · rw [e]
      have := g.2
      omega
  -- the block `P`
  have hstop : (bp > P.1 ∧ bp < hdr_ptr s P.1) ∨
      (P.1 ≥ hdr_ptr s P.1 ∧ (bp > P.1 ∨ bp < hdr_ptr s P.1)) := by
    rw [s2]
    rcases hd_mem hi (hd lo P.1) with ⟨_, e⟩ | ⟨y, hy, e⟩
    · rw [e]; right; have := hPlo.2; omega
    · rw [e]; left
      have := hhi y hy
      have := hPlo.2
      omega
  refine ⟨?_, s2, s3, s1, s4, hfb⟩
  obtain ⟨n, hf⟩ := hL.freep
  rcases List.mem_append.mp hf with h | h
  · have := free_scan_from s bp lo P.1 s.freep P.1 s1 nlo ⟨n, h⟩ 1
      (free_scan_stop s bp 0 P.1 hstop)
    exact free_scan_mono s bp _ _ _ _ (by simp; omega) this
  · rcases List.mem_cons.mp h with e | h
    · have e1 : s.freep = P.1 := by rw [← e]
      rw [e1]
      have : (lo ++ P :: hi).length = (lo.length + hi.length) + 1 := by simp; omega
      rw [this]
      exact free_scan_stop s bp _ P.1 hstop
    · have h1 : free_scan s bp (1 + lo.length) (hd lo P.1) = some P.1 := by
        rw [free_scan_seg s bp lo P.1 s1 nlo 1]
        exact free_scan_stop s bp 0 P.1 hstop
      have := free_scan_from s bp hi (hd lo P.1) s.freep P.1 s4 nhi ⟨n, h⟩ _ h1
      exact free_scan_mono s bp _ _ _ _ (by simp; omega) this

/-- A list ordered by `gap` holds at most one block at an address. -/
theorem gap_inj (L : List (Nat × Nat)) (hs : L.Pairwise gap) (x y : Nat × Nat) (hx : x ∈ L)
    (hy : y ∈ L) (e : x.1 = y.1) : x = y := by
  induction L with
  | nil => cases hx
  | cons z t ih =>
    rw [List.pairwise_cons] at hs
    rcases List.mem_cons.mp hx with ex | ex <;> rcases List.mem_cons.mp hy with ey | ey
    · rw [ex, ey]
    · subst ex
      have := (hs.1 y ey).2
      omega
    · subst ey
      have := (hs.1 x ex).2
      omega
    · exact ih hs.2 ex ey

/-- The block joined with the first block of `hi` when the two are adjacent:
its size `bsz`, the blocks `rest` that follow it, and what the headers hold
for them. -/
theorem free_upper (base : Nat) (s : Heap) (L hi : List (Nat × Nat)) (first bp nb : Nat)
    (hb : (base, 0) ∈ L) (hsub : ∀ x ∈ hi, x ∈ L) (hsort : L.Pairwise gap)
    (hout : base + 16 ≤ s.heap ∨ s.heap + s.heap_sz ≤ base)
    (hregion : ∀ x ∈ L, x.1 ≠ base →
      x.2 ≠ 0 ∧ s.heap ≤ x.1 ∧ x.1 + 16 * x.2 < s.heap + s.heap_sz)
    (hseg : seg s hi first) (hp : hi.Pairwise gap) (hnb1 : 1 ≤ nb)
    (hreg : s.heap ≤ bp ∧ bp + 16 * nb < s.heap + s.heap_sz)
    (hhi : ∀ x ∈ hi, bp + 16 * nb ≤ x.1) (hfirst : first + 16 ≤ bp ∨ hi ≠ []) :
    ∃ bsz rest,
      merged [] hi bp nb = (bp, bsz) :: rest ∧
      (if bp + 16 * nb = hd hi first then nb + hdr_size s (hd hi first) else nb) = bsz ∧
      (if bp + 16 * nb = hd hi first then hdr_ptr s (hd hi first) else hd hi first)
        = hd rest first ∧
      seg s rest first ∧ rest.Pairwise gap ∧ (∀ y ∈ rest, y ∈ hi) ∧
      (∀ y ∈ rest, bp + 16 * bsz < y.1) ∧ nb ≤ bsz ∧ bp + 16 * bsz < s.heap + s.heap_sz ∧
      ((bsz = nb ∧ rest = hi) ∨ ∃ N, hi = N :: rest ∧ bp + 16 * nb = N.1 ∧ bsz = nb + N.2) := by
  cases hi with
  | nil =>
    refine ⟨nb, [], rfl, ?_, ?_, trivial, List.Pairwise.nil, fun y hy => hy,
      fun y hy => absurd hy (List.not_mem_nil y), le_refl _, hreg.2, Or.inl ⟨rfl, rfl⟩⟩
    · have e : hd [] first = first := rfl
      rw [e]
      rcases hfirst with h | h
      · rw [if_neg (by omega)]
      · exact absurd rfl h
    · have e : hd [] first = first := rfl
      rw [e]
      rcases hfirst with h | h
      · rw [if_neg (by omega)]
      · exact absurd rfl h
  | cons N t =>
    obtain ⟨h1, h2, h3⟩ := hseg
    rw [List.pairwise_cons] at hp
    have e : hd (N :: t) first = N.1 := rfl
    rw [e]
    by_cases hU : bp + 16 * nb = N.1
    · have hNb : N.1 ≠ base := by
        intro e
        rw [e] at hU
        omega
      obtain ⟨r1, r2, r3⟩ := hregion N (hsub N (List.mem_cons_self _ _)) hNb
      refine ⟨nb + N.2, t, by simp [merged, hU], by rw [if_pos hU, h2], by rw [if_pos hU, h1], h3,
        hp.2, fun y hy => List.mem_cons_of_mem _ hy, ?_, by omega, by omega,
        Or.inr ⟨N, rfl, hU, rfl⟩⟩
      intro y hy
      have := (hp.1 y hy).1
      omega
    · refine ⟨nb, N :: t, by simp [merged, hU], by rw [if_neg hU], by rw [if_neg hU]; rfl,
        ⟨h1, h2, h3⟩, List.pairwise_cons.mpr hp, fun y hy => hy, ?_, le_refl _, hreg.2,
        Or.inl ⟨rfl, rfl⟩⟩
      intro y hy
      rcases List.mem_cons.mp hy with e | e
      · subst e
        have := hhi y (List.mem_cons_self _ _)
        omega
      · have := (hp.1 y e).1
        have := hhi N (List.mem_cons_self _ _)
        omega

/-- The list `merged` when `lo` ends with the block `P`, in terms of the list for
an empty `lo`. -/
theorem merged_concat (lo hi : List (Nat × Nat)) (P b : Nat × Nat) (r : List (Nat × Nat))
    (bp nb : Nat) (h : merged [] hi bp nb = b :: r) :
    merged (lo ++ [P]) hi bp nb =
      if P.1 + 16 * P.2 = bp then lo ++ (P.1, P.2 + b.2) :: r else lo ++ P :: b :: r := by
  unfold merged at h ⊢
  simp only [List.getLast?_nil, List.getLast?_concat, List.dropLast_concat] at h ⊢
  rw [List.cons.injEq] at h
  rw [h.1, h.2]
  split_ifs
  · rfl
  · simp
/-- The function `free` for a block that lies above the block `P` of the free
list and below the blocks of `hi`. -/
theorem free_after (base : Nat) (s : Heap) (lo hi : List (Nat × Nat)) (P : Nat × Nat)
    (bp nb : Nat) (hL : free_list base s (lo ++ P :: hi)) (hbp : bp < 2 ^ 64)
    (hnb : hdr_size s bp = nb) (hnb1 : 1 ≤ nb)
    (hreg : s.heap ≤ bp ∧ bp + 16 * nb < s.heap + s.heap_sz)
    (hlo : ∀ x ∈ lo ++ [P], x.1 + 16 * x.2 ≤ bp ∧ x.1 + 16 ≤ bp)
    (hhi : ∀ x ∈ hi, bp + 16 * nb ≤ x.1) :
    ∃ s', free (lo ++ P :: hi).length s (bp + 16) = some s' ∧
      free_list base s' (merged (lo ++ [P]) hi bp nb) := by
  obtain ⟨hscan, hpn, hps, segLo, segHi, hfb⟩ :=
    free_scan_after base s lo hi P bp nb hL hnb1 hlo hhi
  have hsort := hL.sorted
  rw [List.pairwise_append, List.pairwise_cons] at hsort
  obtain ⟨p1, ⟨p2, p3⟩, p4⟩ := hsort
  have hPlo := hlo P (List.mem_append_right _ (List.mem_singleton_self _))
  obtain ⟨hh0, hh1, hh2⟩ := hL.heap_ok
  have hf0 : s.freep ≠ 0 := by
    obtain ⟨n, hf⟩ := hL.freep
    by_cases e : s.freep = base
    · rw [e]; exact hL.base_ok.1
    · have := (hL.region _ hf e).2.1
      omega
  have hnx : hdr_ptr s P.1 + 16 ≤ bp ∨ bp + 16 ≤ hdr_ptr s P.1 := by
    rw [hpn]
    rcases hd_mem hi (hd lo P.1) with ⟨_, e⟩ | ⟨y, hy, e⟩
    · rw [e]; exact Or.inl hfb
    · rw [e]; right; have := hhi y hy; omega
  obtain ⟨s', hfree, hfp, hh, hhs, F, R⟩ :=
    free_result s (lo ++ P :: hi).length bp P.1 hbp hf0 hscan (Or.inl hPlo.2) hnx
  obtain ⟨bsz, rest, hup, hsb, hpb, segRest, pRest, hrestsub, hrestgap, hnbsz, hbszreg, hcase⟩ :=
    free_upper base s (lo ++ P :: hi) hi (hd lo P.1) bp nb hL.base_in
      (fun x hx => List.mem_append_right _ (List.mem_cons_of_mem _ hx)) hL.sorted hL.base_out
      hL.region segHi p3 hnb1 hreg hhi (Or.inl hfb)
  have hbsz32 : bsz < 2 ^ 32 := by omega
  have eU : (bp + 16 * hdr_size s bp) % 2 ^ 64 = bp + 16 * nb := by
    rw [hnb]; exact Nat.mod_eq_of_lt (by omega)
  have eD : (P.1 + 16 * hdr_size s P.1) % 2 ^ 64 = P.1 + 16 * P.2 := by
    rw [hps]; exact Nat.mod_eq_of_lt (by omega)
  rw [eU, eD, hpn, hnb] at R
  have hsb' : (if bp + 16 * nb = hd hi (hd lo P.1) then
      (nb + hdr_size s (hd hi (hd lo P.1))) % 2 ^ 32 else nb) = bsz := by
    by_cases c : bp + 16 * nb = hd hi (hd lo P.1)
    · rw [if_pos c] at hsb ⊢
      rw [hsb]; exact Nat.mod_eq_of_lt hbsz32
    · rw [if_neg c] at hsb ⊢
      exact hsb
  rw [hsb', hpb, hps] at R
  have hm : merged (lo ++ [P]) hi bp nb =
      if P.1 + 16 * P.2 = bp then lo ++ (P.1, P.2 + bsz) :: rest
      else lo ++ P :: (bp, bsz) :: rest := merged_concat lo hi P (bp, bsz) rest bp nb hup
  have frLo : seg s' lo P.1 := by
    apply seg_congr s s' lo P.1 _ segLo
    intro x hx
    exact F x.1 (Or.inl (hlo x (List.mem_append_left _ hx)).2)
      (Or.inl (p4 x hx P (List.mem_cons_self _ _)).2)
  have frRest : seg s' rest (hd lo P.1) := by
    apply seg_congr s s' rest _ _ segRest
    intro y hy
    have h1 := hhi y (hrestsub y hy)
    exact F y.1 (Or.inr (by omega)) (Or.inr (p2 y (hrestsub y hy)).2)
  have hbase_rest : ∀ x ∈ hi, x.1 = base → x ∈ rest := by
    intro x hx e
    rcases hcase with ⟨_, c⟩ | ⟨N, c1, c2, _⟩
    · rw [c]; exact hx
    · rw [c1] at hx
      rcases List.mem_cons.mp hx with e2 | e2
      · exfalso
        rw [e2] at e
        have := hL.base_out
        omega
      · exact e2
  rw [hm]
  refine ⟨s', hfree, ?_⟩
  by_cases hD : P.1 + 16 * P.2 = bp
  · rw [if_pos hD] at R ⊢
    obtain ⟨R1, R2⟩ := R
    have hPb : P.1 ≠ base := by
      intro e
      have := gap_inj _ hL.sorted P (base, 0) (List.mem_append_right _ (List.mem_cons_self _ _))
        hL.base_in e
      rw [this] at hD hPlo
      dsimp only at hD hPlo
      omega
    obtain ⟨r1, r2, r3⟩ := hL.region P (List.mem_append_right _ (List.mem_cons_self _ _)) hPb
    have hsz : (P.2 + bsz) % 2 ^ 32 = P.2 + bsz := Nat.mod_eq_of_lt (by omega)
    rw [hsz] at R1
    refine ⟨?_, ?_, ⟨P.2 + bsz, by rw [hfp]; simp⟩, ?_, by rw [hh, hhs]; exact hL.base_out,
      hL.base_ok, ?_, by rw [hh, hhs]; exact hL.heap_ok⟩
    · have e : hd (lo ++ (P.1, P.2 + bsz) :: rest) 0 = hd lo P.1 := by rw [hd_append]; rfl
      rw [e, seg_append]
      exact ⟨frLo, R2, R1, frRest⟩
    · rw [List.pairwise_append, List.pairwise_cons]
      refine ⟨p1, ⟨?_, pRest⟩, ?_⟩
      · intro y hy
        have := hrestgap y hy
        have := (p2 y (hrestsub y hy)).2
        exact ⟨by dsimp only; omega, this⟩
      · intro x hx y hy
        rcases List.mem_cons.mp hy with e | e
        · subst e
          exact p4 x hx P (List.mem_cons_self _ _)
        · exact p4 x hx y (List.mem_cons_of_mem _ (hrestsub y e))
    · rcases List.mem_append.mp hL.base_in with h | h
      · exact List.mem_append_left _ h
      · rcases List.mem_cons.mp h with e | e
        · exact absurd (by rw [← e]) hPb
        · exact List.mem_append_right _ (List.mem_cons_of_mem _ (hbase_rest _ e rfl))
    · intro x hx hxb
      rw [hh, hhs]
      rcases List.mem_append.mp hx with h | h
      · exact hL.region x (List.mem_append_left _ h) hxb
      · rcases List.mem_cons.mp h with e | e
        · subst e
          dsimp only
          exact ⟨by omega, r2, by omega⟩
        · exact hL.region x (List.mem_append_right _ (List.mem_cons_of_mem _ (hrestsub x e))) hxb
  · rw [if_neg hD] at R ⊢
    obtain ⟨R1, R2, R3, R4⟩ := R
    refine ⟨?_, ?_, ⟨P.2, by rw [hfp]; simp⟩, ?_, by rw [hh, hhs]; exact hL.base_out,
      hL.base_ok, ?_, by rw [hh, hhs]; exact hL.heap_ok⟩
    · have e : hd (lo ++ P :: (bp, bsz) :: rest) 0 = hd lo P.1 := by rw [hd_append]; rfl
      rw [e, seg_append]
      exact ⟨frLo, R1, R2, R3, R4, frRest⟩
    · rw [List.pairwise_append, List.pairwise_cons, List.pairwise_cons]
      refine ⟨p1, ⟨?_, ?_, pRest⟩, ?_⟩
      · intro y hy
        rcases List.mem_cons.mp hy with e | e
        · subst e
          exact ⟨by dsimp only; omega, hPlo.2⟩
        · exact p2 y (hrestsub y e)
      · intro y hy
        have := hrestgap y hy
        have := hhi y (hrestsub y hy)
        exact ⟨by dsimp only; omega, by dsimp only; omega⟩
      · intro x hx y hy
        have gP := p4 x hx P (List.mem_cons_self _ _)
        rcases List.mem_cons.mp hy with e | e
        · subst e; exact gP
        · rcases List.mem_cons.mp e with e | e
          · subst e
            exact ⟨by dsimp only; have := gP.1; have := hPlo.2; omega,
              by dsimp only; have := gP.2; have := hPlo.2; omega⟩
          · exact p4 x hx y (List.mem_cons_of_mem _ (hrestsub y e))
    · rcases List.mem_append.mp hL.base_in with h | h
      · exact List.mem_append_left _ h
      · rcases List.mem_cons.mp h with e | e
        · rw [e]; exact List.mem_append_right _ (List.mem_cons_self _ _)
        · exact List.mem_append_right _ (List.mem_cons_of_mem _ (List.mem_cons_of_mem _
            (hbase_rest _ e rfl)))
    · intro x hx hxb
      rw [hh, hhs]
      rcases List.mem_append.mp hx with h | h
      · exact hL.region x (List.mem_append_left _ h) hxb
      · rcases List.mem_cons.mp h with e | e
        · subst e
          exact hL.region x (List.mem_append_right _ (List.mem_cons_self _ _)) hxb
        · rcases List.mem_cons.mp e with e | e
          · subst e
            dsimp only
            exact ⟨by omega, hreg.1, hbszreg⟩
          · exact hL.region x (List.mem_append_right _ (List.mem_cons_of_mem _ (hrestsub x e)))
              hxb

/-- The function `free` for a block that lies below all the blocks of the
free list. -/
theorem free_before (base : Nat) (s : Heap) (hi : List (Nat × Nat)) (P : Nat × Nat)
    (bp nb : Nat) (hL : free_list base s (hi ++ [P])) (hbp : bp < 2 ^ 64)
    (hnb : hdr_size s bp = nb) (hnb1 : 1 ≤ nb)
    (hreg : s.heap ≤ bp ∧ bp + 16 * nb < s.heap + s.heap_sz)
    (hhi : ∀ x ∈ hi ++ [P], bp + 16 * nb ≤ x.1) :
    ∃ s', free (hi ++ [P]).length s (bp + 16) = some s' ∧
      free_list base s' (merged [] (hi ++ [P]) bp nb) := by
  have hcyc := hL.cyc
  have hfirst : hd (hi ++ [P]) 0 = hd hi P.1 := by rw [hd_append]; rfl
  rw [hfirst, seg_append] at hcyc
  obtain ⟨s1, s2, s3, _⟩ := hcyc
  have e1 : hd [P] (hd hi P.1) = P.1 := rfl
  have e0 : hd ([] : List (Nat × Nat)) (hd hi P.1) = hd hi P.1 := rfl
  rw [e1] at s1
  rw [e0] at s2
  have hsort := hL.sorted
  rw [List.pairwise_append] at hsort
  obtain ⟨p1, _, p4⟩ := hsort
  have hP := hhi P (List.mem_append_right _ (List.mem_singleton_self _))
  obtain ⟨hh0, hh1, hh2⟩ := hL.heap_ok
  have hfP : hd hi P.1 ≤ P.1 ∧ bp + 16 * nb ≤ hd hi P.1 := by
    rcases hd_mem hi P.1 with ⟨_, e⟩ | ⟨x, hx, e⟩
    · rw [e]; exact ⟨le_refl _, hP⟩
    · rw [e]
      have := (p4 x hx P (List.mem_singleton_self _)).2
      exact ⟨by omega, hhi x (List.mem_append_left _ hx)⟩
  have hf0 : s.freep ≠ 0 := by
    obtain ⟨n, hf⟩ := hL.freep
    by_cases e : s.freep = base
    · rw [e]; exact hL.base_ok.1
    · have := (hL.region _ hf e).2.1
      omega
  have nhi : ∀ x ∈ hi, ¬ ((bp > x.1 ∧ bp < hdr_ptr s x.1) ∨
      (x.1 ≥ hdr_ptr s x.1 ∧ (bp > x.1 ∨ bp < hdr_ptr s x.1))) := by
    intro x hx
    have := hhi x (List.mem_append_left _ hx)
    have gP := p4 x hx P (List.mem_singleton_self _)
    rcases seg_ptr s gap hi P.1 s1 p1 x hx with e | ⟨y, hy, e, g⟩
    · rw [e]; have := gP.2; omega
    · rw [e]
      have := g.2
      omega
  have hstop : (bp > P.1 ∧ bp < hdr_ptr s P.1) ∨
      (P.1 ≥ hdr_ptr s P.1 ∧ (bp > P.1 ∨ bp < hdr_ptr s P.1)) := by
    rw [s2]; right; omega
  have hscan : free_scan s bp (hi ++ [P]).length s.freep = some P.1 := by
    obtain ⟨n, hf⟩ := hL.freep
    rcases List.mem_append.mp hf with h | h
    · have := free_scan_from s bp hi P.1 s.freep P.1 s1 nhi ⟨n, h⟩ 1
        (free_scan_stop s bp 0 P.1 hstop)
      exact free_scan_mono s bp _ _ _ _ (by simp; omega) this
    · have e2 : s.freep = P.1 := by rw [← List.mem_singleton.mp h]
      rw [e2]
      have : (hi ++ [P]).length = hi.length + 1 := by simp
      rw [this]
      exact free_scan_stop s bp _ P.1 hstop
  have hnx : hdr_ptr s P.1 + 16 ≤ bp ∨ bp + 16 ≤ hdr_ptr s P.1 := by
    rw [s2]; right; omega
  obtain ⟨s', hfree, hfp, hh, hhs, F, R⟩ :=
    free_result s (hi ++ [P]).length bp P.1 hbp hf0 hscan (Or.inr (by omega)) hnx
  obtain ⟨bsz, rest, hup, hsb, hpb, segRest, pRest, hrestsub, hrestgap, hnbsz, hbszreg, hcase⟩ :=
    free_upper base s (hi ++ [P]) (hi ++ [P]) (hd hi P.1) bp nb hL.base_in
      (fun x hx => hx) hL.sorted hL.base_out hL.region
      (by rw [seg_append]; exact ⟨s1, s2, s3, trivial⟩) hL.sorted hnb1 hreg hhi
      (Or.inr (by simp))
  have hbsz32 : bsz < 2 ^ 32 := by omega
  have hfl : hd (hi ++ [P]) (hd hi P.1) = hd hi P.1 := by rw [hd_append]; rfl
  rw [hfl] at hsb hpb
  have hPnw : P.1 + 16 * P.2 < 2 ^ 64 := by
    by_cases e : P.1 = base
    · have := gap_inj _ hL.sorted P (base, 0)
        (List.mem_append_right _ (List.mem_singleton_self _)) hL.base_in e
      rw [this]
      dsimp only
      have := hL.base_ok
      omega
    · have := (hL.region P (List.mem_append_right _ (List.mem_singleton_self _)) e).2.2
      omega
  have eU : (bp + 16 * hdr_size s bp) % 2 ^ 64 = bp + 16 * nb := by
    rw [hnb]; exact Nat.mod_eq_of_lt (by omega)
  have eD : (P.1 + 16 * hdr_size s P.1) % 2 ^ 64 = P.1 + 16 * P.2 := by
    rw [s3]; exact Nat.mod_eq_of_lt hPnw
  rw [eU, eD, s2, hnb] at R
  have hsb' : (if bp + 16 * nb = hd hi P.1 then
      (nb + hdr_size s (hd hi P.1)) % 2 ^ 32 else nb) = bsz := by
    by_cases c : bp + 16 * nb = hd hi P.1
    · rw [if_pos c] at hsb ⊢
      rw [hsb]; exact Nat.mod_eq_of_lt hbsz32
    · rw [if_neg c] at hsb ⊢
      exact hsb
  rw [hsb', hpb, s3, if_neg (by omega)] at R
  obtain ⟨R1, R2, R3, R4⟩ := R
  have hbase_rest : (base, 0) ∈ rest := by
    have hb := hL.base_in
    rcases hcase with ⟨_, c⟩ | ⟨N, c1, c2, _⟩
    · rw [c]; exact hb
    · rw [c1] at hb
      rcases List.mem_cons.mp hb with e2 | e2
      · exfalso
        rw [← e2] at c2
        dsimp only at c2
        have := hL.base_out
        omega
      · exact e2
  obtain ⟨r, hr, hrsub⟩ : ∃ r, rest = r ++ [P] ∧ ∀ x ∈ r, x ∈ hi := by
    rcases hcase with ⟨_, c⟩ | ⟨N, c1, c2, _⟩
    · exact ⟨hi, c, fun x hx => hx⟩
    · cases hi with
      | nil =>
        exfalso
        rw [List.nil_append, List.cons.injEq] at c1
        rw [← c1.2] at hbase_rest
        cases hbase_rest
      | cons h0 t0 =>
        rw [List.cons_append, List.cons.injEq] at c1
        exact ⟨t0, c1.2.symm, fun x hx => List.mem_cons_of_mem _ hx⟩
  rw [hup]
  refine ⟨s', hfree, ?_⟩
  rw [hr, seg_append] at segRest
  obtain ⟨sr, _⟩ := segRest
  have e3 : hd [P] (hd hi P.1) = P.1 := rfl
  rw [e3] at sr
  have hdr : hd rest (hd hi P.1) = hd rest bp := by
    rw [hr, hd_append, hd_append]; rfl
  rw [hdr] at R3
  have frR : seg s' r P.1 := by
    apply seg_congr s s' r P.1 _ sr
    intro y hy
    have h1 := hhi y (List.mem_append_left _ (hrsub y hy))
    exact F y.1 (Or.inr (by omega)) (Or.inl (p4 y (hrsub y hy) P (List.mem_singleton_self _)).2)
  refine ⟨?_, ?_, ⟨P.2, by rw [hfp, hr]; simp⟩, List.mem_cons_of_mem _ hbase_rest,
    by rw [hh, hhs]; exact hL.base_out, hL.base_ok, ?_, by rw [hh, hhs]; exact hL.heap_ok⟩
  · have e : hd ((bp, bsz) :: rest) 0 = bp := rfl
    rw [e]
    refine ⟨R3, R4, ?_⟩
    rw [hr, seg_append]
    exact ⟨frR, R1, R2, trivial⟩
  · rw [List.pairwise_cons]
    refine ⟨?_, pRest⟩
    intro y hy
    have := hrestgap y hy
    have := hhi y (hrestsub y hy)
    exact ⟨by dsimp only; omega, by dsimp only; omega⟩
  · intro x hx hxb
    rw [hh, hhs]
    rcases List.mem_cons.mp hx with e | e
    · subst e
      dsimp only
      exact ⟨by omega, hreg.1, hbszreg⟩
    · exact hL.region x (hrestsub x e) hxb

/-- The block put into the list is part of a block of the list. -/
theorem merged_covers (lo hi : List (Nat × Nat)) (bp nb : Nat) :
    ∃ x ∈ merged lo hi bp nb, x.1 ≤ bp ∧ bp + 16 * nb ≤ x.1 + 16 * x.2 := by
  have hup : ∃ b r, merged [] hi bp nb = b :: r ∧ b.1 = bp ∧ nb ≤ b.2 := by
    cases hi with
    | nil => exact ⟨(bp, nb), [], rfl, rfl, le_refl _⟩
    | cons y t =>
      by_cases c : bp + 16 * nb = y.1
      · exact ⟨(bp, nb + y.2), t, by simp [merged, c], rfl, by dsimp only; omega⟩
      · exact ⟨(bp, nb), y :: t, by simp [merged, c], rfl, le_refl _⟩
  obtain ⟨b, r, h, hb1, hb2⟩ := hup
  rcases List.eq_nil_or_concat lo with e | ⟨lo1, P, e⟩
  · subst e
    rw [h]
    exact ⟨b, List.mem_cons_self _ _, by omega, by omega⟩
  · rw [List.concat_eq_append] at e
    subst e
    rw [merged_concat lo1 hi P b r bp nb h]
    by_cases c : P.1 + 16 * P.2 = bp
    · rw [if_pos c]
      exact ⟨(P.1, P.2 + b.2), by simp, by dsimp only; omega, by dsimp only; omega⟩
    · rw [if_neg c]
      exact ⟨b, by simp, by omega, by omega⟩

/-- C28 (amended): on a well-formed free list (the headers linked in a circle
in the order of the addresses, no two blocks adjacent, the static header `base`
among them and outside the registered region), `free` of an allocated block
of `nb` units at `bp` that lies above the blocks of `lo` and below the blocks
of `hi` returns, and the free list is then `merged lo hi bp nb`: again
well-formed, so circular, ordered by address and with no two blocks adjacent,
with the block joined with its lower and its upper neighbour where they are
adjacent, and with all units of the block in one block of the list. -/
theorem free_coalesces (base : Nat) (s : Heap) (lo hi : List (Nat × Nat)) (bp nb : Nat)
    (hL : free_list base s (lo ++ hi)) (hnb : hdr_size s bp = nb) (hnb1 : 1 ≤ nb)
    (hreg : s.heap ≤ bp ∧ bp + 16 * nb < s.heap + s.heap_sz)
    (hlo : ∀ x ∈ lo, x.1 + 16 * x.2 ≤ bp) (hhi : ∀ x ∈ hi, bp + 16 * nb ≤ x.1) :
    ∃ s', free (lo ++ hi).length s (bp + 16) = some s' ∧
      free_list base s' (merged lo hi bp nb) ∧
      ∃ x ∈ merged lo hi bp nb, x.1 ≤ bp ∧ bp + 16 * nb ≤ x.1 + 16 * x.2 := by
  obtain ⟨hh0, hh1, hh2⟩ := hL.heap_ok
  have hbp : bp < 2 ^ 64 := by omega
  have hlo16 : ∀ x ∈ lo, x.1 + 16 * x.2 ≤ bp ∧ x.1 + 16 ≤ bp := by
    intro x hx
    have h1 := hlo x hx
    refine ⟨h1, ?_⟩
    by_cases e : x.1 = base
    · have := hL.base_out
      omega
    · have := (hL.region x (List.mem_append_left _ hx) e).1
      omega
  rcases List.eq_nil_or_concat lo with e | ⟨lo1, P, e⟩
  · subst e
    rw [List.nil_append] at hL ⊢
    rcases List.eq_nil_or_concat hi with e | ⟨hi1, P, e⟩
    · subst e
      exact absurd hL.base_in (List.not_mem_nil _)
    · rw [List.concat_eq_append] at e
      subst e
      obtain ⟨s', h1, h2⟩ := free_before base s hi1 P bp nb hL hbp hnb hnb1 hreg hhi
      exact ⟨s', h1, h2, merged_covers _ _ _ _⟩
  · rw [List.concat_eq_append] at e
    subst e
    have e : lo1 ++ [P] ++ hi = lo1 ++ P :: hi := by simp
    rw [e] at hL ⊢
    obtain ⟨s', h1, h2⟩ := free_after base s lo1 hi P bp nb hL hbp hnb hnb1 hreg hlo16 hhi
    exact ⟨s', h1, h2, merged_covers _ _ _ _⟩

/-- The free list of `freeListHeap`. -/
theorem freeListHeap_free_list :
    free_list 0x1000 freeListHeap ([(0x1000, 0), (0x200000, 4)] ++ [(0x200060, 3)]) := by
  refine ⟨?_, ?_, ⟨0, by decide⟩, by decide, by decide, by decide, ?_, by decide⟩
  · simp [seg, hd, hdr_ptr, hdr_size, freeListHeap]
  · simp [gap]
  · intro x hx hxb
    simp only [List.cons_append, List.nil_append, List.mem_cons, List.mem_singleton,
      List.not_mem_nil, or_false] at hx
    rcases hx with e | e | e
    · rw [e] at hxb; exact absurd rfl hxb
    · rw [e]; decide
    · rw [e]; decide

/-- C28, witness: in `freeListHeap` the block of 2 units at `0x200040` lies
between the block of 4 units at `0x200000` and the block of 3 units at
`0x200060`; `free(0x200050)` joins the three into the block of 9 units at
`0x200000`. -/
theorem free_coalesces_witness :
    merged [(0x1000, 0), (0x200000, 4)] [(0x200060, 3)] 0x200040 2
      = [(0x1000, 0), (0x200000, 9)] ∧
    ∃ s', free 3 freeListHeap 0x200050 = some s' ∧
      free_list 0x1000 s' (merged [(0x1000, 0), (0x200000, 4)] [(0x200060, 3)] 0x200040 2) ∧
      ∃ x ∈ merged [(0x1000, 0), (0x200000, 4)] [(0x200060, 3)] 0x200040 2,
        x.1 ≤ 0x200040 ∧ 0x200040 + 16 * 2 ≤ x.1 + 16 * x.2 :=
  ⟨by decide, free_coalesces 0x1000 freeListHeap [(0x1000, 0), (0x200000, 4)] [(0x200060, 3)]
    0x200040 2 freeListHeap_free_list (by decide) (by decide) (by decide) (by decide)
    (by decide)⟩

/-- C28, counterexample: the free list of `loneBlockHeap` is the block of 3
units at `0x200060` alone, linked to itself: it is circular and ordered by
address, and no two of its blocks are adjacent.  The allocated block of 2
units at `0x200040` ends where that block starts.  `free(0x200050)` returns
and joins the two into a block of 5 units at `0x200040`, but the header at
`0x200060` stays in the list: afterwards the list links the block of 5 units
at `0x200040` and the block of 3 units at `0x200060`, which lies inside the
first, so the blocks of the list are not apart and not even disjoint. -/
theorem free_lone_block_counterexample :
    loneBlockHeap.freep = 0x200060 ∧ hdr_ptr loneBlockHeap 0x200060 = 0x200060 ∧
    hdr_size loneBlockHeap 0x200060 = 3 ∧ hdr_size loneBlockHeap 0x200040 = 2 ∧
    0x200040 + 16 * 2 = 0x200060 ∧
    ∃ s', free 1 loneBlockHeap 0x200050 = some s' ∧ s'.freep = 0x200060 ∧
      hdr_ptr s' 0x200060 = 0x200040 ∧ hdr_ptr s' 0x200040 = 0x200060 ∧
      hdr_size s' 0x200040 = 5 ∧ hdr_size s' 0x200060 = 3 ∧
      0x200040 < 0x200060 ∧ 0x200060 < 0x200040 + 16 * 5 ∧
      ¬ gap (0x200040, 5) (0x200060, 3) :=
  ⟨by decide, by decide, by decide, by decide, by decide,
    _, rfl, by decide, by decide, by decide, by decide, by decide, by decide, by decide,
    by unfold gap; decide⟩

/-! ## The units of a block of `malloc` -/

/-- For a request of at most `2^36 - 32` bytes the units that `malloc` asks
for hold a header and the bytes requested. -/
theorem nunits_ok (nbytes : Nat) (h : nbytes ≤ 2 ^ 36 - 32) :
    nbytes + 16 ≤ 16 * nunits nbytes := by
  unfold nunits
  have e1 : (nbytes + 16 - 1) % 2 ^ 64 = nbytes + 15 := by omega
  have e2 : ((nbytes + 15) / 16 + 1) % 2 ^ 32 = (nbytes + 15) / 16 + 1 :=
    Nat.mod_eq_of_lt (by omega)
  rw [e1, e2]
  omega

/-- For a request of more than `2^36 - 32` bytes the units that `malloc` asks
for do not hold a header and the bytes requested: the sum for the header
wraps in 64 bits, or the number of units is cut to 32 bits. -/
theorem nunits_short (nbytes : Nat) (h : 2 ^ 36 - 32 < nbytes) :
    16 * nunits nbytes < nbytes + 16 := by
  unfold nunits
  have := Nat.mod_lt ((nbytes + 16 - 1) % 2 ^ 64 / 16 + 1) (show 0 < 2 ^ 32 by norm_num)
  by_cases c : nbytes < 2 ^ 36
  · have e1 : (nbytes + 16 - 1) % 2 ^ 64 = nbytes + 15 := by omega
    rw [e1]
    by_cases c2 : nbytes < 2 ^ 36 - 15
    · have e2 : (nbytes + 15) / 16 = 2 ^ 32 - 1 := by omega
      rw [e2]
      norm_num
    · have e2 : (nbytes + 15) / 16 = 2 ^ 32 := by omega
      rw [e2]
      norm_num
      omega
  · omega

/-- A turn of the loop of `malloc` at a free block with more units than asked
for: the block asked for is cut from the end of the free block, and its
header holds the number of units asked for. -/
theorem malloc_loop_carves (n fuel : Nat) (s : Heap) (prevp p : Nat) (hn : n < 2 ^ 32)
    (hsz : n < hdr_size s p) (hp : p + 16 * hdr_size s p + 16 < 2 ^ 64) :
    ∃ s', malloc_loop n (fuel + 1) s prevp p
        = some (p + 16 * (hdr_size s p - n) + 16, s') ∧
      hdr_size s' (p + 16 * (hdr_size s p - n)) = n := by
  have hz : hdr_size s p < 2 ^ 32 := Nat.mod_lt _ (by norm_num)
  have e0 : (hdr_size s p - n) % 2 ^ 32 = hdr_size s p - n := Nat.mod_eq_of_lt (by omega)
  have e1 : hdr_size (s.set_size p (hdr_size s p - n)) p = hdr_size s p - n := by
    rw [hdr_size_set_size, if_pos rfl, e0]
  have e2 : (p + 16 * (hdr_size s p - n)) % 2 ^ 64 = p + 16 * (hdr_size s p - n) :=
    Nat.mod_eq_of_lt (by omega)
  have e3 : (p + 16 * (hdr_size s p - n) + 16) % 2 ^ 64 = p + 16 * (hdr_size s p - n) + 16 :=
    Nat.mod_eq_of_lt (by omega)
  rw [malloc_loop, if_pos (by omega), if_neg (by omega)]
  simp only [e1, e2, e3]
  refine ⟨_, rfl, ?_⟩
  show hdr_size ((s.set_size p (hdr_size s p - n)).set_size (p + 16 * (hdr_size s p - n)) n)
    (p + 16 * (hdr_size s p - n)) = n
  rw [hdr_size_set_size, if_pos rfl, Nat.mod_eq_of_lt hn]

/-- The units asked for are a 32-bit value. -/
theorem nunits_lt (nbytes : Nat) : nunits nbytes < 2 ^ 32 :=
  Nat.mod_lt _ (by norm_num)

/-- C31, what the code does: for a request of more than `2^36 - 32` bytes the
number of units wraps, and when the first free block that `malloc` looks at
has more units than that, `malloc` returns a pointer that is not null to a
block whose units, less the header, hold fewer than the `nbytes` bytes
requested. -/
theorem malloc_short_block (base fuel : Nat) (s : Heap) (nbytes : Nat)
    (hn : 2 ^ 36 - 32 < nbytes) (hf : s.freep ≠ 0)
    (hsz : nunits nbytes < hdr_size s (hdr_ptr s s.freep))
    (hp : hdr_ptr s s.freep + 16 * hdr_size s (hdr_ptr s s.freep) + 16 < 2 ^ 64) :
    ∃ p s', malloc base (fuel + 1) s nbytes = some (p, s') ∧ p ≠ 0 ∧
      16 * hdr_size s' (p - 16) - 16 < nbytes := by
  obtain ⟨s', h1, h2⟩ := malloc_loop_carves (nunits nbytes) fuel s s.freep (hdr_ptr s s.freep)
    (nunits_lt nbytes) hsz hp
  refine ⟨hdr_ptr s s.freep + 16 * (hdr_size s (hdr_ptr s s.freep) - nunits nbytes) + 16,
    s', ?_, ?_, ?_⟩
  · unfold malloc
    rw [if_neg hf]
    exact h1
  · omega
  · rw [Nat.add_sub_cancel, h2]
    have := nunits_short nbytes hn
    omega

/-- C31, witness and failing input: in `freeListHeap` the call
`malloc(2^64 - 1)` asks for 1 unit, cuts it from the end of the block of 4
units at `0x200000` and returns `0x200040`, the end of that block, where the
header of the allocated neighbour lies.  The same call as the first one after
`set_heap((void *)0x200000, 0x10000)` gets 1024 units from `morespace` and
returns `0x204000`, the end of these units. -/
theorem malloc_short_block_witness :
    nunits (2 ^ 64 - 1) = 1 ∧
    (malloc 0x1000 1 freeListHeap (2 ^ 64 - 1)).map (fun r => r.1) = some 0x200040 ∧
    (malloc 0x1000 2 wideBootHeap (2 ^ 64 - 1)).map (fun r => (r.1, hdr_size r.2 0x203FF0))
      = some (0x204000, 1) ∧
    ∃ p s', malloc 0x1000 1 freeListHeap (2 ^ 64 - 1) = some (p, s') ∧ p ≠ 0 ∧
      16 * hdr_size s' (p - 16) - 16 < 2 ^ 64 - 1 :=
  ⟨by decide, by decide, by decide,
    malloc_short_block 0x1000 0 freeListHeap (2 ^ 64 - 1) (by decide) (by decide) (by decide)
      (by decide)⟩

/-- A request whose number of units wraps to 0 is met by the static header
`base`: with `freep` at the last block of the list of `freeListHeap`, the call
`malloc(2^36 - 20)` returns the address behind `base` and takes `base` out of
the free list, which then links the blocks at `0x200060` and `0x200000` to
each other. -/
theorem malloc_zero_units_unlinks_base :
    nunits (2 ^ 36 - 20) = 0 ∧
    ∃ s', malloc 0x1000 1 { freeListHeap with freep := 0x200060 } (2 ^ 36 - 20)
        = some (0x1010, s') ∧
      s'.freep = 0x200060 ∧ hdr_ptr s' 0x200060 = 0x200000 ∧
      hdr_ptr s' 0x200000 = 0x200060 :=
  ⟨by decide, _, rfl, by decide, by decide, by decide⟩

/-! ## The comparison function of the measurement table -/

/-- The conversion to `int` of a value below `2^31` is the value. -/
theorem to_int_small (x : Nat) (h : x < 2 ^ 31) : to_int x = x := by
  unfold to_int
  have e : x % 2 ^ 32 = x := Nat.mod_eq_of_lt (by omega)
  rw [e, if_pos h]

/-- The function `compfunc` on records whose addresses are less than `2^31`
apart: the sign of the result is the order of the addresses. -/
theorem compfunc_near (a b : kvm_page_data) (ha : a.phys_addr < 2 ^ 64)
    (hb : b.phys_addr < 2 ^ 64)
    (hd : a.phys_addr < b.phys_addr + 2 ^ 31 ∧ b.phys_addr < a.phys_addr + 2 ^ 31) :
    (compfunc a b < 0 ↔ a.phys_addr < b.phys_addr) ∧
    (compfunc a b = 0 ↔ a.phys_addr = b.phys_addr) ∧
    (0 < compfunc a b ↔ b.phys_addr < a.phys_addr) := by
  unfold compfunc to_int
  rcases Nat.lt_or_ge a.phys_addr b.phys_addr with h | h
  · have e1 : (a.phys_addr + 2 ^ 64 - b.phys_addr) % 2 ^ 64
        = 2 ^ 64 - (b.phys_addr - a.phys_addr) := by
      rw [Nat.mod_eq_of_lt (by omega)]; omega
    have e2 : (2 ^ 64 - (b.phys_addr - a.phys_addr)) % 2 ^ 32
        = 2 ^ 32 - (b.phys_addr - a.phys_addr) := by omega
    rw [e1, e2, if_neg (by omega)]
    refine ⟨⟨fun _ => h, fun _ => by omega⟩, ⟨fun c => by omega, fun c => by omega⟩,
      ⟨fun c => by omega, fun c => by omega⟩⟩
  · have e1 : (a.phys_addr + 2 ^ 64 - b.phys_addr) % 2 ^ 64 = a.phys_addr - b.phys_addr := by
      omega
    have e2 : (a.phys_addr - b.phys_addr) % 2 ^ 32 = a.phys_addr - b.phys_addr :=
      Nat.mod_eq_of_lt (by omega)
    rw [e1, e2, if_pos (by omega)]
    refine ⟨⟨fun c => by omega, fun c => by omega⟩, ⟨fun c => by omega, fun c => by omega⟩,
      ⟨fun c => by omega, fun c => by omega⟩⟩

/-- C32, what the code does: `compfunc` returns the difference of the two
64-bit addresses as an `int`, which keeps the low 32 bits.  Two records whose
addresses are `2^32` apart compare equal, in both orders; and for two records
whose addresses are `2^31` apart the result is negative in both orders, so
each of the two comes before the other. -/
theorem compfunc_truncates (a b : kvm_page_data) (ha : a.phys_addr < 2 ^ 64) :
    (a.phys_addr = b.phys_addr + 2 ^ 32 → compfunc a b = 0 ∧ compfunc b a = 0) ∧
    (a.phys_addr = b.phys_addr + 2 ^ 31 → compfunc a b < 0 ∧ compfunc b a < 0) := by
  unfold compfunc to_int
  constructor
  · intro h
    have e1 : (a.phys_addr + 2 ^ 64 - b.phys_addr) % 2 ^ 64 % 2 ^ 32 = 0 := by omega
    have e2 : (b.phys_addr + 2 ^ 64 - a.phys_addr) % 2 ^ 64 % 2 ^ 32 = 0 := by omega
    rw [e1, e2]
    simp
  · intro h
    have e1 : (a.phys_addr + 2 ^ 64 - b.phys_addr) % 2 ^ 64 % 2 ^ 32 = 2 ^ 31 := by omega
    have e2 : (b.phys_addr + 2 ^ 64 - a.phys_addr) % 2 ^ 64 % 2 ^ 32 = 2 ^ 31 := by omega
    rw [e1, e2]
    simp

/-- C32, witness and failing input: the records for `0x140000000` and
`0x40000000` compare equal, so `get_range_info` finds the record of
`0x40000000` for the address `0x140000000`; the records for `0xC0000000` and
`0x40000000` compare negative in both orders. -/
theorem compfunc_truncates_witness :
    compfunc farRecord nearRecord = 0 ∧ compfunc nearRecord farRecord = 0 ∧
    get_range_info (some { sampleGuest with hyp_page_data := [nearRecord] }) 0x140000000
      = some 0 ∧
    compfunc halfRecord nearRecord < 0 ∧ compfunc nearRecord halfRecord < 0 :=
  ⟨((compfunc_truncates farRecord nearRecord (by decide)).1 (by decide)).1,
    ((compfunc_truncates farRecord nearRecord (by decide)).1 (by decide)).2,
    by decide,
    ((compfunc_truncates halfRecord nearRecord (by decide)).2 (by decide)).1,
    ((compfunc_truncates halfRecord nearRecord (by decide)).2 (by decide)).2⟩

/-! ## Mapping an address without output-address bits -/

/-- A physical address below the size that an entry of the target table
covers has no output-address bits for that table. -/
theorem leaf_mask_below (t pa : Nat) (ht : t ≤ 2) (hpa : pa < span t) :
    pa &&& leaf_mask t = 0 := by
  interval_cases t
  · have e : leaf_mask 0 = tdinfo.table_oa_mask := rfl
    rw [e, and_table_oa]
    simp only [span] at hpa
    norm_num at hpa
    omega
  · have e : leaf_mask 1 = tdinfo.l2_blk_oa_mask := rfl
    rw [e, and_l2_oa]
    simp only [span] at hpa
    norm_num at hpa ⊢
    omega
  · have e : leaf_mask 2 = tdinfo.l1_blk_oa_mask := rfl
    rw [e, and_l1_oa]
    simp only [span] at hpa
    norm_num at hpa ⊢
    omega

/-- The mapper from a table of height `h`, called with a physical address
without output-address bits for the target table, does what it does for the
physical address 0, whatever the protection bits and the memory type. -/
theorem map_h_zero_oa (P : Platform) (va pa size prot type prot' type' vmid : Nat) :
    ∀ h (s : Machine) (tp : Nat), pa &&& leaf_mask (target_h h size) = 0 →
      map_h P h s tp va pa size prot type vmid = map_h P h s tp va 0 size prot' type' vmid := by
  intro h
  induction h with
  | zero =>
    intro s tp h0
    have e : target_h 0 size = 0 := by simp [target_h]
    have e1 : leaf_mask 0 = tdinfo.table_oa_mask := rfl
    rw [e, e1] at h0
    rw [map_h_zero, map_h_zero, mmap_level3_eq, mmap_level3_eq, if_pos (Or.inl h0),
      if_pos (Or.inl (Nat.zero_and _))]
  | succ h ih =>
    intro s tp h0
    rw [map_h_succ, map_h_succ]
    by_cases c1 : h + 1 = 2 ∧ size = 1 <<< L1_SHIFT
    · rw [target_h_block h size (Or.inl c1), c1.1] at h0
      have e1 : leaf_mask 2 = tdinfo.l1_blk_oa_mask := rfl
      rw [e1] at h0
      rw [if_pos c1, if_pos c1, mmap_block_eq, mmap_block_eq, if_pos (Or.inl h0),
        if_pos (Or.inl (Nat.zero_and _))]
    · rw [if_neg c1, if_neg c1]
      by_cases c2 : h + 1 = 1 ∧ size = 1 <<< L2_SHIFT
      · rw [target_h_block h size (Or.inr c2), c2.1] at h0
        have e1 : leaf_mask 1 = tdinfo.l2_blk_oa_mask := rfl
        rw [e1] at h0
        rw [if_pos c2, if_pos c2, mmap_block_eq, mmap_block_eq, if_pos (Or.inl h0),
          if_pos (Or.inl (Nat.zero_and _))]
      · rw [if_neg c2, if_neg c2]
        rw [target_h_succ h size c1 c2] at h0
        rcases hn : mmap_next P s tp (tidx (h + 1) va)
            (table_oaddr (s.mem (entry_addr tp (tidx (h + 1) va)))) vmid
            (decide (h + 1 ≤ 2)) with ⟨_ | nl, s1⟩
        · rfl
        · exact ih s1 nl h0

/-- The function `mmap_addr`, called with a physical address without
output-address bits for the target level, does what it does for the physical
address 0, in every state and whatever the protection bits and the memory
type. -/
theorem mmap_addr_zero_oa (P : Platform) (s : Machine)
    (pgd vaddr paddr range_size prot type prot' type' levels vmid : Nat)
    (hpm : paddr ≤ MAX_PADDR)
    (h0 : paddr &&& leaf_mask (target_h (map_height levels) range_size) = 0) :
    mmap_addr P s pgd vaddr paddr range_size prot type levels vmid
      = mmap_addr P s pgd vaddr 0 range_size prot' type' levels vmid := by
  by_cases hc : pgd = 0 ∨ vaddr > MAX_VADDR
  · have c1 : pgd = 0 ∨ vaddr > MAX_VADDR ∨ paddr > MAX_PADDR := by tauto
    have c2 : pgd = 0 ∨ vaddr > MAX_VADDR ∨ 0 > MAX_PADDR := by tauto
    unfold mmap_addr
    rw [if_pos c1, if_pos c2]
  · have hp : pgd ≠ 0 := fun e => hc (Or.inl e)
    have hv : vaddr ≤ MAX_VADDR := by
      by_contra c
      exact hc (Or.inr (by omega))
    rw [mmap_addr_eq_map_h P s pgd vaddr paddr range_size prot type levels vmid hp hv hpm,
      mmap_addr_eq_map_h P s pgd vaddr 0 range_size prot' type' levels vmid hp hv
        (Nat.zero_le _)]
    exact map_h_zero_oa P vaddr paddr range_size prot type prot' type' vmid _ s pgd h0

/-- The entry that the mapper addresses: after a call from a table of height
`h` of a tree that returns 0, the tables on the way to the target table are
linked by valid table descriptors, and the entry of the target table for `va`
holds the leaf descriptor, or zero when the physical address has no
output-address bits there or the memory type is `INVALID_MEMORY`. -/
theorem map_h_leaf_entry {P : Platform} (hP : arena_ok P) (va pa size prot type vmid : Nat)
    (ha : attr_ok prot type) (root hr : Nat) :
    ∀ h, h ≤ 3 → ∀ (s : Machine) ht par tp, Tree P s ht par root hr → free_zero P s →
      ht tp = some h → (map_h P h s tp va pa size prot type vmid).1 = 0 →
      ∃ tp', descend h (target_h h size) (map_h P h s tp va pa size prot type vmid).2 tp va
          = some tp' ∧
        (map_h P h s tp va pa size prot type vmid).2.mem
            (entry_addr tp' (tidx (target_h h size) va))
          = if pa &&& leaf_mask (target_h h size) = 0 ∨ type = P.INVALID_MEMORY then 0
            else leaf_desc (target_h h size) pa prot type := by
  intro h
  induction h with
  | zero =>
    intro _ s ht par tp T hz hk _
    have e : target_h 0 size = 0 := by simp [target_h]
    rw [e, map_h_zero, mmap_level3_eq]
    refine ⟨tp, rfl, ?_⟩
    rw [write_mem, if_pos rfl]
    rfl
  | succ h ih =>
    intro hle s ht par tp T hz hk hres
    have hj := tidx_lt (h + 1) va hle
    have hta := T.aligned tp _ hk
    by_cases c1 : h + 1 = 2 ∧ size = 1 <<< L1_SHIFT
    · have htg := target_h_block h size (Or.inl c1)
      rw [htg, map_h_succ, if_pos c1, descend_le _ _ _ _ _ (le_refl _)]
      refine ⟨tp, rfl, ?_⟩
      have e1 : h + 1 = 2 := c1.1
      have e2 : leaf_mask (h + 1) = tdinfo.l1_blk_oa_mask := by rw [e1]; rfl
      have e3 : leaf_desc (h + 1) pa prot type
          = block_desc pa tdinfo.l1_blk_oa_mask prot type := by
        rw [e1]; rfl
      rw [mmap_block_eq, write_mem, e1, if_pos rfl]
      rw [e1] at e2 e3
      rw [e2, e3]
    · by_cases c2 : h + 1 = 1 ∧ size = 1 <<< L2_SHIFT
      · have htg := target_h_block h size (Or.inr c2)
        rw [htg, map_h_succ, if_neg c1, if_pos c2, descend_le _ _ _ _ _ (le_refl _)]
        refine ⟨tp, rfl, ?_⟩
        have e1 : h + 1 = 1 := c2.1
        have e2 : leaf_mask (h + 1) = tdinfo.l2_blk_oa_mask := by rw [e1]; rfl
        have e3 : leaf_desc (h + 1) pa prot type
            = block_desc pa tdinfo.l2_blk_oa_mask prot type := by
          rw [e1]; rfl
        rw [mmap_block_eq, write_mem, e1, if_pos rfl]
        rw [e1] at e2 e3
        rw [e2, e3]
      · have htg := target_h_succ h size c1 c2
        rw [map_h_succ, if_neg c1, if_neg c2] at hres ⊢
        rcases mmap_next_spec T hP hz tp h (tidx (h + 1) va) vmid (decide (h + 1 ≤ 2)) hk hj
          with hfail | ⟨nl, d, s1, ht1, par1, hnext, T1, hz1, htp1, hnl1, hmem1, hdo, hnl0, hdv,
            _, _, _, _, _, _, _, _⟩
        · rw [hfail] at hres
          simp [ENOSPC] at hres
        · rw [hnext] at hres ⊢
          simp only at hres ⊢
          have M := map_h_ok hP va pa size prot type vmid ha root hr h (by omega) s1 ht1 par1 nl
            T1 hz1 hnl1
          obtain ⟨tp', hd1, hd2⟩ := ih (by omega) s1 ht1 par1 nl T1 hz1 hnl1 hres
          generalize map_h P h s1 nl va pa size prot type vmid = r at M hd1 hd2 hres ⊢
          have hnl_tp : nl ≠ tp := T1.ne_of_height nl tp h (h + 1) hnl1 htp1 (by omega)
          have hentry_r : r.2.mem (entry_addr tp (tidx (h + 1) va)) = d := by
            have h1 : s1.mem (entry_addr tp (tidx (h + 1) va)) = d := by rw [hmem1, if_pos rfl]
            rw [← h1]
            by_contra hc
            have hr := entry_addr_range tp (tidx (h + 1) va) hj
            rcases M.mem _ hc with e | ⟨t, r1, r2, hf | ⟨k, hlt, e⟩⟩
            · exact hnl_tp (entry_addr_inj tp nl _ _ hta.1 (T1.aligned nl _ hnl1).1 hj
                (tidx_lt h va (by omega)) e).1.symm
            · exact T1.not_in_free hP tp _ _ htp1 hr t hf ⟨r1, r2⟩
            · have := range_disjoint tp t _ hta.1 (T1.aligned t _ e).1 hr ⟨r1, r2⟩
              exact T1.ne_of_height tp t (h + 1) k htp1 e (by omega) this
          rw [htg]
          refine ⟨tp', ?_, hd2⟩
          have hlt : target_h h size < h + 1 := by
            have := target_h_le h size
            omega
          rw [descend_table_entry h _ r.2 tp va hlt (by rw [hentry_r]; exact hdv)
            (by rw [hentry_r, hdo]; exact hnl0), hentry_r, hdo]
          exact hd1

/-- C33 (amended): let `root` be the root of a tree of tables in use, with the
free slots of the arena zeroed, `levels` at least 2 and `vaddr` at most
`MAX_VADDR`.  A call of `mmap_addr` with a physical address below the size
that an entry of the target level covers (4 KiB, or the block size for a block
mapping), so without output-address bits there, does for every protection and
every memory type exactly what the call with the physical address 0 does.  It
returns 0 or `-ENOSPC`; when it returns 0, the tables on the way to the target
table are linked by valid table descriptors, the addressed descriptor is zero,
and the walk of every address that selects the same entries returns
nothing. -/
theorem mmap_addr_zero_oa_unmaps {P : Platform} (hP : arena_ok P) {s : Machine}
    {ht : Nat → Option Nat} {par : Nat → Nat × Nat} {root : Nat} (levels : Nat)
    (T : Tree P s ht par root (map_height levels)) (hz : free_zero P s)
    (vaddr paddr range_size prot type vmid : Nat) (hl : 2 ≤ levels) (hv : vaddr ≤ MAX_VADDR)
    (hpa : paddr < span (target_h (map_height levels) range_size)) :
    (∀ prot' type', mmap_addr P s root vaddr paddr range_size prot type levels vmid
      = mmap_addr P s root vaddr 0 range_size prot' type' levels vmid) ∧
    ((mmap_addr P s root vaddr paddr range_size prot type levels vmid).1 = 0 ∨
      (mmap_addr P s root vaddr paddr range_size prot type levels vmid).1 = -ENOSPC) ∧
    ((mmap_addr P s root vaddr paddr range_size prot type levels vmid).1 = 0 →
      (∃ tp, descend (map_height levels) (target_h (map_height levels) range_size)
            (mmap_addr P s root vaddr paddr range_size prot type levels vmid).2 root vaddr
          = some tp ∧
        (mmap_addr P s root vaddr paddr range_size prot type levels vmid).2.mem
          (entry_addr tp (tidx (target_h (map_height levels) range_size) vaddr)) = 0) ∧
      ∀ v, same_path (map_height levels) (target_h (map_height levels) range_size) v vaddr →
        __pt_walk (mmap_addr P s root vaddr paddr range_size prot type levels vmid).2 root v
          levels = none) := by
  have ht2 := target_h_le_two (map_height levels) range_size
  have h0 := leaf_mask_below _ paddr ht2 hpa
  have hpm : paddr ≤ MAX_PADDR := by
    have : span (target_h (map_height levels) range_size) ≤ 2 ^ 30 := by
      unfold span
      exact Nat.pow_le_pow_right (by norm_num) (by omega)
    have e : MAX_PADDR = 2 ^ 48 - 1 := by decide
    rw [e]
    omega
  have E := fun prot' type' => mmap_addr_zero_oa P s root vaddr paddr range_size prot type prot'
    type' levels vmid hpm h0
  refine ⟨E, ?_⟩
  have hroot := (T.aligned root _ T.root_ht).2
  have ha : attr_ok 0 0 := ⟨by norm_num, by simp, by norm_num⟩
  have h3 : map_height levels ≤ 3 := by unfold map_height; split_ifs <;> omega
  have hw : walk_height levels = map_height levels := by
    unfold walk_height map_height
    split_ifs <;> first | rfl | omega
  rw [E 0 0, mmap_addr_eq_map_h P s root vaddr 0 range_size 0 0 levels vmid hroot hv
    (Nat.zero_le _)]
  have M := map_h_ok hP vaddr 0 range_size 0 0 vmid ha root (map_height levels)
    (map_height levels) h3 s ht par root T hz T.root_ht
  refine ⟨M.res, fun hres => ⟨?_, ?_⟩⟩
  · obtain ⟨tp, h1, h2⟩ := map_h_leaf_entry hP vaddr 0 range_size 0 0 vmid ha root
      (map_height levels) (map_height levels) h3 s ht par root T hz T.root_ht hres
    rw [if_pos (Or.inl (Nat.zero_and _))] at h2
    exact ⟨tp, h1, h2⟩
  · obtain ⟨a, hm⟩ := M.mapped hres
    intro v hv
    have := hm v hv
    rw [if_pos (Or.inl (Nat.zero_and _))] at this
    rw [pt_walk_eq_walk_h, hw]
    exact walk_h_none_of_walk_d _ _ _ _ this

/-- C33 in `blockPageMachine`, where the page `0x40200000` is mapped to
`0x80200000`: the call of `mmap_addr` for that page with the physical address
`0x800` returns 0, and the walk of the page returns nothing afterwards. -/
theorem mmap_addr_zero_oa_unmaps_witness :
    pt_walk blockPageMachine 0x101000 0x40200000 4 = 0x80200000 ∧
    (mmap_addr virtPlatform blockPageMachine 0x101000 0x40200000 0x800 0x1000 0x40 4 4 0).1
      = 0 ∧
    __pt_walk (mmap_addr virtPlatform blockPageMachine 0x101000 0x40200000 0x800 0x1000 0x40 4
      4 0).2 0x101000 0x40200000 4 = none := by
  obtain ⟨ht, par, T, hz, _, _⟩ := blockPageMachine_tree
  have hr : (mmap_addr virtPlatform blockPageMachine 0x101000 0x40200000 0x800 0x1000 0x40 4
      4 0).1 = 0 := by decide
  exact ⟨by decide, hr,
    ((mmap_addr_zero_oa_unmaps virtPlatform_arena_ok 4 T hz 0x40200000 0x800 0x1000 0x40 4 0
      (by decide) (by decide) (by decide)).2.2 hr).2 0x40200000 (same_path_refl _ _ _)⟩

/-- C33, counterexample: in `fullArenaMachine` every slot of the arena is in
use and no level-3 table exists for the page `0x40200000`.  The call of
`mmap_addr` for that page with the physical address 0 needs a table, finds
none and returns `-ENOSPC`, not 0. -/
theorem mmap_addr_zero_oa_enospc_counterexample :
    __pt_walk fullArenaMachine 0x101000 0x40200000 4 = none ∧
    (mmap_addr virtPlatform fullArenaMachine 0x101000 0x40200000 0 0x1000 0x40 4 4 0).1
      = -ENOSPC := by
  decide!

end Kvms
